import Mathlib

/-!
# Verification of the engramma design-token core

This file gives a shallow embedding of the engramma design-token pipeline:
the DTCG document parser (`parseDesignTokens`), the DTCG serializer
(`serializeDesignTokens`), the resolver-document parser
(`parseTokenResolver`, `mergeSources`, `isResolverFormat`), the alias
resolution of the tree state (`resolveTokenValue`, `findTokenType`), and
the CSS custom-property serializer (`generateCssVariables`).

JSON values are modelled by the inductive type `Json` (numbers as `Rat`).
The zod schemas of `dtcg.schema.ts` and `schema.ts` are embedded as
validation functions `Json → Option Json` returning the parsed (stripped)
value, mirroring zod's strip-unknown-keys semantics; unions try their
members in declaration order.  External library functions
(`generateKeyBetween` of fractional-indexing, `crypto.randomUUID`,
zod's `prettifyError`, change-case's `kebabCase`) are modelled by
deterministic functions preserving the semantics the code relies on:
`generateKeyBetween` is deterministic and strictly increasing in its left
argument, UUIDs are modelled by a threaded counter producing globally
fresh identifiers, and `prettifyError` output is collapsed to a fixed
message text (no theorem below depends on zod's message wording).
-/

set_option maxHeartbeats 1000000

namespace Engramma

/-- JSON values; numbers are modelled as rationals, objects as ordered
key/value lists (JavaScript objects preserve insertion order). -/
inductive Json where
  | null
  | bool (b : Bool)
  | num (n : Rat)
  | str (s : String)
  | arr (items : List Json)
  | obj (fields : List (String × Json))
  deriving Repr

mutual

/-- Boolean equality on `Json`. -/
def Json.beq : Json → Json → Bool
  | .null, .null => true
  | .bool a, .bool b => a == b
  | .num a, .num b => a == b
  | .str a, .str b => a == b
  | .arr a, .arr b => Json.beqList a b
  | .obj a, .obj b => Json.beqFields a b
  | _, _ => false

/-- Boolean equality on lists of `Json`. -/
def Json.beqList : List Json → List Json → Bool
  | [], [] => true
  | x :: xs, y :: ys => Json.beq x y && Json.beqList xs ys
  | _, _ => false

/-- Boolean equality on object field lists. -/
def Json.beqFields : List (String × Json) → List (String × Json) → Bool
  | [], [] => true
  | (k, x) :: xs, (l, y) :: ys => k == l && Json.beq x y && Json.beqFields xs ys
  | _, _ => false

end

theorem Json.beq_correct : ∀ (a b : Json), (Json.beq a b = true) ↔ a = b := by
  have H : ∀ (n : Nat), ∀ (a b : Json), sizeOf a ≤ n →
      ((Json.beq a b = true) ↔ a = b) := by
    intro n
    induction n with
    | zero =>
        intro a b h
        cases a <;> simp at h
    | succ n ih =>
        have hlist : ∀ (xs ys : List Json), sizeOf xs ≤ n + 1 →
            ((Json.beqList xs ys = true) ↔ xs = ys) := by
          intro xs
          induction xs with
          | nil =>
              intro ys _; cases ys <;> simp [Json.beqList]
          | cons x xs ihx =>
              intro ys hs
              cases ys with
              | nil => simp [Json.beqList]
              | cons y ys =>
                  have hx : sizeOf x ≤ n := by
                    have := hs; simp at this; omega
                  have hxs : sizeOf xs ≤ n + 1 := by
                    have := hs; simp at this; omega
                  simp [Json.beqList, Bool.and_eq_true, ih x y hx, ihx ys hxs]
        have hfields : ∀ (xs ys : List (String × Json)), sizeOf xs ≤ n + 1 →
            ((Json.beqFields xs ys = true) ↔ xs = ys) := by
          intro xs
          induction xs with
          | nil =>
              intro ys _; cases ys with
              | nil => simp [Json.beqFields]
              | cons y ys => cases y; simp [Json.beqFields]
          | cons x xs ihx =>
              intro ys hs
              obtain ⟨k, v⟩ := x
              cases ys with
              | nil => simp [Json.beqFields]
              | cons y ys =>
                  obtain ⟨l, w⟩ := y
                  have hv : sizeOf v ≤ n := by
                    have := hs; simp at this; omega
                  have hxs : sizeOf xs ≤ n + 1 := by
                    have := hs; simp at this; omega
                  simp [Json.beqFields, Bool.and_eq_true, ih v w hv, ihx ys hxs,
                    and_assoc]
        intro a b hle
        cases a <;> cases b <;>
          simp_all [Json.beq] <;>
          first
          | exact hlist _ _ (by omega)
          | exact hfields _ _ (by omega)
  exact fun a b => H (sizeOf a) a b le_rfl

instance : BEq Json := ⟨Json.beq⟩

instance : DecidableEq Json := fun a b =>
  if h : Json.beq a b = true then .isTrue ((Json.beq_correct a b).mp h)
  else .isFalse (fun he => h ((Json.beq_correct a b).mpr he))

mutual

/-- Size of a JSON value, used as recursion fuel by the tree traversal. -/
def Json.jsize : Json → Nat
  | .null => 1
  | .bool _ => 1
  | .num _ => 1
  | .str _ => 1
  | .arr l => Json.jsizeList l + 1
  | .obj fs => Json.jsizeFields fs + 1

/-- Size of a JSON array body. -/
def Json.jsizeList : List Json → Nat
  | [] => 0
  | j :: rest => Json.jsize j + Json.jsizeList rest + 1

/-- Size of a JSON object body. -/
def Json.jsizeFields : List (String × Json) → Nat
  | [] => 0
  | (_, v) :: rest => Json.jsize v + Json.jsizeFields rest + 1

end

theorem Json.jsize_pos : ∀ (j : Json), 0 < Json.jsize j := by
  intro j
  cases j <;> simp [Json.jsize]

theorem Json.jsize_lt_of_mem_fields {fs : List (String × Json)}
    {p : String × Json} (h : p ∈ fs) :
    Json.jsize p.2 + 1 ≤ Json.jsize (.obj fs) := by
  have hb : Json.jsize p.2 ≤ Json.jsizeFields fs := by
    induction fs with
    | nil => cases h
    | cons q rest ih =>
        obtain ⟨k, v⟩ := q
        rcases List.mem_cons.mp h with h1 | h2
        · subst h1
          simp [Json.jsizeFields]
          omega
        · have := ih h2
          simp [Json.jsizeFields]
          omega
  simp [Json.jsize]
  omega

namespace Json

/-- Property lookup on an object (`o.key`); `none` both when the value is
not an object and when the key is absent (JavaScript `undefined`). -/
def lookup : Json → String → Option Json
  | .obj fields, k => fields.lookup k
  | _, _ => none

/-- `typeof v === "object" && v !== null && !Array.isArray(v)` — a plain
object. -/
def isObject : Json → Bool
  | .obj _ => true
  | _ => false

/-- `isObject v && "$value" in v`. -/
def isTokenObject (v : Json) : Bool :=
  v.isObject && (v.lookup "$value").isSome

end Json

/-- JavaScript object property assignment `o[k] = v`: replaces in place
when the key exists, else appends. -/
def jsAssign (fields : List (String × Json)) (k : String) (v : Json) :
    List (String × Json) :=
  if fields.any (fun p => p.1 = k) then
    fields.map (fun p => if p.1 = k then (k, v) else p)
  else
    fields ++ [(k, v)]

/-! ## Character-level string helpers

Lean's built-in `String.startsWith`, `splitOn`, `contains` and `toLower`
are position-based and do not reduce in the kernel; the embedding uses
these character-list equivalents (same JavaScript semantics) so that
concrete runs evaluate by `rfl`. -/

/-- `s.startsWith(pre)`. -/
def jsStartsWith (s pre : String) : Bool :=
  pre.toList.isPrefixOf s.toList

/-- `s.endsWith(suf)`. -/
def jsEndsWith (s suf : String) : Bool :=
  suf.toList.isSuffixOf s.toList

/-- `s.includes(c)` for a single character. -/
def jsContainsChar (s : String) (c : Char) : Bool :=
  s.toList.contains c

/-- One step of single-character `split`. -/
def splitOnCharGo (c : Char) : List Char → List Char → List String
  | [], acc => [String.mk acc.reverse]
  | x :: xs, acc =>
      if x = c then String.mk acc.reverse :: splitOnCharGo c xs []
      else splitOnCharGo c xs (x :: acc)

/-- `s.split(c)` for a single-character separator (the only separator the
embedded code splits on is `"."`). -/
def splitOnChar (c : Char) (s : String) : List String :=
  splitOnCharGo c s.toList []

/-- Character-wise `toLowerCase`. -/
def lowerStr (s : String) : String :=
  String.mk (s.toList.map Char.toLower)

/-- `j === "lit"` for a string literal (strict equality against a string). -/
def isStrLit (j : Json) (s : String) : Bool :=
  match j with
  | .str t => t = s
  | _ => false

/-! ## Zod combinators

Each zod schema is embedded as a function `Json → Option Json` returning
the parsed value: objects are rebuilt from the declared shape keys in
declaration order (zod strips unknown keys), unions try members in
declaration order, arrays/tuples validate elementwise. -/

/-- `z.string()`. -/
def vStr : Json → Option Json
  | .str s => some (.str s)
  | _ => none

/-- `z.number()`. -/
def vNum : Json → Option Json
  | .num n => some (.num n)
  | _ => none

/-- `z.boolean()`. -/
def vBool : Json → Option Json
  | .bool b => some (.bool b)
  | _ => none

/-- `z.literal(s)` for a string literal. -/
def vLit (s : String) : Json → Option Json
  | .str t => if t = s then some (.str t) else none
  | _ => none

/-- `z.enum([...])` over string options. -/
def vEnum (options : List String) : Json → Option Json
  | .str s => if options.contains s then some (.str s) else none
  | _ => none

/-- `z.union([f, g])`: first member that parses wins. -/
def vOr (f g : Json → Option Json) : Json → Option Json :=
  fun j => (f j).orElse (fun _ => g j)

/-- Elementwise validation of an array's items, in order. -/
def vArrGo (v : Json → Option Json) : List Json → Option (List Json)
  | [] => some []
  | x :: xs => do
      let x' ← v x
      let xs' ← vArrGo v xs
      pure (x' :: xs')

/-- `z.array(v)`. -/
def vArr (v : Json → Option Json) : Json → Option Json
  | .arr items => (vArrGo v items).map .arr
  | _ => none

/-- `z.array(v).min(n)` / `.check(z.minLength n)`. -/
def vArrMin (n : Nat) (v : Json → Option Json) : Json → Option Json
  | .arr items =>
      if n ≤ items.length then (vArrGo v items).map .arr else none
  | _ => none

/-- `z.record(z.string(), z.unknown())`: any plain object, values pass
through. -/
def vRecord : Json → Option Json
  | .obj fields => some (.obj fields)
  | _ => none

/-- A field of a `z.object` shape: required or `z.optional`. -/
inductive FieldSpec where
  | req (k : String) (v : Json → Option Json)
  | opt (k : String) (v : Json → Option Json)

/-- Validate the shape fields against an object's field list, producing
the stripped output fields in shape-declaration order. -/
def runFields (fields : List (String × Json)) :
    List FieldSpec → Option (List (String × Json))
  | [] => some []
  | .req k v :: rest => do
      let j ← fields.lookup k
      let j' ← v j
      let r ← runFields fields rest
      pure ((k, j') :: r)
  | .opt k v :: rest =>
      match fields.lookup k with
      | none => runFields fields rest
      | some j => do
          let j' ← v j
          let r ← runFields fields rest
          pure ((k, j') :: r)

/-- `z.object({...})`: requires a plain object, strips unknown keys. -/
def vObj (specs : List FieldSpec) : Json → Option Json
  | .obj fields => (runFields fields specs).map .obj
  | _ => none

/-- Parse an optional key of an object into a typed value: `some none`
when the key is absent, `none` when present but invalid. -/
def optField (fields : List (String × Json)) (k : String)
    (f : Json → Option α) : Option (Option α) :=
  match fields.lookup k with
  | none => some none
  | some j => (f j).map some

/-! ## `dtcg.schema.ts` — DTCG document schemas -/

namespace DtcgSchema

/-- `nameSchema`: token and group names must not start with `$` and must
not contain `{`, `}` or `.`. -/
def nameValid (s : String) : Bool :=
  !jsStartsWith s ("$") && !jsContainsChar s '{' && !jsContainsChar s '}' &&
    !jsContainsChar s '.'

/-- `referenceSchema`: `{dot.separated.path}` where every segment is a
valid name or the special `$root`. -/
def referenceValid (s : String) : Bool :=
  jsStartsWith s ("\x7b") && jsEndsWith s ("\x7d") &&
  (let content := (s.drop 1).dropRight 1
   let segments := splitOnChar '.' content
   decide (0 < segments.length) &&
     segments.all (fun seg => seg == "$root" || nameValid seg))

/-- The token-type enumeration. -/
inductive TokenType where
  | color | dimension | fontFamily | fontWeight | duration | cubicBezier
  | number | strokeStyle | border | transition | shadow | gradient
  | typography
  deriving DecidableEq, Repr

/-- String form of a token type (as it appears in `$type`). -/
def TokenType.toStr : TokenType → String
  | .color => "color"
  | .dimension => "dimension"
  | .fontFamily => "fontFamily"
  | .fontWeight => "fontWeight"
  | .duration => "duration"
  | .cubicBezier => "cubicBezier"
  | .number => "number"
  | .strokeStyle => "strokeStyle"
  | .border => "border"
  | .transition => "transition"
  | .shadow => "shadow"
  | .gradient => "gradient"
  | .typography => "typography"

/-- `tokenType` enum parser. -/
def TokenType.fromStr : String → Option TokenType
  | "color" => some .color
  | "dimension" => some .dimension
  | "fontFamily" => some .fontFamily
  | "fontWeight" => some .fontWeight
  | "duration" => some .duration
  | "cubicBezier" => some .cubicBezier
  | "number" => some .number
  | "strokeStyle" => some .strokeStyle
  | "border" => some .border
  | "transition" => some .transition
  | "shadow" => some .shadow
  | "gradient" => some .gradient
  | "typography" => some .typography
  | _ => none

/-- `$type` field parser. -/
def vTokenType : Json → Option TokenType
  | .str s => TokenType.fromStr s
  | _ => none

/-- `colorComponent = z.union([z.number(), z.literal("none")])`. -/
def colorComponent : Json → Option Json :=
  vOr vNum (vLit ("none"))

/-- `colorSpace` enum options. -/
def colorSpaces : List String :=
  ["srgb", "srgb-linear", "hsl", "hwb", "lab", "lch", "oklab", "oklch",
   "display-p3", "a98-rgb", "prophoto-rgb", "rec2020", "xyz-d65", "xyz-d50"]

/-- `colorValue`. -/
def colorValue : Json → Option Json :=
  vObj
    [.req ("colorSpace") (vEnum colorSpaces),
     .req ("components") (vArr colorComponent),
     .opt ("alpha") vNum,
     .opt ("hex") vStr]

/-- `dimensionValue`. -/
def dimensionValue : Json → Option Json :=
  vObj [.req ("value") vNum, .req ("unit") (vEnum ["px", "rem"])]

/-- `fontFamilyValue`. -/
def fontFamilyValue : Json → Option Json :=
  vOr vStr (vArrMin 1 vStr)

/-- Named font-weight options. -/
def fontWeightNames : List String :=
  ["thin", "hairline", "extra-light", "ultra-light", "light", "normal",
   "regular", "book", "medium", "semi-bold", "demi-bold", "bold",
   "extra-bold", "ultra-bold", "black", "heavy", "extra-black",
   "ultra-black"]

/-- `fontWeightValue`: a number in `[1, 1000]` or a named weight. -/
def fontWeightValue : Json → Option Json :=
  vOr
    (fun j => match j with
      | .num n => if 1 ≤ n ∧ n ≤ 1000 then some (.num n) else none
      | _ => none)
    (vEnum fontWeightNames)

/-- `durationValue`. -/
def durationValue : Json → Option Json :=
  vObj [.req ("value") vNum, .req ("unit") (vEnum ["ms", "s"])]

/-- `cubicBezierValue`: a 4-tuple of numbers. -/
def cubicBezierValue : Json → Option Json
  | .arr [a, b, c, d] => do
      let a' ← vNum a
      let b' ← vNum b
      let c' ← vNum c
      let d' ← vNum d
      pure (.arr [a', b', c', d'])
  | _ => none

/-- `numberValue`. -/
def numberValue : Json → Option Json := vNum

/-- `strokeStyleString` enum options. -/
def strokeStyleStrings : List String :=
  ["solid", "dashed", "dotted", "double", "groove", "ridge", "outset",
   "inset"]

/-- `strokeStyleString`. -/
def strokeStyleString : Json → Option Json := vEnum strokeStyleStrings

/-- `strokeStyleValue`. -/
def strokeStyleValue : Json → Option Json :=
  vOr strokeStyleString
    (vObj
      [.req ("dashArray") (vArrMin 1 dimensionValue),
       .req ("lineCap") (vEnum ["round", "butt", "square"])])

/-- `referenceSchema` as a value parser. -/
def vRef : Json → Option Json
  | .str s => if referenceValid s then some (.str s) else none
  | _ => none

/-- `borderValue`. -/
def borderValue : Json → Option Json :=
  vObj
    [.req ("color") (vOr colorValue vRef),
     .req ("width") (vOr dimensionValue vRef),
     .req ("style") (vOr strokeStyleValue vRef)]

/-- `transitionValue`. -/
def transitionValue : Json → Option Json :=
  vObj
    [.req ("duration") (vOr durationValue vRef),
     .req ("delay") (vOr durationValue vRef),
     .req ("timingFunction") (vOr cubicBezierValue vRef)]

/-- `shadowObject`. -/
def shadowObject : Json → Option Json :=
  vObj
    [.req ("color") (vOr colorValue vRef),
     .req ("offsetX") (vOr dimensionValue vRef),
     .req ("offsetY") (vOr dimensionValue vRef),
     .req ("blur") (vOr dimensionValue vRef),
     .req ("spread") (vOr dimensionValue vRef),
     .opt ("inset") vBool]

/-- `shadowValue`: a bare shadow object or a non-empty list of them. -/
def shadowValue : Json → Option Json :=
  vOr shadowObject (vArrMin 1 shadowObject)

/-- `gradientStop`. -/
def gradientStop : Json → Option Json :=
  vObj [.req ("color") (vOr colorValue vRef), .req ("position") vNum]

/-- `gradientValue`. -/
def gradientValue : Json → Option Json := vArrMin 1 gradientStop

/-- `typographyValue`. -/
def typographyValue : Json → Option Json :=
  vObj
    [.req ("fontFamily") (vOr fontFamilyValue vRef),
     .req ("fontSize") (vOr dimensionValue vRef),
     .req ("fontWeight") (vOr fontWeightValue vRef),
     .req ("letterSpacing") (vOr dimensionValue vRef),
     .req ("lineHeight") (vOr numberValue vRef)]

/-- The `$value` union of `tokenSchema`, in declaration order. -/
def tokenValueUnion : Json → Option Json :=
  vOr colorValue (vOr dimensionValue (vOr fontFamilyValue
    (vOr fontWeightValue (vOr durationValue (vOr cubicBezierValue
      (vOr numberValue (vOr strokeStyleValue (vOr borderValue
        (vOr transitionValue (vOr shadowValue (vOr gradientValue
          (vOr typographyValue vRef))))))))))))

/-- Parsed `tokenSchema` payload. -/
structure Token where
  value : Json
  type? : Option TokenType
  description : Option String
  extensions : Option Json
  deprecated : Option Json
  deriving DecidableEq, Repr

/-- `$description` parser. -/
def vDescription : Json → Option String
  | .str s => some s
  | _ => none

/-- `tokenSchema`. -/
def tokenSchema : Json → Option Token
  | .obj fields => do
      let rawValue ← fields.lookup ("$value")
      let value ← tokenValueUnion rawValue
      let type? ← optField fields ("$type") vTokenType
      let description ← optField fields ("$description") vDescription
      let extensions ← optField fields ("$extensions") vRecord
      let deprecated ← optField fields ("$deprecated") (vOr vBool vStr)
      pure ⟨value, type?, description, extensions, deprecated⟩
  | _ => none

/-- Parsed `groupSchema` payload. -/
structure Group where
  type? : Option TokenType
  description : Option String
  extensions : Option Json
  extendsRef : Option String
  deprecated : Option Json
  root? : Option Token
  deriving DecidableEq, Repr

/-- `$extends` parser. -/
def vExtends : Json → Option String
  | .str s => if referenceValid s then some s else none
  | _ => none

/-- `groupSchema`. -/
def groupSchema : Json → Option Group
  | .obj fields => do
      let type? ← optField fields ("$type") vTokenType
      let description ← optField fields ("$description") vDescription
      let extensions ← optField fields ("$extensions") vRecord
      let extendsRef ← optField fields ("$extends") vExtends
      let deprecated ← optField fields ("$deprecated") (vOr vBool vStr)
      let root? ← optField fields ("$root") tokenSchema
      pure ⟨type?, description, extensions, extendsRef, deprecated, root?⟩
  | _ => none

end DtcgSchema

/-! ## `schema.ts` — internal raw/strict token value schemas

`RawValueSchema` and `ValueSchema` are unions of per-type
`{type: literal, value: ...}` objects; since the `type` literals are
pairwise distinct the union is equivalent to a dispatch on the token
type, embedded here as functions from the token type to a validator of
the `value` field. -/

namespace Schema

open DtcgSchema

/-- `FontWeightValueSchema = z.union([z.number(), z.string()])`. -/
def fontWeightValueSchema : Json → Option Json := vOr vNum vStr

/-- `GradientPosition = z.number().min(0).max(1)`. -/
def gradientPosition : Json → Option Json
  | .num n => if 0 ≤ n ∧ n ≤ 1 then some (.num n) else none
  | _ => none

/-- `RawShadowItemSchema`: shadow fields each a structured value or any
string. -/
def rawShadowItemSchema : Json → Option Json :=
  vObj
    [.req ("color") (vOr colorValue vStr),
     .req ("offsetX") (vOr dimensionValue vStr),
     .req ("offsetY") (vOr dimensionValue vStr),
     .req ("blur") (vOr dimensionValue vStr),
     .req ("spread") (vOr dimensionValue vStr),
     .opt ("inset") vBool]

/-- `RawValueSchema`, dispatched on the `type` literal: validator of the
`value` field of the matching union member. -/
def rawValueValidate : TokenType → Json → Option Json
  | .color => vOr colorValue vStr
  | .dimension => vOr dimensionValue vStr
  | .duration => vOr durationValue vStr
  | .cubicBezier => vOr cubicBezierValue vStr
  | .number => vOr vNum vStr
  | .fontFamily => vOr fontFamilyValue vStr
  | .fontWeight => vOr fontWeightValueSchema vStr
  | .strokeStyle => vOr strokeStyleValue vStr
  | .transition =>
      vOr
        (vObj
          [.req ("duration") (vOr durationValue vStr),
           .req ("delay") (vOr durationValue vStr),
           .req ("timingFunction") (vOr cubicBezierValue vStr)])
        vStr
  | .shadow => vOr (vArr rawShadowItemSchema) vStr
  | .border =>
      vOr
        (vObj
          [.req ("color") (vOr colorValue vStr),
           .req ("width") (vOr dimensionValue vStr),
           .req ("style") (vOr strokeStyleValue vStr)])
        vStr
  | .typography =>
      vOr
        (vObj
          [.req ("fontFamily") (vOr fontFamilyValue vStr),
           .req ("fontSize") (vOr dimensionValue vStr),
           .req ("fontWeight") (vOr fontWeightValueSchema vStr),
           .req ("letterSpacing") (vOr dimensionValue vStr),
           .req ("lineHeight") (vOr vNum vStr)])
        vStr
  | .gradient =>
      vOr
        (vArr (vObj
          [.req ("color") (vOr colorValue vStr),
           .req ("position") gradientPosition]))
        vStr

/-- `ShadowItemSchema` (strict). -/
def shadowItemSchema : Json → Option Json :=
  vObj
    [.req ("color") colorValue,
     .req ("offsetX") dimensionValue,
     .req ("offsetY") dimensionValue,
     .req ("blur") dimensionValue,
     .req ("spread") dimensionValue,
     .opt ("inset") vBool]

/-- `ValueSchema` (strict, no string fallbacks), dispatched on the `type`
literal: validator of the `value` field of the matching union member. -/
def valueValidate : TokenType → Json → Option Json
  | .color => colorValue
  | .dimension => dimensionValue
  | .duration => durationValue
  | .cubicBezier => cubicBezierValue
  | .number => vNum
  | .fontFamily => fontFamilyValue
  | .fontWeight => fontWeightValueSchema
  | .strokeStyle => strokeStyleValue
  | .transition =>
      vObj
        [.req ("duration") durationValue,
         .req ("delay") durationValue,
         .req ("timingFunction") cubicBezierValue]
  | .shadow => vArr shadowItemSchema
  | .border =>
      vObj
        [.req ("color") colorValue,
         .req ("width") dimensionValue,
         .req ("style") strokeStyleValue]
  | .typography =>
      vObj
        [.req ("fontFamily") fontFamilyValue,
         .req ("fontSize") dimensionValue,
         .req ("fontWeight") fontWeightValueSchema,
         .req ("letterSpacing") dimensionValue,
         .req ("lineHeight") vNum]
  | .gradient =>
      vArr (vObj
        [.req ("color") colorValue,
         .req ("position") gradientPosition])

end Schema

/-! ## Shared tree-node data model (`store.ts` / `state.svelte.ts`) -/

/-- A parse/validation error entry. -/
structure ParseError where
  path : String
  message : String
  deriving DecidableEq, Repr

/-- `TreeNode` of the tree store. -/
structure TreeNode (Meta : Type) where
  nodeId : String
  parentId : Option String
  index : String
  meta : Meta
  deriving DecidableEq, Repr

/-- JavaScript `Map.set` semantics on an ordered association list:
update in place when the key exists, else append. -/
def mapSet [DecidableEq κ] (m : List (κ × α)) (k : κ) (v : α) :
    List (κ × α) :=
  if m.any (fun p => p.1 = k) then
    m.map (fun p => if p.1 = k then (k, v) else p)
  else m ++ [(k, v)]

/-- JavaScript `Map.get` semantics on an ordered association list. -/
def mapGet [DecidableEq κ] (m : List (κ × α)) (k : κ) : Option α :=
  (m.find? (fun p => decide (p.1 = k))).map (fun p => p.2)

theorem mapGet_mapSet_self [DecidableEq κ] (m : List (κ × α)) (k : κ)
    (v : α) : mapGet (mapSet m k v) k = some v := by
  induction m with
  | nil => simp [mapSet, mapGet]
  | cons p rest ih =>
      obtain ⟨pk, pv⟩ := p
      by_cases hk : pk = k
      · subst hk
        simp [mapSet, mapGet]
      · by_cases hr : rest.any (fun p => decide (p.1 = k)) = true
        · simp [mapSet, mapGet, hk, hr] at ih ⊢
          exact ih
        · simp [mapSet, mapGet, hk, hr] at ih ⊢
          exact ih

/-- Modelled from the fractional-indexing library's `generateKeyBetween`:
the embedded code only calls it as `generateKeyBetween(a ?? zeroKey, null)`
and `generateKeyBetween(null, null)`, relying only on the result being
deterministic and strictly greater than the left argument; the model
preserves exactly those properties. -/
def generateKeyBetween : Option String → Option String → String
  | none, none => "a0"
  | some s, none => s ++ "0"
  | none, some _ => "a0"
  | some s, some _ => s ++ "0"

/-- `compareTreeNodes` orders nodes by their `index` string. -/
def compareTreeNodesLe (a b : TreeNode Meta) : Bool :=
  a.index ≤ b.index

/-- Stable insertion of a node into an index-sorted list: the new
(later-iterated) node goes after nodes with an equal or smaller index,
matching JavaScript's stable `Array.prototype.sort`. -/
def insertByIndex (n : TreeNode Meta) : List (TreeNode Meta) → List (TreeNode Meta)
  | [] => [n]
  | m :: rest =>
      if m.index ≤ n.index then m :: insertByIndex n rest
      else n :: m :: rest

/-- Stable sort by `index` (models `children.sort(compareTreeNodes)`). -/
def sortByIndex (l : List (TreeNode Meta)) : List (TreeNode Meta) :=
  l.foldl (fun acc n => insertByIndex n acc) []

/-- Modelled placeholder for zod's `prettifyError` output; no theorem in
this file depends on zod's message wording. -/
def prettyErrorMsg : String := "Invalid input"

/-- Modelled from `crypto.randomUUID()`: the embedded code relies only on
the returned identifiers being pairwise distinct, modelled by a threaded
counter rendered in unary so that distinctness is a statement about list
lengths. -/
def uuid (n : Nat) : String := "uuid-" ++ String.mk (List.replicate n '0')

theorem uuid_injective : ∀ (m n : Nat), uuid m = uuid n → m = n := by
  intro m n h
  unfold uuid at h
  have hdata : ("uuid-".data ++ List.replicate m '0') =
      ("uuid-".data ++ List.replicate n '0') := by
    have := congrArg String.data h
    simpa [String.data] using this
  have hrep := List.append_cancel_left hdata
  have := congrArg List.length hrep
  simpa using this

/-! ## `tokens.ts` — `parseDesignTokens` and `serializeDesignTokens` -/

namespace Tokens

open DtcgSchema Schema

/-- The meta variants stored in tree nodes (`SetMeta`, `GroupMeta`,
`TokenMeta` with the resolved type and value that `parseDesignTokens`
always stores on included tokens). -/
inductive TreeNodeMeta where
  | tokenSet (name : String) (description : Option String)
      (extensions : Option Json)
  | group (name : String) (type : Option TokenType)
      (description : Option String) (deprecated : Option Json)
      (extensions : Option Json)
  | token (name : String) (type : TokenType) (value : Json)
      (description : Option String) (deprecated : Option Json)
      (extensions : Option Json)
  deriving DecidableEq, Repr

/-- The node's display name. -/
def TreeNodeMeta.name : TreeNodeMeta → String
  | .tokenSet n _ _ => n
  | .group n _ _ _ _ => n
  | .token n _ _ _ _ _ => n

/-- A validated token or group payload. -/
inductive Payload where
  | token (t : Token)
  | group (g : Group)
  deriving DecidableEq, Repr

/-- `$type` of a payload. -/
def Payload.declaredType : Payload → Option TokenType
  | .token t => t.type?
  | .group g => g.type?

/-- `IntermediaryNode` collected during tree traversal. -/
structure IntermediaryNode where
  parentPath : Option String
  name : String
  nodeId : String
  type : Option TokenType
  payload : Payload
  deriving DecidableEq, Repr

/-- `ParseResult`. -/
structure ParseResult where
  nodes : List (TreeNode TreeNodeMeta)
  errors : List ParseError
  deriving DecidableEq, Repr

/-- `zeroIndex = generateKeyBetween(null, null)`. -/
def zeroIndex : String := generateKeyBetween none none

/-- `isTokenReference`: the value is a string matching `referenceSchema`. -/
def isTokenReference (v : Json) : Bool :=
  match v with
  | .str s => referenceValid s
  | _ => false

/-- `value.replace(/[{}]/g, "")`. -/
def stripBraces (s : String) : String :=
  String.mk (s.toList.filter (fun c => c ≠ '{' ∧ c ≠ '}'))

/-- State threaded through the traversal phase: the intermediary-node
map in insertion order, collected errors, and the UUID counter. -/
structure P1State where
  inters : List (String × IntermediaryNode)
  errors : List ParseError
  counter : Nat
  deriving Repr

/-- `parseNode`: validate one node, record it in the intermediary map,
and recurse into a group's children (the source's `for` loop over
`Object.entries(data)`, skipping reserved `$`-prefixed names except the
special `$root` token name, modelled as a fold).  The source's recursion
is structural on the JSON value; here a fuel argument drives it, set by
the caller above the size of the value and irrelevant past the value's
depth (`parseNode_fuel_irrelevant` below). -/
def parseNode : Nat → Option (List String) → String → Json →
    Option TokenType → P1State → P1State
  | 0, _, _, _, _, st => st
  | fuel + 1, parentPath, name, data, inheritedType, st =>
    let path := match parentPath with
      | some pp => pp ++ [name]
      | none => [name]
    let pathStr := String.intercalate "." path
    if ¬nameValid name ∧ name ≠ "$root" then
      { st with errors :=
          st.errors ++ [⟨pathStr, "Invalid name \"" ++ name ++ "\""⟩] }
    else
      let payload? : Option Payload :=
        if data.isTokenObject then (tokenSchema data).map Payload.token
        else (groupSchema data).map Payload.group
      match payload? with
      | none =>
          { st with errors := st.errors ++ [⟨pathStr, prettyErrorMsg⟩] }
      | some payload =>
          let inheritedType' := payload.declaredType.orElse (fun _ => inheritedType)
          let inter : IntermediaryNode :=
            ⟨parentPath.map (String.intercalate "."), name, uuid st.counter,
              inheritedType', payload⟩
          let st' : P1State :=
            { st with inters := mapSet st.inters pathStr inter,
                      counter := st.counter + 1 }
          match payload, data with
          | .group _, .obj fields =>
              fields.foldl (fun st p =>
                if jsStartsWith p.1 ("$") ∧ p.1 ≠ "$root" then st
                else parseNode fuel (some path) p.1 p.2 inheritedType' st) st'
          | _, _ => st'

/-- The traversal of `parseNode` is bounded by the structure of the JSON
value, never by the fuel: any fuel at least the size of the value gives
the same result, so `parseDesignTokens`, which passes exactly that size,
computes the source's structural recursion. -/
theorem parseNode_fuel_irrelevant :
    ∀ (n : Nat) (d : Json), Json.jsize d ≤ n →
    ∀ (f₁ f₂ : Nat), n ≤ f₁ → n ≤ f₂ →
    ∀ (pp : Option (List String)) (nm : String) (ty : Option TokenType)
      (st : P1State),
      parseNode f₁ pp nm d ty st = parseNode f₂ pp nm d ty st := by
  intro n
  induction n using Nat.strong_induction_on with
  | _ n ih =>
    intro d hd f₁ f₂ h1 h2 pp nm ty st
    have hdpos := Json.jsize_pos d
    obtain ⟨g₁, rfl⟩ := Nat.exists_eq_succ_of_ne_zero
      (show f₁ ≠ 0 by omega)
    obtain ⟨g₂, rfl⟩ := Nat.exists_eq_succ_of_ne_zero
      (show f₂ ≠ 0 by omega)
    simp only [parseNode]
    by_cases hname : ¬(nameValid nm = true) ∧ ¬(nm = "$root")
    · simp only [if_pos hname]
    · simp only [if_neg hname]
      split
      · rfl
      · rename_i payload hpay
        cases payload with
        | token t => rfl
        | group g =>
            cases d with
            | null => rfl
            | bool b => rfl
            | num q => rfl
            | str s => rfl
            | arr l => rfl
            | obj fs =>
                apply List.foldl_ext
                intro a p hp
                by_cases hskip : jsStartsWith p.1 ("$") = true ∧ ¬(p.1 = "$root")
                · simp only [if_pos hskip]
                · simp only [if_neg hskip]
                  have hlt := Json.jsize_lt_of_mem_fields hp
                  exact ih (Json.jsize p.2) (by omega)
                    p.2 le_rfl g₁ g₂ (by omega) (by omega) _ _ _ _

/-- A traversal fold whose step only appends to the error list and never
reads it decomposes over the accumulated errors. -/
theorem foldl_errors_acc
    (F : P1State → (String × Json) → P1State)
    (hF : ∀ (st : P1State) (p : String × Json),
      F st p = ⟨(F ⟨st.inters, [], st.counter⟩ p).inters,
        st.errors ++ (F ⟨st.inters, [], st.counter⟩ p).errors,
        (F ⟨st.inters, [], st.counter⟩ p).counter⟩) :
    ∀ (l : List (String × Json)) (st : P1State),
      l.foldl F st = ⟨(l.foldl F ⟨st.inters, [], st.counter⟩).inters,
        st.errors ++ (l.foldl F ⟨st.inters, [], st.counter⟩).errors,
        (l.foldl F ⟨st.inters, [], st.counter⟩).counter⟩ := by
  intro l
  induction l with
  | nil => intro st; simp
  | cons p rest ihl =>
      intro st
      simp only [List.foldl_cons]
      rw [hF st p]
      rw [ihl]
      conv_rhs => rw [ihl]
      simp

/-- `parseNode` only appends to the error list and never reads it; the
intermediary map and the UUID counter it produces are independent of the
errors accumulated so far. -/
theorem parseNode_errors_acc :
    ∀ (fuel : Nat) (pp : Option (List String)) (nm : String) (d : Json)
      (ty : Option TokenType) (st : P1State),
      parseNode fuel pp nm d ty st =
        ⟨(parseNode fuel pp nm d ty ⟨st.inters, [], st.counter⟩).inters,
         st.errors ++
           (parseNode fuel pp nm d ty ⟨st.inters, [], st.counter⟩).errors,
         (parseNode fuel pp nm d ty ⟨st.inters, [], st.counter⟩).counter⟩ := by
  intro fuel
  induction fuel with
  | zero =>
      intro pp nm d ty st
      simp [parseNode]
  | succ g ihg =>
      intro pp nm d ty st
      simp only [parseNode]
      by_cases hname : ¬(nameValid nm = true) ∧ ¬(nm = "$root")
      · simp only [if_pos hname]
        simp
      · simp only [if_neg hname]
        split
        · simp
        · rename_i payload hpay
          cases payload with
          | token t => simp
          | group g' =>
              cases d with
              | null => simp
              | bool b => simp
              | num q => simp
              | str s => simp
              | arr l => simp
              | obj fs =>
                  exact foldl_errors_acc _
                    (fun s p => by
                      by_cases hskip :
                          jsStartsWith p.1 ("$") = true ∧ ¬(p.1 = "$root")
                      · simp only [if_pos hskip]
                        cases s
                        simp
                      · simp only [if_neg hskip]
                        exact ihg _ _ _ _ _) fs _

/-- The brace-stripped `$value` strings of token intermediaries: every
path followed by `resolveAliasType` after its first step lies in this
list, which bounds its recursion. -/
def aliasTargets (inters : List (String × IntermediaryNode)) : List String :=
  inters.filterMap (fun p =>
    match p.2.payload with
    | .token t =>
        match t.value with
        | .str s => some (stripBraces s)
        | _ => none
    | .group _ => none)

theorem mem_aliasTargets_of_lookup
    {inters : List (String × IntermediaryNode)} {cur : String}
    {node : IntermediaryNode} {t : Token} {s : String}
    (hget : mapGet inters cur = some node) (hp : node.payload = .token t)
    (hv : t.value = .str s) : stripBraces s ∈ aliasTargets inters := by
  unfold mapGet at hget
  obtain ⟨a, hfind, hfa⟩ := Option.map_eq_some'.mp hget
  have hmem := List.mem_of_find?_eq_some hfind
  obtain ⟨k, w⟩ := a
  simp only at hfa
  subst hfa
  exact List.mem_filterMap.mpr ⟨(k, w), hmem, by simp [hp, hv]⟩

/-- `resolveAliasType`'s while loop: follow the chain of references
until a token with a type is found; the visited set prevents infinite
loops on circular references.  Each iteration that continues adds one
previously-unvisited key of the intermediary map to the visited set, so
the loop runs at most `inters.length` full iterations; the fuel is set
above that bound by `resolveAliasType` and never runs out
(`resolveAliasTypeGo_fuel_irrelevant` below). -/
def resolveAliasTypeGo (inters : List (String × IntermediaryNode)) :
    Nat → List String → String → Option TokenType
  | 0, _, _ => none
  | fuel + 1, visited, currentPath =>
      if currentPath = "" then none
      else if currentPath ∈ visited then none
      else
        match mapGet inters currentPath with
        | none => none
        | some node =>
            match node.payload with
            | .group _ => none
            | .token t =>
                match node.type with
                | some ty => some ty
                | none =>
                    if isTokenReference t.value then
                      match t.value with
                      | .str s =>
                          resolveAliasTypeGo inters fuel
                            (currentPath :: visited) (stripBraces s)
                      | _ => none
                    else none

/-- `resolveAliasType`. -/
def resolveAliasType (inters : List (String × IntermediaryNode))
    (value : String) : Option TokenType :=
  resolveAliasTypeGo inters (inters.length + 1) [] value

/-- The keys of the intermediary map. -/
def interKeys (inters : List (String × IntermediaryNode)) : List String :=
  inters.map (fun p => p.1)

theorem mem_interKeys_of_mapGet
    {inters : List (String × IntermediaryNode)} {cur : String}
    {node : IntermediaryNode} (hget : mapGet inters cur = some node) :
    cur ∈ interKeys inters := by
  unfold mapGet at hget
  obtain ⟨a, hfind, hfa⟩ := Option.map_eq_some'.mp hget
  have hmem := List.mem_of_find?_eq_some hfind
  have hkey := List.find?_some hfind
  obtain ⟨k, w⟩ := a
  simp only [decide_eq_true_eq] at hkey
  subst hkey
  exact List.mem_map.mpr ⟨(k, w), hmem, rfl⟩

/-- The visited set bounds the loop of `resolveAliasType`: the result is
the same for every fuel above the number of unvisited map keys, so the
recursion is bounded by the visited set and the map, never by the fuel. -/
theorem resolveAliasTypeGo_fuel_irrelevant
    (inters : List (String × IntermediaryNode)) :
    ∀ (n : Nat) (visited : List String) (currentPath : String)
      (fuel₁ fuel₂ : Nat),
      ((interKeys inters).toFinset \ visited.toFinset).card = n →
      n < fuel₁ → n < fuel₂ →
      resolveAliasTypeGo inters fuel₁ visited currentPath =
        resolveAliasTypeGo inters fuel₂ visited currentPath := by
  intro n
  induction n using Nat.strong_induction_on with
  | _ n ih =>
      intro visited currentPath fuel₁ fuel₂ hn h1 h2
      obtain ⟨f1, rfl⟩ := Nat.exists_eq_succ_of_ne_zero (Nat.pos_iff_ne_zero.mp
        (Nat.lt_of_le_of_lt (Nat.zero_le n) h1))
      obtain ⟨f2, rfl⟩ := Nat.exists_eq_succ_of_ne_zero (Nat.pos_iff_ne_zero.mp
        (Nat.lt_of_le_of_lt (Nat.zero_le n) h2))
      show resolveAliasTypeGo inters (f1 + 1) visited currentPath =
        resolveAliasTypeGo inters (f2 + 1) visited currentPath
      unfold resolveAliasTypeGo
      by_cases hcur : currentPath = ""
      · simp [hcur]
      · simp only [if_neg hcur]
        by_cases hvis : currentPath ∈ visited
        · simp [hvis]
        · simp only [if_neg hvis]
          cases hget : mapGet inters currentPath with
          | none => rfl
          | some node =>
              cases hp : node.payload with
              | group g => simp [hp]
              | token t =>
                  cases hty : node.type with
                  | some ty => simp [hp, hty]
                  | none =>
                      cases href : isTokenReference t.value with
                      | false => simp [hp, hty, href]
                      | true =>
                          simp only [hp, hty, href, if_true]
                          cases hv : t.value with
                          | str s =>
                              simp only [hv]
                              have hkey := mem_interKeys_of_mapGet hget
                              have hdec :
                                  ((interKeys inters).toFinset \
                                    (currentPath :: visited).toFinset).card < n := by
                                subst hn
                                apply Finset.card_lt_card
                                rw [List.toFinset_cons]
                                constructor
                                · intro x hx
                                  rw [Finset.mem_sdiff] at hx ⊢
                                  exact ⟨hx.1, fun hc =>
                                    hx.2 (Finset.mem_insert_of_mem hc)⟩
                                · intro hsup
                                  have hin : currentPath ∈
                                      (interKeys inters).toFinset \
                                        visited.toFinset := by
                                    rw [Finset.mem_sdiff, List.mem_toFinset]
                                    exact ⟨by simpa using hkey,
                                      by simpa using hvis⟩
                                  have := hsup hin
                                  rw [Finset.mem_sdiff] at this
                                  exact this.2 (Finset.mem_insert_self _ _)
                              exact ih _ hdec _ _ _ _ rfl
                                (by omega) (by omega)
                          | null => simp [hv]
                          | bool b => simp [hv]
                          | num q => simp [hv]
                          | arr l => simp [hv]
                          | obj fs => simp [hv]

/-- `resolveTokenTypeAndValue`: returns the resolved `(type, value)` (or
`none`) together with the errors it records itself. -/
def resolveTokenTypeAndValue (inters : List (String × IntermediaryNode))
    (path : String) (inter : IntermediaryNode) (t : Token) :
    Option (TokenType × Json) × List ParseError :=
  if isTokenReference t.value then
    match (t.type?.orElse (fun _ => resolveAliasType inters path)).orElse
        (fun _ => inter.type) with
    | none => (none, [])
    | some ty => (some (ty, t.value), [])
  else
    match inter.type with
    | none => (none, [])
    | some ty =>
      let value :=
        if ty = .shadow then
          match shadowValue t.value with
          | some d =>
              match d with
              | .obj fields => .arr [.obj fields]
              | _ => t.value
          | none => t.value
        else t.value
      match rawValueValidate ty value with
      | none =>
          (none, [⟨path, "Invalid " ++ ty.toStr ++ ": " ++ prettyErrorMsg⟩])
      | some v => (some (ty, v), [])

/-- State of the node-construction phase. -/
structure P2State where
  nodes : List (TreeNode TreeNodeMeta)
  errors : List ParseError
  lastIdx : List (Option String × String)
  deriving Repr

/-- One step of the final loop of `parseDesignTokens`: build the tree
node for one intermediary node. -/
def p2Step (inters : List (String × IntermediaryNode)) (st : P2State)
    (entry : String × IntermediaryNode) : P2State :=
  let path := entry.1
  let inter := entry.2
  let parentNode : Option IntermediaryNode :=
    match inter.parentPath with
    | some pp => if pp = "" then none else mapGet inters pp
    | none => none
  let parentId : Option String := parentNode.map (fun p => p.nodeId)
  let push (meta : TreeNodeMeta) (errors : List ParseError) : P2State :=
    let prevIndex := mapGet st.lastIdx parentId
    let index := generateKeyBetween (some (prevIndex.getD zeroIndex)) none
    { nodes := st.nodes ++ [⟨inter.nodeId, parentId, index, meta⟩],
      errors := errors,
      lastIdx := mapSet st.lastIdx parentId index }
  match inter.payload with
  | .token t =>
      let (tv, errs) := resolveTokenTypeAndValue inters path inter t
      match tv with
      | none =>
          { st with errors := st.errors ++ errs ++
              [⟨path, "Token type cannot be determined"⟩] }
      | some (ty, v) =>
          push (.token inter.name ty v t.description t.deprecated
            t.extensions) (st.errors ++ errs)
  | .group g =>
      push (.group inter.name inter.type g.description g.deprecated
        g.extensions) st.errors

/-- `p2Step` only appends to the error list and never reads it; the
emitted nodes and the per-parent index map are independent of the errors
accumulated so far. -/
theorem p2Step_errors_acc (inters : List (String × IntermediaryNode))
    (st : P2State) (e : String × IntermediaryNode) :
    p2Step inters st e =
      ⟨(p2Step inters ⟨st.nodes, [], st.lastIdx⟩ e).nodes,
       st.errors ++ (p2Step inters ⟨st.nodes, [], st.lastIdx⟩ e).errors,
       (p2Step inters ⟨st.nodes, [], st.lastIdx⟩ e).lastIdx⟩ := by
  simp only [p2Step]
  cases hp : e.2.payload with
  | token t =>
      rcases hR : resolveTokenTypeAndValue inters e.1 e.2 t with ⟨tv, errs⟩
      simp only [hR]
      cases tv with
      | none => simp
      | some tyv => simp
  | group g => simp

/-- The node-construction fold of `parseDesignTokens` decomposes over
the accumulated error list. -/
theorem p2foldl_errors_acc (inters : List (String × IntermediaryNode)) :
    ∀ (l : List (String × IntermediaryNode)) (st : P2State),
      l.foldl (p2Step inters) st =
        ⟨(l.foldl (p2Step inters) ⟨st.nodes, [], st.lastIdx⟩).nodes,
         st.errors ++
           (l.foldl (p2Step inters) ⟨st.nodes, [], st.lastIdx⟩).errors,
         (l.foldl (p2Step inters) ⟨st.nodes, [], st.lastIdx⟩).lastIdx⟩ := by
  intro l
  induction l with
  | nil => intro st; simp
  | cons e rest ihl =>
      intro st
      simp only [List.foldl_cons]
      rw [p2Step_errors_acc inters st e]
      rw [ihl]
      conv_rhs => rw [ihl]
      simp

/-- `parseDesignTokens`, with the UUID counter threaded explicitly (the
source's `crypto.randomUUID()` freshness). -/
def parseDesignTokensFrom (start : Nat) (input : Json) : ParseResult × Nat :=
  match input with
  | .obj fields =>
      let st1 := fields.foldl
        (fun st p => parseNode (Json.jsize p.2) none p.1 p.2 none st)
        ⟨[], [], start⟩
      let st2 := st1.inters.foldl (p2Step st1.inters)
        ⟨[], st1.errors, []⟩
      (⟨st2.nodes, st2.errors⟩, st1.counter)
  | _ => (⟨[], []⟩, start)

/-- `parseDesignTokens`. -/
def parseDesignTokens (input : Json) : ParseResult :=
  (parseDesignTokensFrom 0 input).1

/-- Build the parent-id → ordered-children index shared by the
serializers. -/
def childrenMapOf (nodes : List (TreeNode TreeNodeMeta)) :
    List (Option String × List (TreeNode TreeNodeMeta)) :=
  (nodes.foldl
    (fun cm node =>
      let children := (mapGet cm node.parentId).getD []
      mapSet cm node.parentId (children ++ [node]))
    ([] : List (Option String × List (TreeNode TreeNodeMeta)))).map
    (fun p => (p.1, sortByIndex p.2))

/-- An optional `$`-field of a serialized token/group object. -/
def optJsonField (k : String) : Option Json → List (String × Json)
  | none => []
  | some v => [(k, v)]

/-- `serializeNode`, with explicit recursion fuel (the source recurses
on the parent/child graph, which is a forest for every node list this
development serializes; the fuel is set to the node count, which bounds
the forest depth). -/
def serializeNode (cm : List (Option String × List (TreeNode TreeNodeMeta))) :
    Nat → TreeNode TreeNodeMeta → Option TokenType → Json
  | 0, _, _ => .null
  | _fuel + 1, node, inheritedType =>
      match node.meta with
      | .group name ty d dep ext =>
          let type :=
            match ty with
            | some ty' => if inheritedType = some ty' then none else some ty'
            | none => none
          let fields :=
            optJsonField ("$type") (type.map (fun ty' => .str ty'.toStr)) ++
            optJsonField ("$description") (d.map .str) ++
            optJsonField ("$deprecated") dep ++
            optJsonField ("$extensions") ext
          let children := (mapGet cm (some node.nodeId)).getD []
          let fields := children.foldl
            (fun fs child =>
              jsAssign fs child.meta.name
                (serializeNode cm _fuel child (ty.orElse (fun _ => inheritedType))))
            fields
          .obj fields
      | .token name ty v d dep ext =>
          let type := if inheritedType = some ty then none else some ty
          let fields :=
            optJsonField ("$type") (type.map (fun ty' => .str ty'.toStr)) ++
            optJsonField ("$description") (d.map .str) ++
            optJsonField ("$deprecated") dep ++
            optJsonField ("$extensions") ext ++
            [(("$value"), v)]
          let fields :=
            match ty, v with
            | .shadow, .arr [item] =>
                match shadowValue (.arr [item]) with
                | some (.arr [item']) => jsAssign fields ("$value") item'
                | _ => fields
            | _, _ => fields
          .obj fields
      | .tokenSet _ _ _ => .null

/-- `serializeDesignTokens`. -/
def serializeDesignTokens (nodes : List (TreeNode TreeNodeMeta)) : Json :=
  let cm := childrenMapOf nodes
  let rootChildren := (mapGet cm none).getD []
  .obj (rootChildren.foldl
    (fun fs node =>
      jsAssign fs node.meta.name (serializeNode cm (nodes.length + 1) node none))
    [])

end Tokens

/-! ## `resolver.ts` — resolver-document schemas and parser -/

namespace Resolver

open DtcgSchema Tokens

/-- `nameSchema` as a field parser. -/
def vName : Json → Option String
  | .str s => if nameValid s then some s else none
  | _ => none

/-- `resolverSourceSchema`: a plain object (values unchecked). -/
def vSource : Json → Option (List (String × Json))
  | .obj fields => some fields
  | _ => none

/-- Parsed `resolverSetSchema` payload. -/
structure ResolverSet where
  name : String
  sources : List (List (String × Json))
  description : Option String
  extensions : Option Json
  deriving DecidableEq, Repr

/-- `resolverSetSchema`. -/
def resolverSetSchema : Json → Option ResolverSet
  | .obj fields => do
      let tv ← fields.lookup ("type")
      if isStrLit tv ("set") then
        let nm ← fields.lookup ("name")
        let name ← vName nm
        let srcs ← fields.lookup ("sources")
        let sources ← match srcs with
          | .arr items => items.mapM vSource
          | _ => none
        let description ← optField fields ("description") vDescription
        let extensions ← optField fields ("$extensions") vRecord
        pure ⟨name, sources, description, extensions⟩
      else none
  | _ => none

/-- One context of `resolverModifierContextsSchema`: an array of plain
objects. -/
def vContext : Json → Option (List (List (String × Json)))
  | .arr items => items.mapM vSource
  | _ => none

/-- `resolverModifierSchema`: validated for shape, contents never
materialized by the parser. -/
def resolverModifierSchema : Json → Option Unit
  | .obj fields => do
      let tv ← fields.lookup ("type")
      if isStrLit tv ("modifier") then
        let nm ← fields.lookup ("name")
        let _ ← vName nm
        let ctx ← fields.lookup ("contexts")
        let _ ← match ctx with
          | .obj cfields => cfields.mapM (fun p => vContext p.2)
          | _ => none
        let _ ← optField fields ("description") vDescription
        let _ ← optField fields ("default") vDescription
        let _ ← optField fields ("$extensions") vRecord
        pure ()
      else none
  | _ => none

/-- An item of `resolutionOrder`. -/
inductive ResolutionOrderItem where
  | set (s : ResolverSet)
  | modifier
  deriving DecidableEq, Repr

/-- `resolutionOrderItemSchema`: union of set and modifier schemas. -/
def resolutionOrderItemSchema (j : Json) : Option ResolutionOrderItem :=
  ((resolverSetSchema j).map .set).orElse
    (fun _ => (resolverModifierSchema j).map (fun _ => .modifier))

/-- `z.optional(z.strictObject({}))`: absent handled by the caller;
present values must be an object with no properties at all. -/
def vEmptyStrict : Json → Option Json
  | .obj [] => some (.obj [])
  | _ => none

/-- Parsed `resolverDocumentSchema` payload (the parser only consumes
`resolutionOrder`). -/
structure ResolverDocument where
  resolutionOrder : List ResolutionOrderItem
  deriving DecidableEq, Repr

/-- `resolverDocumentSchema`. -/
def resolverDocumentSchema : Json → Option ResolverDocument
  | .obj fields => do
      let v ← fields.lookup ("version")
      if isStrLit v ("2025.10") then
        let _ ← optField fields ("name") vDescription
        let _ ← optField fields ("description") vDescription
        let _ ← optField fields ("sets") vEmptyStrict
        let _ ← optField fields ("modifiers") vEmptyStrict
        let ro ← fields.lookup ("resolutionOrder")
        let items ← match ro with
          | .arr l => l.mapM resolutionOrderItemSchema
          | _ => none
        pure ⟨items⟩
      else none
  | _ => none

mutual

/-- The inner `deepMerge` of `mergeSources` applied to one source entry:
recurse when both sides are plain objects and the incoming value carries
no `$value`; otherwise the later source's value replaces. -/
def deepMergeEntry (target : List (String × Json)) (k : String) (v : Json) :
    List (String × Json) :=
  match v with
  | .obj vf =>
      if (vf.lookup ("$value")).isNone then
        match target.lookup k with
        | some (.obj tf) => jsAssign target k (.obj (deepMergeObj tf vf))
        | _ => jsAssign target k v
      else jsAssign target k v
  | _ => jsAssign target k v

/-- `deepMerge(target, source)`: fold the source's entries into the
target. -/
def deepMergeObj (target : List (String × Json)) :
    List (String × Json) → List (String × Json)
  | [] => target
  | (k, v) :: rest => deepMergeObj (deepMergeEntry target k v) rest

end

/-- `mergeSources`: ordered deep merge of a set's sources. -/
def mergeSources (sources : List (List (String × Json))) :
    List (String × Json) :=
  sources.foldl deepMergeObj []

/-- `isResolverFormat`: cheap format discriminator. -/
def isResolverFormat (j : Json) : Bool :=
  match j with
  | .obj _ =>
      (match j.lookup ("version") with
       | some v => isStrLit v ("2025.10")
       | none => false) &&
      (match j.lookup ("resolutionOrder") with
       | some (.arr _) => true
       | _ => false)
  | _ => false

/-- `zeroIndex` of `resolver.ts`. -/
def zeroIndex : String := generateKeyBetween none none

/-- Loop state of `parseTokenResolver`. -/
structure RState where
  nodes : List (TreeNode TreeNodeMeta)
  errors : List ParseError
  lastIdx : List (Option String × String)
  counter : Nat

/-- Process one `resolutionOrder` item. -/
def resolverStep (st : RState) : ResolutionOrderItem → RState
  | .modifier => st
  | .set set =>
      let mergedSetSources := mergeSources set.sources
      let (parseResult, counter') :=
        parseDesignTokensFrom st.counter (.obj mergedSetSources)
      let setNodeId := uuid counter'
      let prevSetIndex := mapGet st.lastIdx none
      let setIndex := generateKeyBetween (some (prevSetIndex.getD zeroIndex)) none
      let setNode : TreeNode TreeNodeMeta :=
        ⟨setNodeId, none, setIndex,
          .tokenSet set.name set.description set.extensions⟩
      let reparented := parseResult.nodes.map (fun node =>
        if node.parentId = none then { node with parentId := some setNodeId }
        else node)
      { nodes := st.nodes ++ [setNode] ++ reparented,
        errors := st.errors ++ parseResult.errors,
        lastIdx := mapSet st.lastIdx none setIndex,
        counter := counter' + 1 }

/-- `parseTokenResolver`. -/
def parseTokenResolver (input : Json) : ParseResult :=
  match resolverDocumentSchema input with
  | none => ⟨[], [⟨"resolver", prettyErrorMsg⟩]⟩
  | some resolverDoc =>
      let st := resolverDoc.resolutionOrder.foldl resolverStep ⟨[], [], [], 0⟩
      ⟨st.nodes, st.errors⟩

end Resolver

/-! ## `state.svelte.ts` — `findTokenType` and `resolveTokenValue`

In this revision of the state module a token's alias is stored in the
optional `extends` field of `TokenMeta`, and `type`/`value` are optional. -/

namespace StateSvelte

open DtcgSchema Schema Tokens

/-- `GroupMeta`. -/
structure SGroupMeta where
  name : String
  type : Option TokenType
  description : Option String
  deprecated : Option Json
  extensions : Option Json
  deriving DecidableEq, Repr

/-- `TokenMeta`. -/
structure STokenMeta where
  name : String
  type : Option TokenType
  value : Option Json
  extendsRef : Option String
  description : Option String
  deprecated : Option Json
  extensions : Option Json
  deriving DecidableEq, Repr

/-- `TreeNodeMeta` of the state module. -/
inductive SMeta where
  | group (g : SGroupMeta)
  | token (t : STokenMeta)
  deriving DecidableEq, Repr

/-- `Value = z.infer<typeof ValueSchema>`. -/
structure Value where
  type : TokenType
  value : Json
  deriving DecidableEq, Repr

/-- JavaScript truthiness of a value. -/
def jsTruthy : Json → Bool
  | .null => false
  | .bool b => b
  | .num n => n ≠ 0
  | .str s => s ≠ ""
  | .arr _ => true
  | .obj _ => true

/-- The name-at-each-level walk shared by `findTokenType` and
`resolveTokenValue`: follow reference segments from the root by
matching `parentId` and `meta.name`. -/
def walkSegments (nodes : List (String × TreeNode SMeta))
    (segments : List String) : Option String :=
  segments.foldl
    (fun currentNodeId segment =>
      ((nodes.map (fun p => p.2)).find? (fun n =>
          n.parentId = currentNodeId ∧
          (match n.meta with
           | .group g => g.name
           | .token t => t.name) = segment)).map (fun n => n.nodeId))
    none

/-- The ancestor-group while loop of `findTokenType`.  The source loop
walks raw `parentId` links and would not terminate on a cyclic parent
graph; the fuel models the traversal depth, which the callers bound by
the node count (every node map built by the parsers is a forest). -/
def parentWalk (nodes : List (String × TreeNode SMeta)) :
    Nat → Option String → Option TokenType
  | 0, _ => none
  | _, none => none
  | fuel + 1, some pid =>
      match mapGet nodes pid with
      | none => none
      | some parentNode =>
          match parentNode.meta with
          | .group g =>
              match g.type with
              | some ty => some ty
              | none => parentWalk nodes fuel parentNode.parentId
          | .token _ => parentWalk nodes fuel parentNode.parentId

/-- `findTokenType`: own declared type, else the extends chain, else the
ancestor-group chain.  The extends recursion of the source has no
visited-set guard and would not terminate on a cyclic extends chain; the
fuel models the recursion depth. -/
def findTokenType (nodes : List (String × TreeNode SMeta)) :
    Nat → STokenMeta → Option String → Option TokenType
  | 0, _, _ => none
  | fuel + 1, token, nodeId? =>
      match token.type with
      | some ty => some ty
      | none =>
          let afterExtends : Option (Option TokenType) :=
            match token.extendsRef with
            | none => none
            | some extendsRef =>
                let segments :=
                  (splitOnChar '.' (stripBraces extendsRef)).filter
                    (fun s => s ≠ "")
                if segments = [] then some none
                else
                  let currentNodeId := walkSegments nodes segments
                  match currentNodeId.bind (fun id => mapGet nodes id) with
                  | some extendedNode =>
                      match extendedNode.meta with
                      | .token tm =>
                          some (findTokenType nodes fuel tm currentNodeId)
                      | .group _ => none
                  | none => none
          match afterExtends with
          | some r => r
          | none =>
              match nodeId? with
              | some nodeId =>
                  parentWalk nodes (fuel + 1)
                    ((mapGet nodes nodeId).bind (fun n => n.parentId))
              | none => none

/-- The `extends` reference strings of all token nodes in the map:
every reference pushed on the resolving stack after the first call of
`resolveTokenValue` lies in this list, which bounds its recursion. -/
def sAliasRefs (nodes : List (String × TreeNode SMeta)) : List String :=
  nodes.filterMap (fun p =>
    match p.2.meta with
    | .token t => t.extendsRef
    | .group _ => none)

/-- The recursion measure support set for `resolveTokenValue`: the map's
extends references plus the current node's own. -/
def nodeRefSet (nodes : List (String × TreeNode SMeta))
    (node : TreeNode SMeta) : Finset String :=
  (sAliasRefs nodes).toFinset ∪
    (match node.meta with
     | .token t =>
         match t.extendsRef with
         | some r => {r}
         | none => ∅
     | .group _ => ∅)

theorem nodeRefSet_subset_of_mapGet
    {nodes : List (String × TreeNode SMeta)} {id : String}
    {tn : TreeNode SMeta} (hget : mapGet nodes id = some tn) :
    nodeRefSet nodes tn ⊆ (sAliasRefs nodes).toFinset := by
  unfold nodeRefSet
  intro x hx
  rw [Finset.mem_union] at hx
  rcases hx with hx | hx
  · exact hx
  · unfold mapGet at hget
    obtain ⟨a, hfind, hfa⟩ := Option.map_eq_some'.mp hget
    have hmem := List.mem_of_find?_eq_some hfind
    obtain ⟨k, w⟩ := a
    simp only at hfa
    have hmem' : (k, tn) ∈ nodes := by rw [← hfa]; exact hmem
    cases hmeta : tn.meta with
    | group g => rw [hmeta] at hx; simp at hx
    | token t =>
        rw [hmeta] at hx
        cases hr : t.extendsRef with
        | none => simp [hr] at hx
        | some r =>
            simp only [hr, Finset.mem_singleton] at hx
            subst hx
            rw [List.mem_toFinset]
            exact List.mem_filterMap.mpr ⟨(k, tn), hmem', by simp [hmeta, hr]⟩

/-- The recursion of `resolveTokenValue`: resolve a token's concrete
value through the extends chain, reporting each failure by throwing
(modelled as `Except.error`).  The currently-resolving stack is kept in
insertion order (a JavaScript `Set`); encountering a reference already
on it is a circular-reference failure.  Every recursive step pushes one
reference not yet on the stack, and after the first step only `extends`
references of map nodes occur, so the recursion depth is bounded by the
stack and the map; the fuel is set above that bound by
`resolveTokenValue` and never runs out
(`resolveTokenValueGo_fuel_irrelevant` below). -/
def resolveTokenValueGo (nodes : List (String × TreeNode SMeta)) :
    Nat → TreeNode SMeta → List String → Except String Value
  | 0, _, _ => .error "unreachable: fuel exhausted"
  | fuel + 1, node, resolvingStack =>
      match node.meta with
      | .group _ => .error ("resolveTokenValue requires a token node")
      | .token token =>
          match token.extendsRef with
          | none =>
              let resolvedType := token.type.orElse
                (fun _ => findTokenType nodes (nodes.length + 1) token
                  (some node.nodeId))
              match resolvedType with
              | none =>
                  .error ("Token \"" ++ token.name ++
                    "\" has no determinable type")
              | some ty =>
                  let truthyValue :=
                    match token.value with
                    | some v => if jsTruthy v then some v else none
                    | none => none
                  match truthyValue with
                  | some v =>
                      match valueValidate ty v with
                      | some v' => .ok ⟨ty, v'⟩
                      | none => .error prettyErrorMsg
                  | none =>
                      .error ("Token \"" ++ token.name ++
                        "\" has no value to resolve")
          | some extendsRef =>
              if extendsRef ∈ resolvingStack then
                .error ("Circular reference detected: " ++
                  String.intercalate " -> " resolvingStack ++ " -> " ++
                  extendsRef)
              else
                let segments :=
                  (splitOnChar '.' (stripBraces extendsRef)).filter
                    (fun s => s ≠ "")
                if segments = [] then
                  .error ("Invalid reference format: \"" ++ extendsRef ++ "\"")
                else
                  match (walkSegments nodes segments).bind
                      (fun id => mapGet nodes id) with
                  | some tokenNode =>
                      match tokenNode.meta with
                      | .token _ =>
                          resolveTokenValueGo nodes fuel tokenNode
                            (resolvingStack ++ [extendsRef])
                      | .group _ =>
                          .error ("Final token node not found while resolving \"" ++
                            extendsRef ++ "\"")
                  | none =>
                      .error ("Final token node not found while resolving \"" ++
                        extendsRef ++ "\"")

/-- `resolveTokenValue`. -/
def resolveTokenValue (nodes : List (String × TreeNode SMeta))
    (node : TreeNode SMeta) (resolvingStack : List String) :
    Except String Value :=
  resolveTokenValueGo nodes (nodes.length + 2) node resolvingStack

/-- The currently-resolving set bounds the recursion of
`resolveTokenValue` on every alias graph, cyclic ones included: its
result is the same for every fuel above the number of references not
yet on the stack, so the recursion is bounded by the resolving set and
the map, never by the fuel. -/
theorem resolveTokenValueGo_fuel_irrelevant
    (nodes : List (String × TreeNode SMeta)) :
    ∀ (n : Nat) (node : TreeNode SMeta) (resolvingStack : List String)
      (fuel₁ fuel₂ : Nat),
      (nodeRefSet nodes node \ resolvingStack.toFinset).card = n →
      n < fuel₁ → n < fuel₂ →
      resolveTokenValueGo nodes fuel₁ node resolvingStack =
        resolveTokenValueGo nodes fuel₂ node resolvingStack := by
  intro n
  induction n using Nat.strong_induction_on with
  | _ n ih =>
      intro node resolvingStack fuel₁ fuel₂ hn h1 h2
      obtain ⟨f1, rfl⟩ := Nat.exists_eq_succ_of_ne_zero (Nat.pos_iff_ne_zero.mp
        (Nat.lt_of_le_of_lt (Nat.zero_le n) h1))
      obtain ⟨f2, rfl⟩ := Nat.exists_eq_succ_of_ne_zero (Nat.pos_iff_ne_zero.mp
        (Nat.lt_of_le_of_lt (Nat.zero_le n) h2))
      show resolveTokenValueGo nodes (f1 + 1) node resolvingStack =
        resolveTokenValueGo nodes (f2 + 1) node resolvingStack
      unfold resolveTokenValueGo
      cases hmeta : node.meta with
      | group g => simp [hmeta]
      | token token =>
          cases hext : token.extendsRef with
          | none => simp [hmeta, hext]
          | some extendsRef =>
              simp only [hmeta, hext]
              by_cases hmem : extendsRef ∈ resolvingStack
              · simp [hmem]
              · simp only [if_neg hmem]
                split
                · rfl
                · split
                  · rename_i tokenNode hget
                    split
                    · obtain ⟨id, hwalk, hget'⟩ :=
                        Option.bind_eq_some.mp hget
                      have htsub := nodeRefSet_subset_of_mapGet hget'
                      have hcur : extendsRef ∈ nodeRefSet nodes node := by
                        simp [nodeRefSet, hmeta, hext]
                      have hdec : (nodeRefSet nodes tokenNode \
                          (resolvingStack ++ [extendsRef]).toFinset).card
                          < n := by
                        subst hn
                        apply Finset.card_lt_card
                        have hsub : nodeRefSet nodes tokenNode \
                            (resolvingStack ++ [extendsRef]).toFinset ⊆
                            nodeRefSet nodes node \
                              resolvingStack.toFinset := by
                          intro x hx
                          rw [Finset.mem_sdiff] at hx ⊢
                          obtain ⟨hx1, hx2⟩ := hx
                          rw [List.toFinset_append] at hx2
                          have hx1' := htsub hx1
                          refine ⟨?_,
                            fun hc => hx2 (Finset.mem_union_left _ hc)⟩
                          unfold nodeRefSet
                          exact Finset.mem_union_left _ hx1'
                        rw [Finset.ssubset_iff_of_subset hsub]
                        refine ⟨extendsRef, ?_, ?_⟩
                        · rw [Finset.mem_sdiff]
                          exact ⟨hcur, by simpa using hmem⟩
                        · intro hc
                          rw [Finset.mem_sdiff,
                            List.toFinset_append] at hc
                          apply hc.2
                          apply Finset.mem_union_right
                          simp
                      exact ih _ hdec _ _ _ _ rfl (by omega) (by omega)
                    · rfl
                  · rfl

end StateSvelte

/-! ## `css-variables.ts` — CSS custom-property serializer -/

namespace CssVariables

open DtcgSchema Tokens

/-- JavaScript number-to-string conversion; exact for integers, which are
the only numbers the theorems below interpolate. -/
def jsNumToString (q : Rat) : String :=
  if q.den = 1 then toString q.num else toString q

/-- JavaScript template-literal stringification of a value. -/
def jsToString : Json → String
  | .str s => s
  | .num n => jsNumToString n
  | .bool b => cond b "true" "false"
  | .null => "null"
  | .arr _ => ""
  | .obj _ => "[object Object]"

/-- `j.k` interpolated into a template literal (`undefined` when the
property is missing). -/
def jsGetStr (j : Json) (k : String) : String :=
  match j.lookup k with
  | some v => jsToString v
  | none => "undefined"

/-- One word-splitting step of the change-case model. -/
def splitWordsGo : List Char → List Char → List String
  | [], acc => if acc.isEmpty then [] else [String.mk acc.reverse]
  | c :: rest, acc =>
      if ¬(c.isAlpha || c.isDigit) then
        (if acc.isEmpty then [] else [String.mk acc.reverse]) ++
          splitWordsGo rest []
      else if c.isUpper &&
          (match acc with
           | a :: _ => a.isLower || a.isDigit
           | [] => false) then
        [String.mk acc.reverse] ++ splitWordsGo rest [c]
      else splitWordsGo rest (c :: acc)

/-- Split an identifier into words at non-alphanumeric characters and
lower-to-upper boundaries. -/
def splitWords (s : String) : List String := splitWordsGo s.toList []

/-- Modelled from the change-case library's `kebabCase`: lower-cased
words joined with hyphens. -/
def kebabCase (s : String) : String :=
  String.intercalate "-" ((splitWords s).map lowerStr)

/-- Modelled from the change-case library's `noCase`: lower-cased words
joined with spaces. -/
def noCase (s : String) : String :=
  String.intercalate " " ((splitWords s).map lowerStr)

/-- Modelled from the spec: `color.ts`'s `serializeColor` is not under
src/ (only its callers are); it turns a structured color value into a
CSS color string.  The model emits the `hex` field when present and a
`color()` function otherwise; no theorem depends on the exact text. -/
def serializeColor (value : Json) : String :=
  match value.lookup ("hex") with
  | some (.str h) => h
  | _ =>
      "color(" ++ jsGetStr value ("colorSpace") ++ " " ++
        (match value.lookup ("components") with
         | some (.arr comps) =>
             String.intercalate " " (comps.map jsToString)
         | _ => "") ++ ")"

/-- `toDimensionValue`. -/
def toDimensionValue (value : Json) : String :=
  jsGetStr value ("value") ++ jsGetStr value ("unit")

/-- `toDurationValue`. -/
def toDurationValue (value : Json) : String :=
  jsGetStr value ("value") ++ jsGetStr value ("unit")

/-- `toCubicBezierValue`. -/
def toCubicBezierValue (value : Json) : String :=
  "cubic-bezier(" ++
    (match value with
     | .arr items => String.intercalate ", " (items.map jsToString)
     | v => jsToString v) ++ ")"

/-- `toFontFamilyValue`. -/
def toFontFamilyValue (value : Json) : String :=
  match value with
  | .arr items => String.intercalate ", " (items.map jsToString)
  | v => jsToString v

/-- `toStrokeStyleValue`. -/
def toStrokeStyleValue (value : Json) : String :=
  match value with
  | .str s => s
  | _ => "solid"

/-- `isNodeRef`: `z.object({ref: z.string()}).safeParse(value).success`. -/
def isNodeRef (value : Json) : Bool :=
  match value with
  | .obj fields =>
      match fields.lookup ("ref") with
      | some (.str _) => true
      | _ => false
  | _ => false

/-- The ancestor-walk loop of `referenceToVariable`; the fuel models the
walk depth, bounded by the node count for forest node maps. -/
def refPathWalk (nodes : List (TreeNode TreeNodeMeta)) :
    Nat → Option String → List String → List String
  | 0, _, path => path
  | _, none, path => path
  | fuel + 1, some currentId, path =>
      if currentId = "" then path
      else
        match nodes.find? (fun n => n.nodeId = currentId) with
        | none => path
        | some node =>
            refPathWalk nodes fuel node.parentId (node.meta.name :: path)

/-- `referenceToVariable`: kebab-cased `var()` reference built from the
target node's ancestor name chain. -/
def referenceToVariable (nodeRef : Json)
    (nodes : List (TreeNode TreeNodeMeta)) : String :=
  let ref := match nodeRef.lookup ("ref") with
    | some (.str s) => s
    | _ => ""
  let path := refPathWalk nodes (nodes.length + 1) (some ref) []
  "var(--" ++ kebabCase (noCase (String.intercalate "-" path)) ++ ")"

/-- `valueOrVar`. -/
def valueOrVar (value : Json) (converter : Json → String)
    (nodes : List (TreeNode TreeNodeMeta)) : String :=
  if isNodeRef value then referenceToVariable value nodes
  else converter value

/-- `toShadowValue`. -/
def toShadowValue (value : Json) (nodes : List (TreeNode TreeNodeMeta)) :
    String :=
  let shadows := match value with
    | .arr items => items
    | v => [v]
  String.intercalate ", " (shadows.map (fun shadow =>
    let color := valueOrVar ((shadow.lookup ("color")).getD .null)
      serializeColor nodes
    let inset := match shadow.lookup ("inset") with
      | some v => if StateSvelte.jsTruthy v then "inset " else ""
      | none => ""
    let offsetX := valueOrVar ((shadow.lookup ("offsetX")).getD .null)
      toDimensionValue nodes
    let offsetY := valueOrVar ((shadow.lookup ("offsetY")).getD .null)
      toDimensionValue nodes
    let blur := valueOrVar ((shadow.lookup ("blur")).getD .null)
      toDimensionValue nodes
    let spread := valueOrVar ((shadow.lookup ("spread")).getD .null)
      toDimensionValue nodes
    inset ++ offsetX ++ " " ++ offsetY ++ " " ++ blur ++ " " ++ spread ++
      " " ++ color))

/-- `toGradientValue`. -/
def toGradientValue (value : Json) (nodes : List (TreeNode TreeNodeMeta)) :
    String :=
  let stops := match value with
    | .arr items => items
    | _ => []
  "linear-gradient(90deg, " ++
    String.intercalate ", " (stops.map (fun stop =>
      let color := valueOrVar ((stop.lookup ("color")).getD .null)
        serializeColor nodes
      let position := match stop.lookup ("position") with
        | some (.num n) => jsNumToString (n * 100)
        | _ => "NaN"
      color ++ " " ++ position ++ "%")) ++ ")"

/-- `toBorderValue`. -/
def toBorderValue (value : Json) (nodes : List (TreeNode TreeNodeMeta)) :
    String :=
  let style := valueOrVar ((value.lookup ("style")).getD .null)
    toStrokeStyleValue nodes
  let width := valueOrVar ((value.lookup ("width")).getD .null)
    toDimensionValue nodes
  let color := valueOrVar ((value.lookup ("color")).getD .null)
    serializeColor nodes
  width ++ " " ++ style ++ " " ++ color

/-- `toTransitionValue`. -/
def toTransitionValue (value : Json) (nodes : List (TreeNode TreeNodeMeta)) :
    String :=
  let duration := valueOrVar ((value.lookup ("duration")).getD .null)
    toDurationValue nodes
  let timingFunction := valueOrVar ((value.lookup ("timingFunction")).getD .null)
    toCubicBezierValue nodes
  let delay := valueOrVar ((value.lookup ("delay")).getD .null)
    toDurationValue nodes
  duration ++ " " ++ timingFunction ++ " " ++ delay

/-- `addStrokeStyle`: a stroke-style token emits either one shorthand
line (string or reference values) or two component lines
(`-dash-array`, `-line-cap`) for object values — and no bare
`propertyName` line in the object case. -/
def addStrokeStyle (propertyName : String) (value : Json)
    (lines : List String) (nodes : List (TreeNode TreeNodeMeta)) :
    List String :=
  if isNodeRef value then
    lines ++ ["  " ++ propertyName ++ ": " ++
      referenceToVariable value nodes ++ ";"]
  else
    match value with
    | .str s => lines ++ ["  " ++ propertyName ++ ": " ++ s ++ ";"]
    | _ =>
        let dashArray := match value.lookup ("dashArray") with
          | some (.arr ds) =>
              String.intercalate ", "
                (ds.map (fun d => valueOrVar d toDimensionValue nodes))
          | _ => "undefined"
        let lineCap := jsGetStr value ("lineCap")
        lines ++
          ["  " ++ propertyName ++ "-dash-array: " ++ dashArray ++ ";",
           "  " ++ propertyName ++ "-line-cap: " ++ lineCap ++ ";"]

/-- `addTypography`: five component lines plus the CSS font shorthand. -/
def addTypography (propertyName : String) (value : Json)
    (lines : List String) (nodes : List (TreeNode TreeNodeMeta)) :
    List String :=
  let fontFamily := valueOrVar ((value.lookup ("fontFamily")).getD .null)
    toFontFamilyValue nodes
  let fontSize := valueOrVar ((value.lookup ("fontSize")).getD .null)
    toDimensionValue nodes
  let letterSpacing := valueOrVar ((value.lookup ("letterSpacing")).getD .null)
    toDimensionValue nodes
  let fontWeight := valueOrVar ((value.lookup ("fontWeight")).getD .null)
    jsToString nodes
  let lineHeight := valueOrVar ((value.lookup ("lineHeight")).getD .null)
    jsToString nodes
  lines ++
    ["  " ++ propertyName ++ "-font-family: " ++ fontFamily ++ ";",
     "  " ++ propertyName ++ "-font-size: " ++ fontSize ++ ";",
     "  " ++ propertyName ++ "-font-weight: " ++ fontWeight ++ ";",
     "  " ++ propertyName ++ "-line-height: " ++ lineHeight ++ ";",
     "  " ++ propertyName ++ "-letter-spacing: " ++ letterSpacing ++ ";",
     "  " ++ propertyName ++ ": " ++ fontWeight ++ " " ++ fontSize ++ "/" ++
       lineHeight ++ " " ++ fontFamily ++ ";"]

/-- The switch of `processNode`'s token branch: the declaration lines a
token with a non-reference value appends. -/
def tokenLines (propertyName : String) (ty : TokenType) (value : Json)
    (lines : List String) (nodes : List (TreeNode TreeNodeMeta)) :
    List String :=
  match ty with
  | .color =>
      lines ++ ["  " ++ propertyName ++ ": " ++ serializeColor value ++ ";"]
  | .dimension =>
      lines ++ ["  " ++ propertyName ++ ": " ++ toDimensionValue value ++ ";"]
  | .duration =>
      lines ++ ["  " ++ propertyName ++ ": " ++ toDurationValue value ++ ";"]
  | .cubicBezier =>
      lines ++ ["  " ++ propertyName ++ ": " ++ toCubicBezierValue value ++ ";"]
  | .number =>
      lines ++ ["  " ++ propertyName ++ ": " ++ jsToString value ++ ";"]
  | .fontWeight =>
      lines ++ ["  " ++ propertyName ++ ": " ++ jsToString value ++ ";"]
  | .fontFamily =>
      lines ++ ["  " ++ propertyName ++ ": " ++ toFontFamilyValue value ++ ";"]
  | .shadow =>
      lines ++ ["  " ++ propertyName ++ ": " ++ toShadowValue value nodes ++ ";"]
  | .gradient =>
      lines ++ ["  " ++ propertyName ++ ": " ++ toGradientValue value nodes ++ ";"]
  | .border =>
      lines ++ ["  " ++ propertyName ++ ": " ++ toBorderValue value nodes ++ ";"]
  | .transition =>
      lines ++ ["  " ++ propertyName ++ ": " ++ toTransitionValue value nodes ++ ";"]
  | .strokeStyle => addStrokeStyle propertyName value lines nodes
  | .typography => addTypography propertyName value lines nodes

/-- `processNode`: groups only contribute their name to the variable
path; tokens emit declarations.  The fuel models the recursion depth,
bounded by the node count for forest node maps. -/
def processNode (nodes : List (TreeNode TreeNodeMeta))
    (cm : List (Option String × List (TreeNode TreeNodeMeta))) :
    Nat → TreeNode TreeNodeMeta → List String → List String → List String
  | 0, _, _, lines => lines
  | fuel + 1, node, path, lines =>
      match node.meta with
      | .group gname _ _ _ _ =>
          let children := (mapGet cm (some node.nodeId)).getD []
          children.foldl
            (fun ls child => processNode nodes cm fuel child (path ++ [gname]) ls)
            lines
      | .token tname ty value _ _ _ =>
          let propertyName :=
            "--" ++ kebabCase (String.intercalate "-" (path ++ [tname]))
          if isNodeRef value then
            lines ++ ["  " ++ propertyName ++ ": " ++
              referenceToVariable value nodes ++ ";"]
          else tokenLines propertyName ty value lines nodes
      | .tokenSet _ _ _ => lines

/-- `generateCssVariables`. -/
def generateCssVariables (nodes : List (TreeNode TreeNodeMeta)) : String :=
  let cm := childrenMapOf nodes
  let rootChildren := (mapGet cm none).getD []
  let lines := rootChildren.foldl
    (fun ls node => processNode nodes cm (nodes.length + 1) node [] ls) []
  String.intercalate "\n" ([":root \x7b"] ++ lines ++ ["\x7d"])

end CssVariables

/-! ## Shared concrete example documents -/

namespace Examples

/-- `{colorSpace: "srgb", components: [1, 0, 0]}` (red). -/
def redColor : Json :=
  .obj [("colorSpace", .str "srgb"),
        ("components", .arr [.num 1, .num 0, .num 0])]

/-- `{colorSpace: "srgb", components: [0, 0, 1]}` (blue). -/
def blueColor : Json :=
  .obj [("colorSpace", .str "srgb"),
        ("components", .arr [.num 0, .num 0, .num 1])]

/-- A resolver document with one set whose two sources both define
`primary` (red first, blue later). -/
def resolverPrimaryDoc : Json :=
  .obj [("version", .str "2025.10"),
        ("resolutionOrder", .arr [
          .obj [("type", .str "set"),
                ("name", .str "Colors"),
                ("sources", .arr [
                  .obj [("primary", .obj [("$type", .str "color"),
                                          ("$value", redColor)])],
                  .obj [("primary", .obj [("$type", .str "color"),
                                          ("$value", blueColor)])]])]])]

/-- A document with a cyclic alias pair `a → {b}`, `b → {a}`. -/
def cyclicDoc : Json :=
  .obj [("a", .obj [("$value", .str "{b}")]),
        ("b", .obj [("$value", .str "{a}")])]

end Examples

/-! ## C10 — `isResolverFormat` -/

section C10

open Resolver

/-- The spec's description of `isResolverFormat`, stated in its own
words: a non-null plain object whose `version` is exactly `"2025.10"`
and whose `resolutionOrder` is an array. -/
def isResolverFormatSpec (j : Json) : Prop :=
  j.isObject = true ∧
  j.lookup ("version") = some (.str "2025.10") ∧
  ∃ items, j.lookup ("resolutionOrder") = some (.arr items)

/-- A document that passes the format discriminator but fails the
structural validation (its single set item has no `name`/`sources`). -/
def c10Doc : Json :=
  .obj [("version", .str "2025.10"),
        ("resolutionOrder", .arr [.obj [("type", .str "set")]])]

/-- C10: `isResolverFormat` returns true exactly on non-null objects
with `version = "2025.10"` and an array `resolutionOrder`, and it can
accept documents that `parseTokenResolver` then rejects with a
structural error. -/
theorem C10_isResolverFormat_iff :
    (∀ j : Json, isResolverFormat j = true ↔ isResolverFormatSpec j) ∧
    (isResolverFormat c10Doc = true ∧
      parseTokenResolver c10Doc =
        ⟨[], [⟨"resolver", prettyErrorMsg⟩]⟩) := by
  constructor
  · intro j
    cases j with
    | obj fields =>
        simp only [isResolverFormat, isResolverFormatSpec, Json.isObject,
          Bool.and_eq_true, true_and]
        constructor
        · rintro ⟨h1, h2⟩
          constructor
          · cases hv : (Json.obj fields).lookup ("version") with
            | none => rw [hv] at h1; simp at h1
            | some v =>
                rw [hv] at h1
                cases v <;> simp [isStrLit] at h1
                subst h1
                rfl
          · cases hro : (Json.obj fields).lookup ("resolutionOrder") with
            | none => rw [hro] at h2; simp at h2
            | some v =>
                rw [hro] at h2
                cases v with
                | arr items => exact ⟨items, rfl⟩
                | null => simp at h2
                | bool b => simp at h2
                | num n => simp at h2
                | str s => simp at h2
                | obj fs => simp at h2
        · rintro ⟨h1, items, h2⟩
          rw [h1, h2]
          exact ⟨by simp [isStrLit], rfl⟩
    | null => simp [isResolverFormat, isResolverFormatSpec, Json.isObject]
    | bool b => simp [isResolverFormat, isResolverFormatSpec, Json.isObject]
    | num n => simp [isResolverFormat, isResolverFormatSpec, Json.isObject]
    | str s => simp [isResolverFormat, isResolverFormatSpec, Json.isObject]
    | arr items => simp [isResolverFormat, isResolverFormatSpec, Json.isObject]
  · exact ⟨rfl, rfl⟩

end C10

/-! ## C5 — resolver structural failures abort with one error -/

section C5

open Resolver

/-- C5: whenever the top-level resolver structure is invalid (the
document schema rejects it), `parseTokenResolver` returns no nodes and
exactly the single top-level error — no partial resolver import. -/
theorem C5_structural_failure_aborts (input : Json)
    (h : resolverDocumentSchema input = none) :
    parseTokenResolver input = ⟨[], [⟨"resolver", prettyErrorMsg⟩]⟩ := by
  unfold parseTokenResolver
  rw [h]

/-- C5 witness: a document with a missing version tag is rejected with
one top-level error and an empty node list. -/
theorem C5_structural_failure_aborts_witness :
    resolverDocumentSchema (.obj [("resolutionOrder", .arr [])]) = none ∧
    parseTokenResolver (.obj [("resolutionOrder", .arr [])]) =
      ⟨[], [⟨"resolver", prettyErrorMsg⟩]⟩ :=
  ⟨rfl, C5_structural_failure_aborts _ rfl⟩

end C5

/-! ## C6 — source deep merge -/

section C6

open Resolver Tokens Examples

/-- C6: the deep merge of a set's sources recurses into nested plain
objects, replaces atomically whenever the later source's value carries
a `$value` (no field-level merging of token objects), and on the spec's
two-source `primary` example the later (blue) source wins, yielding one
`token-set` "Colors" with exactly one `primary` token valued blue. -/
theorem C6_mergeSources :
    (∀ (target : List (String × Json)) (k : String)
        (vf tf : List (String × Json)),
        (vf.lookup ("$value")).isNone →
        target.lookup k = some (.obj tf) →
        deepMergeEntry target k (.obj vf) =
          jsAssign target k (.obj (deepMergeObj tf vf))) ∧
    (∀ (target : List (String × Json)) (k : String)
        (vf : List (String × Json)),
        (vf.lookup ("$value")).isSome →
        deepMergeEntry target k (.obj vf) = jsAssign target k (.obj vf)) ∧
    (mergeSources [
        [("primary", .obj [("$type", .str "color"), ("$value", redColor)])],
        [("primary", .obj [("$type", .str "color"), ("$value", blueColor)])]] =
      [("primary", .obj [("$type", .str "color"), ("$value", blueColor)])]) ∧
    (parseTokenResolver resolverPrimaryDoc =
      ⟨[⟨uuid 1, none, "a00", .tokenSet "Colors" none none⟩,
        ⟨uuid 0, some (uuid 1), "a00",
          .token "primary" .color blueColor none none none⟩], []⟩) := by
  refine ⟨?_, ?_, rfl, rfl⟩
  · intro target k vf tf hnone hlookup
    rw [Option.isNone_iff_eq_none] at hnone
    simp only [deepMergeEntry, hnone, Option.isNone_none, if_true, hlookup]
  · intro target k vf hsome
    obtain ⟨w, hw⟩ := Option.isSome_iff_exists.mp hsome
    simp [deepMergeEntry, hw]

/-- C6 witness: the atomic-replacement and recursion branches applied
at concrete inputs. -/
theorem C6_mergeSources_witness :
    (deepMergeEntry [("a", .obj [("x", .num 1)])] "a"
        (.obj [("y", .num 2)]) =
      jsAssign [("a", .obj [("x", .num 1)])] "a"
        (.obj (deepMergeObj [("x", .num 1)] [("y", .num 2)]))) ∧
    (deepMergeEntry [("a", .obj [("x", .num 1)])] "a"
        (.obj [("$value", .num 2)]) =
      jsAssign [("a", .obj [("x", .num 1)])] "a"
        (.obj [("$value", .num 2)])) :=
  ⟨C6_mergeSources.1 _ _ _ _ (by decide) (by decide),
   C6_mergeSources.2.1 _ _ _ (by decide)⟩

end C6

/-! ## C3 / C4 — alias-resolution failures: errors as data vs. throws -/

namespace Examples

open DtcgSchema StateSvelte

/-- State-module node map with a cyclic extends pair `a → {b}`,
`b → {a}`. -/
def cyclicNodesS : List (String × TreeNode SMeta) :=
  [("n1", ⟨"n1", none, "a0",
      .token ⟨"a", none, none, some "{b}", none, none, none⟩⟩),
   ("n2", ⟨"n2", none, "a1",
      .token ⟨"b", none, none, some "{a}", none, none, none⟩⟩)]

/-- The node of token `a` in `cyclicNodesS`. -/
def cyclicNodeA : TreeNode SMeta :=
  ⟨"n1", none, "a0", .token ⟨"a", none, none, some "{b}", none, none, none⟩⟩

/-- A node whose extends reference points at a nonexistent path. -/
def danglingNodeS : TreeNode SMeta :=
  ⟨"n1", none, "a0",
    .token ⟨"d", none, none, some "{missing}", none, none, none⟩⟩

/-- A token node with no declared type, no extends and no typed
ancestor. -/
def untypedNodeS : TreeNode SMeta :=
  ⟨"n1", none, "a0",
    .token ⟨"u", none, some (.num 5), none, none, none, none⟩⟩

/-- `{d: {$value: "{missing}"}}` — a dangling alias document. -/
def danglingDoc : Json :=
  .obj [("d", .obj [("$value", .str "{missing}")])]

/-- `{u: {$value: 5}}` — a token with no determinable type. -/
def untypedDoc : Json :=
  .obj [("u", .obj [("$value", .num 5)])]

end Examples

section C3

open Tokens StateSvelte Examples

/-- C3 counterexample: `resolveTokenValue` raises an exception
(modelled as `Except.error`) for each of the three conditions —
circular reference, dangling reference and undeterminable type — so
the claim that the core never raises for them, returning a
`{path, message}` error list instead, is false as stated. -/
theorem C3_counterexample_resolveTokenValue_throws :
    resolveTokenValue cyclicNodesS cyclicNodeA [] =
      .error "Circular reference detected: {b} -> {a} -> {b}" ∧
    resolveTokenValue [("n1", danglingNodeS)] danglingNodeS [] =
      .error "Final token node not found while resolving \"{missing}\"" ∧
    resolveTokenValue [("n1", untypedNodeS)] untypedNodeS [] =
      .error "Token \"u\" has no determinable type" :=
  ⟨rfl, rfl, rfl⟩

/-- C3 amended: during document parsing the three alias-resolution
failure conditions surface as `{path, message}` entries in the error
list `parseDesignTokens` returns (all three reported as
"Token type cannot be determined"), and the parser itself never throws;
`resolveTokenValue`, by contrast, reports each of the three conditions
by throwing an `Error`. -/
theorem C3_amended_errors_as_data :
    parseDesignTokens Examples.cyclicDoc =
      ⟨[], [⟨"a", "Token type cannot be determined"⟩,
            ⟨"b", "Token type cannot be determined"⟩]⟩ ∧
    parseDesignTokens danglingDoc =
      ⟨[], [⟨"d", "Token type cannot be determined"⟩]⟩ ∧
    parseDesignTokens untypedDoc =
      ⟨[], [⟨"u", "Token type cannot be determined"⟩]⟩ ∧
    resolveTokenValue cyclicNodesS cyclicNodeA [] =
      .error "Circular reference detected: {b} -> {a} -> {b}" ∧
    resolveTokenValue [("n1", danglingNodeS)] danglingNodeS [] =
      .error "Final token node not found while resolving \"{missing}\"" ∧
    resolveTokenValue [("n1", untypedNodeS)] untypedNodeS [] =
      .error "Token \"u\" has no determinable type" :=
  ⟨rfl, rfl, rfl, rfl, rfl, rfl⟩

end C3

section C4

open Tokens StateSvelte Examples

/-- C4 counterexample: parsing the cyclic pair `a → {b}`, `b → {a}`
produces two errors, both reading "Token type cannot be determined" —
not exactly one `CircularReference` error. -/
theorem C4_counterexample_two_parse_errors :
    (parseDesignTokens Examples.cyclicDoc).errors =
      [⟨"a", "Token type cannot be determined"⟩,
       ⟨"b", "Token type cannot be determined"⟩] ∧
    (parseDesignTokens Examples.cyclicDoc).errors.length = 2 :=
  ⟨rfl, rfl⟩

/-- C4 amended: for the document `a → {b}`, `b → {a}` the parser
terminates, records one undeterminable-type error per cyclic token (two
errors, no `CircularReference` error, both tokens excluded), while
`resolveTokenValue` on the cyclic pair throws exactly one
circular-reference error; the currently-resolving set bounds the
recursion for every cyclic alias graph (the result is stable for every
fuel above the number of references not yet on the stack). -/
theorem C4_amended_cycle_behaviour :
    parseDesignTokens Examples.cyclicDoc =
      ⟨[], [⟨"a", "Token type cannot be determined"⟩,
            ⟨"b", "Token type cannot be determined"⟩]⟩ ∧
    resolveTokenValue cyclicNodesS cyclicNodeA [] =
      .error "Circular reference detected: {b} -> {a} -> {b}" ∧
    (∀ (nodes : List (String × TreeNode SMeta)) (node : TreeNode SMeta)
        (stack : List String) (fuel₁ fuel₂ : Nat),
        (nodeRefSet nodes node \ stack.toFinset).card < fuel₁ →
        (nodeRefSet nodes node \ stack.toFinset).card < fuel₂ →
        resolveTokenValueGo nodes fuel₁ node stack =
          resolveTokenValueGo nodes fuel₂ node stack) :=
  ⟨rfl, rfl, fun nodes node stack fuel₁ fuel₂ h1 h2 =>
    resolveTokenValueGo_fuel_irrelevant nodes _ node stack fuel₁ fuel₂ rfl
      h1 h2⟩

/-- C4 amended witness: the resolving-set bound applied at the cyclic
pair with two concrete sufficient fuels. -/
theorem C4_amended_cycle_behaviour_witness :
    (nodeRefSet cyclicNodesS cyclicNodeA \ ([] : List String).toFinset).card
      < 3 ∧
    (nodeRefSet cyclicNodesS cyclicNodeA \ ([] : List String).toFinset).card
      < 7 ∧
    resolveTokenValueGo cyclicNodesS 3 cyclicNodeA [] =
      resolveTokenValueGo cyclicNodesS 7 cyclicNodeA [] := by
  refine ⟨?_, ?_, ?_⟩
  · decide
  · decide
  · exact C4_amended_cycle_behaviour.2.2 cyclicNodesS cyclicNodeA [] 3 7
      (by decide) (by decide)

end C4

/-! ## C9 — CSS serializer declaration lines -/

section C9

open Tokens CssVariables DtcgSchema

/-- A strokeStyle token with an object value (dash array + line cap). -/
def strokeObjNode : TreeNode TreeNodeMeta :=
  ⟨"n1", none, "a0",
    .token "s" .strokeStyle
      (.obj [("dashArray", .arr [.obj [("value", .num 1), ("unit", .str "px")]]),
             ("lineCap", .str "round")])
      none none none⟩

/-- `{spacing: {$type: "dimension", sm: {$value: {value:16, unit:"px"}}}}`. -/
def spacingDoc : Json :=
  .obj [("spacing", .obj [
    ("$type", .str "dimension"),
    ("sm", .obj [("$value", .obj [("value", .num 16), ("unit", .str "px")])])])]

/-- C9 counterexample: a strokeStyle token with an object value emits
only the `-dash-array` and `-line-cap` component lines — no
`--kebab-case-joined-path: <css-value>;` declaration line at all, so
"for every token node" is false as stated. -/
theorem C9_counterexample_strokeStyle_object :
    generateCssVariables [strokeObjNode] =
      ":root \x7b\n  --s-dash-array: 1px;\n  --s-line-cap: round;\n\x7d" :=
  rfl

/-- C9 amended: every token node except a strokeStyle token with an
object value emits a `--kebab-case-joined-path: <css-value>;`
declaration line inside the `:root { }` block (possibly after component
lines, as for typography; strokeStyle string values also emit it); in
particular a dimension token `{value:16, unit:"px"}` under path
`spacing.sm` yields the line `--spacing-sm: 16px;`. -/
theorem C9_amended_declaration_lines :
    (generateCssVariables (parseDesignTokens spacingDoc).nodes =
      ":root \x7b\n  --spacing-sm: 16px;\n\x7d") ∧
    (∀ (propertyName : String) (ty : TokenType) (value : Json)
        (lines : List String) (nodes : List (TreeNode TreeNodeMeta)),
        ty ≠ .strokeStyle →
        ∃ (rest : List String) (css : String),
          tokenLines propertyName ty value lines nodes =
            lines ++ rest ++
              ["  " ++ propertyName ++ ": " ++ css ++ ";"]) ∧
    (∀ (propertyName s : String) (lines : List String)
        (nodes : List (TreeNode TreeNodeMeta)),
        tokenLines propertyName .strokeStyle (.str s) lines nodes =
          lines ++ ["  " ++ propertyName ++ ": " ++ s ++ ";"]) ∧
    (∀ nodes : List (TreeNode TreeNodeMeta), ∃ lines,
        generateCssVariables nodes =
          String.intercalate "\n" ([":root \x7b"] ++ lines ++ ["\x7d"])) := by
  refine ⟨rfl, ?_, ?_, ?_⟩
  · intro propertyName ty value lines nodes hty
    cases ty with
    | color => exact ⟨[], serializeColor value, by simp [tokenLines]⟩
    | dimension => exact ⟨[], toDimensionValue value, by simp [tokenLines]⟩
    | fontFamily => exact ⟨[], toFontFamilyValue value, by simp [tokenLines]⟩
    | fontWeight => exact ⟨[], jsToString value, by simp [tokenLines]⟩
    | duration => exact ⟨[], toDurationValue value, by simp [tokenLines]⟩
    | cubicBezier =>
        exact ⟨[], toCubicBezierValue value, by simp [tokenLines]⟩
    | number => exact ⟨[], jsToString value, by simp [tokenLines]⟩
    | strokeStyle => exact absurd rfl hty
    | border => exact ⟨[], toBorderValue value nodes, by simp [tokenLines]⟩
    | transition =>
        exact ⟨[], toTransitionValue value nodes, by simp [tokenLines]⟩
    | shadow => exact ⟨[], toShadowValue value nodes, by simp [tokenLines]⟩
    | gradient =>
        exact ⟨[], toGradientValue value nodes, by simp [tokenLines]⟩
    | typography =>
        refine ⟨["  " ++ propertyName ++ "-font-family: " ++
               valueOrVar ((value.lookup ("fontFamily")).getD .null)
                 toFontFamilyValue nodes ++ ";",
             "  " ++ propertyName ++ "-font-size: " ++
               valueOrVar ((value.lookup ("fontSize")).getD .null)
                 toDimensionValue nodes ++ ";",
             "  " ++ propertyName ++ "-font-weight: " ++
               valueOrVar ((value.lookup ("fontWeight")).getD .null)
                 jsToString nodes ++ ";",
             "  " ++ propertyName ++ "-line-height: " ++
               valueOrVar ((value.lookup ("lineHeight")).getD .null)
                 jsToString nodes ++ ";",
             "  " ++ propertyName ++ "-letter-spacing: " ++
               valueOrVar ((value.lookup ("letterSpacing")).getD .null)
                 toDimensionValue nodes ++ ";"],
           valueOrVar ((value.lookup ("fontWeight")).getD .null)
               jsToString nodes ++ " " ++
             valueOrVar ((value.lookup ("fontSize")).getD .null)
               toDimensionValue nodes ++ "/" ++
             valueOrVar ((value.lookup ("lineHeight")).getD .null)
               jsToString nodes ++ " " ++
             valueOrVar ((value.lookup ("fontFamily")).getD .null)
               toFontFamilyValue nodes, ?_⟩
        simp [tokenLines, addTypography, String.append_assoc]
  · intro propertyName s lines nodes
    simp [tokenLines, addStrokeStyle, isNodeRef]
  · intro nodes
    exact ⟨_, rfl⟩

/-- C9 amended witness: the non-strokeStyle declaration-line shape
applied at a concrete dimension token. -/
theorem C9_amended_declaration_lines_witness :
    (DtcgSchema.TokenType.dimension ≠ DtcgSchema.TokenType.strokeStyle) ∧
    ∃ (rest : List String) (css : String),
      tokenLines "--x" .dimension
          (.obj [("value", .num 3), ("unit", .str "rem")]) [] [] =
        [] ++ rest ++ ["  " ++ "--x" ++ ": " ++ css ++ ";"] :=
  ⟨by decide,
   C9_amended_declaration_lines.2.1 "--x" .dimension
     (.obj [("value", .num 3), ("unit", .str "rem")]) [] [] (by decide)⟩

end C9

/-! ## C8 — shadow normalization round trip -/

section C8

open Tokens DtcgSchema Schema

/-- The fields of a bare shadow object value in DTCG form. -/
def shadowItemFields : List (String × Json) :=
  [("color", .obj [("colorSpace", .str "srgb"),
                   ("components", .arr [.num 0, .num 0, .num 0]),
                   ("alpha", .num (1/5 : Rat))]),
   ("offsetX", .obj [("value", .num 0), ("unit", .str "px")]),
   ("offsetY", .obj [("value", .num 4), ("unit", .str "px")]),
   ("blur", .obj [("value", .num 8), ("unit", .str "px")]),
   ("spread", .obj [("value", .num 0), ("unit", .str "px")])]

/-- A bare shadow object value in DTCG form. -/
def shadowItemJson : Json := .obj shadowItemFields

/-- A document whose shadow token's `$value` is a single bare shadow
object. -/
def bareShadowDoc : Json :=
  .obj [("shadows", .obj [
    ("$type", .str "shadow"),
    ("drop", .obj [("$value", shadowItemJson)])])]

theorem vObj_eq_some_obj {specs : List FieldSpec} {j d : Json}
    (h : vObj specs j = some d) : ∃ fields, d = .obj fields := by
  cases j with
  | obj fs =>
      unfold vObj at h
      obtain ⟨r, _, hr⟩ := Option.map_eq_some'.mp h
      exact ⟨r, hr.symm⟩
  | null => simp [vObj] at h
  | bool b => simp [vObj] at h
  | num n => simp [vObj] at h
  | str s => simp [vObj] at h
  | arr l => simp [vObj] at h

theorem lookup_map_set (k : String) (v : Json) :
    ∀ (fs : List (String × Json)),
      (fs.any (fun p => p.1 = k)) = true →
      (fs.map (fun p => if p.1 = k then (k, v) else p)).lookup k = some v := by
  intro fs
  induction fs with
  | nil => intro h; simp at h
  | cons p ps ih =>
      intro h
      obtain ⟨pk, pv⟩ := p
      by_cases hp : pk = k
      · subst hp
        simp only [List.map_cons]
        simp [List.lookup]
      · simp only [List.any_cons, Bool.or_eq_true, decide_eq_true_eq] at h
        rcases h with h | h
        · exact absurd h hp
        · simp only [List.map_cons]
          rw [show (if ((pk, pv) : String × Json).1 = k then (k, v)
              else (pk, pv)) = (pk, pv) from if_neg hp]
          rw [List.lookup]
          have hkp : (k == pk) = false := by
            rw [beq_eq_false_iff_ne]
            exact fun hc => hp hc.symm
          simp only [hkp]
          exact ih (by simpa using h)

theorem lookup_append_new (k : String) (v : Json) :
    ∀ (fs : List (String × Json)),
      (∀ p ∈ fs, ¬p.1 = k) →
      (fs ++ [(k, v)]).lookup k = some v := by
  intro fs
  induction fs with
  | nil => intro _; simp [List.lookup]
  | cons p ps ih =>
      intro h
      obtain ⟨pk, pv⟩ := p
      have h1 : ¬pk = k := h (pk, pv) (List.mem_cons_self _ _)
      simp only [List.cons_append]
      rw [List.lookup]
      have hkp : (k == pk) = false := by
        rw [beq_eq_false_iff_ne]
        exact fun hc => h1 hc.symm
      simp only [hkp]
      exact ih (fun q hq => h q (List.mem_cons_of_mem _ hq))

/-- Looking up the assigned key after a JavaScript property assignment
yields the assigned value. -/
theorem lookup_jsAssign (fs : List (String × Json)) (k : String) (v : Json) :
    (jsAssign fs k v).lookup k = some v := by
  unfold jsAssign
  by_cases h : (fs.any (fun p => p.1 = k)) = true
  · rw [if_pos h]
    exact lookup_map_set k v fs h
  · rw [if_neg h]
    apply lookup_append_new
    intro p hp hc
    exact h (List.any_eq_true.mpr ⟨p, hp, by simpa using hc⟩)

/-- C8: the parser stores a shadow token whose value is a single bare
shadow object as a one-element list; the serializer emits a shadow
value stored as a length-one list as a bare object; consequently the
bare-object shadow document round-trips through parse→serialize with a
bare-object `$value`, not a one-element array. -/
theorem C8_shadow_normalization :
    (∀ (inters : List (String × IntermediaryNode)) (path : String)
        (inter : IntermediaryNode) (t : Token)
        (f : List (String × Json)),
        inter.type = some .shadow → t.value = .obj f →
        (resolveTokenTypeAndValue inters path inter t).1.isSome →
        ∃ item, (resolveTokenTypeAndValue inters path inter t).1 =
          some (.shadow, .arr [item])) ∧
    (∀ (cm : List (Option String × List (TreeNode TreeNodeMeta)))
        (fuel : Nat) (node : TreeNode TreeNodeMeta)
        (inh : Option TokenType) (name : String) (item item' : Json)
        (d dep ext : Option Json) (desc : Option String),
        node.meta = .token name .shadow (.arr [item]) desc dep ext →
        shadowValue (.arr [item]) = some (.arr [item']) →
        ∃ fields, serializeNode cm (fuel + 1) node inh = .obj fields ∧
          fields.lookup ("$value") = some item') ∧
    ((parseDesignTokens bareShadowDoc).nodes.map
        (fun n => n.meta) =
      [.group "shadows" (some .shadow) none none none,
       .token "drop" .shadow (.arr [shadowItemJson]) none none none]) ∧
    (serializeDesignTokens (parseDesignTokens bareShadowDoc).nodes =
      .obj [("shadows", .obj [
        ("$type", .str "shadow"),
        ("drop", .obj [("$value", shadowItemJson)])])]) := by
  refine ⟨?_, ?_, rfl, rfl⟩
  · intro inters path inter t f hty hv hsome
    cases hsv : shadowValue (.obj f) with
    | none =>
        exfalso
        simp [resolveTokenTypeAndValue, hv, hty, hsv, isTokenReference,
          rawValueValidate, vOr, vArr, vArrGo, vStr, Option.orElse] at hsome
    | some dd =>
        have hobj : ∃ df, dd = .obj df := by
          unfold shadowValue vOr at hsv
          cases hso : shadowObject (.obj f) with
          | some x =>
              rw [hso] at hsv
              simp only [Option.orElse] at hsv
              obtain ⟨fs, hfs⟩ := vObj_eq_some_obj
                (show vObj _ (.obj f) = some x from hso)
              injection hsv with hxd
              exact ⟨fs, hxd ▸ hfs⟩
          | none =>
              rw [hso] at hsv
              simp [Option.orElse, vArrMin] at hsv
        obtain ⟨df, rfl⟩ := hobj
        cases hraw : rawShadowItemSchema (.obj df) with
        | none =>
            exfalso
            simp [resolveTokenTypeAndValue, hv, hty, hsv, hraw,
              isTokenReference, rawValueValidate, vOr, vArr, vArrGo, vStr,
              Option.orElse] at hsome
        | some item =>
            refine ⟨item, ?_⟩
            simp [resolveTokenTypeAndValue, hv, hty, hsv, hraw,
              isTokenReference, rawValueValidate, vOr, vArr, vArrGo, vStr,
              Option.orElse]
  · intro cm fuel node inh name item item' d dep ext desc hmeta hsv
    simp only [serializeNode, hmeta]
    rw [hsv]
    refine ⟨_, rfl, ?_⟩
    exact lookup_jsAssign _ _ _

/-- C8 witness: both general conjuncts applied at a concrete shadow
token. -/
theorem C8_shadow_normalization_witness :
    (∃ item,
      (resolveTokenTypeAndValue []
        "p" ⟨none, "p", uuid 0, some .shadow,
          .token ⟨shadowItemJson, none, none, none, none⟩⟩
        ⟨shadowItemJson, none, none, none, none⟩).1 =
        some (.shadow, .arr [item])) ∧
    (∃ fields,
      serializeNode [] 1
        ⟨uuid 0, none, "a0",
          .token "drop" .shadow (.arr [shadowItemJson]) none none none⟩
        none = .obj fields ∧
      fields.lookup ("$value") = some shadowItemJson) := by
  constructor
  · exact C8_shadow_normalization.1 [] "p"
      ⟨none, "p", uuid 0, some .shadow,
        .token ⟨shadowItemJson, none, none, none, none⟩⟩
      ⟨shadowItemJson, none, none, none, none⟩
      shadowItemFields rfl rfl (by decide)
  · exact C8_shadow_normalization.2.1 [] 0
      ⟨uuid 0, none, "a0",
        .token "drop" .shadow (.arr [shadowItemJson]) none none none⟩
      none "drop" shadowItemJson shadowItemJson none none none none rfl
      rfl

end C8

section C2

open Tokens DtcgSchema Examples

/-- C2: a per-node validation failure — an invalid name, or a payload
that matches neither the token nor the group shape — records exactly one
`{path, message}` error scoped to the failing node's path and excludes
only that subtree: parsing the document with the invalid entry removed
yields exactly the same node list, and the two error lists differ
precisely by the one inserted error.  Sibling nodes before and after the
invalid entry are arbitrary and still processed.  The parser of this
embedding is a total function, so it always returns both the node list
and the error list and never throws, whatever the invalid payload is. -/
theorem C2_partial_failure
    (pre post : List (String × Json)) (n : String) (d : Json)
    (hroot : ¬(n = "$root"))
    (hbad : nameValid n = false ∨
      (nameValid n = true ∧
        (if d.isTokenObject then (tokenSchema d).map Payload.token
         else (groupSchema d).map Payload.group) = none)) :
    (parseDesignTokens (.obj (pre ++ (n, d) :: post))).nodes =
      (parseDesignTokens (.obj (pre ++ post))).nodes ∧
    ∃ e₁ e₂,
      (parseDesignTokens (.obj (pre ++ post))).errors = e₁ ++ e₂ ∧
      (parseDesignTokens (.obj (pre ++ (n, d) :: post))).errors =
        e₁ ++ (⟨n, if nameValid n = true then prettyErrorMsg
          else "Invalid name \"" ++ n ++ "\""⟩ : ParseError) :: e₂ := by
  have hint : String.intercalate "." [n] = n := rfl
  have hstep : ∀ (st : P1State),
      parseNode (Json.jsize d) none n d none st =
        { st with errors := st.errors ++
            [⟨n, if nameValid n = true then prettyErrorMsg
              else "Invalid name \"" ++ n ++ "\""⟩] } := by
    intro st
    obtain ⟨g, hg⟩ := Nat.exists_eq_succ_of_ne_zero
      (Nat.pos_iff_ne_zero.mp (Json.jsize_pos d))
    rw [hg]
    simp only [parseNode]
    rcases hbad with h1 | ⟨h1, h2⟩
    · rw [if_pos ⟨by simp [h1], hroot⟩]
      simp [h1, hint]
    · rw [if_neg (by simp [h1])]
      simp only [h2]
      simp [h1, hint]
  have hF0 : ∀ (st : P1State) (p : String × Json),
      parseNode (Json.jsize p.2) none p.1 p.2 none st =
        ⟨(parseNode (Json.jsize p.2) none p.1 p.2 none
            ⟨st.inters, [], st.counter⟩).inters,
         st.errors ++ (parseNode (Json.jsize p.2) none p.1 p.2 none
            ⟨st.inters, [], st.counter⟩).errors,
         (parseNode (Json.jsize p.2) none p.1 p.2 none
            ⟨st.inters, [], st.counter⟩).counter⟩ :=
    fun st p => parseNode_errors_acc _ _ _ _ _ st
  simp only [parseDesignTokens, parseDesignTokensFrom,
    List.foldl_append, List.foldl_cons]
  rw [hstep]
  generalize hA : List.foldl
    (fun (st : P1State) (p : String × Json) =>
      parseNode (Json.jsize p.2) none p.1 p.2 none st) ⟨[], [], 0⟩ pre = A
  obtain ⟨AI, AE, AC⟩ := A
  rw [foldl_errors_acc _ hF0 post ⟨AI, AE ++ [_], AC⟩,
      foldl_errors_acc _ hF0 post ⟨AI, AE, AC⟩]
  dsimp only
  generalize hP : List.foldl
    (fun (st : P1State) (p : String × Json) =>
      parseNode (Json.jsize p.2) none p.1 p.2 none st) ⟨AI, [], AC⟩ post = P
  obtain ⟨PI, PE, PC⟩ := P
  rw [p2foldl_errors_acc PI PI ⟨[], (AE ++ [_]) ++ PE, []⟩,
      p2foldl_errors_acc PI PI ⟨[], AE ++ PE, []⟩]
  dsimp only
  generalize hQ : List.foldl (p2Step PI) ⟨[], [], []⟩ PI = Q
  obtain ⟨QN, QE, QL⟩ := Q
  refine ⟨rfl, AE, PE ++ QE, ?_, ?_⟩ <;> simp

/-- C2 witness: a document whose middle entry has the invalid name
`"bad.name"` parses to the same nodes as the document without it, with
the one path-scoped error inserted. -/
theorem C2_partial_failure_witness :
    (parseDesignTokens (.obj
        ([("a", .obj [("$type", .str "color"), ("$value", redColor)])] ++
         ("bad.name", .obj []) ::
         [("b", .obj [("$type", .str "color"),
            ("$value", blueColor)])]))).nodes =
      (parseDesignTokens (.obj
        ([("a", .obj [("$type", .str "color"), ("$value", redColor)])] ++
         [("b", .obj [("$type", .str "color"),
            ("$value", blueColor)])]))).nodes ∧
    ∃ e₁ e₂,
      (parseDesignTokens (.obj
        ([("a", .obj [("$type", .str "color"), ("$value", redColor)])] ++
         [("b", .obj [("$type", .str "color"),
            ("$value", blueColor)])]))).errors = e₁ ++ e₂ ∧
      (parseDesignTokens (.obj
        ([("a", .obj [("$type", .str "color"), ("$value", redColor)])] ++
         ("bad.name", .obj []) ::
         [("b", .obj [("$type", .str "color"),
            ("$value", blueColor)])]))).errors =
        e₁ ++ (⟨"bad.name", if nameValid "bad.name" = true
          then prettyErrorMsg
          else "Invalid name \"" ++ "bad.name" ++ "\""⟩ : ParseError) ::
          e₂ :=
  C2_partial_failure
    [("a", .obj [("$type", .str "color"), ("$value", redColor)])]
    [("b", .obj [("$type", .str "color"), ("$value", blueColor)])]
    "bad.name" (.obj []) (by decide) (Or.inl (by decide))

end C2

section C7

open Tokens DtcgSchema Examples

/-- A token with no `$type` nested three levels below a group declaring
`$type: "color"`. -/
def c7Doc : Json :=
  .obj [("g1", .obj [
    ("$type", .str "color"),
    ("g2", .obj [
      ("g3", .obj [
        ("tok", .obj [("$value", redColor)])])])])]

/-- C7: a token's effective type is its own declared type, else the
nearest ancestor group's declared type, else the type reached through
the alias chain; a token with no determinable type is invalid.  The
conjuncts: (1) the token with no `$type` nested three levels under a
group declaring `$type "color"` parses with effective type `color` and
no errors; (2) `parseNode` stores as a token's type its own `$type`,
falling back to the type cascaded from the ancestors; (3) for an alias
token without own type, an ancestor-declared type wins: the alias-chain
walk starts at the token itself, whose stored type already includes the
inheritance, so `resolveTokenTypeAndValue` returns it; (4) a token whose
type cannot be determined is excluded from the output with a
`"Token type cannot be determined"` error at its path. -/
theorem C7_type_inheritance :
    ((parseDesignTokens c7Doc).errors = [] ∧
      (parseDesignTokens c7Doc).nodes.map (fun nd => nd.meta) =
        [.group "g1" (some .color) none none none,
         .group "g2" (some .color) none none none,
         .group "g3" (some .color) none none none,
         .token "tok" .color redColor none none none]) ∧
    (∀ (fuel : Nat) (pp : Option (List String)) (nm : String) (d : Json)
        (ty : Option TokenType) (st : P1State) (t : Token),
      nameValid nm = true →
      d.isTokenObject = true →
      tokenSchema d = some t →
      mapGet (parseNode (fuel + 1) pp nm d ty st).inters
          (String.intercalate "." (match pp with
            | some l => l ++ [nm]
            | none => [nm])) =
        some ⟨pp.map (String.intercalate "."), nm, uuid st.counter,
          t.type?.orElse (fun _ => ty), .token t⟩) ∧
    (∀ (inters : List (String × IntermediaryNode)) (path : String)
        (inter : IntermediaryNode) (t t' : Token) (ty : TokenType),
      mapGet inters path = some inter →
      inter.payload = .token t' →
      inter.type = some ty →
      isTokenReference t.value = true →
      t.type? = none →
      ¬(path = "") →
      resolveTokenTypeAndValue inters path inter t =
        (some (ty, t.value), [])) ∧
    (∀ (inters : List (String × IntermediaryNode)) (st : P2State)
        (path : String) (inter : IntermediaryNode) (t : Token),
      inter.payload = .token t →
      (resolveTokenTypeAndValue inters path inter t).1 = none →
      p2Step inters st (path, inter) =
        { st with errors := st.errors ++
            (resolveTokenTypeAndValue inters path inter t).2 ++
            [⟨path, "Token type cannot be determined"⟩] }) := by
  refine ⟨⟨rfl, rfl⟩, ?_, ?_, ?_⟩
  · intro fuel pp nm d ty st t hname htok hschema
    simp only [parseNode]
    rw [if_neg (by simp [hname])]
    rw [if_pos htok]
    simp only [hschema, Option.map_some']
    exact mapGet_mapSet_self _ _ _
  · intro inters path inter t t' ty hget hpay hty href hown hpath
    have hres : resolveAliasType inters path = some ty := by
      unfold resolveAliasType
      simp only [resolveAliasTypeGo]
      rw [if_neg hpath]
      simp [hget, hpay, hty]
    simp only [resolveTokenTypeAndValue, href, if_true, hown, hres]
    simp [Option.orElse]
  · intro inters st path inter t hpay hres
    simp only [p2Step]
    simp only [hpay]
    rcases hR : resolveTokenTypeAndValue inters path inter t with ⟨tv, errs⟩
    rw [hR] at hres
    simp only at hres
    subst hres
    simp [hR]

/-- C7 witness: the three universally quantified conjuncts applied at
concrete inputs — a token with no own type inheriting `color` from the
cascade, an alias token whose ancestor-inherited type beats its alias
chain, and a dangling alias token that is excluded with the
undeterminable-type error. -/
theorem C7_type_inheritance_witness :
    (mapGet (parseNode 1 none "t" (.obj [("$value", redColor)])
        (some .color) ⟨[], [], 0⟩).inters
        (String.intercalate "." [("t" : String)]) =
      some ⟨none, "t", uuid 0, some .color,
        .token ⟨redColor, none, none, none, none⟩⟩) ∧
    (resolveTokenTypeAndValue
        [("c", ⟨none, "c", uuid 0, some .color,
          .token ⟨.str "{x}", none, none, none, none⟩⟩)]
        "c"
        ⟨none, "c", uuid 0, some .color,
          .token ⟨.str "{x}", none, none, none, none⟩⟩
        ⟨.str "{x}", none, none, none, none⟩ =
      (some (.color, .str "{x}"), [])) ∧
    (p2Step [] ⟨[], [], []⟩
        ("p", ⟨none, "p", uuid 0, none,
          .token ⟨.str "{missing}", none, none, none, none⟩⟩) =
      ⟨[], [] ++
        (resolveTokenTypeAndValue [] "p"
          ⟨none, "p", uuid 0, none,
            .token ⟨.str "{missing}", none, none, none, none⟩⟩
          ⟨.str "{missing}", none, none, none, none⟩).2 ++
        [⟨"p", "Token type cannot be determined"⟩], []⟩) := by
  refine ⟨?_, ?_, ?_⟩
  · exact C7_type_inheritance.2.1 0 none "t" (.obj [("$value", redColor)])
      (some .color) ⟨[], [], 0⟩ ⟨redColor, none, none, none, none⟩
      (by decide) rfl rfl
  · exact C7_type_inheritance.2.2.1
      [("c", ⟨none, "c", uuid 0, some .color,
        .token ⟨.str "{x}", none, none, none, none⟩⟩)]
      "c"
      ⟨none, "c", uuid 0, some .color,
        .token ⟨.str "{x}", none, none, none, none⟩⟩
      ⟨.str "{x}", none, none, none, none⟩
      ⟨.str "{x}", none, none, none, none⟩
      .color rfl rfl rfl (by decide) rfl (by decide)
  · exact C7_type_inheritance.2.2.2 [] ⟨[], [], []⟩ "p"
      ⟨none, "p", uuid 0, none,
        .token ⟨.str "{missing}", none, none, none, none⟩⟩
      ⟨.str "{missing}", none, none, none, none⟩ rfl rfl

end C7

section C1

open Tokens DtcgSchema Schema Examples

/-! ### Dot-joined paths

`parseDesignTokens` keys its intermediary map by `path.join(".")`; since
every stored name is a valid name (no `.`) or `"$root"`, the joined
string determines the segment list. -/

theorem intercalate_go_shift :
    ∀ (l : List String) (acc₁ acc₂ : String),
      String.intercalate.go (acc₁ ++ acc₂) "." l =
        acc₁ ++ String.intercalate.go acc₂ "." l := by
  intro l
  induction l with
  | nil => intro acc₁ acc₂; rfl
  | cons a as ih =>
      intro acc₁ acc₂
      show String.intercalate.go (acc₁ ++ acc₂ ++ "." ++ a) "." as =
        acc₁ ++ String.intercalate.go (acc₂ ++ "." ++ a) "." as
      rw [String.append_assoc, String.append_assoc,
        ← String.append_assoc acc₂ (".") a]
      exact ih acc₁ (acc₂ ++ "." ++ a)

theorem intercalate_cons_cons (a : String) (l : List String) (h : l ≠ []) :
    String.intercalate "." (a :: l) =
      a ++ "." ++ String.intercalate "." l := by
  cases l with
  | nil => cases h rfl
  | cons b bs =>
      show String.intercalate.go (a ++ "." ++ b) "." bs =
        a ++ "." ++ String.intercalate.go b "." bs
      exact intercalate_go_shift bs (a ++ ".") b

theorem intercalate_single (a : String) :
    String.intercalate "." [a] = a := rfl

theorem append_dot_inj : ∀ (xs₁ : List Char) {xs₂ ys₁ ys₂ : List Char},
    ¬('.' ∈ xs₁) → ¬('.' ∈ xs₂) →
    xs₁ ++ '.' :: ys₁ = xs₂ ++ '.' :: ys₂ → xs₁ = xs₂ ∧ ys₁ = ys₂ := by
  intro xs₁
  induction xs₁ with
  | nil =>
      intro xs₂ ys₁ ys₂ _ h₂ he
      cases xs₂ with
      | nil => simpa using he
      | cons c cs =>
          simp only [List.nil_append, List.cons_append, List.cons.injEq]
            at he
          exact absurd (he.1 ▸ List.mem_cons_self '.' cs) h₂
  | cons x xs ih =>
      intro xs₂ ys₁ ys₂ h₁ h₂ he
      cases xs₂ with
      | nil =>
          simp only [List.nil_append, List.cons_append, List.cons.injEq]
            at he
          exact absurd (he.1.symm ▸ List.mem_cons_self '.' xs) h₁
      | cons y ys =>
          simp only [List.cons_append, List.cons.injEq] at he
          obtain ⟨hxy, htail⟩ := he
          have hrest := ih (fun hm => h₁ (List.mem_cons_of_mem x hm))
            (fun hm => h₂ (List.mem_cons_of_mem y hm)) htail
          exact ⟨by rw [hxy, hrest.1], hrest.2⟩

theorem data_intercalate_cons (a : String) (l : List String) (h : l ≠ []) :
    (String.intercalate "." (a :: l)).data =
      a.data ++ '.' :: (String.intercalate "." l).data := by
  rw [intercalate_cons_cons a l h]
  simp

theorem dotless_of_contains_false {s : String}
    (h : jsContainsChar s '.' = false) : ¬('.' ∈ s.data) := by
  unfold jsContainsChar at h
  simpa [String.toList] using h

theorem pathOf_inj : ∀ (l₁ l₂ : List String), l₁ ≠ [] → l₂ ≠ [] →
    (∀ s ∈ l₁, jsContainsChar s '.' = false) →
    (∀ s ∈ l₂, jsContainsChar s '.' = false) →
    String.intercalate "." l₁ = String.intercalate "." l₂ → l₁ = l₂ := by
  intro l₁
  induction l₁ with
  | nil => intro l₂ h; cases h rfl
  | cons a as ih =>
      intro l₂ _ h2ne hd₁ hd₂ he
      cases l₂ with
      | nil => cases h2ne rfl
      | cons b bs =>
          have hda : ¬('.' ∈ a.data) :=
            dotless_of_contains_false (hd₁ a (List.mem_cons_self a as))
          have hdb : ¬('.' ∈ b.data) :=
            dotless_of_contains_false (hd₂ b (List.mem_cons_self b bs))
          cases as with
          | nil =>
              cases bs with
              | nil =>
                  have : a = b := he
                  rw [this]
              | cons c cs =>
                  have hdat := congrArg String.data he
                  rw [intercalate_single,
                    data_intercalate_cons b (c :: cs) (by simp)] at hdat
                  exact absurd (hdat ▸ (by simp :
                    '.' ∈ b.data ++ '.' :: (String.intercalate "."
                      (c :: cs)).data)) hda
          | cons a₂ as₂ =>
              cases bs with
              | nil =>
                  have hdat := congrArg String.data he
                  rw [intercalate_single,
                    data_intercalate_cons a (a₂ :: as₂) (by simp)] at hdat
                  exact absurd (hdat.symm ▸ (by simp :
                    '.' ∈ a.data ++ '.' :: (String.intercalate "."
                      (a₂ :: as₂)).data)) hdb
              | cons b₂ bs₂ =>
                  have hdat := congrArg String.data he
                  rw [data_intercalate_cons a (a₂ :: as₂) (by simp),
                    data_intercalate_cons b (b₂ :: bs₂) (by simp)] at hdat
                  obtain ⟨hab, hrest⟩ := append_dot_inj a.data hda hdb hdat
                  have hab' : a = b := String.ext hab
                  have htl : a₂ :: as₂ = b₂ :: bs₂ :=
                    ih (b₂ :: bs₂) (by simp) (by simp)
                      (fun s hs => hd₁ s (List.mem_cons_of_mem a hs))
                      (fun s hs => hd₂ s (List.mem_cons_of_mem b hs))
                      (String.ext hrest)
                  rw [hab', htl]

/-! ### Generic facts about the zod combinators -/

def FieldSpec.key : FieldSpec → String
  | .req k _ => k
  | .opt k _ => k

def FieldSpec.val : FieldSpec → (Json → Option Json)
  | .req _ f => f
  | .opt _ f => f

theorem lookup_cons_ne {k k' : String} {v : Json}
    {rest : List (String × Json)} (h : ¬(k' = k)) :
    List.lookup k ((k', v) :: rest) = List.lookup k rest := by
  have hb : (k == k') = false := by
    simp
    exact fun hc => h hc.symm
  simp [List.lookup, hb]

theorem lookup_cons_self {k : String} {v : Json}
    {rest : List (String × Json)} :
    List.lookup k ((k, v) :: rest) = some v := by
  simp [List.lookup]

/-- `runFields` reads only the spec keys of its input. -/
theorem runFields_ext :
    ∀ (specs : List FieldSpec) (f₁ f₂ : List (String × Json)),
      (∀ s ∈ specs, f₁.lookup (FieldSpec.key s) = f₂.lookup (FieldSpec.key s)) →
      runFields f₁ specs = runFields f₂ specs := by
  intro specs
  induction specs with
  | nil => intro f₁ f₂ _; rfl
  | cons s rest ih =>
      intro f₁ f₂ h
      have hrest := ih f₁ f₂ (fun s hs => h s (List.mem_cons_of_mem _ hs))
      cases s with
      | req k f =>
          have hk := h _ (List.mem_cons_self _ _)
          simp only [FieldSpec.key] at hk
          simp only [runFields, hk, hrest]
      | opt k f =>
          have hk := h _ (List.mem_cons_self _ _)
          simp only [FieldSpec.key] at hk
          simp only [runFields, hk, hrest]

/-- Keys outside the spec never appear in a `runFields` output. -/
theorem runFields_lookup_none :
    ∀ (specs : List FieldSpec) (fields out : List (String × Json))
      (k : String),
      runFields fields specs = some out →
      (∀ s ∈ specs, ¬(FieldSpec.key s = k)) →
      out.lookup k = none := by
  intro specs
  induction specs with
  | nil =>
      intro fields out k h _
      simp only [runFields, Option.some.injEq] at h
      subst h
      rfl
  | cons s rest ih =>
      intro fields out k h hk
      cases s with
      | req k' f =>
          simp only [runFields, Option.bind_eq_bind, Option.bind_eq_some,
            Option.pure_def, Option.some.injEq] at h
          obtain ⟨j₀, hj₀, w, hw, r, hr, hout⟩ := h
          subst hout
          have hne : ¬(k' = k) := by
            have := hk _ (List.mem_cons_self _ _)
            simpa [FieldSpec.key] using this
          rw [lookup_cons_ne hne]
          exact ih fields r k hr
            (fun s hs => hk s (List.mem_cons_of_mem _ hs))
      | opt k' f =>
          have hne : ¬(k' = k) := by
            have := hk _ (List.mem_cons_self _ _)
            simpa [FieldSpec.key] using this
          simp only [runFields] at h
          cases hlk : fields.lookup k' with
          | none =>
              rw [hlk] at h
              exact ih fields out k h
                (fun s hs => hk s (List.mem_cons_of_mem _ hs))
          | some j₀ =>
              rw [hlk] at h
              simp only [Option.bind_eq_bind, Option.bind_eq_some,
                Option.pure_def, Option.some.injEq] at h
              obtain ⟨w, hw, r, hr, hout⟩ := h
              subst hout
              rw [lookup_cons_ne hne]
              exact ih fields r k hr
                (fun s hs => hk s (List.mem_cons_of_mem _ hs))

/-- Re-running a shape on its own output reproduces it, provided every
field validator is stable on its own outputs and the spec keys are
distinct. -/
theorem runFields_stable :
    ∀ (specs : List FieldSpec) (fields out : List (String × Json)),
      runFields fields specs = some out →
      (∀ s ∈ specs, ∀ j w, FieldSpec.val s j = some w →
        FieldSpec.val s w = some w) →
      (specs.map FieldSpec.key).Nodup →
      runFields out specs = some out := by
  intro specs
  induction specs with
  | nil =>
      intro fields out h _ _
      simp only [runFields, Option.some.injEq] at h
      subst h
      rfl
  | cons s rest ih =>
      intro fields out h hstab hnd
      have hnd' : (rest.map FieldSpec.key).Nodup :=
        (List.nodup_cons.mp hnd).2
      have hknotin : ∀ t ∈ rest, ¬(FieldSpec.key t = FieldSpec.key s) := by
        intro t ht hc
        exact (List.nodup_cons.mp hnd).1
          (hc ▸ List.mem_map_of_mem FieldSpec.key ht)
      cases s with
      | req k f =>
          simp only [runFields, Option.bind_eq_bind, Option.bind_eq_some,
            Option.pure_def, Option.some.injEq] at h
          obtain ⟨j₀, hj₀, w, hw, r, hr, hout⟩ := h
          subst hout
          have hfw : f w = some w :=
            hstab _ (List.mem_cons_self _ _) j₀ w hw
          have hrr : runFields r rest = some r :=
            ih fields r hr
              (fun t ht => hstab t (List.mem_cons_of_mem _ ht)) hnd'
          have hext : runFields ((k, w) :: r) rest = runFields r rest := by
            apply runFields_ext
            intro t ht
            have hno : ¬(FieldSpec.key t = k) := by
              have := hknotin t ht
              simpa [FieldSpec.key] using this
            rw [lookup_cons_ne (fun hc => hno hc.symm)]
          simp only [runFields, lookup_cons_self,
            Option.bind_eq_bind, Option.some_bind, hfw, hext, hrr]
          rfl
      | opt k f =>
          simp only [runFields] at h
          cases hlk : fields.lookup k with
          | none =>
              rw [hlk] at h
              have hrr : runFields out rest = some out :=
                ih fields out h
                  (fun t ht => hstab t (List.mem_cons_of_mem _ ht)) hnd'
              have hnone : out.lookup k = none :=
                runFields_lookup_none rest fields out k h
                  (fun t ht => by
                    have := hknotin t ht
                    simpa [FieldSpec.key] using this)
              simp only [runFields, hnone, hrr]
          | some j₀ =>
              rw [hlk] at h
              simp only [Option.bind_eq_bind, Option.bind_eq_some,
                Option.pure_def, Option.some.injEq] at h
              obtain ⟨w, hw, r, hr, hout⟩ := h
              subst hout
              have hfw : f w = some w :=
                hstab _ (List.mem_cons_self _ _) j₀ w hw
              have hrr : runFields r rest = some r :=
                ih fields r hr
                  (fun t ht => hstab t (List.mem_cons_of_mem _ ht)) hnd'
              have hext : runFields ((k, w) :: r) rest = runFields r rest := by
                apply runFields_ext
                intro t ht
                have hno : ¬(FieldSpec.key t = k) := by
                  have := hknotin t ht
                  simpa [FieldSpec.key] using this
                rw [lookup_cons_ne (fun hc => hno hc.symm)]
              simp only [runFields, lookup_cons_self,
                Option.bind_eq_bind, Option.some_bind, hfw, hext, hrr]
              rfl

/-- Shape of a successful `vObj` run. -/
theorem vObj_shape {specs : List FieldSpec} {j u : Json}
    (h : vObj specs j = some u) :
    ∃ fields out, j = .obj fields ∧ u = .obj out ∧
      runFields fields specs = some out := by
  cases j with
  | obj fields =>
      simp only [vObj, Option.map_eq_some'] at h
      obtain ⟨out, hout, hu⟩ := h
      exact ⟨fields, out, rfl, hu.symm, hout⟩
  | null => simp [vObj] at h
  | bool b => simp [vObj] at h
  | num q => simp [vObj] at h
  | str s => simp [vObj] at h
  | arr l => simp [vObj] at h

/-- A required key missing from the object rejects the shape. -/
theorem vObj_none_of_missing {k : String} {f : Json → Option Json}
    {specs : List FieldSpec} {fields : List (String × Json)}
    (h : fields.lookup k = none) :
    vObj (.req k f :: specs) (.obj fields) = none := by
  simp [vObj, runFields, h]

/-- `vObj` stability on its own outputs. -/
theorem vObj_stable {specs : List FieldSpec} {j u : Json}
    (h : vObj specs j = some u)
    (hstab : ∀ s ∈ specs, ∀ j w, FieldSpec.val s j = some w →
      FieldSpec.val s w = some w)
    (hnd : (specs.map FieldSpec.key).Nodup) :
    vObj specs u = some u := by
  obtain ⟨fields, out, _, hu, hrun⟩ := vObj_shape h
  subst hu
  simp [vObj, runFields_stable specs fields out hrun hstab hnd]

/-! ### Identity-on-success of the leaf validators

Most leaf validators return their input unchanged whenever they
succeed; the object and array combinators return their input unchanged
when applied to values they themselves produced. -/

/-- A validator that never alters an accepted value. -/
def IdSelf (f : Json → Option Json) : Prop :=
  ∀ {u v : Json}, f u = some v → v = u

theorem idSelf_vStr : IdSelf vStr := by
  intro u v h
  cases u <;> simp_all [vStr]

theorem idSelf_vNum : IdSelf vNum := by
  intro u v h
  cases u <;> simp_all [vNum]

theorem idSelf_vBool : IdSelf vBool := by
  intro u v h
  cases u <;> simp_all [vBool]

theorem idSelf_vLit (s : String) : IdSelf (vLit s) := by
  intro u v h
  cases u with
  | str t =>
      simp only [vLit] at h
      by_cases ht : t = s
      · rw [if_pos ht] at h
        exact (Option.some.injEq _ _ ▸ h).symm ▸ rfl
      · rw [if_neg ht] at h
        cases h
  | null => cases h
  | bool b => cases h
  | num q => cases h
  | arr l => cases h
  | obj fs => cases h

theorem idSelf_vEnum (opts : List String) : IdSelf (vEnum opts) := by
  intro u v h
  cases u with
  | str t =>
      simp only [vEnum] at h
      by_cases ht : opts.contains t = true
      · rw [if_pos ht] at h
        exact ((Option.some.injEq _ _).mp h).symm
      · rw [if_neg ht] at h
        cases h
  | null => cases h
  | bool b => cases h
  | num q => cases h
  | arr l => cases h
  | obj fs => cases h

theorem idSelf_vRef : IdSelf vRef := by
  intro u v h
  cases u with
  | str t =>
      simp only [vRef] at h
      by_cases ht : referenceValid t = true
      · rw [if_pos ht] at h
        exact ((Option.some.injEq _ _).mp h).symm
      · rw [if_neg ht] at h
        cases h
  | null => cases h
  | bool b => cases h
  | num q => cases h
  | arr l => cases h
  | obj fs => cases h

theorem idSelf_gradientPosition : IdSelf gradientPosition := by
  intro u v h
  cases u with
  | num n =>
      simp only [gradientPosition] at h
      by_cases hn : 0 ≤ n ∧ n ≤ 1
      · rw [if_pos hn] at h
        exact ((Option.some.injEq _ _).mp h).symm
      · rw [if_neg hn] at h
        cases h
  | null => cases h
  | bool b => cases h
  | str s => cases h
  | arr l => cases h
  | obj fs => cases h

theorem idSelf_vOr {f g : Json → Option Json} (hf : IdSelf f)
    (hg : IdSelf g) : IdSelf (vOr f g) := by
  intro u v h
  unfold vOr at h
  cases hfu : f u with
  | some w =>
      rw [hfu] at h
      simp only [Option.orElse] at h
      exact hf (hfu.trans (congrArg some ((Option.some.injEq _ _).mp h)))
  | none =>
      rw [hfu] at h
      simp only [Option.orElse] at h
      exact hg h

theorem idSelf_fontWeightNum :
    IdSelf (fun j => match j with
      | .num n => if 1 ≤ n ∧ n ≤ 1000 then some (.num n) else none
      | _ => none) := by
  intro u v h
  cases u with
  | num n =>
      simp only at h
      by_cases hn : 1 ≤ n ∧ n ≤ 1000
      · rw [if_pos hn] at h
        exact ((Option.some.injEq _ _).mp h).symm
      · rw [if_neg hn] at h
        cases h
  | null => cases h
  | bool b => cases h
  | str s => cases h
  | arr l => cases h
  | obj fs => cases h

theorem idSelf_fontWeightValue : IdSelf fontWeightValue :=
  idSelf_vOr idSelf_fontWeightNum (idSelf_vEnum fontWeightNames)

theorem idSelf_fontWeightValueSchema : IdSelf fontWeightValueSchema :=
  idSelf_vOr idSelf_vNum idSelf_vStr

theorem idSelf_colorComponent : IdSelf colorComponent :=
  idSelf_vOr idSelf_vNum (idSelf_vLit _)

theorem vArrGo_idSelf {v : Json → Option Json} (hv : IdSelf v) :
    ∀ {l out : List Json}, vArrGo v l = some out → out = l := by
  intro l
  induction l with
  | nil =>
      intro out h
      simp only [vArrGo, Option.some.injEq] at h
      exact h.symm
  | cons x xs ih =>
      intro out h
      simp only [vArrGo, Option.bind_eq_bind, Option.bind_eq_some,
        Option.pure_def, Option.some.injEq] at h
      obtain ⟨x', hx', xs', hxs', hout⟩ := h
      rw [← hout, hv hx', ih hxs']

theorem idSelf_vArr {v : Json → Option Json} (hv : IdSelf v) :
    IdSelf (vArr v) := by
  intro u w h
  cases u with
  | arr items =>
      simp only [vArr, Option.map_eq_some'] at h
      obtain ⟨out, hout, hw⟩ := h
      rw [← hw, vArrGo_idSelf hv hout]
  | null => cases h
  | bool b => cases h
  | num q => cases h
  | str s => cases h
  | obj fs => cases h

theorem idSelf_vArrMin {n : Nat} {v : Json → Option Json} (hv : IdSelf v) :
    IdSelf (vArrMin n v) := by
  intro u w h
  cases u with
  | arr items =>
      simp only [vArrMin] at h
      by_cases hn : n ≤ items.length
      · rw [if_pos hn] at h
        simp only [Option.map_eq_some'] at h
        obtain ⟨out, hout, hw⟩ := h
        rw [← hw, vArrGo_idSelf hv hout]
      · rw [if_neg hn] at h
        cases h
  | null => cases h
  | bool b => cases h
  | num q => cases h
  | str s => cases h
  | obj fs => cases h

theorem idSelf_fontFamilyValue : IdSelf fontFamilyValue :=
  idSelf_vOr idSelf_vStr (idSelf_vArrMin idSelf_vStr)

theorem idSelf_cubicBezierValue : IdSelf cubicBezierValue := by
  intro u v h
  cases u with
  | arr l =>
      match l with
      | [a, b, c, d] =>
          simp only [cubicBezierValue, Option.bind_eq_bind,
            Option.bind_eq_some, Option.pure_def, Option.some.injEq] at h
          obtain ⟨a', ha, b', hb, c', hc, d', hd, hv⟩ := h
          rw [← hv, idSelf_vNum ha, idSelf_vNum hb, idSelf_vNum hc,
            idSelf_vNum hd]
      | [] => cases h
      | [_] => cases h
      | [_, _] => cases h
      | [_, _, _] => cases h
      | _ :: _ :: _ :: _ :: _ :: _ => cases h
  | null => cases h
  | bool b => cases h
  | num q => cases h
  | str s => cases h
  | obj fs => cases h

/-- `R` does not alter values produced by `D` (it may reject them). -/
def IdOn (R D : Json → Option Json) : Prop :=
  ∀ (x u v : Json), D x = some u → R u = some v → v = u

theorem idOn_of_idSelf {R D : Json → Option Json} (h : IdSelf R) :
    IdOn R D := fun _ _ _ _ hr => h hr

theorem idOn_orD {R D₁ D₂ : Json → Option Json} (h₁ : IdOn R D₁)
    (h₂ : IdOn R D₂) : IdOn R (vOr D₁ D₂) := by
  intro x u v hd hr
  unfold vOr at hd
  cases hD : D₁ x with
  | some w =>
      rw [hD] at hd
      simp only [Option.orElse] at hd
      exact h₁ x u v
        (hD.trans (congrArg some ((Option.some.injEq _ _).mp hd))) hr
  | none =>
      rw [hD] at hd
      simp only [Option.orElse] at hd
      exact h₂ x u v hd hr

theorem idOn_orR {R₁ R₂ D : Json → Option Json} (h₁ : IdOn R₁ D)
    (h₂ : IdOn R₂ D) : IdOn (vOr R₁ R₂) D := by
  intro x u v hd hr
  unfold vOr at hr
  cases hR : R₁ u with
  | some w =>
      rw [hR] at hr
      simp only [Option.orElse] at hr
      exact ((Option.some.injEq _ _).mp hr) ▸ h₁ x u w hd hR
  | none =>
      rw [hR] at hr
      simp only [Option.orElse] at hr
      exact h₂ x u v hd hr

/-- Constructor-aligned field specs: same key, same optionality, and the
re-validator does not alter the first validator's outputs. -/
def specAligned : FieldSpec → FieldSpec → Prop
  | .req k f, .req k' f' => k = k' ∧ IdOn f' f
  | .opt k f, .opt k' f' => k = k' ∧ IdOn f' f
  | _, _ => False

theorem specAligned_key {d r : FieldSpec} (h : specAligned d r) :
    FieldSpec.key d = FieldSpec.key r := by
  cases d <;> cases r <;> simp_all [specAligned, FieldSpec.key]

theorem forall₂_keys {sD sR : List FieldSpec}
    (h : List.Forall₂ specAligned sD sR) :
    sD.map FieldSpec.key = sR.map FieldSpec.key := by
  induction h with
  | nil => rfl
  | cons hdr _ ih => simp [specAligned_key hdr, ih]

/-- Re-running an aligned shape on a shape output reproduces it
verbatim. -/
theorem runFields_ident :
    ∀ {sD sR : List FieldSpec} {fields out out' : List (String × Json)},
      List.Forall₂ specAligned sD sR →
      (sD.map FieldSpec.key).Nodup →
      runFields fields sD = some out →
      runFields out sR = some out' →
      out' = out := by
  intro sD sR fields out out' hF
  induction hF generalizing fields out out' with
  | nil =>
      intro _ h₁ h₂
      simp only [runFields, Option.some.injEq] at h₁ h₂
      rw [← h₂, ← h₁]
  | @cons d r ds rs hdr htail ih =>
      intro hnd h₁ h₂
      have hnd' : (ds.map FieldSpec.key).Nodup := (List.nodup_cons.mp hnd).2
      have hkni : ∀ t ∈ ds, ¬(FieldSpec.key t = FieldSpec.key d) := by
        intro t ht hc
        exact (List.nodup_cons.mp hnd).1
          (hc ▸ List.mem_map_of_mem FieldSpec.key ht)
      have hknir : ∀ t ∈ rs, ¬(FieldSpec.key t = FieldSpec.key d) := by
        intro t ht hc
        have hmem : FieldSpec.key t ∈ rs.map FieldSpec.key :=
          List.mem_map_of_mem FieldSpec.key ht
        rw [← forall₂_keys htail] at hmem
        obtain ⟨t', ht', hkey⟩ := List.mem_map.mp hmem
        exact hkni t' ht' (hkey.trans hc)
      cases d with
      | req k f =>
          cases r with
          | opt k' f' => exact absurd hdr (by simp [specAligned])
          | req k' f' =>
              obtain ⟨hk, hid⟩ := hdr
              subst hk
              simp only [runFields, Option.bind_eq_bind, Option.bind_eq_some,
                Option.pure_def, Option.some.injEq] at h₁
              obtain ⟨j₀, hj₀, w, hw, rd, hrd, hout⟩ := h₁
              subst hout
              simp only [runFields, Option.bind_eq_bind, Option.bind_eq_some,
                Option.pure_def, Option.some.injEq] at h₂
              obtain ⟨j₁, hj₁, v', hv', rr, hrr, hout'⟩ := h₂
              rw [lookup_cons_self] at hj₁
              have hj₁' : j₁ = w := ((Option.some.injEq _ _).mp hj₁).symm
              rw [hj₁'] at hv'
              have hvw : v' = w := hid _ _ _ hw hv'
              have hrext : runFields ((k, w) :: rd) rs = runFields rd rs :=
                runFields_ext rs _ _ (fun t ht =>
                  lookup_cons_ne (fun hc => hknir t ht (by
                    simpa [FieldSpec.key] using hc.symm)))
              rw [hrext] at hrr
              rw [← hout', hvw, ih hnd' hrd hrr]
      | opt k f =>
          cases r with
          | req k' f' => exact absurd hdr (by simp [specAligned])
          | opt k' f' =>
              obtain ⟨hk, hid⟩ := hdr
              subst hk
              simp only [runFields] at h₁
              cases hlk : fields.lookup k with
              | none =>
                  rw [hlk] at h₁
                  have hnone : out.lookup k = none :=
                    runFields_lookup_none ds fields out k h₁
                      (fun t ht => by
                        have := hkni t ht
                        simpa [FieldSpec.key] using this)
                  simp only [runFields, hnone] at h₂
                  exact ih hnd' h₁ h₂
              | some j₀ =>
                  rw [hlk] at h₁
                  simp only [Option.bind_eq_bind, Option.bind_eq_some,
                    Option.pure_def, Option.some.injEq] at h₁
                  obtain ⟨w, hw, rd, hrd, hout⟩ := h₁
                  subst hout
                  simp only [runFields, lookup_cons_self,
                    Option.bind_eq_bind, Option.bind_eq_some,
                    Option.pure_def, Option.some.injEq] at h₂
                  obtain ⟨v', hv', rr, hrr, hout'⟩ := h₂
                  have hvw : v' = w := hid _ _ _ hw hv'
                  have hrext : runFields ((k, w) :: rd) rs =
                      runFields rd rs :=
                    runFields_ext rs _ _ (fun t ht =>
                      lookup_cons_ne (fun hc => hknir t ht (by
                        simpa [FieldSpec.key] using hc.symm)))
                  rw [hrext] at hrr
                  rw [← hout', hvw, ih hnd' hrd hrr]

theorem vArrGo_ident {R D : Json → Option Json} (h : IdOn R D) :
    ∀ {l out out' : List Json}, vArrGo D l = some out →
      vArrGo R out = some out' → out' = out := by
  intro l
  induction l with
  | nil =>
      intro out out' h₁ h₂
      simp only [vArrGo, Option.some.injEq] at h₁
      rw [← h₁] at h₂ ⊢
      simp only [vArrGo, Option.some.injEq] at h₂
      exact h₂.symm
  | cons x xs ih =>
      intro out out' h₁ h₂
      simp only [vArrGo, Option.bind_eq_bind, Option.bind_eq_some,
        Option.pure_def, Option.some.injEq] at h₁
      obtain ⟨x', hx', xs', hxs', hout⟩ := h₁
      rw [← hout] at h₂
      simp only [vArrGo, Option.bind_eq_bind, Option.bind_eq_some,
        Option.pure_def, Option.some.injEq] at h₂
      obtain ⟨y, hy, ys, hys, hout'⟩ := h₂
      rw [← hout, ← hout', h _ _ _ hx' hy, ih hxs' hys]

theorem idOn_vObj {sD sR : List FieldSpec}
    (hF : List.Forall₂ specAligned sD sR)
    (hnd : (sD.map FieldSpec.key).Nodup) :
    IdOn (vObj sR) (vObj sD) := by
  intro x u v hd hr
  obtain ⟨fields, out, _, hu, hrun⟩ := vObj_shape hd
  subst hu
  obtain ⟨fields', out', hx', hv, hrun'⟩ := vObj_shape hr
  have hfo : fields' = out := by
    injection hx' with h'
    exact h'.symm
  subst hfo
  rw [hv, runFields_ident hF hnd hrun hrun']

theorem idOn_vArr {R D : Json → Option Json} (h : IdOn R D) :
    IdOn (vArr R) (vArr D) := by
  intro x u v hd hr
  cases x with
  | arr items =>
      simp only [vArr, Option.map_eq_some'] at hd
      obtain ⟨out, hout, hu⟩ := hd
      rw [← hu] at hr ⊢
      simp only [vArr, Option.map_eq_some'] at hr
      obtain ⟨out', hout', hv⟩ := hr
      rw [← hv, vArrGo_ident h hout hout']
  | null => cases hd
  | bool b => cases hd
  | num q => cases hd
  | str s => cases hd
  | obj fs => cases hd

theorem idOn_vArr_vArrMin {R D : Json → Option Json} {m : Nat}
    (h : IdOn R D) : IdOn (vArr R) (vArrMin m D) := by
  intro x u v hd hr
  cases x with
  | arr items =>
      simp only [vArrMin] at hd
      by_cases hm : m ≤ items.length
      · rw [if_pos hm] at hd
        simp only [Option.map_eq_some'] at hd
        obtain ⟨out, hout, hu⟩ := hd
        rw [← hu] at hr ⊢
        simp only [vArr, Option.map_eq_some'] at hr
        obtain ⟨out', hout', hv⟩ := hr
        rw [← hv, vArrGo_ident h hout hout']
      · rw [if_neg hm] at hd
        cases hd
  | null => cases hd
  | bool b => cases hd
  | num q => cases hd
  | str s => cases hd
  | obj fs => cases hd

theorem idOn_vArrMin_self {R D : Json → Option Json} {n m : Nat}
    (h : IdOn R D) : IdOn (vArrMin n R) (vArrMin m D) := by
  intro x u v hd hr
  cases x with
  | arr items =>
      simp only [vArrMin] at hd
      by_cases hm : m ≤ items.length
      · rw [if_pos hm] at hd
        simp only [Option.map_eq_some'] at hd
        obtain ⟨out, hout, hu⟩ := hd
        rw [← hu] at hr ⊢
        simp only [vArrMin] at hr
        by_cases hn : n ≤ out.length
        · rw [if_pos hn] at hr
          simp only [Option.map_eq_some'] at hr
          obtain ⟨out', hout', hv⟩ := hr
          rw [← hv, vArrGo_ident h hout hout']
        · rw [if_neg hn] at hr
          cases hr
      · rw [if_neg hm] at hd
        cases hd
  | null => cases hd
  | bool b => cases hd
  | num q => cases hd
  | str s => cases hd
  | obj fs => cases hd

/-! ### Stability of validators on their own outputs -/

theorem stable_of_idSelf {f : Json → Option Json} (h : IdSelf f) :
    ∀ {j w : Json}, f j = some w → f w = some w := by
  intro j w hw
  have e := h hw
  rw [e]
  exact e ▸ hw

theorem vOr_stable {f g : Json → Option Json}
    (hf : ∀ {j u : Json}, f j = some u → f u = some u)
    (hg : ∀ {j u : Json}, g j = some u → g u = some u)
    (hfg : ∀ {j u : Json}, f j = none → g j = some u → f u = none) :
    ∀ {j u : Json}, vOr f g j = some u → vOr f g u = some u := by
  intro j u h
  unfold vOr at h ⊢
  cases hfj : f j with
  | some w =>
      rw [hfj] at h
      simp only [Option.orElse] at h
      have hw : f j = some u := by rw [hfj, h]
      rw [hf hw]
      simp [Option.orElse]
  | none =>
      rw [hfj] at h
      simp only [Option.orElse] at h
      rw [hfg hfj h]
      simp only [Option.orElse]
      exact hg h

theorem vArrGo_stable {v : Json → Option Json}
    (hv : ∀ {j u : Json}, v j = some u → v u = some u) :
    ∀ {l out : List Json}, vArrGo v l = some out →
      vArrGo v out = some out := by
  intro l
  induction l with
  | nil =>
      intro out h
      simp only [vArrGo, Option.some.injEq] at h
      rw [← h]
      rfl
  | cons x xs ih =>
      intro out h
      simp only [vArrGo, Option.bind_eq_bind, Option.bind_eq_some,
        Option.pure_def, Option.some.injEq] at h
      obtain ⟨x', hx', xs', hxs', hout⟩ := h
      rw [← hout]
      simp only [vArrGo, Option.bind_eq_bind, hv hx', Option.some_bind,
        ih hxs', Option.pure_def]

theorem vArrGo_length {v : Json → Option Json} :
    ∀ {l out : List Json}, vArrGo v l = some out →
      out.length = l.length := by
  intro l
  induction l with
  | nil =>
      intro out h
      simp only [vArrGo, Option.some.injEq] at h
      rw [← h]
  | cons x xs ih =>
      intro out h
      simp only [vArrGo, Option.bind_eq_bind, Option.bind_eq_some,
        Option.pure_def, Option.some.injEq] at h
      obtain ⟨x', hx', xs', hxs', hout⟩ := h
      rw [← hout]
      simp [ih hxs']

theorem vArrGo_mem {v : Json → Option Json} :
    ∀ {l out : List Json}, vArrGo v l = some out →
      ∀ w ∈ out, ∃ x, v x = some w := by
  intro l
  induction l with
  | nil =>
      intro out h w hw
      simp only [vArrGo, Option.some.injEq] at h
      rw [← h] at hw
      cases hw
  | cons x xs ih =>
      intro out h w hw
      simp only [vArrGo, Option.bind_eq_bind, Option.bind_eq_some,
        Option.pure_def, Option.some.injEq] at h
      obtain ⟨x', hx', xs', hxs', hout⟩ := h
      rw [← hout] at hw
      rcases List.mem_cons.mp hw with h1 | h2
      · exact ⟨x, h1 ▸ hx'⟩
      · exact ih hxs' w h2

theorem vArrMin_stable {n : Nat} {v : Json → Option Json}
    (hv : ∀ {j u : Json}, v j = some u → v u = some u) :
    ∀ {j u : Json}, vArrMin n v j = some u → vArrMin n v u = some u := by
  intro j u h
  cases j with
  | arr items =>
      simp only [vArrMin] at h
      by_cases hn : n ≤ items.length
      · rw [if_pos hn] at h
        simp only [Option.map_eq_some'] at h
        obtain ⟨out, hout, hu⟩ := h
        rw [← hu]
        simp only [vArrMin]
        rw [if_pos (by rw [vArrGo_length hout]; exact hn)]
        simp [vArrGo_stable hv hout]
      · rw [if_neg hn] at h
        cases h
  | null => cases h
  | bool b => cases h
  | num q => cases h
  | str s => cases h
  | obj fs => cases h

theorem vArr_stable {v : Json → Option Json}
    (hv : ∀ {j u : Json}, v j = some u → v u = some u) :
    ∀ {j u : Json}, vArr v j = some u → vArr v u = some u := by
  intro j u h
  cases j with
  | arr items =>
      simp only [vArr, Option.map_eq_some'] at h
      obtain ⟨out, hout, hu⟩ := h
      rw [← hu]
      simp [vArr, vArrGo_stable hv hout]
  | null => cases h
  | bool b => cases h
  | num q => cases h
  | str s => cases h
  | obj fs => cases h

/-- A required key missing anywhere in the spec list fails the shape. -/
theorem runFields_none_of_missing :
    ∀ (specs : List FieldSpec) (fields : List (String × Json))
      (k : String) (f : Json → Option Json),
      .req k f ∈ specs → fields.lookup k = none →
      runFields fields specs = none := by
  intro specs
  induction specs with
  | nil => intro fields k f h; cases h
  | cons s rest ih =>
      intro fields k f hmem hnone
      rcases List.mem_cons.mp hmem with h1 | h2
      · rw [← h1]
        simp [runFields, hnone]
      · cases s with
        | req k' f' =>
            cases hlk : fields.lookup k' with
            | none => simp [runFields, hlk]
            | some j₀ =>
                cases hf : f' j₀ with
                | none => simp [runFields, hlk, hf]
                | some w =>
                    simp [runFields, hlk, hf, ih fields k f h2 hnone]
        | opt k' f' =>
            cases hlk : fields.lookup k' with
            | none => simp [runFields, hlk, ih fields k f h2 hnone]
            | some j₀ =>
                cases hf : f' j₀ with
                | none => simp [runFields, hlk, hf]
                | some w =>
                    simp [runFields, hlk, hf, ih fields k f h2 hnone]

/-- A required key missing from the object rejects the whole shape,
wherever it sits in the spec list. -/
theorem vObj_none_missing {k : String} {f : Json → Option Json}
    {specs : List FieldSpec} {fields : List (String × Json)}
    (hmem : .req k f ∈ specs) (h : fields.lookup k = none) :
    vObj specs (.obj fields) = none := by
  simp [vObj, runFields_none_of_missing specs fields k f hmem h]

/-- Extraction of a required field from a successful shape run. -/
theorem runFields_req_lookup :
    ∀ (specs : List FieldSpec) (fields out : List (String × Json))
      (k : String) (f : Json → Option Json),
      runFields fields specs = some out →
      .req k f ∈ specs →
      (specs.map FieldSpec.key).Nodup →
      ∃ j₀ w, fields.lookup k = some j₀ ∧ f j₀ = some w ∧
        out.lookup k = some w := by
  intro specs
  induction specs with
  | nil => intro fields out k f _ hmem; cases hmem
  | cons s rest ih =>
      intro fields out k f h hmem hnd
      have hnd' : (rest.map FieldSpec.key).Nodup := (List.nodup_cons.mp hnd).2
      rcases List.mem_cons.mp hmem with h1 | h2
      · rw [← h1] at h hnd
        simp only [runFields, Option.bind_eq_bind, Option.bind_eq_some,
          Option.pure_def, Option.some.injEq] at h
        obtain ⟨j₀, hj₀, w, hw, r, hr, hout⟩ := h
        exact ⟨j₀, w, hj₀, hw, by rw [← hout, lookup_cons_self]⟩
      · have hkk : ¬(FieldSpec.key s = k) := by
          intro hc
          exact (List.nodup_cons.mp hnd).1
            (hc ▸ (by
              have : FieldSpec.key (.req k f) ∈ rest.map FieldSpec.key :=
                List.mem_map_of_mem FieldSpec.key h2
              simpa [FieldSpec.key] using this))
        cases s with
        | req k' f' =>
            simp only [runFields, Option.bind_eq_bind, Option.bind_eq_some,
              Option.pure_def, Option.some.injEq] at h
            obtain ⟨j₀, hj₀, w, hw, r, hr, hout⟩ := h
            obtain ⟨j₁, w₁, hj₁, hw₁, hl⟩ := ih fields r k f hr h2 hnd'
            refine ⟨j₁, w₁, hj₁, hw₁, ?_⟩
            rw [← hout, lookup_cons_ne (by simpa [FieldSpec.key] using hkk)]
            exact hl
        | opt k' f' =>
            simp only [runFields] at h
            cases hlk : fields.lookup k' with
            | none =>
                rw [hlk] at h
                exact ih fields out k f h h2 hnd'
            | some j₀ =>
                rw [hlk] at h
                simp only [Option.bind_eq_bind, Option.bind_eq_some,
                  Option.pure_def, Option.some.injEq] at h
                obtain ⟨w, hw, r, hr, hout⟩ := h
                obtain ⟨j₁, w₁, hj₁, hw₁, hl⟩ := ih fields r k f hr h2 hnd'
                refine ⟨j₁, w₁, hj₁, hw₁, ?_⟩
                rw [← hout,
                  lookup_cons_ne (by simpa [FieldSpec.key] using hkk)]
                exact hl

/-! ### Per-member characterizations of the `$value` union -/

theorem vObj_char {specs : List FieldSpec} {j u : Json}
    (h : vObj specs j = some u) :
    ∃ out, u = .obj out ∧
      (∀ k, ¬(k ∈ specs.map FieldSpec.key) → out.lookup k = none) := by
  obtain ⟨fields, out, _, hu, hrun⟩ := vObj_shape h
  exact ⟨out, hu, fun k hk => runFields_lookup_none specs fields out k hrun
    (fun s hs hc => hk (hc ▸ List.mem_map_of_mem _ hs))⟩

theorem vEnum_char {opts : List String} {j u : Json}
    (h : vEnum opts j = some u) :
    ∃ t, u = .str t ∧ opts.contains t = true := by
  cases j with
  | str t =>
      simp only [vEnum] at h
      by_cases ht : opts.contains t = true
      · rw [if_pos ht] at h
        exact ⟨t, ((Option.some.injEq _ _).mp h).symm, ht⟩
      · rw [if_neg ht] at h
        cases h
  | null => cases h
  | bool b => cases h
  | num q => cases h
  | arr l => cases h
  | obj fs => cases h

theorem vNum_char {j u : Json} (h : vNum j = some u) :
    ∃ n, u = .num n := by
  cases j with
  | num n => exact ⟨n, (idSelf_vNum h) ▸ rfl⟩
  | null => cases h
  | bool b => cases h
  | str s => cases h
  | arr l => cases h
  | obj fs => cases h

theorem vStr_char {j u : Json} (h : vStr j = some u) :
    ∃ s, u = .str s := by
  cases j with
  | str s => exact ⟨s, (idSelf_vStr h) ▸ rfl⟩
  | null => cases h
  | bool b => cases h
  | num q => cases h
  | arr l => cases h
  | obj fs => cases h

theorem colorValue_stable {j u : Json} (h : colorValue j = some u) :
    colorValue u = some u := by
  refine vObj_stable h ?_ (by simp [FieldSpec.key])
  intro s hs j' w hw
  have hs' : s = .req ("colorSpace") (vEnum colorSpaces) ∨
      s = .req ("components") (vArr colorComponent) ∨
      s = .opt ("alpha") vNum ∨ s = .opt ("hex") vStr := by
    simpa using hs
  rcases hs' with rfl | rfl | rfl | rfl
  · exact stable_of_idSelf (idSelf_vEnum _) hw
  · exact stable_of_idSelf (idSelf_vArr idSelf_colorComponent) hw
  · exact stable_of_idSelf idSelf_vNum hw
  · exact stable_of_idSelf idSelf_vStr hw

theorem vOr_side_of_idSelf {f g : Json → Option Json} (hg : IdSelf g) :
    ∀ {j u : Json}, f j = none → g j = some u → f u = none :=
  fun hf hgu => (hg hgu) ▸ hf

theorem vRef_char {j u : Json} (h : vRef j = some u) :
    ∃ s, u = .str s := by
  cases j with
  | str s =>
      simp only [vRef] at h
      by_cases hs : referenceValid s = true
      · rw [if_pos hs] at h
        exact ⟨s, ((Option.some.injEq _ _).mp h).symm⟩
      · rw [if_neg hs] at h
        cases h
  | null => cases h
  | bool b => cases h
  | num q => cases h
  | arr l => cases h
  | obj fs => cases h

theorem vArrMin_char {n : Nat} {v : Json → Option Json} {j u : Json}
    (h : vArrMin n v j = some u) :
    ∃ items out, j = .arr items ∧ u = .arr out ∧ n ≤ items.length ∧
      vArrGo v items = some out := by
  cases j with
  | arr items =>
      simp only [vArrMin] at h
      by_cases hn : n ≤ items.length
      · rw [if_pos hn] at h
        simp only [Option.map_eq_some'] at h
        obtain ⟨out, hout, hu⟩ := h
        exact ⟨items, out, rfl, hu.symm, hn, hout⟩
      · rw [if_neg hn] at h
        cases h
  | null => cases h
  | bool b => cases h
  | num q => cases h
  | str s => cases h
  | obj fs => cases h

theorem vArr_char {v : Json → Option Json} {j u : Json}
    (h : vArr v j = some u) :
    ∃ items out, j = .arr items ∧ u = .arr out ∧
      vArrGo v items = some out := by
  cases j with
  | arr items =>
      simp only [vArr, Option.map_eq_some'] at h
      obtain ⟨out, hout, hu⟩ := h
      exact ⟨items, out, rfl, hu.symm, hout⟩
  | null => cases h
  | bool b => cases h
  | num q => cases h
  | str s => cases h
  | obj fs => cases h

theorem dimensionValue_stable {j u : Json} (h : dimensionValue j = some u) :
    dimensionValue u = some u := by
  refine vObj_stable h ?_ (by simp [FieldSpec.key])
  intro s hs j' w hw
  have hs' : s = .req ("value") vNum ∨
      s = .req ("unit") (vEnum ["px", "rem"]) := by simpa using hs
  rcases hs' with rfl | rfl
  · exact stable_of_idSelf idSelf_vNum hw
  · exact stable_of_idSelf (idSelf_vEnum _) hw

theorem durationValue_stable {j u : Json} (h : durationValue j = some u) :
    durationValue u = some u := by
  refine vObj_stable h ?_ (by simp [FieldSpec.key])
  intro s hs j' w hw
  have hs' : s = .req ("value") vNum ∨
      s = .req ("unit") (vEnum ["ms", "s"]) := by simpa using hs
  rcases hs' with rfl | rfl
  · exact stable_of_idSelf idSelf_vNum hw
  · exact stable_of_idSelf (idSelf_vEnum _) hw

theorem strokeStyleValue_stable {j u : Json}
    (h : strokeStyleValue j = some u) : strokeStyleValue u = some u := by
  refine vOr_stable ?_ ?_ ?_ h
  · intro j' u' h'
    exact stable_of_idSelf (idSelf_vEnum _) h'
  · intro j' u' h'
    refine vObj_stable h' ?_ (by simp [FieldSpec.key])
    intro s hs j'' w hw
    have hs' : s = .req ("dashArray") (vArrMin 1 dimensionValue) ∨
        s = .req ("lineCap") (vEnum ["round", "butt", "square"]) := by
      simpa using hs
    rcases hs' with rfl | rfl
    · exact vArrMin_stable (fun h => dimensionValue_stable h) hw
    · exact stable_of_idSelf (idSelf_vEnum _) hw
  · intro j' u' hnone hsome
    obtain ⟨out, hu, _⟩ := vObj_char hsome
    rw [hu]
    rfl

theorem shadowObject_stable {j u : Json} (h : shadowObject j = some u) :
    shadowObject u = some u := by
  refine vObj_stable h ?_ (by simp [FieldSpec.key])
  intro s hs j' w hw
  have hs' : s = .req ("color") (vOr colorValue vRef) ∨
      s = .req ("offsetX") (vOr dimensionValue vRef) ∨
      s = .req ("offsetY") (vOr dimensionValue vRef) ∨
      s = .req ("blur") (vOr dimensionValue vRef) ∨
      s = .req ("spread") (vOr dimensionValue vRef) ∨
      s = .opt ("inset") vBool := by simpa using hs
  rcases hs' with rfl | rfl | rfl | rfl | rfl | rfl
  · exact vOr_stable (fun h => colorValue_stable h)
      (stable_of_idSelf idSelf_vRef) (vOr_side_of_idSelf idSelf_vRef) hw
  · exact vOr_stable (fun h => dimensionValue_stable h)
      (stable_of_idSelf idSelf_vRef) (vOr_side_of_idSelf idSelf_vRef) hw
  · exact vOr_stable (fun h => dimensionValue_stable h)
      (stable_of_idSelf idSelf_vRef) (vOr_side_of_idSelf idSelf_vRef) hw
  · exact vOr_stable (fun h => dimensionValue_stable h)
      (stable_of_idSelf idSelf_vRef) (vOr_side_of_idSelf idSelf_vRef) hw
  · exact vOr_stable (fun h => dimensionValue_stable h)
      (stable_of_idSelf idSelf_vRef) (vOr_side_of_idSelf idSelf_vRef) hw
  · exact stable_of_idSelf idSelf_vBool hw

theorem shadowValue_stable {j u : Json} (h : shadowValue j = some u) :
    shadowValue u = some u := by
  refine vOr_stable ?_ ?_ ?_ h
  · exact fun h' => shadowObject_stable h'
  · exact fun h' => vArrMin_stable (fun h'' => shadowObject_stable h'') h'
  · intro j' u' hnone hsome
    obtain ⟨items, out, _, hu, _, _⟩ := vArrMin_char hsome
    rw [hu]
    rfl

theorem borderValue_stable {j u : Json} (h : borderValue j = some u) :
    borderValue u = some u := by
  refine vObj_stable h ?_ (by simp [FieldSpec.key])
  intro s hs j' w hw
  have hs' : s = .req ("color") (vOr colorValue vRef) ∨
      s = .req ("width") (vOr dimensionValue vRef) ∨
      s = .req ("style") (vOr strokeStyleValue vRef) := by simpa using hs
  rcases hs' with rfl | rfl | rfl
  · exact vOr_stable (fun h => colorValue_stable h)
      (stable_of_idSelf idSelf_vRef) (vOr_side_of_idSelf idSelf_vRef) hw
  · exact vOr_stable (fun h => dimensionValue_stable h)
      (stable_of_idSelf idSelf_vRef) (vOr_side_of_idSelf idSelf_vRef) hw
  · exact vOr_stable (fun h => strokeStyleValue_stable h)
      (stable_of_idSelf idSelf_vRef) (vOr_side_of_idSelf idSelf_vRef) hw

theorem transitionValue_stable {j u : Json}
    (h : transitionValue j = some u) : transitionValue u = some u := by
  refine vObj_stable h ?_ (by simp [FieldSpec.key])
  intro s hs j' w hw
  have hs' : s = .req ("duration") (vOr durationValue vRef) ∨
      s = .req ("delay") (vOr durationValue vRef) ∨
      s = .req ("timingFunction") (vOr cubicBezierValue vRef) := by
    simpa using hs
  rcases hs' with rfl | rfl | rfl
  · exact vOr_stable (fun h => durationValue_stable h)
      (stable_of_idSelf idSelf_vRef) (vOr_side_of_idSelf idSelf_vRef) hw
  · exact vOr_stable (fun h => durationValue_stable h)
      (stable_of_idSelf idSelf_vRef) (vOr_side_of_idSelf idSelf_vRef) hw
  · exact vOr_stable (stable_of_idSelf idSelf_cubicBezierValue)
      (stable_of_idSelf idSelf_vRef) (vOr_side_of_idSelf idSelf_vRef) hw

theorem typographyValue_stable {j u : Json}
    (h : typographyValue j = some u) : typographyValue u = some u := by
  refine vObj_stable h ?_ (by simp [FieldSpec.key])
  intro s hs j' w hw
  have hs' : s = .req ("fontFamily") (vOr fontFamilyValue vRef) ∨
      s = .req ("fontSize") (vOr dimensionValue vRef) ∨
      s = .req ("fontWeight") (vOr fontWeightValue vRef) ∨
      s = .req ("letterSpacing") (vOr dimensionValue vRef) ∨
      s = .req ("lineHeight") (vOr numberValue vRef) := by simpa using hs
  rcases hs' with rfl | rfl | rfl | rfl | rfl
  · exact vOr_stable (stable_of_idSelf idSelf_fontFamilyValue)
      (stable_of_idSelf idSelf_vRef) (vOr_side_of_idSelf idSelf_vRef) hw
  · exact vOr_stable (fun h => dimensionValue_stable h)
      (stable_of_idSelf idSelf_vRef) (vOr_side_of_idSelf idSelf_vRef) hw
  · exact vOr_stable (stable_of_idSelf idSelf_fontWeightValue)
      (stable_of_idSelf idSelf_vRef) (vOr_side_of_idSelf idSelf_vRef) hw
  · exact vOr_stable (fun h => dimensionValue_stable h)
      (stable_of_idSelf idSelf_vRef) (vOr_side_of_idSelf idSelf_vRef) hw
  · exact vOr_stable (stable_of_idSelf idSelf_vNum)
      (stable_of_idSelf idSelf_vRef) (vOr_side_of_idSelf idSelf_vRef) hw

theorem gradientStop_stable {j u : Json} (h : gradientStop j = some u) :
    gradientStop u = some u := by
  refine vObj_stable h ?_ (by simp [FieldSpec.key])
  intro s hs j' w hw
  have hs' : s = .req ("color") (vOr colorValue vRef) ∨
      s = .req ("position") vNum := by simpa using hs
  rcases hs' with rfl | rfl
  · exact vOr_stable (fun h => colorValue_stable h)
      (stable_of_idSelf idSelf_vRef) (vOr_side_of_idSelf idSelf_vRef) hw
  · exact stable_of_idSelf idSelf_vNum hw

theorem gradientValue_stable {j u : Json} (h : gradientValue j = some u) :
    gradientValue u = some u :=
  vArrMin_stable (fun h' => gradientStop_stable h') h

theorem vOr_cases {f g : Json → Option Json} {j u : Json}
    (h : vOr f g j = some u) :
    f j = some u ∨ (f j = none ∧ g j = some u) := by
  unfold vOr at h
  cases hf : f j with
  | some w =>
      rw [hf] at h
      simp only [Option.orElse] at h
      exact Or.inl h
  | none =>
      rw [hf] at h
      simp only [Option.orElse] at h
      exact Or.inr ⟨rfl, h⟩

theorem union_cases {j u : Json} (h : tokenValueUnion j = some u) :
    colorValue j = some u ∨ dimensionValue j = some u ∨
    fontFamilyValue j = some u ∨ fontWeightValue j = some u ∨
    durationValue j = some u ∨ cubicBezierValue j = some u ∨
    numberValue j = some u ∨ strokeStyleValue j = some u ∨
    borderValue j = some u ∨ transitionValue j = some u ∨
    shadowValue j = some u ∨ gradientValue j = some u ∨
    typographyValue j = some u ∨ vRef j = some u := by
  unfold tokenValueUnion at h
  rcases vOr_cases h with hm | ⟨_, h⟩
  · exact Or.inl hm
  rcases vOr_cases h with hm | ⟨_, h⟩
  · exact Or.inr (Or.inl hm)
  rcases vOr_cases h with hm | ⟨_, h⟩
  · exact Or.inr (Or.inr (Or.inl hm))
  rcases vOr_cases h with hm | ⟨_, h⟩
  · exact Or.inr (Or.inr (Or.inr (Or.inl hm)))
  rcases vOr_cases h with hm | ⟨_, h⟩
  · exact Or.inr (Or.inr (Or.inr (Or.inr (Or.inl hm))))
  rcases vOr_cases h with hm | ⟨_, h⟩
  · exact Or.inr (Or.inr (Or.inr (Or.inr (Or.inr (Or.inl hm)))))
  rcases vOr_cases h with hm | ⟨_, h⟩
  · exact Or.inr (Or.inr (Or.inr (Or.inr (Or.inr (Or.inr (Or.inl hm))))))
  rcases vOr_cases h with hm | ⟨_, h⟩
  · exact Or.inr (Or.inr (Or.inr (Or.inr (Or.inr (Or.inr (Or.inr
      (Or.inl hm)))))))
  rcases vOr_cases h with hm | ⟨_, h⟩
  · exact Or.inr (Or.inr (Or.inr (Or.inr (Or.inr (Or.inr (Or.inr
      (Or.inr (Or.inl hm))))))))
  rcases vOr_cases h with hm | ⟨_, h⟩
  · exact Or.inr (Or.inr (Or.inr (Or.inr (Or.inr (Or.inr (Or.inr
      (Or.inr (Or.inr (Or.inl hm)))))))))
  rcases vOr_cases h with hm | ⟨_, h⟩
  · exact Or.inr (Or.inr (Or.inr (Or.inr (Or.inr (Or.inr (Or.inr
      (Or.inr (Or.inr (Or.inr (Or.inl hm))))))))))
  rcases vOr_cases h with hm | ⟨_, h⟩
  · exact Or.inr (Or.inr (Or.inr (Or.inr (Or.inr (Or.inr (Or.inr
      (Or.inr (Or.inr (Or.inr (Or.inr (Or.inl hm)))))))))))
  rcases vOr_cases h with hm | ⟨_, h⟩
  · exact Or.inr (Or.inr (Or.inr (Or.inr (Or.inr (Or.inr (Or.inr
      (Or.inr (Or.inr (Or.inr (Or.inr (Or.inr (Or.inl hm))))))))))))
  exact Or.inr (Or.inr (Or.inr (Or.inr (Or.inr (Or.inr (Or.inr
    (Or.inr (Or.inr (Or.inr (Or.inr (Or.inr (Or.inr h))))))))))))

theorem cubicBezierValue_char {j u : Json}
    (h : cubicBezierValue j = some u) :
    ∃ n₁ n₂ n₃ n₄ : Rat,
      u = .arr [.num n₁, .num n₂, .num n₃, .num n₄] := by
  cases j with
  | arr l =>
      match l with
      | [a, b, c, d] =>
          simp only [cubicBezierValue, Option.bind_eq_bind,
            Option.bind_eq_some, Option.pure_def, Option.some.injEq] at h
          obtain ⟨a', ha, b', hb, c', hc, d', hd, hv⟩ := h
          obtain ⟨n₁, rfl⟩ := vNum_char ha
          obtain ⟨n₂, rfl⟩ := vNum_char hb
          obtain ⟨n₃, rfl⟩ := vNum_char hc
          obtain ⟨n₄, rfl⟩ := vNum_char hd
          exact ⟨n₁, n₂, n₃, n₄, hv.symm⟩
      | [] => cases h
      | [_] => cases h
      | [_, _] => cases h
      | [_, _, _] => cases h
      | _ :: _ :: _ :: _ :: _ :: _ => cases h
  | null => cases h
  | bool b => cases h
  | num q => cases h
  | str s => cases h
  | obj fs => cases h

theorem fontWeightValue_char {j u : Json}
    (h : fontWeightValue j = some u) :
    (∃ n : Rat, u = .num n ∧ 1 ≤ n ∧ n ≤ 1000) ∨
    (∃ t, u = .str t ∧ fontWeightNames.contains t = true) := by
  rcases vOr_cases h with hm | ⟨_, hm⟩
  · cases j with
    | num n =>
        simp only at hm
        by_cases hn : 1 ≤ n ∧ n ≤ 1000
        · rw [if_pos hn] at hm
          exact Or.inl ⟨n, ((Option.some.injEq _ _).mp hm).symm, hn.1, hn.2⟩
        · rw [if_neg hn] at hm
          cases hm
    | null => cases hm
    | bool b => cases hm
    | str s => cases hm
    | arr l => cases hm
    | obj fs => cases hm
  · obtain ⟨t, hu, ht⟩ := vEnum_char hm
    exact Or.inr ⟨t, hu, ht⟩

theorem union_back_color {j u : Json} (h : colorValue j = some u) :
    tokenValueUnion u = some u := by
  have hacc := colorValue_stable h
  simp [tokenValueUnion, vOr, hacc, Option.orElse]

theorem union_back_dimension {j u : Json} (h : dimensionValue j = some u) :
    tokenValueUnion u = some u := by
  obtain ⟨out, hu, hnone⟩ := vObj_char h
  have hC : colorValue u = none := by
    rw [hu]
    exact vObj_none_missing (List.mem_cons_self _ _)
      (hnone ("colorSpace") (by simp [FieldSpec.key]))
  have hacc := dimensionValue_stable h
  simp [tokenValueUnion, vOr, hC, hacc, Option.orElse]

theorem union_back_fontFamily {j u : Json}
    (h : fontFamilyValue j = some u) : tokenValueUnion u = some u := by
  have hacc : fontFamilyValue u = some u :=
    stable_of_idSelf idSelf_fontFamilyValue h
  rcases vOr_cases h with hstr | ⟨_, harr⟩
  · obtain ⟨s, rfl⟩ := vStr_char hstr
    simp [tokenValueUnion, vOr, colorValue, dimensionValue, vObj,
      Option.orElse, hacc]
  · obtain ⟨items, out, _, hu, hlen, hgo⟩ := vArrMin_char harr
    rw [hu] at hacc ⊢
    simp [tokenValueUnion, vOr, colorValue, dimensionValue, vObj,
      Option.orElse, hacc]

theorem union_back_fontWeight {j u : Json}
    (h : fontWeightValue j = some u) : tokenValueUnion u = some u := by
  rcases fontWeightValue_char h with ⟨n, rfl, h1, h2⟩ | ⟨t, rfl, ht⟩
  · have hacc : fontWeightValue (.num n) = some (.num n) := by
      simp [fontWeightValue, vOr, Option.orElse, h1, h2]
    simp [tokenValueUnion, vOr, colorValue, dimensionValue,
      fontFamilyValue, vStr, vArrMin, vObj, Option.orElse, hacc]
  · simp [tokenValueUnion, vOr, colorValue, dimensionValue, vObj,
      fontFamilyValue, vStr, Option.orElse]

theorem union_back_duration {j u : Json} (h : durationValue j = some u) :
    tokenValueUnion u = some u := by
  obtain ⟨fields, out, _, hu, hrun⟩ := vObj_shape h
  have hnone : ∀ k, ¬(k ∈ ([("value"), ("unit")] : List String)) →
      out.lookup k = none := by
    intro k hk
    refine runFields_lookup_none _ fields out k hrun ?_
    intro s hs hc
    have hs' : s = .req ("value") vNum ∨
        s = .req ("unit") (vEnum ["ms", "s"]) := by simpa using hs
    rcases hs' with rfl | rfl <;> simp [FieldSpec.key] at hc <;>
      simp [← hc] at hk
  obtain ⟨j₁, w₁, _, hw₁, hl₁⟩ :=
    runFields_req_lookup _ fields out ("value") vNum hrun
      (List.mem_cons_self _ _) (by simp [FieldSpec.key])
  obtain ⟨n, rfl⟩ := vNum_char hw₁
  obtain ⟨j₂, w₂, _, hw₂, hl₂⟩ :=
    runFields_req_lookup _ fields out ("unit") (vEnum ["ms", "s"]) hrun
      (by simp) (by simp [FieldSpec.key])
  obtain ⟨t, rfl, ht⟩ := vEnum_char hw₂
  have ht' : t = "ms" ∨ t = "s" := by simpa using ht
  have hC : colorValue u = none := by
    rw [hu]
    exact vObj_none_missing (List.mem_cons_self _ _)
      (hnone ("colorSpace") (by simp))
  have hD : dimensionValue u = none := by
    rw [hu]
    rcases ht' with rfl | rfl <;>
      simp [dimensionValue, vObj, runFields, hl₁, hl₂, vNum, vEnum]
  have hF : fontFamilyValue u = none := by rw [hu]; rfl
  have hW : fontWeightValue u = none := by rw [hu]; rfl
  have hacc := durationValue_stable h
  simp [tokenValueUnion, vOr, hC, hD, hF, hW, hacc, Option.orElse]

theorem union_back_cubicBezier {j u : Json}
    (h : cubicBezierValue j = some u) : tokenValueUnion u = some u := by
  obtain ⟨n₁, n₂, n₃, n₄, rfl⟩ := cubicBezierValue_char h
  have hacc : cubicBezierValue
      (.arr [.num n₁, .num n₂, .num n₃, .num n₄]) =
      some (.arr [.num n₁, .num n₂, .num n₃, .num n₄]) := rfl
  simp [tokenValueUnion, vOr, colorValue, dimensionValue, vObj,
    fontFamilyValue, vStr, vArrMin, vArrGo, fontWeightValue, vEnum,
    durationValue, Option.orElse, hacc]

theorem union_back_number {j u : Json} (h : numberValue j = some u) :
    tokenValueUnion u = some u := by
  obtain ⟨n, rfl⟩ := vNum_char h
  by_cases hn : 1 ≤ n ∧ n ≤ 1000
  · simp [tokenValueUnion, vOr, colorValue, dimensionValue, vObj,
      fontFamilyValue, vStr, vArrMin, fontWeightValue, Option.orElse,
      hn.1, hn.2]
  · simp [tokenValueUnion, vOr, colorValue, dimensionValue, vObj,
      fontFamilyValue, vStr, vArrMin, fontWeightValue, vEnum,
      durationValue, cubicBezierValue, numberValue, vNum, Option.orElse,
      hn]

theorem union_back_strokeStyle {j u : Json}
    (h : strokeStyleValue j = some u) : tokenValueUnion u = some u := by
  have hacc := strokeStyleValue_stable h
  rcases vOr_cases h with henum | ⟨_, hobj⟩
  · obtain ⟨t, rfl, ht⟩ := vEnum_char henum
    simp [tokenValueUnion, vOr, colorValue, dimensionValue, vObj,
      fontFamilyValue, vStr, Option.orElse]
  · obtain ⟨out, hu, hnone⟩ := vObj_char hobj
    have hC : colorValue u = none := by
      rw [hu]
      exact vObj_none_missing (List.mem_cons_self _ _)
        (hnone ("colorSpace") (by simp [FieldSpec.key]))
    have hD : dimensionValue u = none := by
      rw [hu]
      exact vObj_none_missing (List.mem_cons_self _ _)
        (hnone ("value") (by simp [FieldSpec.key]))
    have hDur : durationValue u = none := by
      rw [hu]
      exact vObj_none_missing (List.mem_cons_self _ _)
        (hnone ("value") (by simp [FieldSpec.key]))
    have hF : fontFamilyValue u = none := by rw [hu]; rfl
    have hW : fontWeightValue u = none := by rw [hu]; rfl
    have hCB : cubicBezierValue u = none := by rw [hu]; rfl
    have hN : numberValue u = none := by rw [hu]; rfl
    simp [tokenValueUnion, vOr, hC, hD, hF, hW, hDur, hCB, hN, hacc,
      Option.orElse]

theorem union_back_border {j u : Json} (h : borderValue j = some u) :
    tokenValueUnion u = some u := by
  have hacc := borderValue_stable h
  obtain ⟨out, hu, hnone⟩ := vObj_char h
  have hC : colorValue u = none := by
    rw [hu]
    exact vObj_none_missing (List.mem_cons_self _ _)
      (hnone ("colorSpace") (by simp [FieldSpec.key]))
  have hD : dimensionValue u = none := by
    rw [hu]
    exact vObj_none_missing (List.mem_cons_self _ _)
      (hnone ("value") (by simp [FieldSpec.key]))
  have hDur : durationValue u = none := by
    rw [hu]
    exact vObj_none_missing (List.mem_cons_self _ _)
      (hnone ("value") (by simp [FieldSpec.key]))
  have hSSo : vObj
      [.req ("dashArray") (vArrMin 1 dimensionValue),
       .req ("lineCap") (vEnum ["round", "butt", "square"])] u = none := by
    rw [hu]
    exact vObj_none_missing (List.mem_cons_self _ _)
      (hnone ("dashArray") (by simp [FieldSpec.key]))
  have hSS : strokeStyleValue u = none := by
    rw [hu] at hSSo ⊢
    simp [strokeStyleValue, vOr, strokeStyleString, vEnum, Option.orElse,
      hSSo]
  have hF : fontFamilyValue u = none := by rw [hu]; rfl
  have hW : fontWeightValue u = none := by rw [hu]; rfl
  have hCB : cubicBezierValue u = none := by rw [hu]; rfl
  have hN : numberValue u = none := by rw [hu]; rfl
  simp [tokenValueUnion, vOr, hC, hD, hF, hW, hDur, hCB, hN, hSS, hacc,
    Option.orElse]

theorem union_back_transition {j u : Json}
    (h : transitionValue j = some u) : tokenValueUnion u = some u := by
  have hacc := transitionValue_stable h
  obtain ⟨out, hu, hnone⟩ := vObj_char h
  have hC : colorValue u = none := by
    rw [hu]
    exact vObj_none_missing (List.mem_cons_self _ _)
      (hnone ("colorSpace") (by simp [FieldSpec.key]))
  have hD : dimensionValue u = none := by
    rw [hu]
    exact vObj_none_missing (List.mem_cons_self _ _)
      (hnone ("value") (by simp [FieldSpec.key]))
  have hDur : durationValue u = none := by
    rw [hu]
    exact vObj_none_missing (List.mem_cons_self _ _)
      (hnone ("value") (by simp [FieldSpec.key]))
  have hSSo : vObj
      [.req ("dashArray") (vArrMin 1 dimensionValue),
       .req ("lineCap") (vEnum ["round", "butt", "square"])] u = none := by
    rw [hu]
    exact vObj_none_missing (List.mem_cons_self _ _)
      (hnone ("dashArray") (by simp [FieldSpec.key]))
  have hSS : strokeStyleValue u = none := by
    rw [hu] at hSSo ⊢
    simp [strokeStyleValue, vOr, strokeStyleString, vEnum, Option.orElse,
      hSSo]
  have hB : borderValue u = none := by
    rw [hu]
    exact vObj_none_missing (List.mem_cons_self _ _)
      (hnone ("color") (by simp [FieldSpec.key]))
  have hF : fontFamilyValue u = none := by rw [hu]; rfl
  have hW : fontWeightValue u = none := by rw [hu]; rfl
  have hCB : cubicBezierValue u = none := by rw [hu]; rfl
  have hN : numberValue u = none := by rw [hu]; rfl
  simp [tokenValueUnion, vOr, hC, hD, hF, hW, hDur, hCB, hN, hSS, hB,
    hacc, Option.orElse]

theorem union_back_typography {j u : Json}
    (h : typographyValue j = some u) : tokenValueUnion u = some u := by
  have hacc := typographyValue_stable h
  obtain ⟨out, hu, hnone⟩ := vObj_char h
  have hC : colorValue u = none := by
    rw [hu]
    exact vObj_none_missing (List.mem_cons_self _ _)
      (hnone ("colorSpace") (by simp [FieldSpec.key]))
  have hD : dimensionValue u = none := by
    rw [hu]
    exact vObj_none_missing (List.mem_cons_self _ _)
      (hnone ("value") (by simp [FieldSpec.key]))
  have hDur : durationValue u = none := by
    rw [hu]
    exact vObj_none_missing (List.mem_cons_self _ _)
      (hnone ("value") (by simp [FieldSpec.key]))
  have hSSo : vObj
      [.req ("dashArray") (vArrMin 1 dimensionValue),
       .req ("lineCap") (vEnum ["round", "butt", "square"])] u = none := by
    rw [hu]
    exact vObj_none_missing (List.mem_cons_self _ _)
      (hnone ("dashArray") (by simp [FieldSpec.key]))
  have hSS : strokeStyleValue u = none := by
    rw [hu] at hSSo ⊢
    simp [strokeStyleValue, vOr, strokeStyleString, vEnum, Option.orElse,
      hSSo]
  have hB : borderValue u = none := by
    rw [hu]
    exact vObj_none_missing (List.mem_cons_self _ _)
      (hnone ("color") (by simp [FieldSpec.key]))
  have hT : transitionValue u = none := by
    rw [hu]
    exact vObj_none_missing (List.mem_cons_self _ _)
      (hnone ("duration") (by simp [FieldSpec.key]))
  have hShO : shadowObject u = none := by
    rw [hu]
    exact vObj_none_missing (List.mem_cons_self _ _)
      (hnone ("color") (by simp [FieldSpec.key]))
  have hSh : shadowValue u = none := by
    rw [hu] at hShO ⊢
    simp [shadowValue, vOr, Option.orElse, hShO, vArrMin]
  have hG : gradientValue u = none := by rw [hu]; rfl
  have hF : fontFamilyValue u = none := by rw [hu]; rfl
  have hW : fontWeightValue u = none := by rw [hu]; rfl
  have hCB : cubicBezierValue u = none := by rw [hu]; rfl
  have hN : numberValue u = none := by rw [hu]; rfl
  simp [tokenValueUnion, vOr, hC, hD, hF, hW, hDur, hCB, hN, hSS, hB,
    hT, hSh, hG, hacc, Option.orElse]

theorem cubic_none_of_obj_head (iout : List (String × Json))
    (rest : List Json) :
    cubicBezierValue (.arr (.obj iout :: rest)) = none := by
  match rest with
  | [] => rfl
  | [_] => rfl
  | [_, _] => rfl
  | [_, _, _] => rfl
  | _ :: _ :: _ :: _ :: _ => rfl

theorem union_back_shadow {j u : Json} (h : shadowValue j = some u) :
    tokenValueUnion u = some u := by
  have hacc := shadowValue_stable h
  rcases vOr_cases h with hobj | ⟨_, harr⟩
  · obtain ⟨out, hu, hnone⟩ := vObj_char hobj
    have hC : colorValue u = none := by
      rw [hu]
      exact vObj_none_missing (List.mem_cons_self _ _)
        (hnone ("colorSpace") (by simp [FieldSpec.key]))
    have hD : dimensionValue u = none := by
      rw [hu]
      exact vObj_none_missing (List.mem_cons_self _ _)
        (hnone ("value") (by simp [FieldSpec.key]))
    have hDur : durationValue u = none := by
      rw [hu]
      exact vObj_none_missing (List.mem_cons_self _ _)
        (hnone ("value") (by simp [FieldSpec.key]))
    have hSSo : vObj
        [.req ("dashArray") (vArrMin 1 dimensionValue),
         .req ("lineCap") (vEnum ["round", "butt", "square"])] u =
        none := by
      rw [hu]
      exact vObj_none_missing (List.mem_cons_self _ _)
        (hnone ("dashArray") (by simp [FieldSpec.key]))
    have hSS : strokeStyleValue u = none := by
      rw [hu] at hSSo ⊢
      simp [strokeStyleValue, vOr, strokeStyleString, vEnum,
        Option.orElse, hSSo]
    have hB : borderValue u = none := by
      rw [hu]
      exact vObj_none_missing
        (List.mem_cons_of_mem _ (List.mem_cons_self _ _))
        (hnone ("width") (by simp [FieldSpec.key]))
    have hT : transitionValue u = none := by
      rw [hu]
      exact vObj_none_missing (List.mem_cons_self _ _)
        (hnone ("duration") (by simp [FieldSpec.key]))
    have hF : fontFamilyValue u = none := by rw [hu]; rfl
    have hW : fontWeightValue u = none := by rw [hu]; rfl
    have hCB : cubicBezierValue u = none := by rw [hu]; rfl
    have hN : numberValue u = none := by rw [hu]; rfl
    simp [tokenValueUnion, vOr, hC, hD, hF, hW, hDur, hCB, hN, hSS, hB,
      hT, hacc, Option.orElse]
  · obtain ⟨items, out, _, hu, hlen, hgo⟩ := vArrMin_char harr
    have hlout : out.length = items.length := vArrGo_length hgo
    cases out with
    | nil =>
        rw [← hlout] at hlen
        simp at hlen
    | cons i rest =>
        obtain ⟨x, hx⟩ := vArrGo_mem hgo i (List.mem_cons_self _ _)
        obtain ⟨iout, hi, _⟩ := vObj_char hx
        rw [hi] at hu
        have hC : colorValue u = none := by rw [hu]; rfl
        have hD : dimensionValue u = none := by rw [hu]; rfl
        have hDur : durationValue u = none := by rw [hu]; rfl
        have hSS : strokeStyleValue u = none := by rw [hu]; rfl
        have hB : borderValue u = none := by rw [hu]; rfl
        have hT : transitionValue u = none := by rw [hu]; rfl
        have hF : fontFamilyValue u = none := by
          rw [hu]
          simp [fontFamilyValue, vOr, vStr, vArrMin, vArrGo, Option.orElse]
        have hW : fontWeightValue u = none := by rw [hu]; rfl
        have hCB : cubicBezierValue u = none := by
          rw [hu]
          exact cubic_none_of_obj_head iout rest
        have hN : numberValue u = none := by rw [hu]; rfl
        simp [tokenValueUnion, vOr, hC, hD, hF, hW, hDur, hCB, hN, hSS,
          hB, hT, hacc, Option.orElse]

theorem union_back_gradient {j u : Json} (h : gradientValue j = some u) :
    tokenValueUnion u = some u := by
  have hacc := gradientValue_stable h
  obtain ⟨items, out, _, hu, hlen, hgo⟩ := vArrMin_char h
  have hlout : out.length = items.length := vArrGo_length hgo
  cases out with
  | nil =>
      rw [← hlout] at hlen
      simp at hlen
  | cons stop rest =>
      obtain ⟨x, hx⟩ := vArrGo_mem hgo stop (List.mem_cons_self _ _)
      obtain ⟨sout, hs, hsnone⟩ := vObj_char hx
      rw [hs] at hu
      have hC : colorValue u = none := by rw [hu]; rfl
      have hD : dimensionValue u = none := by rw [hu]; rfl
      have hDur : durationValue u = none := by rw [hu]; rfl
      have hSS : strokeStyleValue u = none := by rw [hu]; rfl
      have hB : borderValue u = none := by rw [hu]; rfl
      have hT : transitionValue u = none := by rw [hu]; rfl
      have hF : fontFamilyValue u = none := by
        rw [hu]
        simp [fontFamilyValue, vOr, vStr, vArrMin, vArrGo, Option.orElse]
      have hW : fontWeightValue u = none := by rw [hu]; rfl
      have hCB : cubicBezierValue u = none := by
        rw [hu]
        exact cubic_none_of_obj_head sout rest
      have hN : numberValue u = none := by rw [hu]; rfl
      have hstop : shadowObject (.obj sout) = none :=
        vObj_none_missing
          (List.mem_cons_of_mem _ (List.mem_cons_self _ _))
          (hsnone ("offsetX") (by simp [FieldSpec.key]))
      have houter : shadowObject (.arr (.obj sout :: rest)) = none := rfl
      have hSh : shadowValue u = none := by
        rw [hu]
        simp [shadowValue, vOr, vArrMin, vArrGo, Option.orElse, houter,
          hstop]
      simp [tokenValueUnion, vOr, hC, hD, hF, hW, hDur, hCB, hN, hSS,
        hB, hT, hSh, hacc, Option.orElse]

theorem union_back_vRef {j u : Json} (h : vRef j = some u) :
    tokenValueUnion u = some u := by
  obtain ⟨s, rfl⟩ := vRef_char h
  simp [tokenValueUnion, vOr, colorValue, dimensionValue, vObj,
    fontFamilyValue, vStr, Option.orElse]

/-- The `$value` union is idempotent: re-validating an accepted value
reproduces it. -/
theorem tokenValueUnion_stable {j u : Json}
    (h : tokenValueUnion j = some u) : tokenValueUnion u = some u := by
  rcases union_cases h with
    hm | hm | hm | hm | hm | hm | hm | hm | hm | hm | hm | hm | hm | hm
  · exact union_back_color hm
  · exact union_back_dimension hm
  · exact union_back_fontFamily hm
  · exact union_back_fontWeight hm
  · exact union_back_duration hm
  · exact union_back_cubicBezier hm
  · exact union_back_number hm
  · exact union_back_strokeStyle hm
  · exact union_back_border hm
  · exact union_back_transition hm
  · exact union_back_shadow hm
  · exact union_back_gradient hm
  · exact union_back_typography hm
  · exact union_back_vRef hm

/-- The shadow single-object wrapping applied by
`resolveTokenTypeAndValue` before raw validation. -/
def shadowWrap (ty : TokenType) (u : Json) : Json :=
  if ty = .shadow then
    match shadowValue u with
    | some d =>
        match d with
        | .obj fields => .arr [.obj fields]
        | _ => u
    | none => u
  else u

theorem idOn_vacuous {R D : Json → Option Json}
    (h : ∀ x u, D x = some u → R u = none) : IdOn R D := by
  intro x u v hd hr
  rw [h _ _ hd] at hr
  cases hr

/-- `IdOn` instances for the diagonal raw/DTCG validator pairs. -/
theorem idOn_color_color : IdOn colorValue colorValue := by
  refine idOn_vObj ?_ (by simp [FieldSpec.key])
  refine List.Forall₂.cons ⟨rfl, idOn_of_idSelf (idSelf_vEnum _)⟩ ?_
  refine List.Forall₂.cons
    ⟨rfl, idOn_of_idSelf (idSelf_vArr idSelf_colorComponent)⟩ ?_
  refine List.Forall₂.cons ⟨rfl, idOn_of_idSelf idSelf_vNum⟩ ?_
  exact List.Forall₂.cons ⟨rfl, idOn_of_idSelf idSelf_vStr⟩
    List.Forall₂.nil

theorem idOn_dim_dim : IdOn dimensionValue dimensionValue := by
  refine idOn_vObj ?_ (by simp [FieldSpec.key])
  refine List.Forall₂.cons ⟨rfl, idOn_of_idSelf idSelf_vNum⟩ ?_
  exact List.Forall₂.cons ⟨rfl, idOn_of_idSelf (idSelf_vEnum _)⟩
    List.Forall₂.nil

theorem idOn_dur_dur : IdOn durationValue durationValue := by
  refine idOn_vObj ?_ (by simp [FieldSpec.key])
  refine List.Forall₂.cons ⟨rfl, idOn_of_idSelf idSelf_vNum⟩ ?_
  exact List.Forall₂.cons ⟨rfl, idOn_of_idSelf (idSelf_vEnum _)⟩
    List.Forall₂.nil

theorem idOn_stroke_stroke : IdOn strokeStyleValue strokeStyleValue := by
  refine idOn_orD ?_ ?_
  · exact idOn_orR (idOn_of_idSelf (idSelf_vEnum _))
      (idOn_vacuous (fun x u hd => by
        obtain ⟨t, rfl, _⟩ := vEnum_char hd
        rfl))
  · refine idOn_orR
      (idOn_vacuous (fun x u hd => by
        obtain ⟨out, rfl, _⟩ := vObj_char hd
        rfl)) ?_
    refine idOn_vObj ?_ (by simp [FieldSpec.key])
    refine List.Forall₂.cons
      ⟨rfl, idOn_vArrMin_self idOn_dim_dim⟩ ?_
    exact List.Forall₂.cons ⟨rfl, idOn_of_idSelf (idSelf_vEnum _)⟩
      List.Forall₂.nil

theorem idOn_obj_vRef {Y : Json → Option Json}
    (h : ∀ s, Y (.str s) = none) : IdOn Y vRef :=
  idOn_vacuous (fun x u hd => by
    obtain ⟨s, rfl⟩ := vRef_char hd
    exact h s)

theorem strokeStyle_str {s : String} {v : Json}
    (h : strokeStyleValue (.str s) = some v) : v = .str s := by
  rcases vOr_cases h with he | ⟨_, ho⟩
  · exact idSelf_vEnum _ he
  · cases ho

theorem idOn_color_vRef : IdOn colorValue vRef :=
  idOn_obj_vRef (fun s => rfl)

theorem idOn_dim_vRef : IdOn dimensionValue vRef :=
  idOn_obj_vRef (fun s => rfl)

theorem idOn_dur_vRef : IdOn durationValue vRef :=
  idOn_obj_vRef (fun s => rfl)

theorem idOn_stroke_vRef : IdOn strokeStyleValue vRef :=
  fun x u v hd hr => by
    obtain ⟨s, rfl⟩ := vRef_char hd
    exact strokeStyle_str hr

theorem idOn_field_color : IdOn (vOr colorValue vStr) (vOr colorValue vRef) :=
  idOn_orD (idOn_orR idOn_color_color (idOn_of_idSelf idSelf_vStr))
    (idOn_orR idOn_color_vRef (idOn_of_idSelf idSelf_vStr))

theorem idOn_field_dim :
    IdOn (vOr dimensionValue vStr) (vOr dimensionValue vRef) :=
  idOn_orD (idOn_orR idOn_dim_dim (idOn_of_idSelf idSelf_vStr))
    (idOn_orR idOn_dim_vRef (idOn_of_idSelf idSelf_vStr))

theorem idOn_field_dur :
    IdOn (vOr durationValue vStr) (vOr durationValue vRef) :=
  idOn_orD (idOn_orR idOn_dur_dur (idOn_of_idSelf idSelf_vStr))
    (idOn_orR idOn_dur_vRef (idOn_of_idSelf idSelf_vStr))

theorem idOn_field_stroke :
    IdOn (vOr strokeStyleValue vStr) (vOr strokeStyleValue vRef) :=
  idOn_orD (idOn_orR idOn_stroke_stroke (idOn_of_idSelf idSelf_vStr))
    (idOn_orR idOn_stroke_vRef (idOn_of_idSelf idSelf_vStr))

theorem idOn_field_cubic :
    IdOn (vOr cubicBezierValue vStr) (vOr cubicBezierValue vRef) :=
  idOn_of_idSelf (idSelf_vOr idSelf_cubicBezierValue idSelf_vStr)

theorem idOn_rawBorder :
    IdOn (vObj
      [.req ("color") (vOr colorValue vStr),
       .req ("width") (vOr dimensionValue vStr),
       .req ("style") (vOr strokeStyleValue vStr)]) borderValue := by
  refine idOn_vObj ?_ (by simp [FieldSpec.key])
  refine List.Forall₂.cons ⟨rfl, idOn_field_color⟩ ?_
  refine List.Forall₂.cons ⟨rfl, idOn_field_dim⟩ ?_
  exact List.Forall₂.cons ⟨rfl, idOn_field_stroke⟩ List.Forall₂.nil

theorem idOn_rawTransition :
    IdOn (vObj
      [.req ("duration") (vOr durationValue vStr),
       .req ("delay") (vOr durationValue vStr),
       .req ("timingFunction") (vOr cubicBezierValue vStr)])
      transitionValue := by
  refine idOn_vObj ?_ (by simp [FieldSpec.key])
  refine List.Forall₂.cons ⟨rfl, idOn_field_dur⟩ ?_
  refine List.Forall₂.cons ⟨rfl, idOn_field_dur⟩ ?_
  exact List.Forall₂.cons ⟨rfl, idOn_field_cubic⟩ List.Forall₂.nil

theorem idOn_rawTypography :
    IdOn (vObj
      [.req ("fontFamily") (vOr fontFamilyValue vStr),
       .req ("fontSize") (vOr dimensionValue vStr),
       .req ("fontWeight") (vOr fontWeightValueSchema vStr),
       .req ("letterSpacing") (vOr dimensionValue vStr),
       .req ("lineHeight") (vOr vNum vStr)]) typographyValue := by
  refine idOn_vObj ?_ (by simp [FieldSpec.key])
  refine List.Forall₂.cons
    ⟨rfl, idOn_of_idSelf (idSelf_vOr idSelf_fontFamilyValue idSelf_vStr)⟩
    ?_
  refine List.Forall₂.cons ⟨rfl, idOn_field_dim⟩ ?_
  refine List.Forall₂.cons
    ⟨rfl, idOn_of_idSelf
      (idSelf_vOr idSelf_fontWeightValueSchema idSelf_vStr)⟩ ?_
  refine List.Forall₂.cons ⟨rfl, idOn_field_dim⟩ ?_
  exact List.Forall₂.cons
    ⟨rfl, idOn_of_idSelf (idSelf_vOr idSelf_vNum idSelf_vStr)⟩
    List.Forall₂.nil

theorem idOn_rawShadowItem : IdOn rawShadowItemSchema shadowObject := by
  refine idOn_vObj ?_ (by simp [FieldSpec.key])
  refine List.Forall₂.cons ⟨rfl, idOn_field_color⟩ ?_
  refine List.Forall₂.cons ⟨rfl, idOn_field_dim⟩ ?_
  refine List.Forall₂.cons ⟨rfl, idOn_field_dim⟩ ?_
  refine List.Forall₂.cons ⟨rfl, idOn_field_dim⟩ ?_
  refine List.Forall₂.cons ⟨rfl, idOn_field_dim⟩ ?_
  exact List.Forall₂.cons ⟨rfl, idOn_of_idSelf idSelf_vBool⟩
    List.Forall₂.nil

theorem idOn_rawGradStop :
    IdOn (vObj
      [.req ("color") (vOr colorValue vStr),
       .req ("position") gradientPosition]) gradientStop := by
  refine idOn_vObj ?_ (by simp [FieldSpec.key])
  refine List.Forall₂.cons ⟨rfl, idOn_field_color⟩ ?_
  exact List.Forall₂.cons
    ⟨rfl, idOn_of_idSelf idSelf_gradientPosition⟩ List.Forall₂.nil

/-! ### The raw validators reproduce union-normal values -/

theorem dim_none_of_dur {u : Json} (h : durationValue u = some u) :
    dimensionValue u = none := by
  obtain ⟨fields, out, _, hu, hrun⟩ := vObj_shape h
  obtain ⟨j₁, w₁, _, hw₁, hl₁⟩ :=
    runFields_req_lookup _ fields out ("value") vNum hrun
      (List.mem_cons_self _ _) (by simp [FieldSpec.key])
  obtain ⟨n, rfl⟩ := vNum_char hw₁
  obtain ⟨j₂, w₂, _, hw₂, hl₂⟩ :=
    runFields_req_lookup _ fields out ("unit") (vEnum ["ms", "s"]) hrun
      (by simp) (by simp [FieldSpec.key])
  obtain ⟨t, rfl, ht⟩ := vEnum_char hw₂
  have ht' : t = "ms" ∨ t = "s" := by simpa using ht
  rw [hu]
  rcases ht' with rfl | rfl <;>
    simp [dimensionValue, vObj, runFields, hl₁, hl₂, vNum, vEnum]

theorem dur_none_of_dim {u : Json} (h : dimensionValue u = some u) :
    durationValue u = none := by
  obtain ⟨fields, out, _, hu, hrun⟩ := vObj_shape h
  obtain ⟨j₁, w₁, _, hw₁, hl₁⟩ :=
    runFields_req_lookup _ fields out ("value") vNum hrun
      (List.mem_cons_self _ _) (by simp [FieldSpec.key])
  obtain ⟨n, rfl⟩ := vNum_char hw₁
  obtain ⟨j₂, w₂, _, hw₂, hl₂⟩ :=
    runFields_req_lookup _ fields out ("unit") (vEnum ["px", "rem"]) hrun
      (by simp) (by simp [FieldSpec.key])
  obtain ⟨t, rfl, ht⟩ := vEnum_char hw₂
  have ht' : t = "px" ∨ t = "rem" := by simpa using ht
  rw [hu]
  rcases ht' with rfl | rfl <;>
    simp [durationValue, vObj, runFields, hl₁, hl₂, vNum, vEnum]

theorem raw_ident_number {u v : Json}
    (hraw : rawValueValidate .number u = some v) : v = u :=
  idSelf_vOr idSelf_vNum idSelf_vStr hraw

theorem raw_ident_fontWeight {u v : Json}
    (hraw : rawValueValidate .fontWeight u = some v) : v = u :=
  idSelf_vOr idSelf_fontWeightValueSchema idSelf_vStr hraw

theorem raw_ident_fontFamily {u v : Json}
    (hraw : rawValueValidate .fontFamily u = some v) : v = u :=
  idSelf_vOr idSelf_fontFamilyValue idSelf_vStr hraw

theorem raw_ident_cubicBezier {u v : Json}
    (hraw : rawValueValidate .cubicBezier u = some v) : v = u :=
  idSelf_vOr idSelf_cubicBezierValue idSelf_vStr hraw

theorem raw_ident_color {u v : Json}
    (hu : tokenValueUnion u = some u)
    (hraw : rawValueValidate .color u = some v) : v = u := by
  rcases vOr_cases hraw with hX | ⟨_, hstr⟩
  · obtain ⟨fields, vout, hufields, _, _⟩ := vObj_shape hX
    rcases union_cases hu with
      hm | hm | hm | hm | hm | hm | hm | hm | hm | hm | hm | hm | hm | hm
    · exact idOn_color_color _ _ _ hm hX
    · obtain ⟨out, hout, hnone⟩ := vObj_char hm
      have hC : colorValue (.obj out) = none :=
        vObj_none_missing (List.mem_cons_self _ _)
          (hnone ("colorSpace") (by simp [FieldSpec.key]))
      rw [hout, hC] at hX
      cases hX
    · rcases vOr_cases hm with hs | ⟨_, ha⟩
      · obtain ⟨s, hus⟩ := vStr_char hs
        rw [hufields] at hus
        cases hus
      · obtain ⟨items, aout, _, hua, _, _⟩ := vArrMin_char ha
        rw [hufields] at hua
        cases hua
    · rcases fontWeightValue_char hm with ⟨n, hun, _, _⟩ | ⟨t, hut, _⟩
      · rw [hufields] at hun; cases hun
      · rw [hufields] at hut; cases hut
    · obtain ⟨out, hout, hnone⟩ := vObj_char hm
      have hC : colorValue (.obj out) = none :=
        vObj_none_missing (List.mem_cons_self _ _)
          (hnone ("colorSpace") (by simp [FieldSpec.key]))
      rw [hout, hC] at hX
      cases hX
    · obtain ⟨n₁, n₂, n₃, n₄, hua⟩ := cubicBezierValue_char hm
      rw [hufields] at hua; cases hua
    · obtain ⟨n, hun⟩ := vNum_char hm
      rw [hufields] at hun; cases hun
    · rcases vOr_cases hm with he | ⟨_, ho⟩
      · obtain ⟨t, hut, _⟩ := vEnum_char he
        rw [hufields] at hut; cases hut
      · obtain ⟨out, hout, hnone⟩ := vObj_char ho
        have hC : colorValue (.obj out) = none :=
          vObj_none_missing (List.mem_cons_self _ _)
            (hnone ("colorSpace") (by simp [FieldSpec.key]))
        rw [hout, hC] at hX
        cases hX
    · obtain ⟨out, hout, hnone⟩ := vObj_char hm
      have hC : colorValue (.obj out) = none :=
        vObj_none_missing (List.mem_cons_self _ _)
          (hnone ("colorSpace") (by simp [FieldSpec.key]))
      rw [hout, hC] at hX
      cases hX
    · obtain ⟨out, hout, hnone⟩ := vObj_char hm
      have hC : colorValue (.obj out) = none :=
        vObj_none_missing (List.mem_cons_self _ _)
          (hnone ("colorSpace") (by simp [FieldSpec.key]))
      rw [hout, hC] at hX
      cases hX
    · rcases vOr_cases hm with ho | ⟨_, ha⟩
      · obtain ⟨out, hout, hnone⟩ := vObj_char ho
        have hC : colorValue (.obj out) = none :=
          vObj_none_missing (List.mem_cons_self _ _)
            (hnone ("colorSpace") (by simp [FieldSpec.key]))
        rw [hout, hC] at hX
        cases hX
      · obtain ⟨items, aout, _, hua, _, _⟩ := vArrMin_char ha
        rw [hufields] at hua; cases hua
    · obtain ⟨items, aout, _, hua, _, _⟩ := vArrMin_char hm
      rw [hufields] at hua; cases hua
    · obtain ⟨out, hout, hnone⟩ := vObj_char hm
      have hC : colorValue (.obj out) = none :=
        vObj_none_missing (List.mem_cons_self _ _)
          (hnone ("colorSpace") (by simp [FieldSpec.key]))
      rw [hout, hC] at hX
      cases hX
    · obtain ⟨s, hus⟩ := vRef_char hm
      rw [hufields] at hus; cases hus
  · exact idSelf_vStr hstr

theorem raw_ident_dimension {u v : Json}
    (hu : tokenValueUnion u = some u)
    (hraw : rawValueValidate .dimension u = some v) : v = u := by
  rcases vOr_cases hraw with hX | ⟨_, hstr⟩
  · obtain ⟨fields, vout, hufields, _, _⟩ := vObj_shape hX
    rcases union_cases hu with
      hm | hm | hm | hm | hm | hm | hm | hm | hm | hm | hm | hm | hm | hm
    · obtain ⟨out, hout, hnone⟩ := vObj_char hm
      have hC : dimensionValue (.obj out) = none :=
        vObj_none_missing (List.mem_cons_self _ _)
          (hnone ("value") (by simp [FieldSpec.key]))
      rw [hout, hC] at hX
      cases hX
    · exact idOn_dim_dim _ _ _ hm hX
    · rcases vOr_cases hm with hs | ⟨_, ha⟩
      · obtain ⟨s, hus⟩ := vStr_char hs
        rw [hufields] at hus; cases hus
      · obtain ⟨items, aout, _, hua, _, _⟩ := vArrMin_char ha
        rw [hufields] at hua; cases hua
    · rcases fontWeightValue_char hm with ⟨n, hun, _, _⟩ | ⟨t, hut, _⟩
      · rw [hufields] at hun; cases hun
      · rw [hufields] at hut; cases hut
    · rw [dim_none_of_dur hm] at hX
      cases hX
    · obtain ⟨n₁, n₂, n₃, n₄, hua⟩ := cubicBezierValue_char hm
      rw [hufields] at hua; cases hua
    · obtain ⟨n, hun⟩ := vNum_char hm
      rw [hufields] at hun; cases hun
    · rcases vOr_cases hm with he | ⟨_, ho⟩
      · obtain ⟨t, hut, _⟩ := vEnum_char he
        rw [hufields] at hut; cases hut
      · obtain ⟨out, hout, hnone⟩ := vObj_char ho
        have hC : dimensionValue (.obj out) = none :=
          vObj_none_missing (List.mem_cons_self _ _)
            (hnone ("value") (by simp [FieldSpec.key]))
        rw [hout, hC] at hX
        cases hX
    · obtain ⟨out, hout, hnone⟩ := vObj_char hm
      have hC : dimensionValue (.obj out) = none :=
        vObj_none_missing (List.mem_cons_self _ _)
          (hnone ("value") (by simp [FieldSpec.key]))
      rw [hout, hC] at hX
      cases hX
    · obtain ⟨out, hout, hnone⟩ := vObj_char hm
      have hC : dimensionValue (.obj out) = none :=
        vObj_none_missing (List.mem_cons_self _ _)
          (hnone ("value") (by simp [FieldSpec.key]))
      rw [hout, hC] at hX
      cases hX
    · rcases vOr_cases hm with ho | ⟨_, ha⟩
      · obtain ⟨out, hout, hnone⟩ := vObj_char ho
        have hC : dimensionValue (.obj out) = none :=
          vObj_none_missing (List.mem_cons_self _ _)
            (hnone ("value") (by simp [FieldSpec.key]))
        rw [hout, hC] at hX
        cases hX
      · obtain ⟨items, aout, _, hua, _, _⟩ := vArrMin_char ha
        rw [hufields] at hua; cases hua
    · obtain ⟨items, aout, _, hua, _, _⟩ := vArrMin_char hm
      rw [hufields] at hua; cases hua
    · obtain ⟨out, hout, hnone⟩ := vObj_char hm
      have hC : dimensionValue (.obj out) = none :=
        vObj_none_missing (List.mem_cons_self _ _)
          (hnone ("value") (by simp [FieldSpec.key]))
      rw [hout, hC] at hX
      cases hX
    · obtain ⟨s, hus⟩ := vRef_char hm
      rw [hufields] at hus; cases hus
  · exact idSelf_vStr hstr

theorem raw_ident_duration {u v : Json}
    (hu : tokenValueUnion u = some u)
    (hraw : rawValueValidate .duration u = some v) : v = u := by
  rcases vOr_cases hraw with hX | ⟨_, hstr⟩
  · obtain ⟨fields, vout, hufields, _, _⟩ := vObj_shape hX
    rcases union_cases hu with
      hm | hm | hm | hm | hm | hm | hm | hm | hm | hm | hm | hm | hm | hm
    · obtain ⟨out, hout, hnone⟩ := vObj_char hm
      have hC : durationValue (.obj out) = none :=
        vObj_none_missing (List.mem_cons_self _ _)
          (hnone ("value") (by simp [FieldSpec.key]))
      rw [hout, hC] at hX
      cases hX
    · rw [dur_none_of_dim hm] at hX
      cases hX
    · rcases vOr_cases hm with hs | ⟨_, ha⟩
      · obtain ⟨s, hus⟩ := vStr_char hs
        rw [hufields] at hus; cases hus
      · obtain ⟨items, aout, _, hua, _, _⟩ := vArrMin_char ha
        rw [hufields] at hua; cases hua
    · rcases fontWeightValue_char hm with ⟨n, hun, _, _⟩ | ⟨t, hut, _⟩
      · rw [hufields] at hun; cases hun
      · rw [hufields] at hut; cases hut
    · exact idOn_dur_dur _ _ _ hm hX
    · obtain ⟨n₁, n₂, n₃, n₄, hua⟩ := cubicBezierValue_char hm
      rw [hufields] at hua; cases hua
    · obtain ⟨n, hun⟩ := vNum_char hm
      rw [hufields] at hun; cases hun
    · rcases vOr_cases hm with he | ⟨_, ho⟩
      · obtain ⟨t, hut, _⟩ := vEnum_char he
        rw [hufields] at hut; cases hut
      · obtain ⟨out, hout, hnone⟩ := vObj_char ho
        have hC : durationValue (.obj out) = none :=
          vObj_none_missing (List.mem_cons_self _ _)
            (hnone ("value") (by simp [FieldSpec.key]))
        rw [hout, hC] at hX
        cases hX
    · obtain ⟨out, hout, hnone⟩ := vObj_char hm
      have hC : durationValue (.obj out) = none :=
        vObj_none_missing (List.mem_cons_self _ _)
          (hnone ("value") (by simp [FieldSpec.key]))
      rw [hout, hC] at hX
      cases hX
    · obtain ⟨out, hout, hnone⟩ := vObj_char hm
      have hC : durationValue (.obj out) = none :=
        vObj_none_missing (List.mem_cons_self _ _)
          (hnone ("value") (by simp [FieldSpec.key]))
      rw [hout, hC] at hX
      cases hX
    · rcases vOr_cases hm with ho | ⟨_, ha⟩
      · obtain ⟨out, hout, hnone⟩ := vObj_char ho
        have hC : durationValue (.obj out) = none :=
          vObj_none_missing (List.mem_cons_self _ _)
            (hnone ("value") (by simp [FieldSpec.key]))
        rw [hout, hC] at hX
        cases hX
      · obtain ⟨items, aout, _, hua, _, _⟩ := vArrMin_char ha
        rw [hufields] at hua; cases hua
    · obtain ⟨items, aout, _, hua, _, _⟩ := vArrMin_char hm
      rw [hufields] at hua; cases hua
    · obtain ⟨out, hout, hnone⟩ := vObj_char hm
      have hC : durationValue (.obj out) = none :=
        vObj_none_missing (List.mem_cons_self _ _)
          (hnone ("value") (by simp [FieldSpec.key]))
      rw [hout, hC] at hX
      cases hX
    · obtain ⟨s, hus⟩ := vRef_char hm
      rw [hufields] at hus; cases hus
  · exact idSelf_vStr hstr

theorem strokeStyle_obj_none {out : List (String × Json)}
    (h : out.lookup ("dashArray") = none) :
    strokeStyleValue (.obj out) = none := by
  have h2 : vObj
      [.req ("dashArray") (vArrMin 1 dimensionValue),
       .req ("lineCap") (vEnum ["round", "butt", "square"])]
      (.obj out) = none :=
    vObj_none_missing (List.mem_cons_self _ _) h
  simp [strokeStyleValue, strokeStyleString, vEnum, vOr, Option.orElse, h2]

theorem strokeStyle_arr_none (items : List Json) :
    strokeStyleValue (.arr items) = none := rfl

theorem strokeStyle_num_none (n : Rat) :
    strokeStyleValue (.num n) = none := rfl

theorem raw_ident_strokeStyle {u v : Json}
    (hu : tokenValueUnion u = some u)
    (hraw : rawValueValidate .strokeStyle u = some v) : v = u := by
  rcases vOr_cases hraw with hX | ⟨_, hstr⟩
  · rcases union_cases hu with
      hm | hm | hm | hm | hm | hm | hm | hm | hm | hm | hm | hm | hm | hm
    · obtain ⟨out, hout, hnone⟩ := vObj_char hm
      rw [hout, strokeStyle_obj_none
        (hnone ("dashArray") (by simp [FieldSpec.key]))] at hX
      cases hX
    · obtain ⟨out, hout, hnone⟩ := vObj_char hm
      rw [hout, strokeStyle_obj_none
        (hnone ("dashArray") (by simp [FieldSpec.key]))] at hX
      cases hX
    · rcases vOr_cases hm with hs | ⟨_, ha⟩
      · obtain ⟨s, hus⟩ := vStr_char hs
        rw [hus] at hX
        rw [hus]
        exact strokeStyle_str hX
      · obtain ⟨items, aout, hua, _, _, _⟩ := vArrMin_char ha
        rw [hua, strokeStyle_arr_none] at hX
        cases hX
    · rcases fontWeightValue_char hm with ⟨n, hun, _, _⟩ | ⟨t, hut, _⟩
      · rw [hun, strokeStyle_num_none] at hX
        cases hX
      · rw [hut] at hX
        rw [hut]
        exact strokeStyle_str hX
    · obtain ⟨out, hout, hnone⟩ := vObj_char hm
      rw [hout, strokeStyle_obj_none
        (hnone ("dashArray") (by simp [FieldSpec.key]))] at hX
      cases hX
    · obtain ⟨n₁, n₂, n₃, n₄, hua⟩ := cubicBezierValue_char hm
      rw [hua, strokeStyle_arr_none] at hX
      cases hX
    · obtain ⟨n, hun⟩ := vNum_char hm
      rw [hun, strokeStyle_num_none] at hX
      cases hX
    · exact idOn_stroke_stroke _ _ _ hm hX
    · obtain ⟨out, hout, hnone⟩ := vObj_char hm
      rw [hout, strokeStyle_obj_none
        (hnone ("dashArray") (by simp [FieldSpec.key]))] at hX
      cases hX
    · obtain ⟨out, hout, hnone⟩ := vObj_char hm
      rw [hout, strokeStyle_obj_none
        (hnone ("dashArray") (by simp [FieldSpec.key]))] at hX
      cases hX
    · rcases vOr_cases hm with ho | ⟨_, ha⟩
      · obtain ⟨out, hout, hnone⟩ := vObj_char ho
        rw [hout, strokeStyle_obj_none
          (hnone ("dashArray") (by simp [FieldSpec.key]))] at hX
        cases hX
      · obtain ⟨items, aout, hua, _, _, _⟩ := vArrMin_char ha
        rw [hua, strokeStyle_arr_none] at hX
        cases hX
    · obtain ⟨items, aout, hua, _, _, _⟩ := vArrMin_char hm
      rw [hua, strokeStyle_arr_none] at hX
      cases hX
    · obtain ⟨out, hout, hnone⟩ := vObj_char hm
      rw [hout, strokeStyle_obj_none
        (hnone ("dashArray") (by simp [FieldSpec.key]))] at hX
      cases hX
    · obtain ⟨s, hus⟩ := vRef_char hm
      rw [hus] at hX
      rw [hus]
      exact strokeStyle_str hX
  · exact idSelf_vStr hstr

theorem raw_ident_border {u v : Json}
    (hu : tokenValueUnion u = some u)
    (hraw : rawValueValidate .border u = some v) : v = u := by
  rcases vOr_cases hraw with hX | ⟨_, hstr⟩
  · obtain ⟨fields, vout, hufields, _, _⟩ := vObj_shape hX
    rcases union_cases hu with
      hm | hm | hm | hm | hm | hm | hm | hm | hm | hm | hm | hm | hm | hm
    · obtain ⟨out, hout, hnone⟩ := vObj_char hm
      have hC : vObj
          [.req ("color") (vOr colorValue vStr),
           .req ("width") (vOr dimensionValue vStr),
           .req ("style") (vOr strokeStyleValue vStr)] (.obj out) = none :=
        vObj_none_missing (List.mem_cons_of_mem _ (List.mem_cons_self _ _))
          (hnone ("width") (by simp [FieldSpec.key]))
      rw [hout, hC] at hX
      cases hX
    · obtain ⟨out, hout, hnone⟩ := vObj_char hm
      have hC : vObj
          [.req ("color") (vOr colorValue vStr),
           .req ("width") (vOr dimensionValue vStr),
           .req ("style") (vOr strokeStyleValue vStr)] (.obj out) = none :=
        vObj_none_missing (List.mem_cons_of_mem _ (List.mem_cons_self _ _))
          (hnone ("width") (by simp [FieldSpec.key]))
      rw [hout, hC] at hX
      cases hX
    · rcases vOr_cases hm with hs | ⟨_, ha⟩
      · obtain ⟨s, hus⟩ := vStr_char hs
        rw [hufields] at hus; cases hus
      · obtain ⟨items, aout, hua, _, _, _⟩ := vArrMin_char ha
        rw [hufields] at hua; cases hua
    · rcases fontWeightValue_char hm with ⟨n, hun, _, _⟩ | ⟨t, hut, _⟩
      · rw [hufields] at hun; cases hun
      · rw [hufields] at hut; cases hut
    · obtain ⟨out, hout, hnone⟩ := vObj_char hm
      have hC : vObj
          [.req ("color") (vOr colorValue vStr),
           .req ("width") (vOr dimensionValue vStr),
           .req ("style") (vOr strokeStyleValue vStr)] (.obj out) = none :=
        vObj_none_missing (List.mem_cons_of_mem _ (List.mem_cons_self _ _))
          (hnone ("width") (by simp [FieldSpec.key]))
      rw [hout, hC] at hX
      cases hX
    · obtain ⟨n₁, n₂, n₃, n₄, hua⟩ := cubicBezierValue_char hm
      rw [hufields] at hua; cases hua
    · obtain ⟨n, hun⟩ := vNum_char hm
      rw [hufields] at hun; cases hun
    · rcases vOr_cases hm with he | ⟨_, ho⟩
      · obtain ⟨t, hut, _⟩ := vEnum_char he
        rw [hufields] at hut; cases hut
      · obtain ⟨out, hout, hnone⟩ := vObj_char ho
        have hC : vObj
            [.req ("color") (vOr colorValue vStr),
             .req ("width") (vOr dimensionValue vStr),
             .req ("style") (vOr strokeStyleValue vStr)] (.obj out) = none :=
          vObj_none_missing (List.mem_cons_of_mem _ (List.mem_cons_self _ _))
            (hnone ("width") (by simp [FieldSpec.key]))
        rw [hout, hC] at hX
        cases hX
    · exact idOn_rawBorder _ _ _ hm hX
    · obtain ⟨out, hout, hnone⟩ := vObj_char hm
      have hC : vObj
          [.req ("color") (vOr colorValue vStr),
           .req ("width") (vOr dimensionValue vStr),
           .req ("style") (vOr strokeStyleValue vStr)] (.obj out) = none :=
        vObj_none_missing (List.mem_cons_of_mem _ (List.mem_cons_self _ _))
          (hnone ("width") (by simp [FieldSpec.key]))
      rw [hout, hC] at hX
      cases hX
    · rcases vOr_cases hm with ho | ⟨_, ha⟩
      · obtain ⟨out, hout, hnone⟩ := vObj_char ho
        have hC : vObj
            [.req ("color") (vOr colorValue vStr),
             .req ("width") (vOr dimensionValue vStr),
             .req ("style") (vOr strokeStyleValue vStr)] (.obj out) = none :=
          vObj_none_missing (List.mem_cons_of_mem _ (List.mem_cons_self _ _))
            (hnone ("width") (by simp [FieldSpec.key]))
        rw [hout, hC] at hX
        cases hX
      · obtain ⟨items, aout, hua, _, _, _⟩ := vArrMin_char ha
        rw [hufields] at hua; cases hua
    · obtain ⟨items, aout, hua, _, _, _⟩ := vArrMin_char hm
      rw [hufields] at hua; cases hua
    · obtain ⟨out, hout, hnone⟩ := vObj_char hm
      have hC : vObj
          [.req ("color") (vOr colorValue vStr),
           .req ("width") (vOr dimensionValue vStr),
           .req ("style") (vOr strokeStyleValue vStr)] (.obj out) = none :=
        vObj_none_missing (List.mem_cons_of_mem _ (List.mem_cons_self _ _))
          (hnone ("width") (by simp [FieldSpec.key]))
      rw [hout, hC] at hX
      cases hX
    · obtain ⟨s, hus⟩ := vRef_char hm
      rw [hufields] at hus; cases hus
  · exact idSelf_vStr hstr

theorem raw_ident_transition {u v : Json}
    (hu : tokenValueUnion u = some u)
    (hraw : rawValueValidate .transition u = some v) : v = u := by
  rcases vOr_cases hraw with hX | ⟨_, hstr⟩
  · obtain ⟨fields, vout, hufields, _, _⟩ := vObj_shape hX
    rcases union_cases hu with
      hm | hm | hm | hm | hm | hm | hm | hm | hm | hm | hm | hm | hm | hm
    · obtain ⟨out, hout, hnone⟩ := vObj_char hm
      have hC : vObj
          [.req ("duration") (vOr durationValue vStr),
           .req ("delay") (vOr durationValue vStr),
           .req ("timingFunction") (vOr cubicBezierValue vStr)]
          (.obj out) = none :=
        vObj_none_missing (List.mem_cons_of_mem _ (List.mem_cons_self _ _))
          (hnone ("delay") (by simp [FieldSpec.key]))
      rw [hout, hC] at hX
      cases hX
    · obtain ⟨out, hout, hnone⟩ := vObj_char hm
      have hC : vObj
          [.req ("duration") (vOr durationValue vStr),
           .req ("delay") (vOr durationValue vStr),
           .req ("timingFunction") (vOr cubicBezierValue vStr)]
          (.obj out) = none :=
        vObj_none_missing (List.mem_cons_of_mem _ (List.mem_cons_self _ _))
          (hnone ("delay") (by simp [FieldSpec.key]))
      rw [hout, hC] at hX
      cases hX
    · rcases vOr_cases hm with hs | ⟨_, ha⟩
      · obtain ⟨s, hus⟩ := vStr_char hs
        rw [hufields] at hus; cases hus
      · obtain ⟨items, aout, hua, _, _, _⟩ := vArrMin_char ha
        rw [hufields] at hua; cases hua
    · rcases fontWeightValue_char hm with ⟨n, hun, _, _⟩ | ⟨t, hut, _⟩
      · rw [hufields] at hun; cases hun
      · rw [hufields] at hut; cases hut
    · obtain ⟨out, hout, hnone⟩ := vObj_char hm
      have hC : vObj
          [.req ("duration") (vOr durationValue vStr),
           .req ("delay") (vOr durationValue vStr),
           .req ("timingFunction") (vOr cubicBezierValue vStr)]
          (.obj out) = none :=
        vObj_none_missing (List.mem_cons_of_mem _ (List.mem_cons_self _ _))
          (hnone ("delay") (by simp [FieldSpec.key]))
      rw [hout, hC] at hX
      cases hX
    · obtain ⟨n₁, n₂, n₃, n₄, hua⟩ := cubicBezierValue_char hm
      rw [hufields] at hua; cases hua
    · obtain ⟨n, hun⟩ := vNum_char hm
      rw [hufields] at hun; cases hun
    · rcases vOr_cases hm with he | ⟨_, ho⟩
      · obtain ⟨t, hut, _⟩ := vEnum_char he
        rw [hufields] at hut; cases hut
      · obtain ⟨out, hout, hnone⟩ := vObj_char ho
        have hC : vObj
            [.req ("duration") (vOr durationValue vStr),
             .req ("delay") (vOr durationValue vStr),
             .req ("timingFunction") (vOr cubicBezierValue vStr)]
            (.obj out) = none :=
          vObj_none_missing (List.mem_cons_of_mem _ (List.mem_cons_self _ _))
            (hnone ("delay") (by simp [FieldSpec.key]))
        rw [hout, hC] at hX
        cases hX
    · obtain ⟨out, hout, hnone⟩ := vObj_char hm
      have hC : vObj
          [.req ("duration") (vOr durationValue vStr),
           .req ("delay") (vOr durationValue vStr),
           .req ("timingFunction") (vOr cubicBezierValue vStr)]
          (.obj out) = none :=
        vObj_none_missing (List.mem_cons_of_mem _ (List.mem_cons_self _ _))
          (hnone ("delay") (by simp [FieldSpec.key]))
      rw [hout, hC] at hX
      cases hX
    · exact idOn_rawTransition _ _ _ hm hX
    · rcases vOr_cases hm with ho | ⟨_, ha⟩
      · obtain ⟨out, hout, hnone⟩ := vObj_char ho
        have hC : vObj
            [.req ("duration") (vOr durationValue vStr),
             .req ("delay") (vOr durationValue vStr),
             .req ("timingFunction") (vOr cubicBezierValue vStr)]
            (.obj out) = none :=
          vObj_none_missing (List.mem_cons_of_mem _ (List.mem_cons_self _ _))
            (hnone ("delay") (by simp [FieldSpec.key]))
        rw [hout, hC] at hX
        cases hX
      · obtain ⟨items, aout, hua, _, _, _⟩ := vArrMin_char ha
        rw [hufields] at hua; cases hua
    · obtain ⟨items, aout, hua, _, _, _⟩ := vArrMin_char hm
      rw [hufields] at hua; cases hua
    · obtain ⟨out, hout, hnone⟩ := vObj_char hm
      have hC : vObj
          [.req ("duration") (vOr durationValue vStr),
           .req ("delay") (vOr durationValue vStr),
           .req ("timingFunction") (vOr cubicBezierValue vStr)]
          (.obj out) = none :=
        vObj_none_missing (List.mem_cons_of_mem _ (List.mem_cons_self _ _))
          (hnone ("delay") (by simp [FieldSpec.key]))
      rw [hout, hC] at hX
      cases hX
    · obtain ⟨s, hus⟩ := vRef_char hm
      rw [hufields] at hus; cases hus
  · exact idSelf_vStr hstr

theorem raw_ident_typography {u v : Json}
    (hu : tokenValueUnion u = some u)
    (hraw : rawValueValidate .typography u = some v) : v = u := by
  rcases vOr_cases hraw with hX | ⟨_, hstr⟩
  · obtain ⟨fields, vout, hufields, _, _⟩ := vObj_shape hX
    rcases union_cases hu with
      hm | hm | hm | hm | hm | hm | hm | hm | hm | hm | hm | hm | hm | hm
    · obtain ⟨out, hout, hnone⟩ := vObj_char hm
      have hC : vObj
          [.req ("fontFamily") (vOr fontFamilyValue vStr),
           .req ("fontSize") (vOr dimensionValue vStr),
           .req ("fontWeight") (vOr fontWeightValueSchema vStr),
           .req ("letterSpacing") (vOr dimensionValue vStr),
           .req ("lineHeight") (vOr vNum vStr)] (.obj out) = none :=
        vObj_none_missing (List.mem_cons_of_mem _ (List.mem_cons_self _ _))
          (hnone ("fontSize") (by simp [FieldSpec.key]))
      rw [hout, hC] at hX
      cases hX
    · obtain ⟨out, hout, hnone⟩ := vObj_char hm
      have hC : vObj
          [.req ("fontFamily") (vOr fontFamilyValue vStr),
           .req ("fontSize") (vOr dimensionValue vStr),
           .req ("fontWeight") (vOr fontWeightValueSchema vStr),
           .req ("letterSpacing") (vOr dimensionValue vStr),
           .req ("lineHeight") (vOr vNum vStr)] (.obj out) = none :=
        vObj_none_missing (List.mem_cons_of_mem _ (List.mem_cons_self _ _))
          (hnone ("fontSize") (by simp [FieldSpec.key]))
      rw [hout, hC] at hX
      cases hX
    · rcases vOr_cases hm with hs | ⟨_, ha⟩
      · obtain ⟨s, hus⟩ := vStr_char hs
        rw [hufields] at hus; cases hus
      · obtain ⟨items, aout, hua, _, _, _⟩ := vArrMin_char ha
        rw [hufields] at hua; cases hua
    · rcases fontWeightValue_char hm with ⟨n, hun, _, _⟩ | ⟨t, hut, _⟩
      · rw [hufields] at hun; cases hun
      · rw [hufields] at hut; cases hut
    · obtain ⟨out, hout, hnone⟩ := vObj_char hm
      have hC : vObj
          [.req ("fontFamily") (vOr fontFamilyValue vStr),
           .req ("fontSize") (vOr dimensionValue vStr),
           .req ("fontWeight") (vOr fontWeightValueSchema vStr),
           .req ("letterSpacing") (vOr dimensionValue vStr),
           .req ("lineHeight") (vOr vNum vStr)] (.obj out) = none :=
        vObj_none_missing (List.mem_cons_of_mem _ (List.mem_cons_self _ _))
          (hnone ("fontSize") (by simp [FieldSpec.key]))
      rw [hout, hC] at hX
      cases hX
    · obtain ⟨n₁, n₂, n₃, n₄, hua⟩ := cubicBezierValue_char hm
      rw [hufields] at hua; cases hua
    · obtain ⟨n, hun⟩ := vNum_char hm
      rw [hufields] at hun; cases hun
    · rcases vOr_cases hm with he | ⟨_, ho⟩
      · obtain ⟨t, hut, _⟩ := vEnum_char he
        rw [hufields] at hut; cases hut
      · obtain ⟨out, hout, hnone⟩ := vObj_char ho
        have hC : vObj
            [.req ("fontFamily") (vOr fontFamilyValue vStr),
             .req ("fontSize") (vOr dimensionValue vStr),
             .req ("fontWeight") (vOr fontWeightValueSchema vStr),
             .req ("letterSpacing") (vOr dimensionValue vStr),
             .req ("lineHeight") (vOr vNum vStr)] (.obj out) = none :=
          vObj_none_missing (List.mem_cons_of_mem _ (List.mem_cons_self _ _))
            (hnone ("fontSize") (by simp [FieldSpec.key]))
        rw [hout, hC] at hX
        cases hX
    · obtain ⟨out, hout, hnone⟩ := vObj_char hm
      have hC : vObj
          [.req ("fontFamily") (vOr fontFamilyValue vStr),
           .req ("fontSize") (vOr dimensionValue vStr),
           .req ("fontWeight") (vOr fontWeightValueSchema vStr),
           .req ("letterSpacing") (vOr dimensionValue vStr),
           .req ("lineHeight") (vOr vNum vStr)] (.obj out) = none :=
        vObj_none_missing (List.mem_cons_of_mem _ (List.mem_cons_self _ _))
          (hnone ("fontSize") (by simp [FieldSpec.key]))
      rw [hout, hC] at hX
      cases hX
    · obtain ⟨out, hout, hnone⟩ := vObj_char hm
      have hC : vObj
          [.req ("fontFamily") (vOr fontFamilyValue vStr),
           .req ("fontSize") (vOr dimensionValue vStr),
           .req ("fontWeight") (vOr fontWeightValueSchema vStr),
           .req ("letterSpacing") (vOr dimensionValue vStr),
           .req ("lineHeight") (vOr vNum vStr)] (.obj out) = none :=
        vObj_none_missing (List.mem_cons_of_mem _ (List.mem_cons_self _ _))
          (hnone ("fontSize") (by simp [FieldSpec.key]))
      rw [hout, hC] at hX
      cases hX
    · rcases vOr_cases hm with ho | ⟨_, ha⟩
      · obtain ⟨out, hout, hnone⟩ := vObj_char ho
        have hC : vObj
            [.req ("fontFamily") (vOr fontFamilyValue vStr),
             .req ("fontSize") (vOr dimensionValue vStr),
             .req ("fontWeight") (vOr fontWeightValueSchema vStr),
             .req ("letterSpacing") (vOr dimensionValue vStr),
             .req ("lineHeight") (vOr vNum vStr)] (.obj out) = none :=
          vObj_none_missing (List.mem_cons_of_mem _ (List.mem_cons_self _ _))
            (hnone ("fontSize") (by simp [FieldSpec.key]))
        rw [hout, hC] at hX
        cases hX
      · obtain ⟨items, aout, hua, _, _, _⟩ := vArrMin_char ha
        rw [hufields] at hua; cases hua
    · obtain ⟨items, aout, hua, _, _, _⟩ := vArrMin_char hm
      rw [hufields] at hua; cases hua
    · exact idOn_rawTypography _ _ _ hm hX
    · obtain ⟨s, hus⟩ := vRef_char hm
      rw [hufields] at hus; cases hus
  · exact idSelf_vStr hstr

theorem vArrGo_cons {f : Json → Option Json} {x : Json} {xs out : List Json}
    (h : vArrGo f (x :: xs) = some out) :
    ∃ w ws, f x = some w ∧ vArrGo f xs = some ws ∧ out = w :: ws := by
  cases hf : f x with
  | none => simp [vArrGo, hf] at h
  | some w =>
      cases hgo : vArrGo f xs with
      | none => simp [vArrGo, hf, hgo] at h
      | some ws =>
          refine ⟨w, ws, rfl, rfl, ?_⟩
          simp only [vArrGo, hf, hgo, Option.bind_eq_bind, Option.some_bind,
            Option.pure_def, Option.some.injEq] at h
          exact h.symm

theorem vArrGo_cons_none {f : Json → Option Json} {x : Json} {xs : List Json}
    (h : f x = none) : vArrGo f (x :: xs) = none := by
  simp [vArrGo, h]

theorem vArrGo_single {f : Json → Option Json} {x : Json} {out : List Json}
    (h : vArrGo f [x] = some out) : ∃ w, f x = some w ∧ out = [w] := by
  obtain ⟨w, ws, hf, hgo, hout⟩ := vArrGo_cons h
  have h0 : some ([] : List Json) = some ws := hgo
  cases h0
  exact ⟨w, hf, hout⟩

theorem vStr_dom {x w : Json} (h : vStr x = some w) :
    ∃ s, x = .str s := by
  cases x with
  | str s => exact ⟨s, rfl⟩
  | null => cases h
  | bool b => cases h
  | num n => cases h
  | arr l => cases h
  | obj fs => cases h

theorem shadowObject_str_none (s : String) :
    shadowObject (.str s) = none := rfl

theorem shadowObject_arr_none (items : List Json) :
    shadowObject (.arr items) = none := rfl

theorem shadowObject_num_none (n : Rat) :
    shadowObject (.num n) = none := rfl

/-- For a union-stable value, `shadowWrap` wraps exactly when the value
is its own accepted shadow object, and is the identity otherwise. -/
theorem shadowWrap_of_union {u : Json} (hu : tokenValueUnion u = some u) :
    (shadowObject u = some u ∧ shadowWrap .shadow u = .arr [u]) ∨
    shadowWrap .shadow u = u := by
  cases hsv : shadowValue u with
  | none =>
      right
      simp [shadowWrap, hsv]
  | some d =>
      cases d with
      | obj dfields =>
          left
          rcases vOr_cases hsv with hso | ⟨_, harr⟩
          · rcases union_cases hu with
              hm | hm | hm | hm | hm | hm | hm | hm | hm | hm | hm | hm | hm | hm
            · obtain ⟨out, hout, hnone⟩ := vObj_char hm
              have hC : shadowObject (.obj out) = none :=
                vObj_none_missing
                  (List.mem_cons_of_mem _ (List.mem_cons_self _ _))
                  (hnone ("offsetX") (by simp [FieldSpec.key]))
              rw [hout, hC] at hso
              cases hso
            · obtain ⟨out, hout, hnone⟩ := vObj_char hm
              have hC : shadowObject (.obj out) = none :=
                vObj_none_missing
                  (List.mem_cons_of_mem _ (List.mem_cons_self _ _))
                  (hnone ("offsetX") (by simp [FieldSpec.key]))
              rw [hout, hC] at hso
              cases hso
            · rcases vOr_cases hm with hs | ⟨_, ha⟩
              · obtain ⟨s, hus⟩ := vStr_char hs
                rw [hus, shadowObject_str_none] at hso
                cases hso
              · obtain ⟨items₂, aout₂, hua₂, _, _, _⟩ := vArrMin_char ha
                rw [hua₂, shadowObject_arr_none] at hso
                cases hso
            · rcases fontWeightValue_char hm with ⟨n, hun, _, _⟩ | ⟨t, hut, _⟩
              · rw [hun, shadowObject_num_none] at hso
                cases hso
              · rw [hut, shadowObject_str_none] at hso
                cases hso
            · obtain ⟨out, hout, hnone⟩ := vObj_char hm
              have hC : shadowObject (.obj out) = none :=
                vObj_none_missing
                  (List.mem_cons_of_mem _ (List.mem_cons_self _ _))
                  (hnone ("offsetX") (by simp [FieldSpec.key]))
              rw [hout, hC] at hso
              cases hso
            · obtain ⟨n₁, n₂, n₃, n₄, hua⟩ := cubicBezierValue_char hm
              rw [hua, shadowObject_arr_none] at hso
              cases hso
            · obtain ⟨n, hun⟩ := vNum_char hm
              rw [hun, shadowObject_num_none] at hso
              cases hso
            · rcases vOr_cases hm with he | ⟨_, ho⟩
              · obtain ⟨t, hut, _⟩ := vEnum_char he
                rw [hut, shadowObject_str_none] at hso
                cases hso
              · obtain ⟨out, hout, hnone⟩ := vObj_char ho
                have hC : shadowObject (.obj out) = none :=
                  vObj_none_missing
                    (List.mem_cons_of_mem _ (List.mem_cons_self _ _))
                    (hnone ("offsetX") (by simp [FieldSpec.key]))
                rw [hout, hC] at hso
                cases hso
            · obtain ⟨out, hout, hnone⟩ := vObj_char hm
              have hC : shadowObject (.obj out) = none :=
                vObj_none_missing
                  (List.mem_cons_of_mem _ (List.mem_cons_self _ _))
                  (hnone ("offsetX") (by simp [FieldSpec.key]))
              rw [hout, hC] at hso
              cases hso
            · obtain ⟨out, hout, hnone⟩ := vObj_char hm
              have hC : shadowObject (.obj out) = none :=
                vObj_none_missing
                  (List.mem_cons_of_mem _ (List.mem_cons_self _ _))
                  (hnone ("offsetX") (by simp [FieldSpec.key]))
              rw [hout, hC] at hso
              cases hso
            · rcases vOr_cases hm with hobj | ⟨_, harr₂⟩
              · have hd : (.obj dfields : Json) = u :=
                  Option.some.inj (hso.symm.trans hobj)
                subst hd
                exact ⟨hso, by simp [shadowWrap, hsv]⟩
              · obtain ⟨items₂, aout₂, hua₂, _, _, _⟩ := vArrMin_char harr₂
                rw [hua₂, shadowObject_arr_none] at hso
                cases hso
            · obtain ⟨items₂, aout₂, hua₂, _, _, _⟩ := vArrMin_char hm
              rw [hua₂, shadowObject_arr_none] at hso
              cases hso
            · obtain ⟨out, hout, hnone⟩ := vObj_char hm
              have hC : shadowObject (.obj out) = none :=
                vObj_none_missing
                  (List.mem_cons_of_mem _ (List.mem_cons_self _ _))
                  (hnone ("offsetX") (by simp [FieldSpec.key]))
              rw [hout, hC] at hso
              cases hso
            · obtain ⟨s, hus⟩ := vRef_char hm
              rw [hus, shadowObject_str_none] at hso
              cases hso
          · obtain ⟨items₂, aout₂, _, hd, _, _⟩ := vArrMin_char harr
            cases hd
      | arr ditems =>
          right
          simp [shadowWrap, hsv]
      | str s =>
          right
          simp [shadowWrap, hsv]
      | num n =>
          right
          simp [shadowWrap, hsv]
      | bool b =>
          right
          simp [shadowWrap, hsv]
      | null =>
          right
          simp [shadowWrap, hsv]

theorem raw_ident_shadow {u v : Json}
    (hu : tokenValueUnion u = some u)
    (hraw : rawValueValidate .shadow (shadowWrap .shadow u) = some v) :
    v = shadowWrap .shadow u := by
  rcases shadowWrap_of_union hu with ⟨hso, hwrap⟩ | hwrap
  · rw [hwrap] at hraw ⊢
    rcases vOr_cases hraw with hA | ⟨_, hstr⟩
    · obtain ⟨items, aout, hia, hva, hgo⟩ := vArr_char hA
      injection hia with hia'
      rw [← hia'] at hgo
      obtain ⟨w, hfw, hout⟩ := vArrGo_single hgo
      have hwu : w = u := idOn_rawShadowItem _ _ _ hso hfw
      rw [hva, hout, hwu]
    · have h0 : (none : Option Json) = some v := hstr
      cases h0
  · rw [hwrap] at hraw ⊢
    rcases vOr_cases hraw with hA | ⟨_, hstr⟩
    · obtain ⟨items, aout, hia, hva, hgo⟩ := vArr_char hA
      rcases union_cases hu with
        hm | hm | hm | hm | hm | hm | hm | hm | hm | hm | hm | hm | hm | hm
      · obtain ⟨out, hout, _⟩ := vObj_char hm
        rw [hia] at hout; cases hout
      · obtain ⟨out, hout, _⟩ := vObj_char hm
        rw [hia] at hout; cases hout
      · rcases vOr_cases hm with hs | ⟨_, ha⟩
        · obtain ⟨s, hus⟩ := vStr_char hs
          rw [hia] at hus; cases hus
        · obtain ⟨items₂, aout₂, hua₂, haa₂, hlen₂, hgo₂⟩ := vArrMin_char ha
          rw [hia] at hua₂
          injection hua₂ with hitems
          cases items₂ with
          | nil =>
              rw [List.length_nil] at hlen₂
              omega
          | cons x xs =>
              obtain ⟨w, ws, hfx, _, _⟩ := vArrGo_cons hgo₂
              obtain ⟨t, hxt⟩ := vStr_dom hfx
              rw [hitems, hxt,
                vArrGo_cons_none
                  (show rawShadowItemSchema (.str t) = none from rfl)] at hgo
              cases hgo
      · rcases fontWeightValue_char hm with ⟨n, hun, _, _⟩ | ⟨t, hut, _⟩
        · rw [hia] at hun; cases hun
        · rw [hia] at hut; cases hut
      · obtain ⟨out, hout, _⟩ := vObj_char hm
        rw [hia] at hout; cases hout
      · obtain ⟨n₁, n₂, n₃, n₄, hua⟩ := cubicBezierValue_char hm
        rw [hia] at hua
        injection hua with hitems
        rw [hitems,
          vArrGo_cons_none
            (show rawShadowItemSchema (.num n₁) = none from rfl)] at hgo
        cases hgo
      · obtain ⟨n, hun⟩ := vNum_char hm
        rw [hia] at hun; cases hun
      · rcases vOr_cases hm with he | ⟨_, ho⟩
        · obtain ⟨t, hut, _⟩ := vEnum_char he
          rw [hia] at hut; cases hut
        · obtain ⟨out, hout, _⟩ := vObj_char ho
          rw [hia] at hout; cases hout
      · obtain ⟨out, hout, _⟩ := vObj_char hm
        rw [hia] at hout; cases hout
      · obtain ⟨out, hout, _⟩ := vObj_char hm
        rw [hia] at hout; cases hout
      · rcases vOr_cases hm with hobj | ⟨_, harr₂⟩
        · obtain ⟨f2, o2, huo, _, _⟩ := vObj_shape hobj
          rw [hia] at huo; cases huo
        · exact idOn_vArr_vArrMin idOn_rawShadowItem _ _ _ harr₂ hA
      · obtain ⟨items₂, aout₂, hua₂, haa₂, hlen₂, hgo₂⟩ := vArrMin_char hm
        rw [hia] at hua₂
        injection hua₂ with hitems
        rw [hia] at haa₂
        injection haa₂ with haa
        cases items₂ with
        | nil =>
            rw [List.length_nil] at hlen₂
            omega
        | cons x xs =>
            obtain ⟨w, ws, hfx, _, hout₂⟩ := vArrGo_cons hgo₂
            have hxw : x :: xs = w :: ws := by
              rw [← hitems, haa, hout₂]
            injection hxw with hxw'
            rw [← hxw'] at hfx
            obtain ⟨o2, hxo, hnone⟩ := vObj_char hfx
            have hC : rawShadowItemSchema (.obj o2) = none :=
              vObj_none_missing
                (List.mem_cons_of_mem _ (List.mem_cons_self _ _))
                (hnone ("offsetX") (by simp [FieldSpec.key]))
            rw [hitems, hxo, vArrGo_cons_none hC] at hgo
            cases hgo
      · obtain ⟨out, hout, _⟩ := vObj_char hm
        rw [hia] at hout; cases hout
      · obtain ⟨s, hus⟩ := vRef_char hm
        rw [hia] at hus; cases hus
    · exact idSelf_vStr hstr

theorem raw_ident_gradient {u v : Json}
    (hu : tokenValueUnion u = some u)
    (hraw : rawValueValidate .gradient u = some v) : v = u := by
  rcases vOr_cases hraw with hA | ⟨_, hstr⟩
  · obtain ⟨items, aout, hia, hva, hgo⟩ := vArr_char hA
    rcases union_cases hu with
      hm | hm | hm | hm | hm | hm | hm | hm | hm | hm | hm | hm | hm | hm
    · obtain ⟨out, hout, _⟩ := vObj_char hm
      rw [hia] at hout; cases hout
    · obtain ⟨out, hout, _⟩ := vObj_char hm
      rw [hia] at hout; cases hout
    · rcases vOr_cases hm with hs | ⟨_, ha⟩
      · obtain ⟨s, hus⟩ := vStr_char hs
        rw [hia] at hus; cases hus
      · obtain ⟨items₂, aout₂, hua₂, haa₂, hlen₂, hgo₂⟩ := vArrMin_char ha
        rw [hia] at hua₂
        injection hua₂ with hitems
        cases items₂ with
        | nil =>
            rw [List.length_nil] at hlen₂
            omega
        | cons x xs =>
            obtain ⟨w, ws, hfx, _, _⟩ := vArrGo_cons hgo₂
            obtain ⟨t, hxt⟩ := vStr_dom hfx
            rw [hitems, hxt,
              vArrGo_cons_none
                (show vObj
                  [.req ("color") (vOr colorValue vStr),
                   .req ("position") gradientPosition] (.str t) = none
                 from rfl)] at hgo
            cases hgo
    · rcases fontWeightValue_char hm with ⟨n, hun, _, _⟩ | ⟨t, hut, _⟩
      · rw [hia] at hun; cases hun
      · rw [hia] at hut; cases hut
    · obtain ⟨out, hout, _⟩ := vObj_char hm
      rw [hia] at hout; cases hout
    · obtain ⟨n₁, n₂, n₃, n₄, hua⟩ := cubicBezierValue_char hm
      rw [hia] at hua
      injection hua with hitems
      rw [hitems,
        vArrGo_cons_none
          (show vObj
            [.req ("color") (vOr colorValue vStr),
             .req ("position") gradientPosition] (.num n₁) = none
           from rfl)] at hgo
      cases hgo
    · obtain ⟨n, hun⟩ := vNum_char hm
      rw [hia] at hun; cases hun
    · rcases vOr_cases hm with he | ⟨_, ho⟩
      · obtain ⟨t, hut, _⟩ := vEnum_char he
        rw [hia] at hut; cases hut
      · obtain ⟨out, hout, _⟩ := vObj_char ho
        rw [hia] at hout; cases hout
    · obtain ⟨out, hout, _⟩ := vObj_char hm
      rw [hia] at hout; cases hout
    · obtain ⟨out, hout, _⟩ := vObj_char hm
      rw [hia] at hout; cases hout
    · rcases vOr_cases hm with hobj | ⟨_, harr₂⟩
      · obtain ⟨f2, o2, huo, _, _⟩ := vObj_shape hobj
        rw [hia] at huo; cases huo
      · obtain ⟨items₂, aout₂, hua₂, haa₂, hlen₂, hgo₂⟩ := vArrMin_char harr₂
        rw [hia] at hua₂
        injection hua₂ with hitems
        rw [hia] at haa₂
        injection haa₂ with haa
        cases items₂ with
        | nil =>
            rw [List.length_nil] at hlen₂
            omega
        | cons x xs =>
            obtain ⟨w, ws, hfx, _, hout₂⟩ := vArrGo_cons hgo₂
            have hxw : x :: xs = w :: ws := by
              rw [← hitems, haa, hout₂]
            injection hxw with hxw'
            rw [← hxw'] at hfx
            obtain ⟨o2, hxo, hnone⟩ := vObj_char hfx
            have hC : vObj
                [.req ("color") (vOr colorValue vStr),
                 .req ("position") gradientPosition] (.obj o2) = none :=
              vObj_none_missing
                (List.mem_cons_of_mem _ (List.mem_cons_self _ _))
                (hnone ("position") (by simp [FieldSpec.key]))
            rw [hitems, hxo, vArrGo_cons_none hC] at hgo
            cases hgo
    · exact idOn_vArr_vArrMin idOn_rawGradStop _ _ _ hm hA
    · obtain ⟨out, hout, _⟩ := vObj_char hm
      rw [hia] at hout; cases hout
    · obtain ⟨s, hus⟩ := vRef_char hm
      rw [hia] at hus; cases hus
  · exact idSelf_vStr hstr

theorem shadowWrap_ne {ty : TokenType} (h : ¬(ty = .shadow)) {u : Json} :
    shadowWrap ty u = u := by
  simp [shadowWrap, h]

/-- The raw-value validator is the identity on every union-stable,
shadow-normalized token value: this is the key idempotence fact behind
the parse/serialize round trip. -/
theorem raw_value_ident {ty : TokenType} {u v : Json}
    (hu : tokenValueUnion u = some u)
    (hraw : rawValueValidate ty (shadowWrap ty u) = some v) :
    v = shadowWrap ty u := by
  cases ty with
  | shadow => exact raw_ident_shadow hu hraw
  | color =>
      rw [shadowWrap_ne (by decide)] at hraw ⊢
      exact raw_ident_color hu hraw
  | dimension =>
      rw [shadowWrap_ne (by decide)] at hraw ⊢
      exact raw_ident_dimension hu hraw
  | duration =>
      rw [shadowWrap_ne (by decide)] at hraw ⊢
      exact raw_ident_duration hu hraw
  | cubicBezier =>
      rw [shadowWrap_ne (by decide)] at hraw ⊢
      exact raw_ident_cubicBezier hraw
  | number =>
      rw [shadowWrap_ne (by decide)] at hraw ⊢
      exact raw_ident_number hraw
  | fontFamily =>
      rw [shadowWrap_ne (by decide)] at hraw ⊢
      exact raw_ident_fontFamily hraw
  | fontWeight =>
      rw [shadowWrap_ne (by decide)] at hraw ⊢
      exact raw_ident_fontWeight hraw
  | strokeStyle =>
      rw [shadowWrap_ne (by decide)] at hraw ⊢
      exact raw_ident_strokeStyle hu hraw
  | border =>
      rw [shadowWrap_ne (by decide)] at hraw ⊢
      exact raw_ident_border hu hraw
  | transition =>
      rw [shadowWrap_ne (by decide)] at hraw ⊢
      exact raw_ident_transition hu hraw
  | typography =>
      rw [shadowWrap_ne (by decide)] at hraw ⊢
      exact raw_ident_typography hu hraw
  | gradient =>
      rw [shadowWrap_ne (by decide)] at hraw ⊢
      exact raw_ident_gradient hu hraw

/-- The `$value` emitted by `serializeNode` for a stored token value: a
singleton shadow array is unwrapped back to the bare object when it
re-validates; every other value is emitted unchanged. -/
def emitValue (ty : TokenType) (v : Json) : Json :=
  match ty, v with
  | .shadow, .arr [item] =>
      match shadowValue (.arr [item]) with
      | some (.arr [item']) => item'
      | _ => .arr [item]
  | _, v => v

theorem emitValue_ne {ty : TokenType} (h : ¬(ty = .shadow)) (v : Json) :
    emitValue ty v = v := by
  cases ty with
  | shadow => exact absurd rfl h
  | color => rfl
  | dimension => rfl
  | duration => rfl
  | cubicBezier => rfl
  | number => rfl
  | fontFamily => rfl
  | fontWeight => rfl
  | strokeStyle => rfl
  | border => rfl
  | transition => rfl
  | typography => rfl
  | gradient => rfl

theorem shadowValue_singleton_of_union {i : Json}
    (hu : tokenValueUnion (.arr [i]) = some (.arr [i])) :
    shadowValue (.arr [i]) = none ∨
    (shadowObject i = some i ∧
      shadowValue (.arr [i]) = some (.arr [i])) := by
  cases hso : shadowObject i with
  | none =>
      left
      simp [shadowValue, vOr, Option.orElse, shadowObject_arr_none,
        vArrMin, vArrGo, hso]
  | some w =>
      have hwi : w = i := by
        rcases union_cases hu with
          hm | hm | hm | hm | hm | hm | hm | hm | hm | hm | hm | hm | hm | hm
        · obtain ⟨out, hout, _⟩ := vObj_char hm
          cases hout
        · obtain ⟨out, hout, _⟩ := vObj_char hm
          cases hout
        · rcases vOr_cases hm with hs | ⟨_, ha⟩
          · obtain ⟨s, hus⟩ := vStr_char hs
            cases hus
          · obtain ⟨items₂, aout₂, hua₂, haa₂, _, hgo₂⟩ := vArrMin_char ha
            injection hua₂ with hitems
            injection haa₂ with haa
            rw [← hitems, ← haa] at hgo₂
            obtain ⟨w₂, hfw₂, _⟩ := vArrGo_single hgo₂
            obtain ⟨t, hit⟩ := vStr_dom hfw₂
            rw [hit, shadowObject_str_none] at hso
            cases hso
        · rcases fontWeightValue_char hm with ⟨n, hun, _, _⟩ | ⟨t, hut, _⟩
          · cases hun
          · cases hut
        · obtain ⟨out, hout, _⟩ := vObj_char hm
          cases hout
        · obtain ⟨n₁, n₂, n₃, n₄, hua⟩ := cubicBezierValue_char hm
          injection hua with hl
          injection hl with hhead htail
          cases htail
        · obtain ⟨n, hun⟩ := vNum_char hm
          cases hun
        · rcases vOr_cases hm with he | ⟨_, ho⟩
          · obtain ⟨t, hut, _⟩ := vEnum_char he
            cases hut
          · obtain ⟨out, hout, _⟩ := vObj_char ho
            cases hout
        · obtain ⟨out, hout, _⟩ := vObj_char hm
          cases hout
        · obtain ⟨out, hout, _⟩ := vObj_char hm
          cases hout
        · rcases vOr_cases hm with hobj | ⟨_, harr₂⟩
          · rw [shadowObject_arr_none] at hobj
            cases hobj
          · obtain ⟨items₂, aout₂, hua₂, haa₂, _, hgo₂⟩ := vArrMin_char harr₂
            injection hua₂ with hitems
            injection haa₂ with haa
            rw [← hitems, ← haa] at hgo₂
            obtain ⟨w₂, hfw₂, hout₂⟩ := vArrGo_single hgo₂
            injection hout₂ with hiw
            rw [← hiw] at hfw₂
            exact Option.some.inj (hso.symm.trans hfw₂)
        · obtain ⟨items₂, aout₂, hua₂, haa₂, _, hgo₂⟩ := vArrMin_char hm
          injection hua₂ with hitems
          injection haa₂ with haa
          rw [← hitems, ← haa] at hgo₂
          obtain ⟨w₂, hfw₂, hout₂⟩ := vArrGo_single hgo₂
          injection hout₂ with hiw
          rw [← hiw] at hfw₂
          obtain ⟨o2, hio2, hnone⟩ := vObj_char hfw₂
          have hC : shadowObject (.obj o2) = none :=
            vObj_none_missing
              (List.mem_cons_of_mem _ (List.mem_cons_self _ _))
              (hnone ("offsetX") (by simp [FieldSpec.key]))
          rw [hio2, hC] at hso
          cases hso
        · obtain ⟨out, hout, _⟩ := vObj_char hm
          cases hout
        · obtain ⟨s, hus⟩ := vRef_char hm
          cases hus
      rw [hwi] at hso
      right
      refine ⟨by rw [hwi], ?_⟩
      simp [shadowValue, vOr, Option.orElse, shadowObject_arr_none,
        vArrMin, vArrGo, hso]

/-- Emitting a validated token value and re-validating reproduces the
same normalized value: the emitted `$value` is union-stable, is not a
token reference, and shadow-normalizes back to the stored value. -/
theorem emit_round {ty : TokenType} {u v : Json}
    (hu : tokenValueUnion u = some u)
    (href : isTokenReference u = false)
    (hraw : rawValueValidate ty (shadowWrap ty u) = some v) :
    tokenValueUnion (emitValue ty v) = some (emitValue ty v) ∧
    isTokenReference (emitValue ty v) = false ∧
    shadowWrap ty (emitValue ty v) = shadowWrap ty u := by
  by_cases hty : ty = .shadow
  · subst hty
    rcases shadowWrap_of_union hu with ⟨hso, hwrap⟩ | hwrap
    · have hv : v = .arr [u] := by
        have h1 := raw_value_ident hu hraw
        rwa [hwrap] at h1
      subst hv
      have hsv1 : shadowValue (.arr [u]) = some (.arr [u]) := by
        simp [shadowValue, vOr, Option.orElse, shadowObject_arr_none,
          vArrMin, vArrGo, hso]
      have he : emitValue .shadow (.arr [u]) = u := by
        simp [emitValue, hsv1]
      rw [he]
      exact ⟨hu, href, rfl⟩
    · have hv : v = u := by
        have h1 := raw_value_ident hu hraw
        rwa [hwrap] at h1
      subst hv
      cases v with
      | arr items =>
          cases items with
          | nil => exact ⟨hu, href, rfl⟩
          | cons i rest =>
              cases rest with
              | nil =>
                  rcases shadowValue_singleton_of_union hu with
                    hsv2 | ⟨hsoi, hsv2⟩
                  · have he : emitValue .shadow (.arr [i]) = .arr [i] := by
                      simp [emitValue, hsv2]
                    rw [he]
                    exact ⟨hu, href, rfl⟩
                  · obtain ⟨fo, io, hio, _, _⟩ := vObj_shape hsoi
                    subst hio
                    have hsvi : shadowValue (.obj fo) = some (.obj fo) := by
                      simp [shadowValue, vOr, Option.orElse, hsoi]
                    have he : emitValue .shadow (.arr [.obj fo]) = .obj fo := by
                      simp [emitValue, hsv2]
                    rw [he]
                    refine ⟨union_back_shadow hsvi, rfl, ?_⟩
                    simp [shadowWrap, hsvi, hsv2]
              | cons b rest2 => exact ⟨hu, href, rfl⟩
      | null => exact ⟨hu, href, rfl⟩
      | bool b => exact ⟨hu, href, rfl⟩
      | num n => exact ⟨hu, href, rfl⟩
      | str s => exact ⟨hu, href, rfl⟩
      | obj fs => exact ⟨hu, href, rfl⟩
  · have hv : v = u := by
      have h1 := raw_value_ident hu hraw
      rwa [shadowWrap_ne hty] at h1
    subst hv
    rw [emitValue_ne hty]
    exact ⟨hu, href, rfl⟩

/-! ### A specification forest for valid, alias-free documents

`specNode` re-traverses an input document along exactly the accepting
path of `parseDesignTokens` (valid names, accepted token/group schemas,
no token references, determinable types, raw-validated values, unique
sibling names) and records the result as an explicit tree.  The
round-trip theorem is proved by relating the parser's two phases and the
serializer to this tree. -/

mutual
inductive PTree where
  | token (name : String) (t : Token) (ty : TokenType) (v : Json)
  | group (name : String) (g : Group) (ty : Option TokenType)
      (children : PForest)
inductive PForest where
  | nil
  | cons (head : PTree) (tail : PForest)
end

/-! The data of a tree node that survives into the parse result. -/

mutual
inductive MTree where
  | token (name : String) (ty : TokenType) (v : Json)
      (description : Option String) (deprecated : Option Json)
      (extensions : Option Json)
  | group (name : String) (ty : Option TokenType)
      (description : Option String) (deprecated : Option Json)
      (extensions : Option Json) (children : MForest)
inductive MForest where
  | nil
  | cons (head : MTree) (tail : MForest)
end

mutual
def mTree : PTree → MTree
  | .token name t ty v =>
      .token name ty v t.description t.deprecated t.extensions
  | .group name g ty cs =>
      .group name ty g.description g.deprecated g.extensions (mForest cs)
def mForest : PForest → MForest
  | .nil => .nil
  | .cons T rest => .cons (mTree T) (mForest rest)
end

mutual
def treeCount : PTree → Nat
  | .token _ _ _ _ => 1
  | .group _ _ _ cs => 1 + forestCount cs
def forestCount : PForest → Nat
  | .nil => 0
  | .cons T rest => treeCount T + forestCount rest
end

mutual
def mcount : MTree → Nat
  | .token _ _ _ _ _ _ => 1
  | .group _ _ _ _ _ cs => 1 + mfcount cs
def mfcount : MForest → Nat
  | .nil => 0
  | .cons M rest => mcount M + mfcount rest
end

/-- Key uniqueness of a name list, as the source's JavaScript objects
guarantee for sibling entries. -/
def keysUniqueB : List String → Bool
  | [] => true
  | k :: rest => !(rest.contains k) && keysUniqueB rest

/-- The child entries of a group's field list: everything except
reserved `$`-prefixed keys, with `$root` kept. -/
def childEntries (fields : List (String × Json)) : List (String × Json) :=
  fields.filter (fun p => !(jsStartsWith p.1 ("$")) || p.1 == "$root")

/-- A name acceptable for a node of a valid document: a valid non-empty
DTCG name, or the reserved `$root`. -/
def specName (name : String) : Bool :=
  (nameValid name && !(name == "")) || name == "$root"

/-- One validated node of a valid alias-free document (see the section
header). -/
def specNode : Nat → String → Json → Option TokenType → Option PTree
  | 0, _, _, _ => none
  | fuel + 1, name, data, inheritedType =>
      if specName name then
        if data.isTokenObject then
          match tokenSchema data with
          | none => none
          | some t =>
              if isTokenReference t.value then none
              else
                match t.type?.orElse (fun _ => inheritedType) with
                | none => none
                | some ty =>
                    match rawValueValidate ty (shadowWrap ty t.value) with
                    | none => none
                    | some v => some (.token name t ty v)
        else
          match groupSchema data with
          | none => none
          | some g =>
              match data with
              | .obj fields =>
                  let ty? := g.type?.orElse (fun _ => inheritedType)
                  if keysUniqueB ((childEntries fields).map Prod.fst) then
                    match (childEntries fields).foldr
                        (fun p acc =>
                          match specNode fuel p.1 p.2 ty?, acc with
                          | some c, some cs => some (.cons c cs)
                          | _, _ => none) (some .nil) with
                    | none => none
                    | some cs => some (.group name g ty? cs)
                  else none
              | _ => none
      else none

/-- The children fold of `specNode`, as a standalone definition. -/
def specChildren (fuel : Nat) (entries : List (String × Json))
    (ty? : Option TokenType) : Option PForest :=
  entries.foldr
    (fun p acc =>
      match specNode fuel p.1 p.2 ty?, acc with
      | some c, some cs => some (.cons c cs)
      | _, _ => none) (some .nil)

/-- The specification forest of a document: defined exactly when the
document is a valid alias-free single document. -/
def specForest (input : Json) : Option PForest :=
  match input with
  | .obj fields =>
      if keysUniqueB (fields.map Prod.fst) then
        fields.foldr
          (fun p acc =>
            match specNode (Json.jsize p.2) p.1 p.2 none, acc with
            | some c, some cs => some (.cons c cs)
            | _, _ => none) (some .nil)
      else none
  | _ => none

/-- A valid, alias-free DTCG single document. -/
def docOK (input : Json) : Bool := (specForest input).isSome

/-- Extend an optional parent path by a segment. -/
def pathAppend (pp : Option (List String)) (name : String) : List String :=
  match pp with
  | some P => P ++ [name]
  | none => [name]

mutual
def treePathsL (pp : Option (List String)) : PTree → List (List String)
  | .token name _ _ _ => [pathAppend pp name]
  | .group name _ _ cs =>
      pathAppend pp name :: forestPathsL (some (pathAppend pp name)) cs
def forestPathsL (pp : Option (List String)) : PForest → List (List String)
  | .nil => []
  | .cons T rest => treePathsL pp T ++ forestPathsL pp rest
end

mutual
def treeInters (pp : Option (List String)) (c : Nat) :
    PTree → List (String × IntermediaryNode)
  | .token name t ty _ =>
      [(String.intercalate "." (pathAppend pp name),
        ⟨pp.map (String.intercalate "."), name, uuid c, some ty, .token t⟩)]
  | .group name g ty cs =>
      (String.intercalate "." (pathAppend pp name),
        ⟨pp.map (String.intercalate "."), name, uuid c, ty, .group g⟩) ::
      forestInters (some (pathAppend pp name)) (c + 1) cs
def forestInters (pp : Option (List String)) (c : Nat) :
    PForest → List (String × IntermediaryNode)
  | .nil => []
  | .cons T rest =>
      treeInters pp c T ++ forestInters pp (c + treeCount T) rest
end

theorem optField_char {α : Type} {fields : List (String × Json)} {k : String}
    {f : Json → Option α} {r : Option α}
    (h : optField fields k f = some r) :
    (fields.lookup k = none ∧ r = none) ∨
    (∃ j a, fields.lookup k = some j ∧ f j = some a ∧ r = some a) := by
  unfold optField at h
  cases hl : fields.lookup k with
  | none =>
      rw [hl] at h
      exact Or.inl ⟨rfl, (Option.some.inj h).symm⟩
  | some j =>
      rw [hl] at h
      rcases Option.map_eq_some'.mp h with ⟨a, ha, hr⟩
      exact Or.inr ⟨j, a, rfl, ha, hr.symm⟩

theorem tokenSchema_char {data : Json} {t : Token}
    (h : tokenSchema data = some t) :
    ∃ fields, data = .obj fields ∧
      (∃ raw, fields.lookup ("$value") = some raw ∧
        tokenValueUnion raw = some t.value) ∧
      optField fields ("$type") vTokenType = some t.type? ∧
      optField fields ("$description") vDescription = some t.description ∧
      optField fields ("$extensions") vRecord = some t.extensions ∧
      optField fields ("$deprecated") (vOr vBool vStr) = some t.deprecated := by
  cases data with
  | obj fields =>
      simp only [tokenSchema, Option.bind_eq_bind, Option.bind_eq_some,
        Option.pure_def, Option.some.injEq] at h
      obtain ⟨raw, hraw, value, hvalue, ty?, hty, d, hd, ext, hext, dep,
        hdep, ht⟩ := h
      refine ⟨fields, rfl, ⟨raw, hraw, ?_⟩, ?_, ?_, ?_, ?_⟩ <;>
        rw [← ht]
      · exact hvalue
      · exact hty
      · exact hd
      · exact hext
      · exact hdep
  | null => cases h
  | bool b => cases h
  | num n => cases h
  | str s => cases h
  | arr l => cases h

theorem groupSchema_char {data : Json} {g : Group}
    (h : groupSchema data = some g) :
    ∃ fields, data = .obj fields ∧
      optField fields ("$type") vTokenType = some g.type? ∧
      optField fields ("$description") vDescription = some g.description ∧
      optField fields ("$extensions") vRecord = some g.extensions ∧
      optField fields ("$extends") vExtends = some g.extendsRef ∧
      optField fields ("$deprecated") (vOr vBool vStr) = some g.deprecated ∧
      optField fields ("$root") tokenSchema = some g.root? := by
  cases data with
  | obj fields =>
      simp only [groupSchema, Option.bind_eq_bind, Option.bind_eq_some,
        Option.pure_def, Option.some.injEq] at h
      obtain ⟨ty?, hty, d, hd, ext, hext, er, her, dep, hdep, rt, hrt,
        hg⟩ := h
      refine ⟨fields, rfl, ?_, ?_, ?_, ?_, ?_, ?_⟩ <;> rw [← hg]
      · exact hty
      · exact hd
      · exact hext
      · exact her
      · exact hdep
      · exact hrt
  | null => cases h
  | bool b => cases h
  | num n => cases h
  | str s => cases h
  | arr l => cases h

/-- A `$deprecated` output re-validates to itself. -/
theorem deprecated_stable {fields : List (String × Json)} {r : Option Json}
    (h : optField fields ("$deprecated") (vOr vBool vStr) = some r) :
    ∀ j, r = some j → vOr vBool vStr j = some j := by
  intro j hj
  rcases optField_char h with ⟨_, hr⟩ | ⟨w, a, _, ha, hr⟩
  · rw [hr] at hj; cases hj
  · rw [hr] at hj
    cases hj
    exact stable_of_idSelf (idSelf_vOr idSelf_vBool idSelf_vStr) ha

/-- An `$extensions` output re-validates to itself. -/
theorem extensions_stable {fields : List (String × Json)} {r : Option Json}
    (h : optField fields ("$extensions") vRecord = some r) :
    ∀ j, r = some j → vRecord j = some j := by
  intro j hj
  rcases optField_char h with ⟨_, hr⟩ | ⟨w, a, _, ha, hr⟩
  · rw [hr] at hj; cases hj
  · rw [hr] at hj
    cases hj
    cases w with
    | obj fs =>
        have hja : (.obj fs : Json) = j := Option.some.inj ha
        rw [← hja]
        rfl
    | null => cases ha
    | bool b => cases ha
    | num n => cases ha
    | str s => cases ha
    | arr l => cases ha

/-- A token object accepted by `tokenSchema` is a token object. -/
theorem isTokenObject_of_tokenSchema {data : Json} {t : Token}
    (h : tokenSchema data = some t) : data.isTokenObject = true := by
  obtain ⟨fields, rfl, ⟨raw, hraw, _⟩, _⟩ := tokenSchema_char h
  simp [Json.isTokenObject, Json.isObject, Json.lookup, hraw]

/-- Name of a specification tree node. -/
def treeName : PTree → String
  | .token name _ _ _ => name
  | .group name _ _ _ => name

def forestNames : PForest → List String
  | .nil => []
  | .cons T rest => treeName T :: forestNames rest

def isTokenT : PTree → Prop
  | .token _ _ _ _ => True
  | .group _ _ _ _ => False

/-- `$root` children of a valid group are tokens. -/
def rootTokF : PForest → Prop
  | .nil => True
  | .cons T rest => (treeName T = "$root" → isTokenT T) ∧ rootTokF rest

mutual
def POKT : PTree → Prop
  | .token name t ty v =>
      specName name = true ∧
      tokenValueUnion t.value = some t.value ∧
      isTokenReference t.value = false ∧
      rawValueValidate ty (shadowWrap ty t.value) = some v ∧
      (∀ j, t.deprecated = some j → vOr vBool vStr j = some j) ∧
      (∀ j, t.extensions = some j → vRecord j = some j)
  | .group name g _ cs =>
      specName name = true ∧
      (∀ j, g.deprecated = some j → vOr vBool vStr j = some j) ∧
      (∀ j, g.extensions = some j → vRecord j = some j) ∧
      keysUniqueB (forestNames cs) = true ∧
      rootTokF cs ∧
      POKF cs
def POKF : PForest → Prop
  | .nil => True
  | .cons T rest => POKT T ∧ POKF rest
end

theorem specChildren_nil {fuel : Nat} {ty? : Option TokenType} :
    specChildren fuel [] ty? = some .nil := rfl

theorem specChildren_cons {fuel : Nat} {p : String × Json}
    {rest : List (String × Json)} {ty? : Option TokenType} :
    specChildren fuel (p :: rest) ty? =
      match specNode fuel p.1 p.2 ty?, specChildren fuel rest ty? with
      | some c, some cs => some (.cons c cs)
      | _, _ => none := rfl

theorem specChildren_cons_inv {fuel : Nat} {p : String × Json}
    {rest : List (String × Json)} {ty? : Option TokenType} {F : PForest}
    (h : specChildren fuel (p :: rest) ty? = some F) :
    ∃ c cs, specNode fuel p.1 p.2 ty? = some c ∧
      specChildren fuel rest ty? = some cs ∧ F = .cons c cs := by
  rw [specChildren_cons] at h
  cases hc : specNode fuel p.1 p.2 ty? with
  | none => rw [hc] at h; cases h
  | some c =>
      rw [hc] at h
      cases hcs : specChildren fuel rest ty? with
      | none => rw [hcs] at h; cases h
      | some cs =>
          rw [hcs] at h
          exact ⟨c, cs, rfl, rfl, (Option.some.inj h).symm⟩

theorem specNode_token_inv {fuel : Nat} {name : String} {data : Json}
    {I : Option TokenType} {T : PTree}
    (h : specNode (fuel + 1) name data I = some T)
    (hobj : data.isTokenObject = true) :
    ∃ t ty v, tokenSchema data = some t ∧
      specName name = true ∧
      isTokenReference t.value = false ∧
      t.type?.orElse (fun _ => I) = some ty ∧
      rawValueValidate ty (shadowWrap ty t.value) = some v ∧
      T = .token name t ty v := by
  simp only [specNode] at h
  by_cases hn : specName name = true
  · rw [if_pos hn, if_pos hobj] at h
    split at h
    · cases h
    · rename_i t hts
      by_cases href : isTokenReference t.value = true
      · rw [if_pos href] at h; cases h
      · rw [if_neg href] at h
        split at h
        · cases h
        · rename_i ty hty
          split at h
          · cases h
          · rename_i v hv
            exact ⟨t, ty, v, hts, hn, Bool.eq_false_iff.mpr href, hty, hv,
              (Option.some.inj h).symm⟩
  · rw [if_neg hn] at h
    cases h

theorem specNode_group_inv {fuel : Nat} {name : String} {data : Json}
    {I : Option TokenType} {T : PTree}
    (h : specNode (fuel + 1) name data I = some T)
    (hobj : data.isTokenObject = false) :
    ∃ fields g cs, data = .obj fields ∧ groupSchema data = some g ∧
      specName name = true ∧
      keysUniqueB ((childEntries fields).map Prod.fst) = true ∧
      specChildren fuel (childEntries fields)
        (g.type?.orElse (fun _ => I)) = some cs ∧
      T = .group name g (g.type?.orElse (fun _ => I)) cs := by
  simp only [specNode] at h
  by_cases hn : specName name = true
  · have hobj' : ¬(data.isTokenObject = true) := by simp [hobj]
    rw [if_pos hn, if_neg hobj'] at h
    split at h
    · cases h
    · rename_i g hgs
      obtain ⟨fields, rfl, _⟩ := groupSchema_char hgs
      simp only at h
      by_cases hu : keysUniqueB ((childEntries fields).map Prod.fst) = true
      · rw [if_pos hu] at h
        split at h
        · cases h
        · rename_i cs hcs
          exact ⟨fields, g, cs, rfl, hgs, hn, hu, hcs,
            (Option.some.inj h).symm⟩
      · rw [if_neg hu] at h
        cases h
  · rw [if_neg hn] at h
    cases h

theorem keysUniqueB_cons {k : String} {rest : List String}
    (h : keysUniqueB (k :: rest) = true) :
    rest.contains k = false ∧ keysUniqueB rest = true := by
  simp only [keysUniqueB, Bool.and_eq_true, Bool.not_eq_true'] at h
  exact h

theorem childEntries_nil : childEntries [] = [] := rfl

theorem childEntries_cons_keep {qk : String} {qv : Json}
    {rest : List (String × Json)}
    (h : (!(jsStartsWith qk ("$")) || qk == "$root") = true) :
    childEntries ((qk, qv) :: rest) = (qk, qv) :: childEntries rest := by
  simp [childEntries, List.filter_cons, h]

theorem childEntries_cons_skip {qk : String} {qv : Json}
    {rest : List (String × Json)}
    (h : (!(jsStartsWith qk ("$")) || qk == "$root") = false) :
    childEntries ((qk, qv) :: rest) = childEntries rest := by
  simp [childEntries, List.filter_cons, h]

theorem mem_childEntries_root_lookup {d : Json} :
    ∀ {fields : List (String × Json)},
    ("$root", d) ∈ childEntries fields →
    keysUniqueB ((childEntries fields).map Prod.fst) = true →
    fields.lookup ("$root") = some d := by
  intro fields
  induction fields with
  | nil => intro hm _; cases hm
  | cons q rest ihf =>
      obtain ⟨qk, qv⟩ := q
      intro hm hu
      by_cases hkeep : (!(jsStartsWith qk ("$")) || qk == "$root") = true
      · rw [childEntries_cons_keep hkeep] at hm hu
        by_cases hq : qk = "$root"
        · subst hq
          rcases List.mem_cons.mp hm with heq | hm'
          · injection heq with h1 h2
            rw [← h2]
            exact lookup_cons_self
          · exfalso
            rw [List.map_cons] at hu
            obtain ⟨hnc, _⟩ := keysUniqueB_cons hu
            have hmem : ("$root" : String) ∈ (childEntries rest).map Prod.fst :=
              List.mem_map.mpr ⟨_, hm', rfl⟩
            have hc2 : ((childEntries rest).map Prod.fst).contains
                ("$root") = true := List.elem_eq_true_of_mem hmem
            simp only at hnc
            rw [hc2] at hnc
            cases hnc
        · rcases List.mem_cons.mp hm with heq | hm'
          · exfalso
            injection heq with h1 h2
            exact hq h1.symm
          · rw [List.map_cons] at hu
            obtain ⟨_, hu'⟩ := keysUniqueB_cons hu
            rw [lookup_cons_ne hq]
            exact ihf hm' hu'
      · rw [childEntries_cons_skip (Bool.eq_false_iff.mpr hkeep)] at hm hu
        have hq : ¬(qk = "$root") := by
          intro hqe
          subst hqe
          simp at hkeep
        rw [lookup_cons_ne hq]
        exact ihf hm hu

/-- Every tree produced by `specNode` satisfies the structural
wellformedness facts used by the round-trip bridges. -/
theorem specNode_POK : ∀ (fuel : Nat) {name : String} {data : Json}
    {I : Option TokenType} {T : PTree},
    specNode fuel name data I = some T → POKT T := by
  intro fuel
  induction fuel with
  | zero => intro name data I T h; cases h
  | succ fuel ih =>
      have hch : ∀ (entries : List (String × Json)) (ty? : Option TokenType)
          (F : PForest), specChildren fuel entries ty? = some F →
          POKF F ∧ forestNames F = entries.map Prod.fst ∧
          ((∀ p ∈ entries, p.1 = "$root" → p.2.isTokenObject = true) →
            rootTokF F) := by
        intro entries
        induction entries with
        | nil =>
            intro ty? F h
            have h0 : some PForest.nil = some F := h
            cases h0
            exact ⟨trivial, rfl, fun _ => trivial⟩
        | cons p rest ihr =>
            intro ty? F h
            obtain ⟨c, cs, hc, hcs, rfl⟩ := specChildren_cons_inv h
            obtain ⟨hPF, hnames, hroot⟩ := ihr ty? cs hcs
            have hPT : POKT c := ih hc
            have hname : treeName c = p.1 := by
              cases fuel with
              | zero => cases hc
              | succ fuel' =>
                  by_cases hobj : p.2.isTokenObject = true
                  · obtain ⟨t, ty, v, _, _, _, _, _, rfl⟩ :=
                      specNode_token_inv hc hobj
                    rfl
                  · obtain ⟨fields, g, cs', _, _, _, _, _, rfl⟩ :=
                      specNode_group_inv hc (Bool.eq_false_iff.mpr hobj)
                    rfl
            refine ⟨⟨hPT, hPF⟩, ?_, ?_⟩
            · rw [List.map_cons]
              show treeName c :: forestNames cs = _
              rw [hname, hnames]
            · intro hin
              refine ⟨?_, hroot
                (fun q hq hq1 => hin q (List.mem_cons_of_mem _ hq) hq1)⟩
              intro hcroot
              have hobj : p.2.isTokenObject = true :=
                hin p (List.mem_cons_self _ _) (by rw [← hname]; exact hcroot)
              cases fuel with
              | zero => cases hc
              | succ fuel' =>
                  obtain ⟨t, ty, v, _, _, _, _, _, rfl⟩ :=
                    specNode_token_inv hc hobj
                  trivial
      intro name data I T h
      by_cases hobj : data.isTokenObject = true
      · obtain ⟨t, ty, v, hts, hn, href, hty, hv, rfl⟩ :=
          specNode_token_inv h hobj
        obtain ⟨fields, _, ⟨raw, _, hun⟩, _, _, hext, hdep⟩ :=
          tokenSchema_char hts
        exact ⟨hn, tokenValueUnion_stable hun, href, hv,
          deprecated_stable hdep, extensions_stable hext⟩
      · obtain ⟨fields, g, cs, heq, hgs, hn, hu, hcs, rfl⟩ :=
          specNode_group_inv h (Bool.eq_false_iff.mpr hobj)
        obtain ⟨hPF, hnames, hroot⟩ := hch _ _ _ hcs
        obtain ⟨fields', hf', _, _, hext', her', hdep', hrt'⟩ :=
          groupSchema_char hgs
        rw [heq] at hf'
        injection hf' with hff
        subst hff
        refine ⟨hn, deprecated_stable hdep', extensions_stable hext',
          by rw [hnames]; exact hu, hroot ?_, hPF⟩
        intro p hp hp1
        obtain ⟨pk, pd⟩ := p
        simp only at hp1
        subst hp1
        have hlk : fields.lookup ("$root") = some pd :=
          mem_childEntries_root_lookup hp hu
        rcases optField_char hrt' with ⟨hnone, _⟩ | ⟨j, a, hlkj, hts2, _⟩
        · rw [hlk] at hnone; cases hnone
        · rw [hlk] at hlkj
          have hdj : pd = j := Option.some.inj hlkj
          rw [hdj]
          exact isTokenObject_of_tokenSchema hts2

/-- The segments of an optional parent path. -/
def ppSegs (pp : Option (List String)) : List String := pp.getD []

theorem pathAppend_eq (pp : Option (List String)) (name : String) :
    pathAppend pp name = ppSegs pp ++ [name] := by
  cases pp <;> rfl

/-- Valid-context invariant: every segment of the parent path is an
acceptable name. -/
def ctxOK (pp : Option (List String)) : Prop :=
  ∀ s ∈ ppSegs pp, specName s = true

theorem ctxOK_none : ctxOK none := by
  intro s hs
  cases hs

theorem ctxOK_append {pp : Option (List String)} {name : String}
    (h : ctxOK pp) (hn : specName name = true) :
    ctxOK (some (pathAppend pp name)) := by
  intro s hs
  rw [ppSegs, Option.getD_some, pathAppend_eq] at hs
  rcases List.mem_append.mp hs with hs' | hs'
  · exact h s hs'
  · rw [List.mem_singleton] at hs'
    rw [hs']
    exact hn

theorem specName_dotless {n : String} (h : specName n = true) :
    jsContainsChar n '.' = false := by
  simp only [specName, Bool.or_eq_true, Bool.and_eq_true,
    beq_iff_eq] at h
  rcases h with ⟨hv, _⟩ | hr
  · simp only [nameValid, Bool.and_eq_true, Bool.not_eq_true'] at hv
    exact hv.2
  · rw [hr]
    rfl

theorem specName_nonempty {n : String} (h : specName n = true) :
    ¬(n = "") := by
  simp only [specName, Bool.or_eq_true, Bool.and_eq_true,
    Bool.not_eq_true', beq_iff_eq, beq_eq_false_iff_ne] at h
  rcases h with ⟨_, hne⟩ | hr
  · exact hne
  · rw [hr]
    decide

/-- Injectivity of dot-joined paths over acceptable segment names. -/
theorem specPath_inj {L₁ L₂ : List String} (h₁ : ¬(L₁ = [])) (h₂ : ¬(L₂ = []))
    (d₁ : ∀ s ∈ L₁, specName s = true) (d₂ : ∀ s ∈ L₂, specName s = true)
    (he : String.intercalate "." L₁ = String.intercalate "." L₂) :
    L₁ = L₂ :=
  pathOf_inj L₁ L₂ h₁ h₂ (fun s hs => specName_dotless (d₁ s hs))
    (fun s hs => specName_dotless (d₂ s hs)) he

mutual
theorem treePaths_facts : ∀ (pp : Option (List String)) (T : PTree),
    POKT T → ctxOK pp → ∀ L ∈ treePathsL pp T,
      ¬(L = []) ∧ (∀ s ∈ L, specName s = true) ∧
      ∃ r, L = ppSegs pp ++ [treeName T] ++ r
  | pp, .token name t ty v, hP, hctx => by
      intro L hL
      rw [treePathsL, List.mem_singleton] at hL
      subst hL
      rw [pathAppend_eq]
      refine ⟨by simp, ?_, [], by simp [treeName]⟩
      intro s hs
      rcases List.mem_append.mp hs with hs' | hs'
      · exact hctx s hs'
      · rw [List.mem_singleton] at hs'
        rw [hs']
        exact hP.1
  | pp, .group name g ty cs, hP, hctx => by
      intro L hL
      rw [treePathsL, List.mem_cons] at hL
      rcases hL with hL | hL
      · subst hL
        rw [pathAppend_eq]
        refine ⟨by simp, ?_, [], by simp [treeName]⟩
        intro s hs
        rcases List.mem_append.mp hs with hs' | hs'
        · exact hctx s hs'
        · rw [List.mem_singleton] at hs'
          rw [hs']
          exact hP.1
      · have hctx' : ctxOK (some (pathAppend pp name)) :=
          ctxOK_append hctx hP.1
        obtain ⟨hne, hsegs, n, r, hn, hshape⟩ :=
          forestPaths_facts (some (pathAppend pp name)) cs hP.2.2.2.2.2
            hctx' L hL
        refine ⟨hne, hsegs, [n] ++ r, ?_⟩
        rw [hshape]
        show pathAppend pp name ++ [n] ++ r = _
        rw [pathAppend_eq]
        simp [treeName]

theorem forestPaths_facts : ∀ (pp : Option (List String)) (F : PForest),
    POKF F → ctxOK pp → ∀ L ∈ forestPathsL pp F,
      ¬(L = []) ∧ (∀ s ∈ L, specName s = true) ∧
      ∃ n r, n ∈ forestNames F ∧ L = ppSegs pp ++ [n] ++ r
  | pp, .nil, _, _ => by
      intro L hL
      cases hL
  | pp, .cons T rest, hP, hctx => by
      intro L hL
      rw [forestPathsL, List.mem_append] at hL
      rcases hL with hL | hL
      · obtain ⟨hne, hsegs, r, hshape⟩ :=
          treePaths_facts pp T hP.1 hctx L hL
        exact ⟨hne, hsegs, treeName T, r, List.mem_cons_self _ _, hshape⟩
      · obtain ⟨hne, hsegs, n, r, hn, hshape⟩ :=
          forestPaths_facts pp rest hP.2 hctx L hL
        exact ⟨hne, hsegs, n, r, List.mem_cons_of_mem _ hn, hshape⟩
end

mutual
theorem treePaths_nodup : ∀ (pp : Option (List String)) (T : PTree),
    POKT T → ctxOK pp →
    ((treePathsL pp T).map (String.intercalate ".")).Nodup
  | pp, .token name t ty v, hP, hctx => by
      simp [treePathsL]
  | pp, .group name g ty cs, hP, hctx => by
      rw [treePathsL, List.map_cons, List.nodup_cons]
      have hctx' : ctxOK (some (pathAppend pp name)) :=
        ctxOK_append hctx hP.1
      refine ⟨?_, forestPaths_nodup _ cs hP.2.2.2.2.2 hctx' hP.2.2.2.1⟩
      intro hcontra
      obtain ⟨L, hL, hLe⟩ := List.mem_map.mp hcontra
      obtain ⟨hne, hsegs, n, r, hn, hshape⟩ :=
        forestPaths_facts _ cs hP.2.2.2.2.2 hctx' L hL
      have hcursegs : ∀ s ∈ pathAppend pp name, specName s = true := by
        intro s hs
        rw [pathAppend_eq] at hs
        rcases List.mem_append.mp hs with h | h
        · exact hctx s h
        · rw [List.mem_singleton] at h
          rw [h]
          exact hP.1
      have hlists : L = pathAppend pp name :=
        specPath_inj hne (by rw [pathAppend_eq]; simp) hsegs hcursegs hLe
      rw [hshape] at hlists
      have hlen := congrArg List.length hlists
      simp [ppSegs, pathAppend_eq] at hlen

theorem forestPaths_nodup : ∀ (pp : Option (List String)) (F : PForest),
    POKF F → ctxOK pp → keysUniqueB (forestNames F) = true →
    ((forestPathsL pp F).map (String.intercalate ".")).Nodup
  | pp, .nil, _, _, _ => by simp [forestPathsL]
  | pp, .cons T rest, hP, hctx, hnames => by
      rw [forestPathsL, List.map_append, List.nodup_append]
      obtain ⟨hnc, hrest⟩ := keysUniqueB_cons hnames
      refine ⟨treePaths_nodup pp T hP.1 hctx,
        forestPaths_nodup pp rest hP.2 hctx hrest, ?_⟩
      intro k hk1 hk2
      obtain ⟨L₁, hL₁, hLe₁⟩ := List.mem_map.mp hk1
      obtain ⟨L₂, hL₂, hLe₂⟩ := List.mem_map.mp hk2
      obtain ⟨hne₁, hsegs₁, r₁, hshape₁⟩ :=
        treePaths_facts pp T hP.1 hctx L₁ hL₁
      obtain ⟨hne₂, hsegs₂, n₂, r₂, hn₂, hshape₂⟩ :=
        forestPaths_facts pp rest hP.2 hctx L₂ hL₂
      have hLL : L₁ = L₂ :=
        specPath_inj hne₁ hne₂ hsegs₁ hsegs₂ (hLe₁.trans hLe₂.symm)
      rw [hshape₁, hshape₂, List.append_assoc, List.append_assoc] at hLL
      have hc := List.append_cancel_left hLL
      injection hc with hc1 hc2
      have hmem : treeName T ∈ forestNames rest := by
        rw [hc1]
        exact hn₂
      rw [show (forestNames rest).contains (treeName T) = true from
        List.elem_eq_true_of_mem hmem] at hnc
      cases hnc
end

mutual
theorem treeInters_keys : ∀ (pp : Option (List String)) (c : Nat) (T : PTree),
    (treeInters pp c T).map Prod.fst =
      (treePathsL pp T).map (String.intercalate ".")
  | pp, c, .token name t ty v => rfl
  | pp, c, .group name g ty cs => by
      rw [treeInters, treePathsL, List.map_cons, List.map_cons]
      rw [forestInters_keys]
theorem forestInters_keys : ∀ (pp : Option (List String)) (c : Nat)
    (F : PForest),
    (forestInters pp c F).map Prod.fst =
      (forestPathsL pp F).map (String.intercalate ".")
  | pp, c, .nil => rfl
  | pp, c, .cons T rest => by
      rw [forestInters, forestPathsL, List.map_append, List.map_append,
        treeInters_keys, forestInters_keys]
end

/-- `parseNode` at positive fuel, with the path match normalized to
`pathAppend`. -/
theorem parseNode_succ (fuel : Nat) (pp : Option (List String))
    (name : String) (data : Json) (I : Option TokenType) (st : P1State) :
    parseNode (fuel + 1) pp name data I st =
      (let path := pathAppend pp name
      let pathStr := String.intercalate "." path
      if ¬nameValid name ∧ name ≠ "$root" then
        { st with errors :=
            st.errors ++ [⟨pathStr, "Invalid name \"" ++ name ++ "\""⟩] }
      else
        let payload? : Option Payload :=
          if data.isTokenObject then (tokenSchema data).map Payload.token
          else (groupSchema data).map Payload.group
        match payload? with
        | none =>
            { st with errors := st.errors ++ [⟨pathStr, prettyErrorMsg⟩] }
        | some payload =>
            let inheritedType' := payload.declaredType.orElse (fun _ => I)
            let inter : IntermediaryNode :=
              ⟨pp.map (String.intercalate "."), name, uuid st.counter,
                inheritedType', payload⟩
            let st' : P1State :=
              { st with inters := mapSet st.inters pathStr inter,
                        counter := st.counter + 1 }
            match payload, data with
            | .group _, .obj fields =>
                fields.foldl (fun st p =>
                  if jsStartsWith p.1 ("$") ∧ p.1 ≠ "$root" then st
                  else parseNode fuel (some path) p.1 p.2 inheritedType' st) st'
            | _, _ => st') := by
  cases pp <;> rfl

/-- The child loop of `parseNode` over all fields equals the plain fold
over the non-reserved child entries. -/
theorem foldl_skip (fuel : Nat) (path : List String)
    (ity : Option TokenType) :
    ∀ (fields : List (String × Json)) (st : P1State),
      fields.foldl (fun st p =>
        if jsStartsWith p.1 ("$") ∧ p.1 ≠ "$root" then st
        else parseNode fuel (some path) p.1 p.2 ity st) st =
      (childEntries fields).foldl
        (fun st p => parseNode fuel (some path) p.1 p.2 ity st) st := by
  intro fields
  induction fields with
  | nil => intro st; rfl
  | cons q rest ihf =>
      intro st
      obtain ⟨qk, qv⟩ := q
      by_cases hkeep : (!(jsStartsWith qk ("$")) || qk == "$root") = true
      · rw [childEntries_cons_keep hkeep]
        rw [List.foldl_cons, List.foldl_cons]
        have hskip : ¬(jsStartsWith qk ("$") = true ∧ ¬(qk = "$root")) := by
          simp only [Bool.or_eq_true, Bool.not_eq_true', beq_iff_eq] at hkeep
          rcases hkeep with h | h
          · intro hc
            rw [h] at hc
            cases hc.1
          · intro hc
            exact hc.2 h
        simp only [if_neg hskip]
        exact ihf _
      · rw [childEntries_cons_skip (Bool.eq_false_iff.mpr hkeep)]
        rw [List.foldl_cons]
        have hskip : jsStartsWith qk ("$") = true ∧ ¬(qk = "$root") := by
          simp only [Bool.or_eq_true, Bool.not_eq_true', beq_iff_eq] at hkeep
          push_neg at hkeep
          obtain ⟨h1, h2⟩ := hkeep
          exact ⟨eq_true_of_ne_false h1, h2⟩
        simp only [if_pos hskip]
        exact ihf _

theorem mapSet_fresh {α : Type} {m : List (String × α)} {k : String}
    (h : ¬(k ∈ m.map Prod.fst)) (v : α) : mapSet m k v = m ++ [(k, v)] := by
  unfold mapSet
  rw [if_neg]
  intro hc
  rw [List.any_eq_true] at hc
  obtain ⟨p, hp, hpk⟩ := hc
  rw [decide_eq_true_eq] at hpk
  exact h (List.mem_map.mpr ⟨p, hp, hpk⟩)

theorem interKeys_append (m₁ m₂ : List (String × IntermediaryNode)) :
    interKeys (m₁ ++ m₂) = interKeys m₁ ++ interKeys m₂ := by
  unfold interKeys
  rw [List.map_append]

theorem interKeys_eq_map_fst (m : List (String × IntermediaryNode)) :
    interKeys m = m.map Prod.fst := rfl

/-- Phase 1 of `parseDesignTokens` on a node accepted by `specNode`:
the traversal appends exactly the node's subtree intermediaries, in
depth-first order with consecutive identifiers, and records no error. -/
theorem parseNode_of_spec :
    ∀ (fuel : Nat) {name : String} {data : Json} {I : Option TokenType}
      {T : PTree} (pp : Option (List String)) (st : P1State),
      specNode fuel name data I = some T →
      ctxOK pp →
      (∀ k ∈ (treePathsL pp T).map (String.intercalate "."),
        ¬(k ∈ interKeys st.inters)) →
      ((treePathsL pp T).map (String.intercalate ".")).Nodup →
      parseNode fuel pp name data I st =
        ⟨st.inters ++ treeInters pp st.counter T, st.errors,
          st.counter + treeCount T⟩ := by
  intro fuel
  induction fuel with
  | zero => intro name data I T pp st h; cases h
  | succ fuel ih =>
      have hchildren : ∀ (entries : List (String × Json))
          (ty? : Option TokenType) (F : PForest) (P : List String)
          (st : P1State),
          specChildren fuel entries ty? = some F →
          ctxOK (some P) →
          (∀ k ∈ (forestPathsL (some P) F).map (String.intercalate "."),
            ¬(k ∈ interKeys st.inters)) →
          ((forestPathsL (some P) F).map (String.intercalate ".")).Nodup →
          entries.foldl
            (fun st p => parseNode fuel (some P) p.1 p.2 ty? st) st =
          ⟨st.inters ++ forestInters (some P) st.counter F, st.errors,
            st.counter + forestCount F⟩ := by
        intro entries
        induction entries with
        | nil =>
            intro ty? F P st hsc hctxP hfr hnd
            have h0 : some PForest.nil = some F := hsc
            cases h0
            show st = _
            cases st
            simp [forestInters, forestCount]
        | cons p rest ihe =>
            intro ty? F P st hsc hctxP hfr hnd
            obtain ⟨c, cs', hc, hcs', rfl⟩ := specChildren_cons_inv hsc
            rw [List.foldl_cons]
            have hsplit : forestPathsL (some P) (.cons c cs') =
                treePathsL (some P) c ++ forestPathsL (some P) cs' := rfl
            rw [hsplit, List.map_append] at hfr hnd
            rw [List.nodup_append] at hnd
            obtain ⟨hndT, hndF, hdisj⟩ := hnd
            have hstep := ih (some P) st hc hctxP
              (fun k hk => hfr k (List.mem_append.mpr (Or.inl hk))) hndT
            rw [hstep]
            have hrest := ihe ty? cs' P
              ⟨st.inters ++ treeInters (some P) st.counter c, st.errors,
                st.counter + treeCount c⟩ hcs' hctxP ?fresh hndF
            rw [hrest]
            simp [forestInters, forestCount, List.append_assoc,
              Nat.add_assoc]
            case fresh =>
              intro k hk hmem
              have hkeys : interKeys
                  (st.inters ++ treeInters (some P) st.counter c) =
                  interKeys st.inters ++
                    (treePathsL (some P) c).map (String.intercalate ".") := by
                rw [interKeys_append]
                rw [interKeys_eq_map_fst (treeInters (some P) st.counter c)]
                rw [treeInters_keys]
              rw [hkeys] at hmem
              rcases List.mem_append.mp hmem with hmem' | hmem'
              · exact hfr k (List.mem_append.mpr (Or.inr hk)) hmem'
              · exact hdisj hmem' hk
      intro name data I T pp st h hctx hfresh hnodup
      have hn : specName name = true := by
        by_cases hobj : data.isTokenObject = true
        · obtain ⟨t, ty, v, _, hn, _⟩ := specNode_token_inv h hobj
          exact hn
        · obtain ⟨_, _, _, _, _, hn, _⟩ :=
            specNode_group_inv h (Bool.eq_false_iff.mpr hobj)
          exact hn
      have hnameOk : ¬(¬(nameValid name = true) ∧ ¬(name = "$root")) := by
        simp only [specName, Bool.or_eq_true, Bool.and_eq_true,
          beq_iff_eq] at hn
        rcases hn with ⟨hv, _⟩ | hr
        · intro hc; exact hc.1 hv
        · intro hc; exact hc.2 hr
      rw [parseNode_succ]
      by_cases hobj : data.isTokenObject = true
      · obtain ⟨t, ty, v, hts, _, href, hty, hv, rfl⟩ :=
          specNode_token_inv h hobj
        have hcur : ¬(String.intercalate "." (pathAppend pp name) ∈
            interKeys st.inters) :=
          hfresh _ (by simp [treePathsL])
        simp only [if_neg hnameOk, if_pos hobj, hts, Option.map_some']
        cases data with
        | obj fields =>
            simp only [Payload.declaredType]
            rw [mapSet_fresh (by rw [← interKeys_eq_map_fst]; exact hcur)]
            simp [treeInters, treeCount, hty]
        | null => cases hts
        | bool b => cases hts
        | num n => cases hts
        | str s => cases hts
        | arr l => cases hts
      · obtain ⟨fields, g, cs, heq, hgs, _, hu, hcs, rfl⟩ :=
          specNode_group_inv h (Bool.eq_false_iff.mpr hobj)
        subst heq
        have hcur : ¬(String.intercalate "." (pathAppend pp name) ∈
            interKeys st.inters) :=
          hfresh _ (by simp [treePathsL])
        simp only [if_neg hnameOk, if_neg hobj, hgs, Option.map_some']
        simp only [Payload.declaredType]
        rw [mapSet_fresh (by rw [← interKeys_eq_map_fst]; exact hcur)]
        rw [foldl_skip]
        have hpaths : treePathsL pp
            (PTree.group name g (g.type?.orElse fun _ => I) cs) =
            pathAppend pp name ::
              forestPathsL (some (pathAppend pp name)) cs := rfl
        rw [hpaths, List.map_cons, List.nodup_cons] at hnodup
        obtain ⟨hcurnot, hndF⟩ := hnodup
        have happ := hchildren (childEntries fields)
          (g.type?.orElse fun _ => I) cs (pathAppend pp name)
          ⟨st.inters ++
            [(String.intercalate "." (pathAppend pp name),
              ⟨pp.map (String.intercalate "."), name, uuid st.counter,
                g.type?.orElse fun _ => I, .group g⟩)],
            st.errors, st.counter + 1⟩
          hcs (ctxOK_append hctx hn) ?cfresh hndF
        rw [happ]
        simp [treeInters, treeCount, List.append_assoc, Nat.add_assoc]
        case cfresh =>
          intro k hk hmem
          rw [interKeys_append] at hmem
          rcases List.mem_append.mp hmem with hmem' | hmem'
          · refine hfresh k ?_ hmem'
            rw [hpaths, List.map_cons]
            exact List.mem_cons_of_mem _ hk
          · simp only [interKeys, List.map_cons, List.map_nil,
              List.mem_singleton] at hmem'
            rw [hmem'] at hk
            exact hcurnot hk

/-- The per-entry fold of `specForest` over the root fields. -/
def specRoots (fields : List (String × Json)) : Option PForest :=
  fields.foldr
    (fun p acc =>
      match specNode (Json.jsize p.2) p.1 p.2 none, acc with
      | some c, some cs => some (.cons c cs)
      | _, _ => none) (some .nil)

theorem specForest_obj (fields : List (String × Json)) :
    specForest (.obj fields) =
      if keysUniqueB (fields.map Prod.fst) = true then specRoots fields
      else none := rfl

theorem specRoots_cons {p : String × Json} {rest : List (String × Json)} :
    specRoots (p :: rest) =
      match specNode (Json.jsize p.2) p.1 p.2 none, specRoots rest with
      | some c, some cs => some (.cons c cs)
      | _, _ => none := rfl

theorem specRoots_cons_inv {p : String × Json}
    {rest : List (String × Json)} {F : PForest}
    (h : specRoots (p :: rest) = some F) :
    ∃ c cs, specNode (Json.jsize p.2) p.1 p.2 none = some c ∧
      specRoots rest = some cs ∧ F = .cons c cs := by
  rw [specRoots_cons] at h
  cases hc : specNode (Json.jsize p.2) p.1 p.2 none with
  | none => rw [hc] at h; cases h
  | some c =>
      rw [hc] at h
      cases hcs : specRoots rest with
      | none => rw [hcs] at h; cases h
      | some cs =>
          rw [hcs] at h
          exact ⟨c, cs, rfl, rfl, (Option.some.inj h).symm⟩

theorem treeName_of_spec {fuel : Nat} {name : String} {data : Json}
    {I : Option TokenType} {T : PTree}
    (h : specNode fuel name data I = some T) : treeName T = name := by
  cases fuel with
  | zero => cases h
  | succ fuel =>
      by_cases hobj : data.isTokenObject = true
      · obtain ⟨t, ty, v, _, _, _, _, _, rfl⟩ := specNode_token_inv h hobj
        rfl
      · obtain ⟨fields, g, cs, _, _, _, _, _, rfl⟩ :=
          specNode_group_inv h (Bool.eq_false_iff.mpr hobj)
        rfl

theorem specRoots_facts :
    ∀ {fields : List (String × Json)} {F : PForest},
    specRoots fields = some F →
    POKF F ∧ forestNames F = fields.map Prod.fst := by
  intro fields
  induction fields with
  | nil =>
      intro F h
      have h0 : some PForest.nil = some F := h
      cases h0
      exact ⟨trivial, rfl⟩
  | cons p rest ihf =>
      intro F h
      obtain ⟨c, cs, hc, hcs, rfl⟩ := specRoots_cons_inv h
      obtain ⟨hPF, hnames⟩ := ihf hcs
      refine ⟨⟨specNode_POK _ hc, hPF⟩, ?_⟩
      show treeName c :: forestNames cs = _
      rw [treeName_of_spec hc, hnames, List.map_cons]

theorem rootFold_of_spec :
    ∀ (fields : List (String × Json)) (F : PForest) (st : P1State),
      specRoots fields = some F →
      (∀ k ∈ (forestPathsL none F).map (String.intercalate "."),
        ¬(k ∈ interKeys st.inters)) →
      ((forestPathsL none F).map (String.intercalate ".")).Nodup →
      fields.foldl
        (fun st p => parseNode (Json.jsize p.2) none p.1 p.2 none st) st =
      ⟨st.inters ++ forestInters none st.counter F, st.errors,
        st.counter + forestCount F⟩ := by
  intro fields
  induction fields with
  | nil =>
      intro F st hsc hfr hnd
      have h0 : some PForest.nil = some F := hsc
      cases h0
      show st = _
      cases st
      simp [forestInters, forestCount]
  | cons p rest ihf =>
      intro F st hsc hfr hnd
      obtain ⟨c, cs', hc, hcs', rfl⟩ := specRoots_cons_inv hsc
      rw [List.foldl_cons]
      have hsplit : forestPathsL none (.cons c cs') =
          treePathsL none c ++ forestPathsL none cs' := rfl
      rw [hsplit, List.map_append] at hfr hnd
      rw [List.nodup_append] at hnd
      obtain ⟨hndT, hndF, hdisj⟩ := hnd
      have hstep := parseNode_of_spec _ none st hc ctxOK_none
        (fun k hk => hfr k (List.mem_append.mpr (Or.inl hk))) hndT
      rw [hstep]
      have hrest := ihf cs'
        ⟨st.inters ++ treeInters none st.counter c, st.errors,
          st.counter + treeCount c⟩ hcs' ?fresh hndF
      rw [hrest]
      simp [forestInters, forestCount, List.append_assoc, Nat.add_assoc]
      case fresh =>
        intro k hk hmem
        have hkeys : interKeys (st.inters ++ treeInters none st.counter c) =
            interKeys st.inters ++
              (treePathsL none c).map (String.intercalate ".") := by
          rw [interKeys_append,
            interKeys_eq_map_fst (treeInters none st.counter c),
            treeInters_keys]
        rw [hkeys] at hmem
        rcases List.mem_append.mp hmem with hmem' | hmem'
        · exact hfr k (List.mem_append.mpr (Or.inr hk)) hmem'
        · exact hdisj hmem' hk

/-- `parseDesignTokens` on a valid alias-free document: phase 1 produces
exactly the specification forest's intermediaries with no errors, so the
result is the node-construction fold over those intermediaries. -/
theorem parseDesignTokens_phases {input : Json} {F : PForest}
    (h : specForest input = some F) :
    parseDesignTokens input =
      ⟨((forestInters none 0 F).foldl
          (p2Step (forestInters none 0 F)) ⟨[], [], []⟩).nodes,
        ((forestInters none 0 F).foldl
          (p2Step (forestInters none 0 F)) ⟨[], [], []⟩).errors⟩ := by
  cases input with
  | obj fields =>
      rw [specForest_obj] at h
      by_cases hu : keysUniqueB (fields.map Prod.fst) = true
      · rw [if_pos hu] at h
        obtain ⟨hPF, hnames⟩ := specRoots_facts h
        have hnd : ((forestPathsL none F).map
            (String.intercalate ".")).Nodup :=
          forestPaths_nodup none F hPF ctxOK_none (by rw [hnames]; exact hu)
        have hfold := rootFold_of_spec fields F ⟨[], [], 0⟩ h
          (fun k _ hmem => by cases hmem) hnd
        show (parseDesignTokensFrom 0 (.obj fields)).1 = _
        unfold parseDesignTokensFrom
        simp only [hfold, List.nil_append]
      · rw [if_neg hu] at h
        cases h
  | null => cases h
  | bool b => cases h
  | num n => cases h
  | str s => cases h
  | arr l => cases h

/-! ### Phase 2: building tree nodes from the intermediaries -/

mutual
def buildT (pid : Option String) (c : Nat)
    (li : List (Option String × String)) :
    MTree →
      List (TreeNode TreeNodeMeta) × Nat × List (Option String × String)
  | .token name ty v d dep ext =>
      let index := generateKeyBetween
        (some ((mapGet li pid).getD zeroIndex)) none
      ([⟨uuid c, pid, index, .token name ty v d dep ext⟩], c + 1,
        mapSet li pid index)
  | .group name gty d dep ext cs =>
      let index := generateKeyBetween
        (some ((mapGet li pid).getD zeroIndex)) none
      let res := buildF (some (uuid c)) (c + 1) (mapSet li pid index) cs
      (⟨uuid c, pid, index, .group name gty d dep ext⟩ :: res.1,
        res.2.1, res.2.2)
def buildF (pid : Option String) (c : Nat)
    (li : List (Option String × String)) :
    MForest →
      List (TreeNode TreeNodeMeta) × Nat × List (Option String × String)
  | .nil => ([], c, li)
  | .cons M rest =>
      let r1 := buildT pid c li M
      let r2 := buildF pid r1.2.1 r1.2.2 rest
      (r1.1 ++ r2.1, r2.2.1, r2.2.2)
end

mutual
theorem buildT_counter : ∀ (pid : Option String) (c : Nat)
    (li : List (Option String × String)) (M : MTree),
    (buildT pid c li M).2.1 = c + mcount M
  | pid, c, li, .token name ty v d dep ext => by simp [buildT, mcount]
  | pid, c, li, .group name gty d dep ext cs => by
      show (buildF (some (uuid c)) (c + 1) _ cs).2.1 = _
      rw [buildF_counter]
      simp [mcount]
      omega
theorem buildF_counter : ∀ (pid : Option String) (c : Nat)
    (li : List (Option String × String)) (F : MForest),
    (buildF pid c li F).2.1 = c + mfcount F
  | pid, c, li, .nil => by simp [buildF, mfcount]
  | pid, c, li, .cons M rest => by
      show (buildF pid (buildT pid c li M).2.1 (buildT pid c li M).2.2
        rest).2.1 = _
      rw [buildF_counter, buildT_counter]
      simp [mfcount]
      omega
end

mutual
theorem mcount_mTree : ∀ (T : PTree), mcount (mTree T) = treeCount T
  | .token name t ty v => rfl
  | .group name g ty cs => by
      show 1 + mfcount (mForest cs) = 1 + forestCount cs
      rw [mfcount_mForest]
theorem mfcount_mForest : ∀ (F : PForest), mfcount (mForest F) = forestCount F
  | .nil => rfl
  | .cons T rest => by
      show mcount (mTree T) + mfcount (mForest rest) = _
      rw [mcount_mTree, mfcount_mForest]
      rfl
end

/-- Parent context of a subtree during the node-construction fold: the
parent path resolves in the global intermediary map to the node whose
identifier the children carry as `parentId`. -/
def PCTX (inters : List (String × IntermediaryNode))
    (pp : Option (List String)) (pid : Option String) : Prop :=
  (pp = none ∧ pid = none) ∨
  (∃ P par, pp = some P ∧ ¬(P = []) ∧ (∀ s ∈ P, specName s = true) ∧
    mapGet inters (String.intercalate "." P) = some par ∧
    pid = some par.nodeId)

theorem specPath_ne_empty {P : List String} (hne : ¬(P = []))
    (hsegs : ∀ s ∈ P, specName s = true) :
    ¬(String.intercalate "." P = "") := by
  cases P with
  | nil => exact absurd rfl hne
  | cons h t =>
      have hh : ¬(h = "") :=
        specName_nonempty (hsegs h (List.mem_cons_self _ _))
      intro hc
      cases t with
      | nil =>
          rw [intercalate_single] at hc
          exact hh hc
      | cons b bs =>
          have hd := data_intercalate_cons h (b :: bs) (by simp)
          rw [hc] at hd
          have hlen := congrArg List.length hd
          simp at hlen
          omega

theorem p2_parentId {inters : List (String × IntermediaryNode)}
    {pp : Option (List String)} {pid : Option String}
    (h : PCTX inters pp pid) :
    (match pp.map (String.intercalate ".") with
      | some pps => if pps = "" then none else mapGet inters pps
      | none => (none : Option IntermediaryNode)).map
      (fun p : IntermediaryNode => p.nodeId) = pid := by
  rcases h with ⟨rfl, rfl⟩ | ⟨P, par, rfl, hne, hsegs, hget, rfl⟩
  · rfl
  · simp only [Option.map_some']
    rw [if_neg (specPath_ne_empty hne hsegs), hget]
    rfl

theorem resolve_nonref {inters : List (String × IntermediaryNode)}
    {path : String} {inter : IntermediaryNode} {t : Token}
    {ty : TokenType} {v : Json}
    (href : isTokenReference t.value = false)
    (hty : inter.type = some ty)
    (hraw : rawValueValidate ty (shadowWrap ty t.value) = some v) :
    resolveTokenTypeAndValue inters path inter t = (some (ty, v), []) := by
  unfold resolveTokenTypeAndValue
  rw [href]
  simp only [Bool.false_eq_true, if_false]
  rw [hty]
  show (match rawValueValidate ty (shadowWrap ty t.value) with
    | none =>
        ((none : Option (TokenType × Json)),
          [(⟨path, "Invalid " ++ ty.toStr ++ ": " ++ prettyErrorMsg⟩ :
            ParseError)])
    | some v => (some (ty, v), [])) = (some (ty, v), [])
  rw [hraw]

theorem p2Step_token {inters : List (String × IntermediaryNode)}
    {pp : Option (List String)} {pid : Option String}
    {ty : TokenType} {v : Json} {t : Token}
    (st : P2State) (k name : String) (c : Nat)
    (hP : PCTX inters pp pid)
    (href : isTokenReference t.value = false)
    (hraw : rawValueValidate ty (shadowWrap ty t.value) = some v) :
    p2Step inters st
      (k, ⟨pp.map (String.intercalate "."), name, uuid c, some ty,
        .token t⟩) =
      ⟨st.nodes ++
        [⟨uuid c, pid,
          generateKeyBetween (some ((mapGet st.lastIdx pid).getD zeroIndex))
            none,
          .token name ty v t.description t.deprecated t.extensions⟩],
        st.errors,
        mapSet st.lastIdx pid
          (generateKeyBetween (some ((mapGet st.lastIdx pid).getD zeroIndex))
            none)⟩ := by
  have hres := @resolve_nonref inters k
    ⟨pp.map (String.intercalate "."), name, uuid c, some ty, .token t⟩
    t ty v href rfl hraw
  unfold p2Step
  simp only [hres, p2_parentId hP, List.append_nil]

theorem p2Step_group {inters : List (String × IntermediaryNode)}
    {pp : Option (List String)} {pid : Option String}
    {gty : Option TokenType} {g : Group}
    (st : P2State) (k name : String) (c : Nat)
    (hP : PCTX inters pp pid) :
    p2Step inters st
      (k, ⟨pp.map (String.intercalate "."), name, uuid c, gty,
        .group g⟩) =
      ⟨st.nodes ++
        [⟨uuid c, pid,
          generateKeyBetween (some ((mapGet st.lastIdx pid).getD zeroIndex))
            none,
          .group name gty g.description g.deprecated g.extensions⟩],
        st.errors,
        mapSet st.lastIdx pid
          (generateKeyBetween (some ((mapGet st.lastIdx pid).getD zeroIndex))
            none)⟩ := by
  unfold p2Step
  simp only [p2_parentId hP]

theorem mapGet_cons_ne {α : Type} {pk k : String} {pv : α}
    {rest : List (String × α)} (h : ¬(pk = k)) :
    mapGet ((pk, pv) :: rest) k = mapGet rest k := by
  unfold mapGet
  rw [List.find?_cons_of_neg]
  simp [h]

theorem mapGet_cons_self {α : Type} {k : String} {pv : α}
    {rest : List (String × α)} :
    mapGet ((k, pv) :: rest) k = some pv := by
  unfold mapGet
  rw [List.find?_cons_of_pos] <;> simp

theorem mapGet_of_mem_nodup {α : Type} :
    ∀ {m : List (String × α)} {k : String} {v : α},
    (k, v) ∈ m → (m.map Prod.fst).Nodup → mapGet m k = some v := by
  intro m
  induction m with
  | nil => intro k v h _; cases h
  | cons p rest ihm =>
      intro k v h hnd
      obtain ⟨pk, pv⟩ := p
      rw [List.map_cons, List.nodup_cons] at hnd
      rcases List.mem_cons.mp h with heq | hmem
      · injection heq with h1 h2
        subst h1
        subst h2
        exact mapGet_cons_self
      · by_cases hk : pk = k
        · exfalso
          subst hk
          exact hnd.1 (List.mem_map.mpr ⟨(pk, v), hmem, rfl⟩)
        · rw [mapGet_cons_ne hk]
          exact ihm hmem hnd.2

mutual
theorem p2_tree : ∀ (inters : List (String × IntermediaryNode)) (T : PTree)
    (pp : Option (List String)) (pid : Option String) (c : Nat)
    (st : P2State),
    POKT T → ctxOK pp → PCTX inters pp pid →
    (∀ e ∈ treeInters pp c T, mapGet inters e.1 = some e.2) →
    List.foldl (p2Step inters) st (treeInters pp c T) =
      ⟨st.nodes ++ (buildT pid c st.lastIdx (mTree T)).1, st.errors,
        (buildT pid c st.lastIdx (mTree T)).2.2⟩
  | inters, .token name t ty v, pp, pid, c, st, hP, hctx, hpc, hsub => by
      show List.foldl (p2Step inters) st
        [(String.intercalate "." (pathAppend pp name),
          ⟨pp.map (String.intercalate "."), name, uuid c, some ty,
            .token t⟩)] = _
      rw [List.foldl_cons, List.foldl_nil]
      rw [p2Step_token st _ name c hpc hP.2.2.1 hP.2.2.2.1]
      simp [buildT, mTree]
  | inters, .group name g gty cs, pp, pid, c, st, hP, hctx, hpc, hsub => by
      show List.foldl (p2Step inters) st
        ((String.intercalate "." (pathAppend pp name),
          ⟨pp.map (String.intercalate "."), name, uuid c, gty,
            .group g⟩) ::
          forestInters (some (pathAppend pp name)) (c + 1) cs) = _
      rw [List.foldl_cons]
      rw [p2Step_group st _ name c hpc]
      rw [p2_forest inters cs (some (pathAppend pp name)) (some (uuid c))
        (c + 1) _ hP.2.2.2.2.2 (ctxOK_append hctx hP.1) ?pctx ?hsub]
      case pctx =>
        refine Or.inr ⟨pathAppend pp name,
          ⟨pp.map (String.intercalate "."), name, uuid c, gty, .group g⟩,
          rfl, by rw [pathAppend_eq]; simp, ?_, ?_, rfl⟩
        · intro s hs
          exact ctxOK_append hctx hP.1 s hs
        · exact hsub _ (List.mem_cons_self _ _)
      case hsub =>
        intro e he
        exact hsub e (List.mem_cons_of_mem _ he)
      simp [buildT, mTree, List.append_assoc]
theorem p2_forest : ∀ (inters : List (String × IntermediaryNode))
    (F : PForest) (pp : Option (List String)) (pid : Option String)
    (c : Nat) (st : P2State),
    POKF F → ctxOK pp → PCTX inters pp pid →
    (∀ e ∈ forestInters pp c F, mapGet inters e.1 = some e.2) →
    List.foldl (p2Step inters) st (forestInters pp c F) =
      ⟨st.nodes ++ (buildF pid c st.lastIdx (mForest F)).1, st.errors,
        (buildF pid c st.lastIdx (mForest F)).2.2⟩
  | inters, .nil, pp, pid, c, st, hP, hctx, hpc, hsub => by
      show List.foldl (p2Step inters) st [] = _
      rw [List.foldl_nil]
      cases st
      simp [buildF, mForest]
  | inters, .cons T rest, pp, pid, c, st, hP, hctx, hpc, hsub => by
      show List.foldl (p2Step inters) st
        (treeInters pp c T ++ forestInters pp (c + treeCount T) rest) = _
      rw [List.foldl_append]
      rw [p2_tree inters T pp pid c st hP.1 hctx hpc
        (fun e he => hsub e (List.mem_append.mpr (Or.inl he)))]
      rw [p2_forest inters rest pp pid (c + treeCount T) _ hP.2 hctx hpc
        (fun e he => hsub e (List.mem_append.mpr (Or.inr he)))]
      show _ = (⟨st.nodes ++
        ((buildT pid c st.lastIdx (mTree T)).1 ++
          (buildF pid (buildT pid c st.lastIdx (mTree T)).2.1
            (buildT pid c st.lastIdx (mTree T)).2.2 (mForest rest)).1),
        st.errors,
        (buildF pid (buildT pid c st.lastIdx (mTree T)).2.1
          (buildT pid c st.lastIdx (mTree T)).2.2 (mForest rest)).2.2⟩ :
          P2State)
      rw [buildT_counter, mcount_mTree]
      simp [List.append_assoc]
end

/-- Bridge 1: on a valid alias-free document, `parseDesignTokens`
returns exactly the nodes built from the specification forest, and no
errors. -/
theorem parse_of_spec {input : Json} {F : PForest}
    (h : specForest input = some F) :
    parseDesignTokens input = ⟨(buildF none 0 [] (mForest F)).1, []⟩ := by
  rw [parseDesignTokens_phases h]
  have hPF : POKF F := by
    cases input with
    | obj fields =>
        rw [specForest_obj] at h
        by_cases hu : keysUniqueB (fields.map Prod.fst) = true
        · rw [if_pos hu] at h
          exact (specRoots_facts h).1
        · rw [if_neg hu] at h; cases h
    | null => cases h
    | bool b => cases h
    | num n => cases h
    | str s => cases h
    | arr l => cases h
  have hnames : keysUniqueB (forestNames F) = true := by
    cases input with
    | obj fields =>
        rw [specForest_obj] at h
        by_cases hu : keysUniqueB (fields.map Prod.fst) = true
        · rw [if_pos hu] at h
          rw [(specRoots_facts h).2]
          exact hu
        · rw [if_neg hu] at h; cases h
    | null => cases h
    | bool b => cases h
    | num n => cases h
    | str s => cases h
    | arr l => cases h
  have hnd : ((forestInters none 0 F).map Prod.fst).Nodup := by
    rw [forestInters_keys]
    exact forestPaths_nodup none F hPF ctxOK_none hnames
  have hsub : ∀ e ∈ forestInters none 0 F,
      mapGet (forestInters none 0 F) e.1 = some e.2 := by
    intro e he
    obtain ⟨k, v⟩ := e
    exact mapGet_of_mem_nodup he hnd
  rw [p2_forest (forestInters none 0 F) F none none 0 ⟨[], [], []⟩ hPF
    ctxOK_none (Or.inl ⟨rfl, rfl⟩) hsub]
  simp

/-! ### Serialization of the built nodes -/

def mtreeName : MTree → String
  | .token name _ _ _ _ _ => name
  | .group name _ _ _ _ _ => name

def mforestNames : MForest → List String
  | .nil => []
  | .cons M rest => mtreeName M :: mforestNames rest

def misToken : MTree → Prop
  | .token _ _ _ _ _ _ => True
  | .group _ _ _ _ _ _ => False

def mrootTok : MForest → Prop
  | .nil => True
  | .cons M rest => (mtreeName M = "$root" → misToken M) ∧ mrootTok rest

mutual
def MOKT : MTree → Prop
  | .token name ty v _ dep ext =>
      specName name = true ∧
      (∃ u, tokenValueUnion u = some u ∧ isTokenReference u = false ∧
        rawValueValidate ty (shadowWrap ty u) = some v) ∧
      (∀ j, dep = some j → vOr vBool vStr j = some j) ∧
      (∀ j, ext = some j → vRecord j = some j)
  | .group name _ _ dep ext cs =>
      specName name = true ∧
      (∀ j, dep = some j → vOr vBool vStr j = some j) ∧
      (∀ j, ext = some j → vRecord j = some j) ∧
      keysUniqueB (mforestNames cs) = true ∧
      mrootTok cs ∧
      MOKF cs
def MOKF : MForest → Prop
  | .nil => True
  | .cons M rest => MOKT M ∧ MOKF rest
end

mutual
def chainT (I : Option TokenType) : MTree → Prop
  | .token _ _ _ _ _ _ => True
  | .group _ gty _ _ _ cs => (gty = none → I = none) ∧ chainF gty cs
def chainF (I : Option TokenType) : MForest → Prop
  | .nil => True
  | .cons M rest => chainT I M ∧ chainF I rest
end

/-- The top tree node emitted for a subtree by the node-construction
phase. -/
def topNodeT (pid : Option String) (c : Nat)
    (li : List (Option String × String)) (M : MTree) :
    TreeNode TreeNodeMeta :=
  let index := generateKeyBetween
    (some ((mapGet li pid).getD zeroIndex)) none
  match M with
  | .token name ty v d dep ext => ⟨uuid c, pid, index, .token name ty v d dep ext⟩
  | .group name gty d dep ext _ => ⟨uuid c, pid, index, .group name gty d dep ext⟩

/-- The top-level nodes of each tree of a forest, with the per-parent
index state threaded through the full builds. -/
def topsF (pid : Option String) : Nat →
    List (Option String × String) → MForest → List (TreeNode TreeNodeMeta)
  | _, _, .nil => []
  | c, li, .cons M rest =>
      topNodeT pid c li M ::
        topsF pid (c + mcount M) (buildT pid c li M).2.2 rest

/-! All groups occurring in a subtree, with their identifier counter,
children and index state at build time. -/

mutual
def groupsT (pid : Option String) (c : Nat)
    (li : List (Option String × String)) :
    MTree → List (Nat × MForest × List (Option String × String))
  | .token _ _ _ _ _ _ => []
  | .group _ _ _ _ _ cs =>
      let index := generateKeyBetween
        (some ((mapGet li pid).getD zeroIndex)) none
      (c, cs, mapSet li pid index) ::
        groupsF (some (uuid c)) (c + 1) (mapSet li pid index) cs
def groupsF (pid : Option String) (c : Nat)
    (li : List (Option String × String)) :
    MForest → List (Nat × MForest × List (Option String × String))
  | .nil => []
  | .cons M rest =>
      groupsT pid c li M ++
        groupsF pid (c + mcount M) (buildT pid c li M).2.2 rest
end

mutual
def emitT (I : Option TokenType) : MTree → Json
  | .token name ty v d dep ext =>
      .obj (optJsonField ("$type")
          ((if I = some ty then none else some ty).map
            (fun ty' : TokenType => Json.str ty'.toStr)) ++
        optJsonField ("$description") (d.map .str) ++
        optJsonField ("$deprecated") dep ++
        optJsonField ("$extensions") ext ++
        [(("$value"), emitValue ty v)])
  | .group name gty d dep ext cs =>
      .obj ((optJsonField ("$type")
          ((match gty with
            | some ty' => if I = some ty' then none else some ty'
            | none => none).map
            (fun ty' : TokenType => Json.str ty'.toStr)) ++
        optJsonField ("$description") (d.map .str) ++
        optJsonField ("$deprecated") dep ++
        optJsonField ("$extensions") ext) ++
        emitF (gty.orElse (fun _ => I)) cs)
def emitF (I : Option TokenType) : MForest → List (String × Json)
  | .nil => []
  | .cons M rest => (mtreeName M, emitT I M) :: emitF I rest
end

/-- The document emitted by `serializeDesignTokens` for a forest. -/
def emitDoc (F : MForest) : Json := .obj (emitF none F)

theorem gmapGet_cons_ne {κ α : Type} [DecidableEq κ] {pk k : κ} {pv : α}
    {rest : List (κ × α)} (h : ¬(pk = k)) :
    mapGet ((pk, pv) :: rest) k = mapGet rest k := by
  unfold mapGet
  rw [List.find?_cons_of_neg]
  simp [h]

theorem gmapGet_cons_self {κ α : Type} [DecidableEq κ] {k : κ} {pv : α}
    {rest : List (κ × α)} :
    mapGet ((k, pv) :: rest) k = some pv := by
  unfold mapGet
  rw [List.find?_cons_of_pos] <;> simp

theorem mapGet_map_replace {κ α : Type} [DecidableEq κ] {k k' : κ}
    (h : ¬(k' = k)) (v : α) :
    ∀ m : List (κ × α),
      mapGet (m.map (fun p => if p.1 = k' then (k', v) else p)) k =
        mapGet m k := by
  intro m
  induction m with
  | nil => rfl
  | cons p rest ihm =>
      obtain ⟨pk, pv⟩ := p
      rw [List.map_cons]
      by_cases hp : pk = k'
      · simp only [hp, if_pos rfl]
        rw [gmapGet_cons_ne h, gmapGet_cons_ne (hp ▸ h)]
        exact ihm
      · simp only [if_neg hp]
        by_cases hpk : pk = k
        · subst hpk
          rw [gmapGet_cons_self, gmapGet_cons_self]
        · rw [gmapGet_cons_ne hpk, gmapGet_cons_ne hpk]
          exact ihm

theorem mapGet_append_single {κ α : Type} [DecidableEq κ] {k k' : κ}
    (h : ¬(k' = k)) (v : α) :
    ∀ m : List (κ × α), mapGet (m ++ [(k', v)]) k = mapGet m k := by
  intro m
  induction m with
  | nil =>
      show mapGet [(k', v)] k = none
      rw [gmapGet_cons_ne h]
      rfl
  | cons p rest ihm =>
      obtain ⟨pk, pv⟩ := p
      rw [List.cons_append]
      by_cases hpk : pk = k
      · subst hpk
        rw [gmapGet_cons_self, gmapGet_cons_self]
      · rw [gmapGet_cons_ne hpk, gmapGet_cons_ne hpk]
        exact ihm

theorem mapGet_mapSet_ne {κ α : Type} [DecidableEq κ]
    {m : List (κ × α)} {k k' : κ} (h : ¬(k' = k)) (v : α) :
    mapGet (mapSet m k' v) k = mapGet m k := by
  unfold mapSet
  split
  · exact mapGet_map_replace h v m
  · exact mapGet_append_single h v m

theorem mapGet_map_snd {κ α β : Type} [DecidableEq κ] (f : α → β) :
    ∀ (m : List (κ × α)) (k : κ),
      mapGet (m.map (fun p => (p.1, f p.2))) k = (mapGet m k).map f := by
  intro m
  induction m with
  | nil => intro k; rfl
  | cons p rest ihm =>
      intro k
      obtain ⟨pk, pv⟩ := p
      rw [List.map_cons]
      by_cases hpk : pk = k
      · subst hpk
        rw [gmapGet_cons_self, gmapGet_cons_self]
        rfl
      · rw [gmapGet_cons_ne hpk, gmapGet_cons_ne hpk]
        exact ihm k

/-- Combine an existing bucket with newly filtered entries. -/
def combAux {β : Type} (o : Option (List β)) (l : List β) : Option (List β) :=
  match o, l with
  | none, [] => none
  | none, l => some l
  | some m, l => some (m ++ l)

theorem groupFold_get :
    ∀ (nodes : List (TreeNode TreeNodeMeta))
      (cm : List (Option String × List (TreeNode TreeNodeMeta)))
      (k : Option String),
    mapGet (nodes.foldl
      (fun cm node => mapSet cm node.parentId
        ((mapGet cm node.parentId).getD [] ++ [node])) cm) k =
    combAux (mapGet cm k) (nodes.filter (fun n => n.parentId = k)) := by
  intro nodes
  induction nodes with
  | nil =>
      intro cm k
      rw [List.foldl_nil, List.filter_nil]
      cases hmg : mapGet cm k <;> simp [combAux]
  | cons n rest ihn =>
      intro cm k
      rw [List.foldl_cons, ihn, List.filter_cons]
      by_cases hk : n.parentId = k
      · rw [if_pos (by simpa using hk)]
        rw [show mapGet (mapSet cm n.parentId
            ((mapGet cm n.parentId).getD [] ++ [n])) k =
            some ((mapGet cm n.parentId).getD [] ++ [n]) from by
          rw [← hk]; exact mapGet_mapSet_self _ _ _]
        rw [← hk]
        cases hmg : mapGet cm n.parentId <;> simp [combAux, hmg]
      · rw [if_neg (by simpa using hk)]
        rw [mapGet_mapSet_ne hk]

theorem childrenMapOf_get (nodes : List (TreeNode TreeNodeMeta))
    (k : Option String) :
    mapGet (childrenMapOf nodes) k =
      (combAux none (nodes.filter (fun n => n.parentId = k))).map
        sortByIndex := by
  unfold childrenMapOf
  rw [mapGet_map_snd, groupFold_get]
  rfl

theorem childrenMapOf_getD (nodes : List (TreeNode TreeNodeMeta))
    (k : Option String) :
    (mapGet (childrenMapOf nodes) k).getD [] =
      sortByIndex (nodes.filter (fun n => n.parentId = k)) := by
  rw [childrenMapOf_get]
  cases hf : nodes.filter (fun n => n.parentId = k) with
  | nil => simp [combAux, sortByIndex]
  | cons a l => simp [combAux]

theorem uuid_ne {a b : Nat} (h : ¬(a = b)) :
    ¬((some (uuid a) : Option String) = some (uuid b)) :=
  fun hc => h (uuid_injective _ _ (Option.some.inj hc))

theorem filter_nil_of {β : Type} (p : β → Bool) :
    ∀ l : List β, (∀ a ∈ l, p a = false) → l.filter p = [] := by
  intro l
  induction l with
  | nil => intro _; rfl
  | cons a t iht =>
      intro h
      rw [List.filter_cons, if_neg (by simp [h a (List.mem_cons_self _ _)])]
      exact iht (fun b hb => h b (List.mem_cons_of_mem _ hb))

theorem buildT_token_eq (pid : Option String) (c : Nat)
    (li : List (Option String × String)) (name : String) (ty : TokenType)
    (v : Json) (d : Option String) (dep ext : Option Json) :
    buildT pid c li (.token name ty v d dep ext) =
      ([topNodeT pid c li (.token name ty v d dep ext)], c + 1,
        mapSet li pid (generateKeyBetween
          (some ((mapGet li pid).getD zeroIndex)) none)) := rfl

theorem buildT_group_eq (pid : Option String) (c : Nat)
    (li : List (Option String × String)) (name : String)
    (gty : Option TokenType) (d : Option String) (dep ext : Option Json)
    (cs : MForest) :
    buildT pid c li (.group name gty d dep ext cs) =
      (topNodeT pid c li (.group name gty d dep ext cs) ::
        (buildF (some (uuid c)) (c + 1)
          (mapSet li pid (generateKeyBetween
            (some ((mapGet li pid).getD zeroIndex)) none)) cs).1,
       (buildF (some (uuid c)) (c + 1)
          (mapSet li pid (generateKeyBetween
            (some ((mapGet li pid).getD zeroIndex)) none)) cs).2.1,
       (buildF (some (uuid c)) (c + 1)
          (mapSet li pid (generateKeyBetween
            (some ((mapGet li pid).getD zeroIndex)) none)) cs).2.2) := rfl

theorem buildF_cons_eq (pid : Option String) (c : Nat)
    (li : List (Option String × String)) (M : MTree) (rest : MForest) :
    buildF pid c li (.cons M rest) =
      ((buildT pid c li M).1 ++
        (buildF pid (buildT pid c li M).2.1
          (buildT pid c li M).2.2 rest).1,
       (buildF pid (buildT pid c li M).2.1
          (buildT pid c li M).2.2 rest).2.1,
       (buildF pid (buildT pid c li M).2.1
          (buildT pid c li M).2.2 rest).2.2) := rfl

mutual
theorem buildT_parents : ∀ (pid : Option String) (c : Nat)
    (li : List (Option String × String)) (M : MTree),
    ∀ n ∈ (buildT pid c li M).1,
      n.parentId = pid ∨
      ∃ j, c ≤ j ∧ j < c + mcount M ∧ n.parentId = some (uuid j)
  | pid, c, li, .token name ty v d dep ext => by
      intro n hn
      rw [buildT_token_eq, List.mem_singleton] at hn
      subst hn
      exact Or.inl rfl
  | pid, c, li, .group name gty d dep ext cs => by
      intro n hn
      rw [buildT_group_eq, List.mem_cons] at hn
      rcases hn with rfl | hn
      · exact Or.inl rfl
      · rcases buildF_parents _ _ _ cs n hn with hp | ⟨j, hj1, hj2, hp⟩
        · refine Or.inr ⟨c, le_rfl, ?_, hp⟩
          show c < c + (1 + mfcount cs)
          omega
        · refine Or.inr ⟨j, by omega, ?_, hp⟩
          show j < c + (1 + mfcount cs)
          omega
theorem buildF_parents : ∀ (pid : Option String) (c : Nat)
    (li : List (Option String × String)) (F : MForest),
    ∀ n ∈ (buildF pid c li F).1,
      n.parentId = pid ∨
      ∃ j, c ≤ j ∧ j < c + mfcount F ∧ n.parentId = some (uuid j)
  | pid, c, li, .nil => by
      intro n hn
      cases hn
  | pid, c, li, .cons M rest => by
      intro n hn
      rw [buildF_cons_eq] at hn
      rcases List.mem_append.mp hn with hn | hn
      · rcases buildT_parents _ _ _ M n hn with hp | ⟨j, hj1, hj2, hp⟩
        · exact Or.inl hp
        · refine Or.inr ⟨j, hj1, ?_, hp⟩
          show j < c + (mcount M + mfcount rest)
          omega
      · rw [buildT_counter] at hn
        rcases buildF_parents _ _ _ rest n hn with hp | ⟨j, hj1, hj2, hp⟩
        · exact Or.inl hp
        · refine Or.inr ⟨j, by omega, ?_, hp⟩
          show j < c + (mcount M + mfcount rest)
          omega
end

mutual
theorem groupsT_range : ∀ (pid : Option String) (c : Nat)
    (li : List (Option String × String)) (M : MTree)
    (cg : Nat) (cs' : MForest) (li' : List (Option String × String)),
    (cg, cs', li') ∈ groupsT pid c li M → c ≤ cg ∧ cg < c + mcount M
  | pid, c, li, .token name ty v d dep ext => by
      intro cg cs' li' h
      cases h
  | pid, c, li, .group name gty d dep ext cs => by
      intro cg cs' li' h
      rw [groupsT, List.mem_cons] at h
      rcases h with heq | h
      · injection heq with h1 h2
        refine ⟨by omega, ?_⟩
        have h1' : cg = c := h1
        rw [h1']
        show c < c + (1 + mfcount cs)
        omega
      · obtain ⟨h1, h2⟩ := groupsF_range _ _ _ cs cg cs' li' h
        refine ⟨by omega, ?_⟩
        show cg < c + (1 + mfcount cs)
        omega
theorem groupsF_range : ∀ (pid : Option String) (c : Nat)
    (li : List (Option String × String)) (F : MForest)
    (cg : Nat) (cs' : MForest) (li' : List (Option String × String)),
    (cg, cs', li') ∈ groupsF pid c li F → c ≤ cg ∧ cg < c + mfcount F
  | pid, c, li, .nil => by
      intro cg cs' li' h
      cases h
  | pid, c, li, .cons M rest => by
      intro cg cs' li' h
      rw [groupsF, List.mem_append] at h
      rcases h with h | h
      · obtain ⟨h1, h2⟩ := groupsT_range _ _ _ M cg cs' li' h
        refine ⟨h1, ?_⟩
        show cg < c + (mcount M + mfcount rest)
        omega
      · obtain ⟨h1, h2⟩ := groupsF_range _ _ _ rest cg cs' li' h
        refine ⟨by omega, ?_⟩
        show cg < c + (mcount M + mfcount rest)
        omega
end

mutual
theorem buildT_li_other : ∀ (pid : Option String) (c : Nat)
    (li : List (Option String × String)) (M : MTree) (k : Option String),
    ¬(k = pid) →
    (∀ j, c ≤ j → j < c + mcount M → ¬(k = some (uuid j))) →
    mapGet (buildT pid c li M).2.2 k = mapGet li k
  | pid, c, li, .token name ty v d dep ext => by
      intro k hk _
      rw [buildT_token_eq]
      exact mapGet_mapSet_ne (fun hc => hk hc.symm) _
  | pid, c, li, .group name gty d dep ext cs => by
      intro k hk hw
      rw [buildT_group_eq]
      rw [buildF_li_other _ _ _ cs k ?hk' ?hw']
      · exact mapGet_mapSet_ne (fun hc => hk hc.symm) _
      case hk' =>
        exact hw c le_rfl (by show c < c + (1 + mfcount cs); omega)
      case hw' =>
        intro j hj1 hj2
        refine hw j (by omega) ?_
        show j < c + (1 + mfcount cs)
        omega
theorem buildF_li_other : ∀ (pid : Option String) (c : Nat)
    (li : List (Option String × String)) (F : MForest) (k : Option String),
    ¬(k = pid) →
    (∀ j, c ≤ j → j < c + mfcount F → ¬(k = some (uuid j))) →
    mapGet (buildF pid c li F).2.2 k = mapGet li k
  | pid, c, li, .nil => by
      intro k _ _
      rfl
  | pid, c, li, .cons M rest => by
      intro k hk hw
      rw [buildF_cons_eq]
      rw [buildF_li_other _ _ _ rest k hk ?hw1]
      rw [buildT_li_other _ _ _ M k hk ?hw2]
      case hw1 =>
        rw [buildT_counter]
        intro j hj1 hj2
        refine hw j (by omega) ?_
        show j < c + (mcount M + mfcount rest)
        omega
      case hw2 =>
        intro j hj1 hj2
        refine hw j hj1 ?_
        show j < c + (mcount M + mfcount rest)
        omega
end

theorem buildT_li_self (pid : Option String) (c : Nat)
    (li : List (Option String × String)) (M : MTree)
    (hw : ∀ j, c ≤ j → j < c + mcount M → ¬(pid = some (uuid j))) :
    mapGet (buildT pid c li M).2.2 pid =
      some (generateKeyBetween
        (some ((mapGet li pid).getD zeroIndex)) none) := by
  cases M with
  | token name ty v d dep ext =>
      rw [buildT_token_eq]
      exact mapGet_mapSet_self _ _ _
  | group name gty d dep ext cs =>
      rw [buildT_group_eq]
      rw [buildF_li_other _ _ _ cs pid
        (hw c le_rfl (by show c < c + (1 + mfcount cs); omega))
        (fun j hj1 hj2 => hw j (by omega)
          (by show j < c + (1 + mfcount cs); omega))]
      exact mapGet_mapSet_self _ _ _

mutual
theorem buildT_filter_at_pid : ∀ (pid : Option String) (c : Nat)
    (li : List (Option String × String)) (M : MTree),
    (∀ j, c ≤ j → j < c + mcount M → ¬(pid = some (uuid j))) →
    (buildT pid c li M).1.filter (fun n => n.parentId = pid) =
      [topNodeT pid c li M]
  | pid, c, li, .token name ty v d dep ext => by
      intro hw
      rw [buildT_token_eq, List.filter_cons, if_pos (by simp [topNodeT])]
      rfl
  | pid, c, li, .group name gty d dep ext cs => by
      intro hw
      rw [buildT_group_eq, List.filter_cons, if_pos (by simp [topNodeT])]
      rw [filter_nil_of _ _ ?inner]
      case inner =>
        intro n hn
        rcases buildF_parents _ _ _ cs n hn with hp | ⟨j, hj1, hj2, hp⟩
        · rw [hp]
          simp only [decide_eq_false_iff_not]
          exact fun hc =>
            hw c le_rfl (by show c < c + (1 + mfcount cs); omega) hc.symm
        · rw [hp]
          simp only [decide_eq_false_iff_not]
          intro hc
          exact hw j (by omega)
            (by show j < c + (1 + mfcount cs); omega) hc.symm
theorem buildF_filter_at_pid : ∀ (pid : Option String) (c : Nat)
    (li : List (Option String × String)) (F : MForest),
    (∀ j, c ≤ j → j < c + mfcount F → ¬(pid = some (uuid j))) →
    (buildF pid c li F).1.filter (fun n => n.parentId = pid) =
      topsF pid c li F
  | pid, c, li, .nil => by
      intro _
      rfl
  | pid, c, li, .cons M rest => by
      intro hw
      rw [buildF_cons_eq]
      show ((buildT pid c li M).1 ++ _).filter _ = _
      rw [List.filter_append]
      rw [buildT_filter_at_pid _ _ _ M
        (fun j hj1 hj2 => hw j hj1
          (by show j < c + (mcount M + mfcount rest); omega))]
      rw [buildT_counter]
      rw [buildF_filter_at_pid _ _ _ rest
        (fun j hj1 hj2 => hw j (by omega)
          (by show j < c + (mcount M + mfcount rest); omega))]
      rfl
end

mutual
theorem buildT_group_children : ∀ (pid : Option String) (c : Nat)
    (li : List (Option String × String)) (M : MTree)
    (cg : Nat) (cs' : MForest) (li' : List (Option String × String)),
    (∀ j, c ≤ j → j < c + mcount M → ¬(pid = some (uuid j))) →
    (cg, cs', li') ∈ groupsT pid c li M →
    (buildT pid c li M).1.filter (fun n => n.parentId = some (uuid cg)) =
      topsF (some (uuid cg)) (cg + 1) li' cs'
  | pid, c, li, .token name ty v d dep ext => by
      intro cg cs' li' _ h
      cases h
  | pid, c, li, .group name gty d dep ext cs => by
      intro cg cs' li' hw h
      have hrange := groupsT_range pid c li (.group name gty d dep ext cs)
        cg cs' li' h
      rw [groupsT, List.mem_cons] at h
      rw [buildT_group_eq, List.filter_cons]
      rw [if_neg (by
        simp only [decide_eq_true_eq]
        show ¬(pid = some (uuid cg))
        exact hw cg hrange.1 hrange.2)]
      rcases h with heq | h
      · injection heq with h1 h2
        injection h2 with h2a h2b
        rw [h1, h2a, h2b]
        exact buildF_filter_at_pid _ _ _ cs (fun j hj1 hj2 hc => by
          have := uuid_injective _ _ (Option.some.inj hc)
          omega)
      · exact buildF_group_children _ _ _ cs cg cs' li'
          (fun j hj1 hj2 hc => by
            have := uuid_injective _ _ (Option.some.inj hc)
            omega) h
theorem buildF_group_children : ∀ (pid : Option String) (c : Nat)
    (li : List (Option String × String)) (F : MForest)
    (cg : Nat) (cs' : MForest) (li' : List (Option String × String)),
    (∀ j, c ≤ j → j < c + mfcount F → ¬(pid = some (uuid j))) →
    (cg, cs', li') ∈ groupsF pid c li F →
    (buildF pid c li F).1.filter (fun n => n.parentId = some (uuid cg)) =
      topsF (some (uuid cg)) (cg + 1) li' cs'
  | pid, c, li, .nil => by
      intro cg cs' li' _ h
      cases h
  | pid, c, li, .cons M rest => by
      intro cg cs' li' hw h
      rw [groupsF, List.mem_append] at h
      rw [buildF_cons_eq]
      show ((buildT pid c li M).1 ++ _).filter _ = _
      rw [List.filter_append]
      rcases h with h | h
      · have hrange := groupsT_range pid c li M cg cs' li' h
        rw [buildT_group_children _ _ _ M cg cs' li'
          (fun j hj1 hj2 => hw j hj1
            (by show j < c + (mcount M + mfcount rest); omega)) h]
        rw [filter_nil_of _ _ ?rest0]
        · rw [List.append_nil]
        case rest0 =>
          intro n hn
          rw [buildT_counter] at hn
          rcases buildF_parents _ _ _ rest n hn with hp | ⟨j, hj1, hj2, hp⟩
          · rw [hp]
            simp only [decide_eq_false_iff_not]
            intro hc
            exact hw cg hrange.1
              (by show cg < c + (mcount M + mfcount rest); omega) hc
          · rw [hp]
            simp only [decide_eq_false_iff_not]
            intro hc
            have := uuid_injective _ _ (Option.some.inj hc)
            omega
      · have hrange := groupsF_range pid (c + mcount M) _ rest cg cs' li' h
        rw [filter_nil_of _ _ ?tree0]
        · rw [List.nil_append, buildT_counter]
          exact buildF_group_children _ _ _ rest cg cs' li'
            (fun j hj1 hj2 => hw j (by omega)
              (by show j < c + (mcount M + mfcount rest); omega)) h
        case tree0 =>
          intro n hn
          rcases buildT_parents _ _ _ M n hn with hp | ⟨j, hj1, hj2, hp⟩
          · rw [hp]
            simp only [decide_eq_false_iff_not]
            intro hc
            exact hw cg (by omega)
              (by show cg < c + (mcount M + mfcount rest); omega) hc
          · rw [hp]
            simp only [decide_eq_false_iff_not]
            intro hc
            have := uuid_injective _ _ (Option.some.inj hc)
            omega
end

theorem list_not_append_lt {e : List Char} :
    ∀ l : List Char, ¬((l ++ e) < l) := by
  intro l
  induction l with
  | nil =>
      intro h
      cases h
  | cons a l ih =>
      intro h
      cases h with
      | cons h1 => exact ih h1
      | rel h1 => exact absurd h1 (lt_irrefl a)

theorem str_le_append (s t : String) : s ≤ s ++ t := by
  show ¬(s ++ t) < s
  intro h
  rw [String.lt_iff_toList_lt] at h
  rw [show (s ++ t).toList = s.toList ++ t.toList from rfl] at h
  exact list_not_append_lt s.toList h

theorem genKey_some (s : String) :
    generateKeyBetween (some s) none = s ++ "0" := rfl

theorem insertByIndex_last {n : TreeNode TreeNodeMeta} :
    ∀ acc : List (TreeNode TreeNodeMeta),
      (∀ m ∈ acc, m.index ≤ n.index) → insertByIndex n acc = acc ++ [n] := by
  intro acc
  induction acc with
  | nil => intro _; rfl
  | cons m rest ih =>
      intro h
      unfold insertByIndex
      rw [if_pos (h m (List.mem_cons_self _ _))]
      rw [ih (fun m' hm' => h m' (List.mem_cons_of_mem _ hm'))]
      rfl

theorem foldl_insert_sorted :
    ∀ l acc : List (TreeNode TreeNodeMeta),
      l.Pairwise (fun a b => a.index ≤ b.index) →
      (∀ m ∈ acc, ∀ n ∈ l, m.index ≤ n.index) →
      l.foldl (fun acc n => insertByIndex n acc) acc = acc ++ l := by
  intro l
  induction l with
  | nil => intro acc _ _; simp
  | cons n rest ih =>
      intro acc hp hcross
      rw [List.foldl_cons]
      rw [insertByIndex_last acc
        (fun m hm => hcross m hm n (List.mem_cons_self _ _))]
      rw [ih (acc ++ [n]) (List.pairwise_cons.mp hp).2 ?cross]
      · simp
      case cross =>
        intro m hm n' hn'
        rcases List.mem_append.mp hm with hm' | hm'
        · exact hcross m hm' n' (List.mem_cons_of_mem _ hn')
        · rw [List.mem_singleton] at hm'
          rw [hm']
          exact (List.pairwise_cons.mp hp).1 n' hn'

theorem sortByIndex_id {l : List (TreeNode TreeNodeMeta)}
    (h : l.Pairwise (fun a b => a.index ≤ b.index)) : sortByIndex l = l := by
  unfold sortByIndex
  rw [foldl_insert_sorted l [] h (fun m hm => absurd hm (List.not_mem_nil m))]
  rw [List.nil_append]

theorem topNodeT_index (pid : Option String) (c : Nat)
    (li : List (Option String × String)) (M : MTree) :
    (topNodeT pid c li M).index =
      ((mapGet li pid).getD zeroIndex) ++ "0" := by
  cases M <;> rfl

theorem topNodeT_meta_name (pid : Option String) (c : Nat)
    (li : List (Option String × String)) (M : MTree) :
    (topNodeT pid c li M).meta.name = mtreeName M := by
  cases M <;> rfl

theorem topsF_index_shape :
    ∀ (F : MForest) (pid : Option String) (c : Nat)
      (li : List (Option String × String)),
      (∀ j, c ≤ j → j < c + mfcount F → ¬(pid = some (uuid j))) →
      ∀ n ∈ topsF pid c li F,
        ∃ t : String,
          n.index = ((mapGet li pid).getD zeroIndex) ++ "0" ++ t
  | .nil => by
      intro pid c li _ n hn
      cases hn
  | .cons M rest => by
      intro pid c li hw n hn
      rw [topsF, List.mem_cons] at hn
      rcases hn with rfl | hn
      · refine ⟨"", ?_⟩
        rw [topNodeT_index]
        simp
      · obtain ⟨t, ht⟩ := topsF_index_shape rest pid (c + mcount M)
          (buildT pid c li M).2.2
          (fun j hj1 hj2 => hw j (by omega)
            (by show j < c + (mcount M + mfcount rest); omega)) n hn
        rw [buildT_li_self pid c li M
          (fun j hj1 hj2 => hw j hj1
            (by show j < c + (mcount M + mfcount rest); omega))] at ht
        refine ⟨"0" ++ t, ?_⟩
        rw [ht]
        simp only [Option.getD_some, genKey_some]
        rw [String.append_assoc, String.append_assoc]

theorem topsF_pairwise :
    ∀ (F : MForest) (pid : Option String) (c : Nat)
      (li : List (Option String × String)),
      (∀ j, c ≤ j → j < c + mfcount F → ¬(pid = some (uuid j))) →
      (topsF pid c li F).Pairwise (fun a b => a.index ≤ b.index)
  | .nil => by
      intro pid c li _
      exact List.Pairwise.nil
  | .cons M rest => by
      intro pid c li hw
      rw [topsF]
      rw [List.pairwise_cons]
      constructor
      · intro n hn
        obtain ⟨t, ht⟩ := topsF_index_shape rest pid (c + mcount M)
          (buildT pid c li M).2.2
          (fun j hj1 hj2 => hw j (by omega)
            (by show j < c + (mcount M + mfcount rest); omega)) n hn
        rw [buildT_li_self pid c li M
          (fun j hj1 hj2 => hw j hj1
            (by show j < c + (mcount M + mfcount rest); omega))] at ht
        rw [topNodeT_index, ht]
        simp only [Option.getD_some, genKey_some]
        rw [String.append_assoc]
        exact str_le_append _ _
      · exact topsF_pairwise rest pid (c + mcount M) (buildT pid c li M).2.2
          (fun j hj1 hj2 => hw j (by omega)
            (by show j < c + (mcount M + mfcount rest); omega))

theorem jsAssign_eq_mapSet (fs : List (String × Json)) (k : String)
    (v : Json) : jsAssign fs k v = mapSet fs k v := rfl

theorem jsAssign_fresh {fs : List (String × Json)} {k : String}
    (h : ¬(k ∈ fs.map Prod.fst)) (v : Json) :
    jsAssign fs k v = fs ++ [(k, v)] := by
  rw [jsAssign_eq_mapSet]
  exact mapSet_fresh h v

theorem jsAssign_replace_last (meta : List (String × Json)) (k : String)
    (v w : Json) (hmeta : ∀ p ∈ meta, ¬(p.1 = k)) :
    jsAssign (meta ++ [(k, v)]) k w = meta ++ [(k, w)] := by
  unfold jsAssign
  rw [if_pos (by rw [List.any_append]; simp)]
  rw [List.map_append]
  congr 1
  · have hid : meta.map (fun p => if p.1 = k then (k, w) else p) =
        meta.map id :=
      List.map_congr_left (fun p hp => by rw [if_neg (hmeta p hp)]; rfl)
    rw [hid, List.map_id]
  · simp

theorem optJsonField_keys {k : String} {o : Option Json} :
    ∀ p ∈ optJsonField k o, p.1 = k := by
  intro p hp
  cases o with
  | none => cases hp
  | some v =>
      rw [optJsonField, List.mem_singleton] at hp
      rw [hp]

theorem metaBlock_keys (o1 o2 o3 o4 : Option Json) :
    ∀ p ∈ optJsonField ("$type") o1 ++ optJsonField ("$description") o2 ++
        optJsonField ("$deprecated") o3 ++ optJsonField ("$extensions") o4,
      p.1 = "$type" ∨ p.1 = "$description" ∨ p.1 = "$deprecated" ∨
        p.1 = "$extensions" := by
  intro p hp
  rcases List.mem_append.mp hp with hp | hp
  · rcases List.mem_append.mp hp with hp | hp
    · rcases List.mem_append.mp hp with hp | hp
      · exact Or.inl (optJsonField_keys p hp)
      · exact Or.inr (Or.inl (optJsonField_keys p hp))
    · exact Or.inr (Or.inr (Or.inl (optJsonField_keys p hp)))
  · exact Or.inr (Or.inr (Or.inr (optJsonField_keys p hp)))

theorem specName_not_dollar {name : String} (h : specName name = true) :
    jsStartsWith name ("$") = false ∨ name = "$root" := by
  unfold specName at h
  rw [Bool.or_eq_true] at h
  rcases h with h | h
  · rw [Bool.and_eq_true] at h
    have h1 : nameValid name = true := h.1
    unfold nameValid at h1
    simp only [Bool.and_eq_true] at h1
    have h2 := h1.1.1.1
    left
    cases hb : jsStartsWith name ("$") with
    | false => rfl
    | true =>
        rw [hb] at h2
        exact absurd h2 (by decide)
  · right
    exact eq_of_beq h

theorem specName_ne_meta {name : String} (h : specName name = true) :
    ¬(name = "$type") ∧ ¬(name = "$description") ∧ ¬(name = "$deprecated") ∧
      ¬(name = "$extensions") ∧ ¬(name = "$value") ∧ ¬(name = "$extends") := by
  rcases specName_not_dollar h with h1 | h1 <;>
    refine ⟨?_, ?_, ?_, ?_, ?_, ?_⟩ <;> intro hc <;> rw [hc] at h1 <;>
      revert h1 <;> decide

theorem MOKT_specName (M : MTree) (h : MOKT M) :
    specName (mtreeName M) = true := by
  cases M with
  | token name ty v d dep ext => exact h.1
  | group name gty d dep ext cs => exact h.1

theorem mforestNames_specName : ∀ F : MForest, MOKF F →
    ∀ name ∈ mforestNames F, specName name = true
  | .nil => by
      intro _ name hn
      cases hn
  | .cons M rest => by
      intro h name hn
      rw [mforestNames, List.mem_cons] at hn
      rcases hn with rfl | hn
      · exact MOKT_specName M h.1
      · exact mforestNames_specName rest h.2 name hn

mutual
theorem buildT_length : ∀ (pid : Option String) (c : Nat)
    (li : List (Option String × String)) (M : MTree),
    (buildT pid c li M).1.length = mcount M
  | pid, c, li, .token name ty v d dep ext => by simp [buildT, mcount]
  | pid, c, li, .group name gty d dep ext cs => by
      show (⟨uuid c, pid, _, .group name gty d dep ext⟩ ::
        (buildF (some (uuid c)) (c + 1) _ cs).1).length = _
      rw [List.length_cons, buildF_length]
      simp [mcount]
      omega
theorem buildF_length : ∀ (pid : Option String) (c : Nat)
    (li : List (Option String × String)) (F : MForest),
    (buildF pid c li F).1.length = mfcount F
  | pid, c, li, .nil => by simp [buildF, mfcount]
  | pid, c, li, .cons M rest => by
      show ((buildT pid c li M).1 ++
        (buildF pid (buildT pid c li M).2.1
          (buildT pid c li M).2.2 rest).1).length = _
      rw [List.length_append, buildT_length, buildF_length]
      simp [mfcount]
end

theorem serializeNode_token
    (cm : List (Option String × List (TreeNode TreeNodeMeta))) (fuel : Nat)
    (nid : String) (pid : Option String) (idx : String) (name : String)
    (ty : TokenType) (v : Json) (d : Option String) (dep ext : Option Json)
    (I : Option TokenType) :
    serializeNode cm (fuel + 1) ⟨nid, pid, idx, .token name ty v d dep ext⟩ I =
      emitT I (.token name ty v d dep ext) := by
  cases ty <;> try rfl
  cases v <;> try rfl
  rename_i items
  match items with
  | [] => rfl
  | item :: i2 :: irest => rfl
  | [item] =>
      simp only [serializeNode, emitT, emitValue]
      cases hsv : shadowValue (Json.arr [item]) <;> try rfl
      rename_i w
      cases w <;> try rfl
      rename_i ws
      match ws with
      | [] => rfl
      | w1 :: w2 :: wrest => rfl
      | [w1] =>
          dsimp only
          rw [jsAssign_replace_last _ _ _ _ ?hmeta]
          case hmeta =>
            intro p hp
            rcases metaBlock_keys _ _ _ _ p hp with h | h | h | h <;>
              rw [h] <;> decide

theorem serializeNode_group
    (cm : List (Option String × List (TreeNode TreeNodeMeta))) (fuel : Nat)
    (nid : String) (pid : Option String) (idx : String) (name : String)
    (gty : Option TokenType) (d : Option String) (dep ext : Option Json)
    (I : Option TokenType) :
    serializeNode cm (fuel + 1) ⟨nid, pid, idx, .group name gty d dep ext⟩ I =
      .obj (((mapGet cm (some nid)).getD []).foldl
        (fun fs child =>
          jsAssign fs child.meta.name
            (serializeNode cm fuel child (gty.orElse (fun _ => I))))
        (optJsonField ("$type")
            ((match gty with
              | some ty' => if I = some ty' then none else some ty'
              | none => none).map
              (fun ty' : TokenType => Json.str ty'.toStr)) ++
          optJsonField ("$description") (d.map .str) ++
          optJsonField ("$deprecated") dep ++
          optJsonField ("$extensions") ext)) := rfl

mutual
theorem serializeNode_emit : ∀ (M : MTree) (pid : Option String) (c : Nat)
    (li : List (Option String × String))
    (cm : List (Option String × List (TreeNode TreeNodeMeta)))
    (fuel : Nat) (I : Option TokenType),
    MOKT M →
    mcount M ≤ fuel →
    (∀ cg cs' li', (cg, cs', li') ∈ groupsT pid c li M →
      (mapGet cm (some (uuid cg))).getD [] =
        sortByIndex (topsF (some (uuid cg)) (cg + 1) li' cs')) →
    serializeNode cm fuel (topNodeT pid c li M) I = emitT I M
  | .token name ty v d dep ext => by
      intro pid c li cm fuel I _ hfuel _
      rw [mcount] at hfuel
      cases fuel with
      | zero => omega
      | succ f =>
          exact serializeNode_token cm f (uuid c) pid
            (generateKeyBetween (some ((mapGet li pid).getD zeroIndex)) none)
            name ty v d dep ext I
  | .group name gty d dep ext cs => by
      intro pid c li cm fuel I hok hfuel hgc
      rw [mcount] at hfuel
      cases fuel with
      | zero => omega
      | succ f =>
          have htop : topNodeT pid c li (.group name gty d dep ext cs) =
              ⟨uuid c, pid,
                generateKeyBetween
                  (some ((mapGet li pid).getD zeroIndex)) none,
                .group name gty d dep ext⟩ := rfl
          rw [htop, serializeNode_group]
          rw [hgc c cs
            (mapSet li pid (generateKeyBetween
              (some ((mapGet li pid).getD zeroIndex)) none))
            (by rw [groupsT]; exact List.mem_cons_self _ _)]
          rw [sortByIndex_id (topsF_pairwise cs (some (uuid c)) (c + 1) _
            (fun j hj1 hj2 hc => by
              have := uuid_injective _ _ (Option.some.inj hc)
              omega))]
          rw [serializeF_emit cs (some (uuid c)) (c + 1)
            (mapSet li pid (generateKeyBetween
              (some ((mapGet li pid).getD zeroIndex)) none))
            cm f (gty.orElse (fun _ => I)) _
            hok.2.2.2.2.2 (by omega) ?hg2 hok.2.2.2.1 ?hf2]
          · rfl
          case hg2 =>
            intro cg cs' li' hmem
            exact hgc cg cs' li'
              (by rw [groupsT]; exact List.mem_cons_of_mem _ hmem)
          case hf2 =>
            intro p hp hmem
            have hs := mforestNames_specName cs hok.2.2.2.2.2 p.1 hmem
            have hne := specName_ne_meta hs
            rcases metaBlock_keys _ _ _ _ p hp with h | h | h | h
            · exact hne.1 h
            · exact hne.2.1 h
            · exact hne.2.2.1 h
            · exact hne.2.2.2.1 h
theorem serializeF_emit : ∀ (F : MForest) (pid : Option String) (c : Nat)
    (li : List (Option String × String))
    (cm : List (Option String × List (TreeNode TreeNodeMeta)))
    (fuel : Nat) (I : Option TokenType) (acc : List (String × Json)),
    MOKF F →
    mfcount F ≤ fuel →
    (∀ cg cs' li', (cg, cs', li') ∈ groupsF pid c li F →
      (mapGet cm (some (uuid cg))).getD [] =
        sortByIndex (topsF (some (uuid cg)) (cg + 1) li' cs')) →
    keysUniqueB (mforestNames F) = true →
    (∀ p ∈ acc, ¬(p.1 ∈ mforestNames F)) →
    (topsF pid c li F).foldl
      (fun fs child =>
        jsAssign fs child.meta.name (serializeNode cm fuel child I))
      acc = acc ++ emitF I F
  | .nil => by
      intro pid c li cm fuel I acc _ _ _ _ _
      rw [topsF, List.foldl_nil, emitF, List.append_nil]
  | .cons M rest => by
      intro pid c li cm fuel I acc hok hfuel hgc hun hfresh
      rw [mfcount] at hfuel
      rw [topsF]
      simp only [List.foldl_cons]
      rw [topNodeT_meta_name]
      rw [serializeNode_emit M pid c li cm fuel I hok.1 (by omega) ?hgM]
      rw [jsAssign_fresh ?hfM]
      rw [serializeF_emit rest pid (c + mcount M) (buildT pid c li M).2.2
        cm fuel I (acc ++ [(mtreeName M, emitT I M)]) hok.2 (by omega)
        ?hgR ?hunR ?hfR]
      · rw [emitF, List.append_assoc, List.singleton_append]
      case hgM =>
        intro cg cs' li' hmem
        exact hgc cg cs' li'
          (by rw [groupsF]; exact List.mem_append.mpr (Or.inl hmem))
      case hfM =>
        intro hc
        rcases List.mem_map.mp hc with ⟨p, hp, hpk⟩
        exact hfresh p hp
          (by rw [mforestNames]; rw [hpk]; exact List.mem_cons_self _ _)
      case hgR =>
        intro cg cs' li' hmem
        exact hgc cg cs' li'
          (by rw [groupsF]; exact List.mem_append.mpr (Or.inr hmem))
      case hunR =>
        rw [mforestNames, keysUniqueB, Bool.and_eq_true] at hun
        exact hun.2
      case hfR =>
        intro p hp hmem
        rcases List.mem_append.mp hp with hp' | hp'
        · exact hfresh p hp'
            (by rw [mforestNames]; exact List.mem_cons_of_mem _ hmem)
        · rw [List.mem_singleton] at hp'
          rw [mforestNames, keysUniqueB, Bool.and_eq_true] at hun
          have h1 := hun.1
          have h2 : (mforestNames rest).contains (mtreeName M) = true :=
            List.elem_eq_true_of_mem (by rw [hp'] at hmem; exact hmem)
          rw [h2] at h1
          exact absurd h1 (by decide)
end

theorem serialize_of_build (MF : MForest) (hok : MOKF MF)
    (hun : keysUniqueB (mforestNames MF) = true) :
    serializeDesignTokens (buildF none 0 [] MF).1 = emitDoc MF := by
  show Json.obj
      (((mapGet (childrenMapOf (buildF none 0 [] MF).1) none).getD []).foldl
        (fun fs node =>
          jsAssign fs node.meta.name
            (serializeNode (childrenMapOf (buildF none 0 [] MF).1)
              ((buildF none 0 [] MF).1.length + 1) node none))
        []) = emitDoc MF
  rw [childrenMapOf_getD]
  rw [buildF_filter_at_pid none 0 [] MF (fun j hj1 hj2 hc => by cases hc)]
  rw [sortByIndex_id (topsF_pairwise MF none 0 []
    (fun j hj1 hj2 hc => by cases hc))]
  rw [serializeF_emit MF none 0 [] (childrenMapOf (buildF none 0 [] MF).1)
    ((buildF none 0 [] MF).1.length + 1) none [] hok
    (by rw [buildF_length]; omega) ?hgc hun
    (fun p hp => absurd hp (List.not_mem_nil p))]
  · rw [List.nil_append]
    rfl
  case hgc =>
    intro cg cs' li' hmem
    rw [childrenMapOf_getD]
    rw [buildF_group_children none 0 [] MF cg cs' li'
      (fun j hj1 hj2 hc => by cases hc) hmem]

theorem lookup_none_all {k : String} : ∀ l : List (String × Json),
    (∀ p ∈ l, ¬(p.1 = k)) → List.lookup k l = none := by
  intro l
  induction l with
  | nil => intro _; rfl
  | cons p rest ih =>
      intro h
      obtain ⟨pk, pv⟩ := p
      rw [lookup_cons_ne (h (pk, pv) (List.mem_cons_self _ _))]
      exact ih (fun q hq => h q (List.mem_cons_of_mem _ hq))

theorem lookup_step_ne (k k2 : String) (h : ¬(k2 = k)) (o : Option Json)
    (rest : List (String × Json)) :
    List.lookup k (optJsonField k2 o ++ rest) = List.lookup k rest := by
  cases o with
  | none => rfl
  | some v =>
      rw [optJsonField, List.singleton_append]
      exact lookup_cons_ne h

theorem lookup_step_self {k : String} {v : Json}
    {rest : List (String × Json)} :
    List.lookup k (optJsonField k (some v) ++ rest) = some v := by
  rw [optJsonField, List.singleton_append]
  exact lookup_cons_self

theorem lookup_step_none {k : String} {rest : List (String × Json)} :
    List.lookup k (optJsonField k none ++ rest) = List.lookup k rest := rfl

theorem optField_none {α : Type} {fields : List (String × Json)} {k : String}
    {f : Json → Option α} (h : List.lookup k fields = none) :
    optField fields k f = some none := by
  unfold optField
  rw [h]

theorem optField_some {α : Type} {fields : List (String × Json)} {k : String}
    {f : Json → Option α} {j : Json} {a : α}
    (h : List.lookup k fields = some j) (hf : f j = some a) :
    optField fields k f = some (some a) := by
  unfold optField
  rw [h]
  dsimp only
  rw [hf]
  rfl

theorem fromStr_toStr (ty : TokenType) :
    vTokenType (.str (TokenType.toStr ty)) = some ty := by
  cases ty <;> first | rfl | decide

theorem emitT_token_eq (I : Option TokenType) (name : String)
    (ty : TokenType) (v : Json) (d : Option String) (dep ext : Option Json) :
    emitT I (.token name ty v d dep ext) =
      .obj (optJsonField ("$type")
          ((if I = some ty then none else some ty).map
            (fun ty2 : TokenType => Json.str ty2.toStr)) ++
        optJsonField ("$description") (d.map .str) ++
        optJsonField ("$deprecated") dep ++
        optJsonField ("$extensions") ext ++
        [(("$value"), emitValue ty v)]) := rfl

/-- The `$type` option emitted for a group with declared/resolved type
`gty` under inherited type `I`. -/
def emitType (I gty : Option TokenType) : Option TokenType :=
  match gty with
  | some ty2 => if I = some ty2 then none else some ty2
  | none => none

theorem emitT_group_eq (I : Option TokenType) (name : String)
    (gty : Option TokenType) (d : Option String) (dep ext : Option Json)
    (cs : MForest) :
    emitT I (.group name gty d dep ext cs) =
      .obj ((optJsonField ("$type")
          ((emitType I gty).map
            (fun ty2 : TokenType => Json.str ty2.toStr)) ++
        optJsonField ("$description") (d.map .str) ++
        optJsonField ("$deprecated") dep ++
        optJsonField ("$extensions") ext) ++
        emitF (gty.orElse (fun _ => I)) cs) := rfl

theorem emitF_keys : ∀ (F : MForest) (I : Option TokenType),
    (emitF I F).map Prod.fst = mforestNames F
  | .nil => fun _ => rfl
  | .cons M rest => by
      intro I
      rw [emitF, List.map_cons, emitF_keys rest I]
      rfl

theorem emitF_key_specName : ∀ (F : MForest) (I : Option TokenType),
    MOKF F → ∀ p ∈ emitF I F, specName p.1 = true
  | .nil => by
      intro I _ p hp
      cases hp
  | .cons M rest => by
      intro I h p hp
      rw [emitF, List.mem_cons] at hp
      rcases hp with rfl | hp
      · exact MOKT_specName M h.1
      · exact emitF_key_specName rest I h.2 p hp

theorem specName_childFilter {name : String} (h : specName name = true) :
    (!(jsStartsWith name ("$")) || name == "$root") = true := by
  rcases specName_not_dollar h with h1 | h1
  · rw [h1]
    rfl
  · rw [h1]
    simp

theorem childEntries_emit (o1 o2 o3 o4 : Option Json)
    {tail : List (String × Json)}
    (htail : ∀ p ∈ tail, specName p.1 = true) :
    childEntries ((optJsonField ("$type") o1 ++
      optJsonField ("$description") o2 ++ optJsonField ("$deprecated") o3 ++
      optJsonField ("$extensions") o4) ++ tail) = tail := by
  unfold childEntries
  rw [List.filter_append]
  rw [filter_nil_of _ _ ?hmeta]
  · rw [List.nil_append]
    refine List.filter_eq_self.mpr ?_
    intro p hp
    exact specName_childFilter (htail p hp)
  case hmeta =>
    intro p hp
    rcases metaBlock_keys o1 o2 o3 o4 p hp with h | h | h | h <;>
      rw [h] <;> decide

theorem isTokenObject_emitT_token (name : String) (ty : TokenType) (v : Json)
    (d : Option String) (dep ext : Option Json) (I : Option TokenType) :
    (emitT I (.token name ty v d dep ext)).isTokenObject = true := by
  rw [emitT_token_eq]
  simp only [Json.isTokenObject, Json.isObject, Json.lookup, Bool.true_and,
    List.append_assoc]
  rw [lookup_step_ne ("$value") ("$type") (by decide) _ _,
    lookup_step_ne ("$value") ("$description") (by decide) _ _,
    lookup_step_ne ("$value") ("$deprecated") (by decide) _ _,
    lookup_step_ne ("$value") ("$extensions") (by decide) _ _,
    lookup_cons_self]
  rfl

theorem isTokenObject_emitT_group {name : String} {gty : Option TokenType}
    {d : Option String} {dep ext : Option Json} {cs : MForest}
    {I : Option TokenType} (hcs : MOKF cs) :
    (emitT I (.group name gty d dep ext cs)).isTokenObject = false := by
  rw [emitT_group_eq]
  simp only [Json.isTokenObject, Json.isObject, Json.lookup, Bool.true_and,
    List.append_assoc]
  rw [lookup_step_ne ("$value") ("$type") (by decide) _ _,
    lookup_step_ne ("$value") ("$description") (by decide) _ _,
    lookup_step_ne ("$value") ("$deprecated") (by decide) _ _,
    lookup_step_ne ("$value") ("$extensions") (by decide) _ _]
  rw [lookup_none_all _ (fun p hp =>
    (specName_ne_meta (emitF_key_specName cs _ hcs p hp)).2.2.2.2.1)]
  rfl

theorem tokenSchema_fields {fields : List (String × Json)} {val : Json}
    (hval : List.lookup ("$value") fields = some val)
    (hvu : tokenValueUnion val = some val)
    {tyO : Option TokenType}
    (hty : optField fields ("$type") vTokenType = some tyO)
    {d : Option String}
    (hd : optField fields ("$description") vDescription = some d)
    {ext : Option Json}
    (hx : optField fields ("$extensions") vRecord = some ext)
    {dep : Option Json}
    (hdp : optField fields ("$deprecated") (vOr vBool vStr) = some dep) :
    tokenSchema (.obj fields) = some ⟨val, tyO, d, ext, dep⟩ := by
  unfold tokenSchema
  simp only [Option.bind_eq_bind, hval, Option.some_bind, hvu, hty, hd, hx,
    hdp, Option.pure_def]

theorem groupSchema_fields {fields : List (String × Json)}
    {tyO : Option TokenType}
    (hty : optField fields ("$type") vTokenType = some tyO)
    {d : Option String}
    (hd : optField fields ("$description") vDescription = some d)
    {ext : Option Json}
    (hx : optField fields ("$extensions") vRecord = some ext)
    {xr : Option String}
    (hxr : optField fields ("$extends") vExtends = some xr)
    {dep : Option Json}
    (hdp : optField fields ("$deprecated") (vOr vBool vStr) = some dep)
    {rt : Option Token}
    (hrt : optField fields ("$root") tokenSchema = some rt) :
    groupSchema (.obj fields) = some ⟨tyO, d, ext, xr, dep, rt⟩ := by
  unfold groupSchema
  simp only [Option.bind_eq_bind, hty, Option.some_bind, hd, hx, hxr, hdp,
    hrt, Option.pure_def]

theorem tokenSchema_emit {name : String} {ty : TokenType} {v : Json}
    {d : Option String} {dep ext : Option Json} (I : Option TokenType)
    (hok : MOKT (.token name ty v d dep ext)) :
    tokenSchema (emitT I (.token name ty v d dep ext)) =
      some ⟨emitValue ty v, if I = some ty then none else some ty,
        d, ext, dep⟩ := by
  obtain ⟨hn, ⟨u, hu, href, hraw⟩, hdep, hext⟩ := hok
  have hround := emit_round hu href hraw
  rw [emitT_token_eq]
  simp only [List.append_assoc]
  refine tokenSchema_fields ?_ hround.1 ?_ ?_ ?_ ?_
  · rw [lookup_step_ne ("$value") ("$type") (by decide) _ _,
      lookup_step_ne ("$value") ("$description") (by decide) _ _,
      lookup_step_ne ("$value") ("$deprecated") (by decide) _ _,
      lookup_step_ne ("$value") ("$extensions") (by decide) _ _,
      lookup_cons_self]
  · by_cases hI : I = some ty
    · rw [if_pos hI]
      refine optField_none ?_
      rw [Option.map_none', lookup_step_none,
        lookup_step_ne ("$type") ("$description") (by decide) _ _,
        lookup_step_ne ("$type") ("$deprecated") (by decide) _ _,
        lookup_step_ne ("$type") ("$extensions") (by decide) _ _,
        lookup_cons_ne (by decide : ¬("$value" = "$type"))]
      rfl
    · rw [if_neg hI]
      refine optField_some ?_ (fromStr_toStr ty)
      rw [Option.map_some', lookup_step_self]
  · cases d with
    | none =>
        refine optField_none ?_
        rw [lookup_step_ne ("$description") ("$type") (by decide) _ _,
          Option.map_none', lookup_step_none,
          lookup_step_ne ("$description") ("$deprecated") (by decide) _ _,
          lookup_step_ne ("$description") ("$extensions") (by decide) _ _,
          lookup_cons_ne (by decide : ¬("$value" = "$description"))]
        rfl
    | some s =>
        refine optField_some ?_
          (show vDescription (Json.str s) = some s from rfl)
        rw [lookup_step_ne ("$description") ("$type") (by decide) _ _,
          Option.map_some', lookup_step_self]
  · cases ext with
    | none =>
        refine optField_none ?_
        rw [lookup_step_ne ("$extensions") ("$type") (by decide) _ _,
          lookup_step_ne ("$extensions") ("$description") (by decide) _ _,
          lookup_step_ne ("$extensions") ("$deprecated") (by decide) _ _,
          lookup_step_none,
          lookup_cons_ne (by decide : ¬("$value" = "$extensions"))]
        rfl
    | some j =>
        refine optField_some ?_ (hext j rfl)
        rw [lookup_step_ne ("$extensions") ("$type") (by decide) _ _,
          lookup_step_ne ("$extensions") ("$description") (by decide) _ _,
          lookup_step_ne ("$extensions") ("$deprecated") (by decide) _ _,
          lookup_step_self]
  · cases dep with
    | none =>
        refine optField_none ?_
        rw [lookup_step_ne ("$deprecated") ("$type") (by decide) _ _,
          lookup_step_ne ("$deprecated") ("$description") (by decide) _ _,
          lookup_step_none,
          lookup_step_ne ("$deprecated") ("$extensions") (by decide) _ _,
          lookup_cons_ne (by decide : ¬("$value" = "$deprecated"))]
        rfl
    | some j =>
        refine optField_some ?_ (hdep j rfl)
        rw [lookup_step_ne ("$deprecated") ("$type") (by decide) _ _,
          lookup_step_ne ("$deprecated") ("$description") (by decide) _ _,
          lookup_step_self]

theorem emitF_root_tok : ∀ (F : MForest) (I : Option TokenType),
    MOKF F → mrootTok F →
    List.lookup ("$root") (emitF I F) = none ∨
    ∃ j t2, List.lookup ("$root") (emitF I F) = some j ∧
      tokenSchema j = some t2
  | .nil => fun _ _ _ => Or.inl rfl
  | .cons M rest => by
      intro I h hr
      rw [emitF]
      by_cases hn : mtreeName M = "$root"
      · right
        cases M with
        | token tn ty2 v2 d2 dep2 ext2 =>
            have hn2 : tn = "$root" := hn
            subst hn2
            exact ⟨emitT I (.token "$root" ty2 v2 d2 dep2 ext2), _,
              lookup_cons_self, tokenSchema_emit I h.1⟩
        | group gn gty2 d2 dep2 ext2 cs2 => exact (hr.1 hn).elim
      · rcases emitF_root_tok rest I h.2 hr.2 with hnone | ⟨j, t2, hj, ht2⟩
        · left
          rw [lookup_cons_ne hn]
          exact hnone
        · right
          refine ⟨j, t2, ?_, ht2⟩
          rw [lookup_cons_ne hn]
          exact hj

theorem groupSchema_emit_aux {name : String} {gty : Option TokenType}
    {d : Option String} {dep ext : Option Json} {cs : MForest}
    (I : Option TokenType)
    (hdep : ∀ j, dep = some j → vOr vBool vStr j = some j)
    (hext : ∀ j, ext = some j → vRecord j = some j)
    (hcs : MOKF cs)
    {rt : Option Token}
    (hroot : optField
        (optJsonField ("$type")
            ((emitType I gty).map
              (fun ty2 : TokenType => Json.str ty2.toStr)) ++
          (optJsonField ("$description") (d.map .str) ++
            (optJsonField ("$deprecated") dep ++
              (optJsonField ("$extensions") ext ++
                emitF (gty.orElse (fun _ => I)) cs))))
        ("$root") tokenSchema = some rt) :
    groupSchema (emitT I (.group name gty d dep ext cs)) =
      some ⟨emitType I gty, d, ext, none, dep, rt⟩ := by
  rw [emitT_group_eq]
  simp only [List.append_assoc]
  refine groupSchema_fields ?_ ?_ ?_ ?_ ?_ hroot
  · cases gty with
    | none =>
        refine optField_none ?_
        dsimp only [emitType]
        rw [Option.map_none', lookup_step_none,
          lookup_step_ne ("$type") ("$description") (by decide) _ _,
          lookup_step_ne ("$type") ("$deprecated") (by decide) _ _,
          lookup_step_ne ("$type") ("$extensions") (by decide) _ _]
        exact lookup_none_all _ (fun p hp =>
          (specName_ne_meta (emitF_key_specName cs _ hcs p hp)).1)
    | some ty2 =>
        dsimp only [emitType]
        by_cases hI : I = some ty2
        · rw [if_pos hI]
          refine optField_none ?_
          rw [Option.map_none', lookup_step_none,
            lookup_step_ne ("$type") ("$description") (by decide) _ _,
            lookup_step_ne ("$type") ("$deprecated") (by decide) _ _,
            lookup_step_ne ("$type") ("$extensions") (by decide) _ _]
          exact lookup_none_all _ (fun p hp =>
            (specName_ne_meta (emitF_key_specName cs _ hcs p hp)).1)
        · rw [if_neg hI]
          refine optField_some ?_ (fromStr_toStr ty2)
          rw [Option.map_some']
          exact lookup_step_self
  · cases d with
    | none =>
        refine optField_none ?_
        rw [lookup_step_ne ("$description") ("$type") (by decide) _ _,
          Option.map_none', lookup_step_none,
          lookup_step_ne ("$description") ("$deprecated") (by decide) _ _,
          lookup_step_ne ("$description") ("$extensions") (by decide) _ _]
        exact lookup_none_all _ (fun p hp =>
          (specName_ne_meta (emitF_key_specName cs _ hcs p hp)).2.1)
    | some s =>
        refine optField_some ?_
          (show vDescription (Json.str s) = some s from rfl)
        rw [lookup_step_ne ("$description") ("$type") (by decide) _ _,
          Option.map_some']
        exact lookup_step_self
  · cases ext with
    | none =>
        refine optField_none ?_
        rw [lookup_step_ne ("$extensions") ("$type") (by decide) _ _,
          lookup_step_ne ("$extensions") ("$description") (by decide) _ _,
          lookup_step_ne ("$extensions") ("$deprecated") (by decide) _ _,
          lookup_step_none]
        exact lookup_none_all _ (fun p hp =>
          (specName_ne_meta (emitF_key_specName cs _ hcs p hp)).2.2.2.1)
    | some j =>
        refine optField_some ?_ (hext j rfl)
        rw [lookup_step_ne ("$extensions") ("$type") (by decide) _ _,
          lookup_step_ne ("$extensions") ("$description") (by decide) _ _,
          lookup_step_ne ("$extensions") ("$deprecated") (by decide) _ _]
        exact lookup_step_self
  · refine optField_none ?_
    rw [lookup_step_ne ("$extends") ("$type") (by decide) _ _,
      lookup_step_ne ("$extends") ("$description") (by decide) _ _,
      lookup_step_ne ("$extends") ("$deprecated") (by decide) _ _,
      lookup_step_ne ("$extends") ("$extensions") (by decide) _ _]
    exact lookup_none_all _ (fun p hp =>
      (specName_ne_meta (emitF_key_specName cs _ hcs p hp)).2.2.2.2.2)
  · cases dep with
    | none =>
        refine optField_none ?_
        rw [lookup_step_ne ("$deprecated") ("$type") (by decide) _ _,
          lookup_step_ne ("$deprecated") ("$description") (by decide) _ _,
          lookup_step_none,
          lookup_step_ne ("$deprecated") ("$extensions") (by decide) _ _]
        exact lookup_none_all _ (fun p hp =>
          (specName_ne_meta (emitF_key_specName cs _ hcs p hp)).2.2.1)
    | some j =>
        refine optField_some ?_ (hdep j rfl)
        rw [lookup_step_ne ("$deprecated") ("$type") (by decide) _ _,
          lookup_step_ne ("$deprecated") ("$description") (by decide) _ _]
        exact lookup_step_self

theorem groupSchema_emit {name : String} {gty : Option TokenType}
    {d : Option String} {dep ext : Option Json} {cs : MForest}
    (I : Option TokenType) (hok : MOKT (.group name gty d dep ext cs)) :
    ∃ rt, groupSchema (emitT I (.group name gty d dep ext cs)) =
      some ⟨emitType I gty, d, ext, none, dep, rt⟩ := by
  obtain ⟨hn, hdep, hext, hun, hrt, hcs⟩ := hok
  rcases emitF_root_tok cs (gty.orElse (fun _ => I)) hcs hrt with
    hr | ⟨j, t2, hj, ht2⟩
  · refine ⟨none, groupSchema_emit_aux I hdep hext hcs (optField_none ?_)⟩
    rw [lookup_step_ne ("$root") ("$type") (by decide) _ _,
      lookup_step_ne ("$root") ("$description") (by decide) _ _,
      lookup_step_ne ("$root") ("$deprecated") (by decide) _ _,
      lookup_step_ne ("$root") ("$extensions") (by decide) _ _]
    exact hr
  · refine ⟨some t2,
      groupSchema_emit_aux I hdep hext hcs (optField_some ?_ ht2)⟩
    rw [lookup_step_ne ("$root") ("$type") (by decide) _ _,
      lookup_step_ne ("$root") ("$description") (by decide) _ _,
      lookup_step_ne ("$root") ("$deprecated") (by decide) _ _,
      lookup_step_ne ("$root") ("$extensions") (by decide) _ _]
    exact hj

theorem chainT_of_spec : ∀ (fuel : Nat) {name : String} {data : Json}
    {I : Option TokenType} {T : PTree},
    specNode fuel name data I = some T → chainT I (mTree T) := by
  intro fuel
  induction fuel with
  | zero =>
      intro name data I T h
      cases h
  | succ fuel ih =>
      have hch : ∀ (entries : List (String × Json)) (ty? : Option TokenType)
          (F : PForest), specChildren fuel entries ty? = some F →
          chainF ty? (mForest F) := by
        intro entries
        induction entries with
        | nil =>
            intro ty? F h
            have h0 : some PForest.nil = some F := h
            cases h0
            exact trivial
        | cons p rest ihr =>
            intro ty? F h
            obtain ⟨c, cs, hc, hcs, rfl⟩ := specChildren_cons_inv h
            exact ⟨ih hc, ihr ty? cs hcs⟩
      intro name data I T h
      by_cases hobj : data.isTokenObject = true
      · obtain ⟨t, ty, v, _, _, _, _, _, rfl⟩ := specNode_token_inv h hobj
        exact trivial
      · obtain ⟨fields, g, cs, _, _, _, _, hcs, rfl⟩ :=
          specNode_group_inv h (Bool.eq_false_iff.mpr hobj)
        refine ⟨?_, hch _ _ _ hcs⟩
        intro hn
        cases hg : g.type? with
        | none =>
            rw [hg] at hn
            exact hn
        | some ty2 =>
            rw [hg] at hn
            cases hn

theorem chainF_of_roots : ∀ {fields : List (String × Json)} {F : PForest},
    specRoots fields = some F → chainF none (mForest F) := by
  intro fields
  induction fields with
  | nil =>
      intro F h
      have h0 : some PForest.nil = some F := h
      cases h0
      exact trivial
  | cons p rest ihf =>
      intro F h
      obtain ⟨c, cs, hc, hcs, rfl⟩ := specRoots_cons_inv h
      exact ⟨chainT_of_spec _ hc, ihf hcs⟩

theorem specForest_inv {input : Json} {F : PForest}
    (h : specForest input = some F) :
    ∃ fields, input = .obj fields ∧
      keysUniqueB (fields.map Prod.fst) = true ∧
      specRoots fields = some F := by
  cases input with
  | obj fields =>
      rw [specForest_obj] at h
      by_cases hk : keysUniqueB (fields.map Prod.fst) = true
      · rw [if_pos hk] at h
        exact ⟨fields, rfl, hk, h⟩
      · rw [if_neg hk] at h
        cases h
  | null => cases h
  | bool b => cases h
  | num n => cases h
  | str s => cases h
  | arr l => cases h

theorem mtreeName_mTree : ∀ T : PTree, mtreeName (mTree T) = treeName T
  | .token name t ty v => rfl
  | .group name g ty cs => rfl

theorem mforestNames_mForest : ∀ F : PForest,
    mforestNames (mForest F) = forestNames F
  | .nil => rfl
  | .cons T rest => by
      show mtreeName (mTree T) :: mforestNames (mForest rest) = _
      rw [mtreeName_mTree, mforestNames_mForest rest]
      rfl

theorem misToken_mTree : ∀ T : PTree, isTokenT T → misToken (mTree T)
  | .token name t ty v => fun _ => trivial
  | .group name g ty cs => fun h => h.elim

theorem mrootTok_of_rootTokF : ∀ F : PForest,
    rootTokF F → mrootTok (mForest F)
  | .nil => fun _ => trivial
  | .cons T rest => fun h =>
      ⟨fun hn => misToken_mTree T (h.1 ((mtreeName_mTree T).symm.trans hn)),
        mrootTok_of_rootTokF rest h.2⟩

mutual
theorem MOKT_of_POKT : ∀ T : PTree, POKT T → MOKT (mTree T)
  | .token name t ty v => fun h =>
      ⟨h.1, ⟨t.value, h.2.1, h.2.2.1, h.2.2.2.1⟩,
        h.2.2.2.2.1, h.2.2.2.2.2⟩
  | .group name g ty cs => fun h => by
      refine ⟨h.1, h.2.1, h.2.2.1, ?_, ?_, MOKF_of_POKF cs h.2.2.2.2.2⟩
      · rw [mforestNames_mForest]
        exact h.2.2.2.1
      · exact mrootTok_of_rootTokF cs h.2.2.2.2.1
theorem MOKF_of_POKF : ∀ F : PForest, POKF F → MOKF (mForest F)
  | .nil => fun _ => trivial
  | .cons T rest => fun h =>
      ⟨MOKT_of_POKT T h.1, MOKF_of_POKF rest h.2⟩
end

theorem specChildren_eq (fuel : Nat) (entries : List (String × Json))
    (ty? : Option TokenType) :
    entries.foldr
      (fun p acc =>
        match specNode fuel p.1 p.2 ty?, acc with
        | some c, some cs => some (.cons c cs)
        | _, _ => none) (some .nil) = specChildren fuel entries ty? := rfl

mutual
theorem reparse_T : ∀ (M : MTree) (I : Option TokenType) (fuel : Nat),
    MOKT M → chainT I M → Json.jsize (emitT I M) ≤ fuel + 1 →
    ∃ T2, specNode (fuel + 1) (mtreeName M) (emitT I M) I = some T2 ∧
      mTree T2 = M
  | .token name ty v d dep ext => by
      intro I fuel hok hch hsz
      have hok2 := hok
      obtain ⟨hn, ⟨u, hu, href, hraw⟩, hdep, hext⟩ := hok2
      have hround := emit_round hu href hraw
      refine ⟨.token name
        ⟨emitValue ty v, if I = some ty then none else some ty, d, ext, dep⟩
        ty v, ?_, rfl⟩
      have hito := isTokenObject_emitT_token name ty v d dep ext I
      have hts := tokenSchema_emit I hok
      have hres : (Option.orElse
          (if I = some ty then none else some ty)
          (fun _ => I)) = some ty := by
        by_cases hI : I = some ty
        · rw [if_pos hI]
          exact hI
        · rw [if_neg hI]
          rfl
      rw [specNode]
      dsimp only [mtreeName]
      rw [if_pos hn, if_pos hito, hts]
      dsimp only
      rw [if_neg ?hrf]
      case hrf =>
        rw [hround.2.1]
        decide
      rw [hres]
      dsimp only
      rw [hround.2.2, hraw]
  | .group name gty d dep ext cs => by
      intro I fuel hok hch hsz
      have hok2 := hok
      obtain ⟨hn, hdep, hext, hun, hrt, hcs⟩ := hok2
      have hctx : (gty.orElse (fun _ => I)) = gty := by
        cases gty with
        | some t2 => rfl
        | none => exact hch.1 rfl
      have hres : (Option.orElse (emitType I gty) (fun _ => I)) = gty := by
        cases gty with
        | none => exact hch.1 rfl
        | some ty2 =>
            dsimp only [emitType]
            by_cases hI : I = some ty2
            · rw [if_pos hI]
              exact hI
            · rw [if_neg hI]
              rfl
      have hfs : emitT I (.group name gty d dep ext cs) =
          .obj ((optJsonField ("$type")
              ((emitType I gty).map
                (fun ty2 : TokenType => Json.str ty2.toStr)) ++
            optJsonField ("$description") (d.map .str) ++
            optJsonField ("$deprecated") dep ++
            optJsonField ("$extensions") ext) ++
            emitF gty cs) := by
        rw [emitT_group_eq, hctx]
      obtain ⟨rt, hgs⟩ := groupSchema_emit I hok
      have hito : (emitT I (.group name gty d dep ext cs)).isTokenObject =
          false := isTokenObject_emitT_group hcs
      have hszF : ∀ p ∈ emitF gty cs, Json.jsize p.2 ≤ fuel := by
        intro p hp
        have h2 : Json.jsize p.2 + 1 ≤
            Json.jsize (emitT I (.group name gty d dep ext cs)) := by
          rw [hfs]
          exact Json.jsize_lt_of_mem_fields (List.mem_append_right _ hp)
        omega
      obtain ⟨F2, hF2, hmF⟩ := reparse_F cs gty fuel hcs hch.2 hszF
      refine ⟨.group name ⟨emitType I gty, d, ext, none, dep, rt⟩ gty F2,
        ?_, ?_⟩
      · rw [specNode]
        dsimp only [mtreeName]
        rw [if_pos hn,
          if_neg (by rw [hito]; exact Bool.false_ne_true), hgs]
        dsimp only
        rw [hfs]
        dsimp only
        rw [hres]
        rw [childEntries_emit _ _ _ _ (emitF_key_specName cs gty hcs)]
        rw [if_pos (by rw [emitF_keys]; exact hun)]
        rw [specChildren_eq, hF2]
      · show MTree.group name gty d dep ext (mForest F2) =
          MTree.group name gty d dep ext cs
        rw [hmF]
theorem reparse_F : ∀ (F : MForest) (gty : Option TokenType) (fuel : Nat),
    MOKF F → chainF gty F →
    (∀ p ∈ emitF gty F, Json.jsize p.2 ≤ fuel) →
    ∃ F2, specChildren fuel (emitF gty F) gty = some F2 ∧ mForest F2 = F
  | .nil => by
      intro gty fuel _ _ _
      exact ⟨.nil, rfl, rfl⟩
  | .cons M rest => by
      intro gty fuel hok hch hsz
      have hszM : Json.jsize (emitT gty M) ≤ fuel :=
        hsz _ (by rw [emitF]; exact List.mem_cons_self _ _)
      cases fuel with
      | zero =>
          have := Json.jsize_pos (emitT gty M)
          omega
      | succ f =>
          obtain ⟨T2, hT2, hmT⟩ := reparse_T M gty f hok.1 hch.1 hszM
          obtain ⟨F2, hF2, hmF⟩ := reparse_F rest gty (f + 1) hok.2 hch.2
            (fun p hp => hsz p (by rw [emitF]; exact List.mem_cons_of_mem _ hp))
          refine ⟨.cons T2 F2, ?_, ?_⟩
          · rw [emitF, specChildren_cons]
            dsimp only
            rw [hT2, hF2]
          · show MForest.cons (mTree T2) (mForest F2) = _
            rw [hmT, hmF]
end

theorem reparse_roots : ∀ (G : MForest), MOKF G → chainF none G →
    ∃ G2, specRoots (emitF none G) = some G2 ∧ mForest G2 = G
  | .nil => fun _ _ => ⟨.nil, rfl, rfl⟩
  | .cons M rest => by
      intro hok hch
      obtain ⟨G2, hG2, hmG⟩ := reparse_roots rest hok.2 hch.2
      cases hj : Json.jsize (emitT none M) with
      | zero =>
          have := Json.jsize_pos (emitT none M)
          omega
      | succ f =>
          obtain ⟨T2, hT2, hmT⟩ := reparse_T M none f hok.1 hch.1 (le_of_eq hj)
          refine ⟨.cons T2 G2, ?_, ?_⟩
          · rw [emitF, specRoots_cons]
            dsimp only
            rw [hj, hT2, hG2]
          · show MForest.cons (mTree T2) (mForest G2) = _
            rw [hmT, hmG]

theorem reparse_doc (F : MForest) (hok : MOKF F) (hch : chainF none F)
    (hun : keysUniqueB (mforestNames F) = true) :
    ∃ F2, specForest (emitDoc F) = some F2 ∧ mForest F2 = F := by
  obtain ⟨F2, hF2, hmF⟩ := reparse_roots F hok hch
  refine ⟨F2, ?_, hmF⟩
  show specForest (.obj (emitF none F)) = some F2
  rw [specForest_obj, if_pos (by rw [emitF_keys]; exact hun)]
  exact hF2

/-- A small valid, alias-free document: a `color`-typed group whose
child token inherits the group type, and a top-level `dimension` token
with an explicit type. -/
def rtDoc : Json :=
  .obj [("colors", .obj [
          ("$type", .str "color"),
          ("primary", .obj [("$value", redColor)])]),
        ("size", .obj [
          ("$value", .obj [("value", .num 4), ("unit", .str "px")]),
          ("$type", .str "dimension")])]

/-- C1: for every valid DTCG single-document input with no alias
references (`docOK`), parsing, serializing the resulting nodes, and
parsing again reproduces the first parse's result: the same node list
(same parent/child structure, names, sibling order, types and values)
and no errors.  `crypto.randomUUID()` is embedded as a deterministic
counter-indexed injective generator, under which "equality up to
renaming of nodeId values" becomes literal equality of the two parse
results, since both parses allocate identifiers in the same traversal
order. -/
theorem C1_round_trip {input : Json} (h : docOK input = true) :
    parseDesignTokens (serializeDesignTokens
        (parseDesignTokens input).nodes) =
      parseDesignTokens input := by
  have hsome : (specForest input).isSome = true := h
  obtain ⟨F, hF⟩ := Option.isSome_iff_exists.mp hsome
  obtain ⟨fields, hin, hk, hroots⟩ := specForest_inv hF
  obtain ⟨hPF, hnames⟩ := specRoots_facts hroots
  have hMOK : MOKF (mForest F) := MOKF_of_POKF F hPF
  have hch : chainF none (mForest F) := chainF_of_roots hroots
  have hun : keysUniqueB (mforestNames (mForest F)) = true := by
    rw [mforestNames_mForest, hnames]
    exact hk
  rw [parse_of_spec hF]
  show parseDesignTokens
      (serializeDesignTokens (buildF none 0 [] (mForest F)).1) =
    ⟨(buildF none 0 [] (mForest F)).1, []⟩
  rw [serialize_of_build (mForest F) hMOK hun]
  obtain ⟨F2, hF2, hmF⟩ := reparse_doc (mForest F) hMOK hch hun
  rw [parse_of_spec hF2, hmF]

/-- Witness for C1 at a concrete document. -/
theorem C1_round_trip_witness :
    docOK rtDoc = true ∧
    parseDesignTokens (serializeDesignTokens
        (parseDesignTokens rtDoc).nodes) =
      parseDesignTokens rtDoc :=
  ⟨by rfl, C1_round_trip (by rfl)⟩

end C1

end Engramma
